import Mathlib

/-! MiniVSFS: the image builder (`mkfs_builder.c`) and the file adder
(`mkfs_adder.c`).

A shallow embedding of the two programs.  Files are lists of bytes, the
buffers the programs work on are byte-addressed memories (`Mem`), C integers
are natural numbers reduced modulo `2 ^ width` wherever the C type can wrap,
and the records (`superblock_t`, `inode_t`, `dirent64_t`) are laid out packed
and little-endian, field after field, as the `#pragma pack(push, 1)` structs
of the source are on the machines the programs target.
-/

namespace MiniVSFS

/-! ## Constants -/

/-- Block size, `#define BS 4096u`. -/
def BS : Nat := 4096

/-- Size of an inode record, `#define INODE_SIZE 128u`. -/
def INODE_SIZE : Nat := 128

/-- Number of direct pointers of an inode, `#define DIRECT_MAX 12`. -/
def DIRECT_MAX : Nat := 12

/-- Mode of a regular file, `#define MODE_FILE 0100000` (octal). -/
def MODE_FILE : Nat := 32768

/-- Mode of a directory, `#define MODE_DIR 0040000` (octal). -/
def MODE_DIR : Nat := 16384

/-- Directory-entry type of a file, `#define TYPE_FILE 1`. -/
def TYPE_FILE : Nat := 1

/-- Directory-entry type of a directory, `#define TYPE_DIR 2`. -/
def TYPE_DIR : Nat := 2

/-- The magic number both programs use, `0x4D565346`. -/
def MAGIC : Nat := 0x4D565346

/-- Size of `superblock_t` (the `_Static_assert` of the source). -/
def SB_SIZE : Nat := 116

/-- Size of `dirent64_t` (the `_Static_assert` of the source). -/
def DIRENT_SIZE : Nat := 64

/-! ## Bytes, memory, little-endian values -/

/-- A byte-addressed memory: the byte stored at every offset from the start of
a buffer. -/
abbrev Mem := Nat → Nat

/-- The `w` little-endian bytes of `v` (the value is truncated to `w` bytes, as
a store to a `w`-byte unsigned field does). -/
def leBytes : Nat → Nat → List Nat
  | 0, _ => []
  | w + 1, v => v % 256 :: leBytes w (v / 256)

/-- The value of a little-endian byte sequence. -/
def leVal : List Nat → Nat
  | [] => 0
  | b :: bs => b + 256 * leVal bs

/-- The `n` bytes of a memory starting at offset `a`. -/
def readBytes (m : Mem) (a : Nat) : Nat → List Nat
  | 0 => []
  | n + 1 => m a :: readBytes m (a + 1) n

/-- A load of a `w`-byte little-endian unsigned field at offset `a`. -/
def readLE (m : Mem) (a w : Nat) : Nat := leVal (readBytes m a w)

/-- A store of the bytes `bs` at offset `a` (`memcpy`, `memset`, `fread` into
a buffer, a store to a field); each byte is stored in a `uint8_t`. -/
def writeAt (m : Mem) (a : Nat) (bs : List Nat) : Mem :=
  fun x => if a ≤ x ∧ x < a + bs.length then bs.getD (x - a) 0 % 256 else m x

/-- A store of the `w`-byte little-endian unsigned value `v` at offset `a`. -/
def writeLE (m : Mem) (a w v : Nat) : Mem := writeAt m a (leBytes w v)

/-- The memory a buffer filled from a file holds: byte `a` of the file at
offset `a`. -/
def load (file : List Nat) : Mem := fun a => file.getD a 0

/-- The first `n` bytes of a memory, as `fwrite(buf, 1, n, f)` writes them. -/
def dump (m : Mem) (n : Nat) : List Nat := (List.range n).map m

/-- Conversion of a C `int`, kept as its 32-bit two's-complement pattern, to
`uint64_t` (sign extension). -/
def int_to_u64 (p : Nat) : Nat :=
  if p < 2147483648 then p else p + (18446744073709551616 - 4294967296)

/-! ## CRC-32 and the checksum routines -/

/-- One of the eight steps `c = (c&1)?(0xEDB88320u^(c>>1)):(c>>1)` of
`crc32_init`. -/
def crc_step (c : Nat) : Nat :=
  if c &&& 1 ≠ 0 then 0xEDB88320 ^^^ (c >>> 1) else c >>> 1

/-- The entry `CRC32_TAB[i]` that `crc32_init` computes. -/
def CRC32_TAB (i : Nat) : Nat :=
  crc_step (crc_step (crc_step (crc_step (crc_step (crc_step (crc_step (crc_step i)))))))

/-- The body of the loop of `crc32`: `c = CRC32_TAB[(c^p[i])&0xFF] ^ (c>>8)`. -/
def crc_update (c b : Nat) : Nat := CRC32_TAB ((c ^^^ b) &&& 0xFF) ^^^ (c >>> 8)

/-- The function `crc32(data, n)` on the `n` bytes it reads. -/
def crc32 (data : List Nat) : Nat := data.foldl crc_update 0xFFFFFFFF ^^^ 0xFFFFFFFF

/-- The function `superblock_crc_finalize(sb)`, `sb` being the offset of the
record in the memory it lives in: the checksum field (offset 112) is zeroed,
`crc32` is taken over the `BS - 4` bytes that start at `sb`, and stored. -/
def superblock_crc_finalize (m : Mem) (sb : Nat) : Mem :=
  let m1 := writeLE m (sb + 112) 4 0
  let s := crc32 (readBytes m1 sb (BS - 4))
  writeLE m1 (sb + 112) 4 s

/-- The function `inode_crc_finalize(ino)`: a copy of the record with the
last 8 bytes zeroed, `crc32` over its first 120 bytes, stored as the 64-bit
`inode_crc` (offset 120). -/
def inode_crc_finalize (m : Mem) (ino : Nat) : Mem :=
  let tmp := load (readBytes m ino INODE_SIZE)
  let tmp := writeAt tmp 120 (List.replicate 8 0)
  let c := crc32 (readBytes tmp 0 120)
  writeLE m (ino + 120) 8 c

/-- The XOR of a sequence of bytes, accumulated in a `uint8_t`. -/
def xor_fold (bs : List Nat) : Nat := bs.foldl (fun x b => (x ^^^ b) % 256) 0

/-- The function `dirent_checksum_finalize(de)`: the XOR of the first 63 bytes
of the entry, stored in its last byte. -/
def dirent_checksum_finalize (m : Mem) (de : Nat) : Mem :=
  let x := xor_fold (readBytes m de 63)
  writeAt m (de + 63) [x]

/-! ## Records -/

/-- The bytes of a packed record: its fields, each given by its width in bytes
and its value, little-endian, one after the other without padding. -/
def encodeFields : List (Nat × Nat) → List Nat
  | [] => []
  | (w, v) :: fs => leBytes w v ++ encodeFields fs

/-- The size of a packed record. -/
def fieldsWidth : List (Nat × Nat) → Nat
  | [] => 0
  | (w, _) :: fs => w + fieldsWidth fs

/-- The record `superblock_t`. -/
structure superblock_t where
  magic : Nat
  version : Nat
  block_size : Nat
  total_blocks : Nat
  inode_count : Nat
  inode_bitmap_start : Nat
  inode_bitmap_blocks : Nat
  data_bitmap_start : Nat
  data_bitmap_blocks : Nat
  inode_table_start : Nat
  inode_table_blocks : Nat
  data_region_start : Nat
  data_region_blocks : Nat
  root_inode : Nat
  mtime_epoch : Nat
  flags : Nat
  checksum : Nat
  deriving DecidableEq, Repr

/-- The 116 bytes of a `superblock_t` in memory. -/
def encodeSuperblock (s : superblock_t) : List Nat :=
  encodeFields [(4, s.magic), (4, s.version), (4, s.block_size), (8, s.total_blocks),
    (8, s.inode_count), (8, s.inode_bitmap_start), (8, s.inode_bitmap_blocks),
    (8, s.data_bitmap_start), (8, s.data_bitmap_blocks), (8, s.inode_table_start),
    (8, s.inode_table_blocks), (8, s.data_region_start), (8, s.data_region_blocks),
    (8, s.root_inode), (8, s.mtime_epoch), (4, s.flags), (4, s.checksum)]

/-- The `superblock_t` whose 116 bytes are at offset `a` of a memory. -/
def decodeSuperblock (m : Mem) (a : Nat) : superblock_t where
  magic := readLE m a 4
  version := readLE m (a + 4) 4
  block_size := readLE m (a + 8) 4
  total_blocks := readLE m (a + 12) 8
  inode_count := readLE m (a + 20) 8
  inode_bitmap_start := readLE m (a + 28) 8
  inode_bitmap_blocks := readLE m (a + 36) 8
  data_bitmap_start := readLE m (a + 44) 8
  data_bitmap_blocks := readLE m (a + 52) 8
  inode_table_start := readLE m (a + 60) 8
  inode_table_blocks := readLE m (a + 68) 8
  data_region_start := readLE m (a + 76) 8
  data_region_blocks := readLE m (a + 84) 8
  root_inode := readLE m (a + 92) 8
  mtime_epoch := readLE m (a + 100) 8
  flags := readLE m (a + 108) 4
  checksum := readLE m (a + 112) 4

/-- The record `inode_t`; `direct` holds the 12 direct pointers. -/
structure inode_t where
  mode : Nat
  links : Nat
  uid : Nat
  gid : Nat
  size_bytes : Nat
  atime : Nat
  mtime : Nat
  ctime : Nat
  direct : List Nat
  reserved_0 : Nat
  reserved_1 : Nat
  reserved_2 : Nat
  proj_id : Nat
  uid16_gid16 : Nat
  xattr_ptr : Nat
  inode_crc : Nat
  deriving DecidableEq, Repr

/-- The 128 bytes of an `inode_t` in memory. -/
def encodeInode (n : inode_t) : List Nat :=
  encodeFields [(2, n.mode), (2, n.links), (4, n.uid), (4, n.gid), (8, n.size_bytes),
    (8, n.atime), (8, n.mtime), (8, n.ctime),
    (4, n.direct.getD 0 0), (4, n.direct.getD 1 0), (4, n.direct.getD 2 0),
    (4, n.direct.getD 3 0), (4, n.direct.getD 4 0), (4, n.direct.getD 5 0),
    (4, n.direct.getD 6 0), (4, n.direct.getD 7 0), (4, n.direct.getD 8 0),
    (4, n.direct.getD 9 0), (4, n.direct.getD 10 0), (4, n.direct.getD 11 0),
    (4, n.reserved_0), (4, n.reserved_1), (4, n.reserved_2), (4, n.proj_id),
    (4, n.uid16_gid16), (8, n.xattr_ptr), (8, n.inode_crc)]

/-- The `inode_t` whose 128 bytes are at offset `a` of a memory. -/
def decodeInode (m : Mem) (a : Nat) : inode_t where
  mode := readLE m a 2
  links := readLE m (a + 2) 2
  uid := readLE m (a + 4) 4
  gid := readLE m (a + 8) 4
  size_bytes := readLE m (a + 12) 8
  atime := readLE m (a + 20) 8
  mtime := readLE m (a + 28) 8
  ctime := readLE m (a + 36) 8
  direct := (List.range 12).map (fun i => readLE m (a + 44 + 4 * i) 4)
  reserved_0 := readLE m (a + 92) 4
  reserved_1 := readLE m (a + 96) 4
  reserved_2 := readLE m (a + 100) 4
  proj_id := readLE m (a + 104) 4
  uid16_gid16 := readLE m (a + 108) 4
  xattr_ptr := readLE m (a + 112) 8
  inode_crc := readLE m (a + 120) 8

/-- The record `dirent64_t`; `name` holds the 58 bytes of the name field. -/
structure dirent64_t where
  inode_no : Nat
  type : Nat
  name : List Nat
  checksum : Nat
  deriving DecidableEq, Repr

/-- The 58 bytes of a name field: the list cut or zero-filled to 58 bytes. -/
def nameField (name : List Nat) : List Nat :=
  (List.range 58).map (fun i => name.getD i 0 % 256)

/-- The 64 bytes of a `dirent64_t` in memory. -/
def encodeDirent (d : dirent64_t) : List Nat :=
  encodeFields [(4, d.inode_no), (1, d.type)] ++ nameField d.name ++
    encodeFields [(1, d.checksum)]

/-- The `dirent64_t` whose 64 bytes are at offset `a` of a memory. -/
def decodeDirent (m : Mem) (a : Nat) : dirent64_t where
  inode_no := readLE m a 4
  type := readLE m (a + 4) 1
  name := readBytes m (a + 5) 58
  checksum := readLE m (a + 63) 1

/-- The bytes `strcpy(dst, src)` leaves in the array `dst`: the string, its
terminator, and what `dst` held after them. -/
def strcpy (dst src : List Nat) : List Nat :=
  src ++ [0] ++ dst.drop (src.length + 1)

/-- The `n` bytes `strncpy(dst, src, n)` stores: the string cut to `n` bytes,
NUL-filled up to `n` bytes. -/
def strncpy (src : List Nat) (n : Nat) : List Nat :=
  src.take n ++ List.replicate (n - src.length) 0

/-- The test `strcmp(s, name) == 0` for the string `s` at offset `a` of a
memory and a string `name` given by its bytes before the terminator: the bytes
at `a` are those of `name`, followed by a NUL. -/
def strcmp_eq (m : Mem) : Nat → List Nat → Bool
  | a, [] => m a == 0
  | a, c :: cs => m a == c && strcmp_eq m (a + 1) cs

/-! ## The builder, `mkfs_builder.c` -/

/-- The ways `main` of the builder ends without an image.  With the first four
it returns 1 before it creates the output file.  With the last it is killed by
SIGSEGV inside `superblock_crc_finalize(&superblock)` (line 229), after `fopen`
(line 216) created the output file and before the first `fwrite`: the file is
left empty. -/
inductive FormatError where
  | missingArgument
  | badSize
  | badInodeCount
  | noSpaceForMetadata
  | segmentationFault
  deriving DecidableEq, Repr

/-- The block buffer after `memset(block_buffer, 0, BS)` (or `calloc`) and a
copy of a record to its start. -/
def block_with (rec : List Nat) : List Nat :=
  rec ++ List.replicate (BS - rec.length) 0

/-- The loops `for (block = 0; block < n; block++)` of the builder, from block
`b` with `k` blocks to go: block 0 holds `first`, the others are zero. -/
def blocks_loop (first : List Nat) : Nat → Nat → List Nat
  | _, 0 => []
  | b, k + 1 =>
    (if b = 0 then block_with first else block_with []) ++ blocks_loop first (b + 1) k

/-- The superblock `main` of the builder fills in before it finalizes it. -/
def mk_superblock (total_blocks inode_count inode_table_blocks data_region_blocks now : Nat) :
    superblock_t where
  magic := MAGIC
  version := 1
  block_size := BS
  total_blocks := total_blocks
  inode_count := inode_count
  inode_bitmap_start := 1
  inode_bitmap_blocks := 1
  data_bitmap_start := 2
  data_bitmap_blocks := 1
  inode_table_start := 3
  inode_table_blocks := inode_table_blocks
  data_region_start := (3 + inode_table_blocks) % 2 ^ 64
  data_region_blocks := data_region_blocks
  root_inode := 1
  mtime_epoch := now % 2 ^ 64
  flags := 0
  checksum := 0

/-- The root inode `main` of the builder fills in before it finalizes it. -/
def mk_root_inode (sb : superblock_t) : inode_t where
  mode := MODE_DIR
  links := 2
  uid := 0
  gid := 0
  size_bytes := 2 * DIRENT_SIZE
  atime := sb.mtime_epoch
  mtime := sb.mtime_epoch
  ctime := sb.mtime_epoch
  direct := sb.data_region_start % 2 ^ 32 :: List.replicate 11 0
  reserved_0 := 0
  reserved_1 := 0
  reserved_2 := 0
  proj_id := 0
  uid16_gid16 := 0
  xattr_ptr := 0
  inode_crc := 0

/-- The entries `dot_entry` and `dotdot_entry` of the builder before they are
finalized: inode 1, a directory, the name copied by `strcpy`. -/
def mk_dir_entry (name : List Nat) : dirent64_t where
  inode_no := 1
  type := TYPE_DIR
  name := strcpy (List.replicate 58 0) name
  checksum := 0

/-- The bytes of a local record after a finalizer ran on it: the record is
placed at offset 0 of the memory `around` (what follows the local variable in
memory), the finalizer runs, and the `n` bytes of the record are read back. -/
def finalize_local (fin : Mem → Nat → Mem) (around : Mem) (rec : List Nat) : List Nat :=
  readBytes (fin (writeAt around 0 rec) 0) 0 rec.length

/-- Lines 198-289 of `main` of the builder: the blocks it writes, in order,
once the layout is computed.  `now` is the value of `time(NULL)`.  `stack` is
the memory that starts at the local variable `superblock` of `main`:
`superblock_crc_finalize(&superblock)` reads `BS - 4` bytes from there, of
which only the first 116 are the record. -/
def build_image (total_blocks inode_count inode_table_blocks data_region_blocks now : Nat)
    (stack : Mem) : List Nat :=
  let superblock :=
    mk_superblock total_blocks inode_count inode_table_blocks data_region_blocks now
  let sb_bytes := finalize_local superblock_crc_finalize stack (encodeSuperblock superblock)
  let root_inode :=
    finalize_local inode_crc_finalize (fun _ => 0) (encodeInode (mk_root_inode superblock))
  let dot_entry :=
    finalize_local dirent_checksum_finalize (fun _ => 0) (encodeDirent (mk_dir_entry [46]))
  let dotdot_entry :=
    finalize_local dirent_checksum_finalize (fun _ => 0) (encodeDirent (mk_dir_entry [46, 46]))
  block_with sb_bytes ++ block_with [1] ++ block_with [1] ++
    blocks_loop root_inode 0 inode_table_blocks ++
    blocks_loop (dot_entry ++ dotdot_entry) 0 data_region_blocks

/-- The image `main` of `mkfs_builder.c` writes for `--size-kib size_kib
--inodes inode_count`, or the way it ends without one (failures of `fopen`,
`calloc` and `fwrite` are not modelled).  `now` is the value of `time(NULL)`.
`stack` is the memory that starts at the local variable `superblock` of `main`
and `readable` the number of its bytes that are mapped, from the local to the
end of the stack of the process (it depends on the arguments and the
environment the process is started with).  `superblock_crc_finalize` calls
`crc32((void *) sb, BS - 4)` on the 116-byte local: the read of `BS - 4` bytes
faults when fewer than `BS - 4` bytes are mapped, and the builder is killed. -/
def format (size_kib inode_count now : Nat) (stack : Mem) (readable : Nat) :
    Except FormatError (List Nat) :=
  if size_kib = 0 ∨ inode_count = 0 then .error .missingArgument
  else if size_kib < 180 ∨ size_kib > 4096 ∨ size_kib % 4 ≠ 0 then .error .badSize
  else if inode_count < 128 ∨ inode_count > 512 then .error .badInodeCount
  else
    let total_blocks := (size_kib * 1024) % 2 ^ 64 / BS
    let inode_table_blocks := (inode_count * INODE_SIZE + BS - 1) % 2 ^ 64 / BS
    let metadata_blocks := (1 + 1 + 1 + inode_table_blocks) % 2 ^ 64
    if metadata_blocks ≥ total_blocks then .error .noSpaceForMetadata
    else
      let data_region_blocks := total_blocks - metadata_blocks
      if readable < BS - 4 then .error .segmentationFault
      else
        .ok (build_image total_blocks inode_count inode_table_blocks data_region_blocks now
          stack)

/-! ## The adder, `mkfs_adder.c` -/

/-- The ways `main` of the adder returns 1 without writing the output image
(failures of `fopen`, `malloc` and of reading the file to add are not
modelled). -/
inductive AddError where
  | fileTooLarge
  | cannotReadSuperblock
  | badMagic
  | cannotReadImage
  | noFreeInode
  | notEnoughBlocks
  | duplicateName
  | noFreeDirent
  deriving DecidableEq, Repr

/-- The test `bitmap[i / 8] & (1 << (i % 8))` of the scans, as the value the
C expression has. -/
def bit_and (m : Mem) (bitmap i : Nat) : Nat :=
  m (bitmap + i / 8) &&& (1 <<< (i % 8))

/-- The loop of `find_free_inode` from index `i` with `fuel = inode_count - i`
indices to go; the result is the `int` the function returns, as its 32-bit
pattern (`-1` is `0xFFFFFFFF`, `i + 1` is truncated to 32 bits). -/
def find_free_inode_from (m : Mem) (bitmap : Nat) : Nat → Nat → Nat
  | _, 0 => 0xFFFFFFFF
  | i, fuel + 1 =>
    if bit_and m bitmap i = 0 then (i + 1) % 2 ^ 32
    else find_free_inode_from m bitmap (i + 1) fuel

/-- The function `find_free_inode(bitmap, inode_count)`. -/
def find_free_inode (m : Mem) (bitmap inode_count : Nat) : Nat :=
  find_free_inode_from m bitmap 0 inode_count

/-- The loop of `find_free_data_block` from index `i`, with the same
conventions as `find_free_inode_from`. -/
def find_free_data_block_from (m : Mem) (bitmap : Nat) : Nat → Nat → Nat
  | _, 0 => 0xFFFFFFFF
  | i, fuel + 1 =>
    if bit_and m bitmap i = 0 then i % 2 ^ 32
    else find_free_data_block_from m bitmap (i + 1) fuel

/-- The function `find_free_data_block(bitmap, data_blocks)` (`main` does not
call it). -/
def find_free_data_block (m : Mem) (bitmap data_blocks : Nat) : Nat :=
  find_free_data_block_from m bitmap 0 data_blocks

/-- The function `set_bit(bitmap, bit_index)` for an index that is not
negative (`bit_index` is an `int`; for a negative one the shift count of the
source is out of range). -/
def set_bit (m : Mem) (bitmap bit_index : Nat) : Mem :=
  let byte_index := bit_index / 8
  let bit_pos := bit_index % 8
  writeAt m (bitmap + byte_index) [m (bitmap + byte_index) ||| (1 <<< bit_pos)]

/-- The scan of `main` for free data blocks, from index `i` with
`fuel = data_region_blocks - i` indices to go and `need` blocks still to find:
the entries it appends to `free_blocks`, each an `int` (32-bit pattern). -/
def scan_free_blocks (m : Mem) (bitmap : Nat) : Nat → Nat → Nat → List Nat
  | _, 0, _ => []
  | _, _ + 1, 0 => []
  | i, fuel + 1, need + 1 =>
    if bit_and m bitmap i = 0 then
      i % 2 ^ 32 :: scan_free_blocks m bitmap (i + 1) fuel need
    else scan_free_blocks m bitmap (i + 1) fuel (need + 1)

/-- The number of bytes `fread` is asked for in iteration `i` of the copy
loop. -/
def bytes_to_read (file_size blocks_needed i : Nat) : Nat :=
  if i = blocks_needed - 1 then
    (if file_size % BS = 0 then BS else file_size % BS)
  else BS

/-- The loop `for (i = 0; i < blocks_needed; i++)` of `main` from iteration
`i`: `free` holds `free_blocks[i..]`, `rest` is what is left of the file.  Each
iteration stores `direct[i]`, zeroes the block, reads the next bytes of the
file into it and marks the block in the data bitmap. -/
def copy_blocks (data_region_start data_region data_bitmap new_inode file_size
    blocks_needed : Nat) : Nat → List Nat → List Nat → Mem → Mem
  | _, [], _, m => m
  | i, fb :: free, rest, m =>
    let m1 := writeLE m (new_inode + 44 + 4 * i) 4
      ((data_region_start + int_to_u64 fb) % 2 ^ 64)
    let block_ptr := data_region + fb * BS % 2 ^ 32
    let m2 := writeAt m1 block_ptr (List.replicate BS 0)
    let n := bytes_to_read file_size blocks_needed i
    let m3 := writeAt m2 block_ptr (rest.take n)
    let m4 := set_bit m3 data_bitmap fb
    copy_blocks data_region_start data_region data_bitmap new_inode file_size
      blocks_needed (i + 1) free (rest.drop n) m4

/-- The loop `for (i = blocks_needed; i < DIRECT_MAX; i++) direct[i] = 0`,
from slot `i` with `k` slots to go. -/
def clear_direct (new_inode : Nat) : Nat → Nat → Mem → Mem
  | _, 0, m => m
  | i, k + 1, m => clear_direct new_inode (i + 1) k (writeLE m (new_inode + 44 + 4 * i) 4 0)

/-- The loop over the 64 entries of the root directory block, from entry `i`
with `fuel` entries to go; `slot` is `free_dirent_slot` (`none` is `-1`).  It
stops with the duplicate-name error at the first non-empty entry whose name
`strcmp` finds equal to `file_name`. -/
def scan_dirents (m : Mem) (dirents : Nat) (file_name : List Nat) :
    Nat → Nat → Option Nat → Except AddError (Option Nat)
  | _, 0, slot => .ok slot
  | i, fuel + 1, slot =>
    if readLE m (dirents + DIRENT_SIZE * i) 4 ≠ 0 then
      if strcmp_eq m (dirents + DIRENT_SIZE * i + 5) file_name then .error .duplicateName
      else scan_dirents m dirents file_name (i + 1) fuel slot
    else if slot = none then scan_dirents m dirents file_name (i + 1) fuel (some i)
    else scan_dirents m dirents file_name (i + 1) fuel slot

/-- The new inode as `main` builds it in the inode table (lines 319-375): the
record is zeroed, its fields are stored, the file is copied block by block, the
unused direct pointers and the reserved fields are zeroed, the checksum is
finalized. -/
def build_inode (m : Mem) (data_region_start data_region data_bitmap new_inode : Nat)
    (free_blocks content : List Nat) (blocks_needed now : Nat) : Mem :=
  let file_size := content.length
  let m := writeAt m new_inode (List.replicate INODE_SIZE 0)
  let m := writeLE m new_inode 2 MODE_FILE
  let m := writeLE m (new_inode + 2) 2 1
  let m := writeLE m (new_inode + 4) 4 0
  let m := writeLE m (new_inode + 8) 4 0
  let m := writeLE m (new_inode + 12) 8 file_size
  let m := writeLE m (new_inode + 20) 8 now
  let m := writeLE m (new_inode + 28) 8 now
  let m := writeLE m (new_inode + 36) 8 now
  let m := copy_blocks data_region_start data_region data_bitmap new_inode file_size
    blocks_needed 0 (free_blocks.take blocks_needed) content m
  let m := clear_direct new_inode blocks_needed (DIRECT_MAX - blocks_needed) m
  let m := writeLE m (new_inode + 104) 4 0
  let m := writeLE m (new_inode + 108) 4 0
  let m := writeLE m (new_inode + 112) 8 0
  let m := writeLE m (new_inode + 92) 4 0
  let m := writeLE m (new_inode + 96) 4 0
  let m := writeLE m (new_inode + 100) 4 0
  inode_crc_finalize m new_inode

/-- The new directory entry (lines 408-416): the slot is zeroed, the inode
number, the type and the name (`strncpy` of at most 57 bytes, then a NUL in
`name[57]`) are stored, the checksum is finalized. -/
def write_dirent (m : Mem) (new_dirent free_inode_num : Nat) (file_name : List Nat) : Mem :=
  let m := writeAt m new_dirent (List.replicate DIRENT_SIZE 0)
  let m := writeLE m new_dirent 4 free_inode_num
  let m := writeLE m (new_dirent + 4) 1 TYPE_FILE
  let m := writeAt m (new_dirent + 5) (strncpy file_name 57)
  let m := writeAt m (new_dirent + 5 + 57) [0]
  dirent_checksum_finalize m new_dirent

/-- The update of the root inode (lines 419-423): `links++`,
`size_bytes += sizeof(dirent64_t)`, `mtime = now`, checksum finalized. -/
def update_root (m : Mem) (root_inode now : Nat) : Mem :=
  let m := writeLE m (root_inode + 2) 2 ((readLE m (root_inode + 2) 2 + 1) % 2 ^ 16)
  let m := writeLE m (root_inode + 12) 8 ((readLE m (root_inode + 12) 8 + DIRENT_SIZE) % 2 ^ 64)
  let m := writeLE m (root_inode + 28) 8 now
  inode_crc_finalize m root_inode

/-- Lines 319-375 of `main` of the adder, on the loaded buffer `image_data`,
once the inode number `free_inode_num` and the data blocks `free_blocks` are
found: the new inode is built (the file is copied on the way) and its bit is
set in the inode bitmap.  `int` variables are kept as 32-bit patterns. -/
def pre_scan (image_data : Mem) (superblock : superblock_t) (content : List Nat)
    (blocks_needed now free_inode_num : Nat) (free_blocks : List Nat) : Mem :=
  let inode_bitmap := superblock.inode_bitmap_start * BS % 2 ^ 64
  let data_bitmap := superblock.data_bitmap_start * BS % 2 ^ 64
  let inode_table := superblock.inode_table_start * BS % 2 ^ 64
  let data_region := superblock.data_region_start * BS % 2 ^ 64
  let inode_index := (free_inode_num + 0xFFFFFFFF) % 2 ^ 32
  let new_inode := (inode_table + int_to_u64 inode_index * INODE_SIZE) % 2 ^ 64
  let m := build_inode image_data superblock.data_region_start data_region
    data_bitmap new_inode free_blocks content blocks_needed now
  set_bit m inode_bitmap inode_index

/-- Lines 408-427 of `main` of the adder, once the scan of the root directory
found the free slot `free_dirent_slot`: the new entry is written, the root
inode is updated, the superblock is copied back and its checksum finalized. -/
def finish_add (m : Mem) (superblock : superblock_t) (file_name : List Nat)
    (now free_inode_num free_dirent_slot : Nat) : Mem :=
  let inode_table := superblock.inode_table_start * BS % 2 ^ 64
  let data_region := superblock.data_region_start * BS % 2 ^ 64
  let new_dirent := data_region + DIRENT_SIZE * free_dirent_slot
  let m := write_dirent m new_dirent free_inode_num file_name
  let m := update_root m inode_table now
  let m := writeAt m 0 (encodeSuperblock superblock)
  superblock_crc_finalize m 0

/-- What `main` of the adder does with the outcome of the scan of the root
directory (lines 385-405): it stops with the error of the scan, or with the
no-free-slot error when `free_dirent_slot` is still `-1`, or goes on. -/
def after_scan (m : Mem) (superblock : superblock_t) (file_name : List Nat)
    (now free_inode_num : Nat) : Except AddError (Option Nat) → Except AddError Mem
  | .error e => .error e
  | .ok none => .error .noFreeDirent
  | .ok (some free_dirent_slot) =>
    .ok (finish_add m superblock file_name now free_inode_num free_dirent_slot)

/-- Lines 319-427 of `main` of the adder: the buffer as it is written to the
output, or the error of the scan of the root directory. -/
def place_file (image_data : Mem) (superblock : superblock_t) (file_name content : List Nat)
    (blocks_needed now free_inode_num : Nat) (free_blocks : List Nat) : Except AddError Mem :=
  let m := pre_scan image_data superblock content blocks_needed now free_inode_num free_blocks
  let data_region := superblock.data_region_start * BS % 2 ^ 64
  after_scan m superblock file_name now free_inode_num
    (scan_dirents m data_region file_name 0 (BS / DIRENT_SIZE) none)

/-- Lines 270-307 of `main` of the adder, on the loaded buffer: the search for
a free inode and for `blocks_needed` free data blocks, then `place_file`. -/
def add_to_buffer (image_data : Mem) (superblock : superblock_t)
    (file_name content : List Nat) (blocks_needed now : Nat) : Except AddError Mem :=
  let inode_bitmap := superblock.inode_bitmap_start * BS % 2 ^ 64
  let data_bitmap := superblock.data_bitmap_start * BS % 2 ^ 64
  let free_inode_num := find_free_inode image_data inode_bitmap superblock.inode_count
  if free_inode_num = 0xFFFFFFFF then .error .noFreeInode
  else
    let free_blocks := scan_free_blocks image_data data_bitmap 0
      superblock.data_region_blocks blocks_needed
    let blocks_found := free_blocks.length
    if blocks_found < blocks_needed then .error .notEnoughBlocks
    else place_file image_data superblock file_name content blocks_needed now
      free_inode_num free_blocks

/-- The run of `main` of `mkfs_adder.c` on the input image `img` (the bytes of
the file `--input`), for a regular file `--file file_name` with the bytes
`content`: the image it writes to `--output`, or the error it stops with, in
which case no output file is created.  `file_name` is the C string of the
command line, given by its bytes before the terminator; `now` is the value of
`time(NULL)`. -/
def add (img file_name content : List Nat) (now : Nat) : Except AddError (List Nat) :=
  let file_size := content.length
  let blocks_needed := (file_size + BS - 1) % 2 ^ 64 / BS
  if blocks_needed > DIRECT_MAX then .error .fileTooLarge
  else if img.length < SB_SIZE then .error .cannotReadSuperblock
  else
    let superblock := decodeSuperblock (load img) 0
    if superblock.magic ≠ MAGIC then .error .badMagic
    else
      let image_size := superblock.total_blocks * BS % 2 ^ 64
      if img.length < image_size then .error .cannotReadImage
      else
        (add_to_buffer (load (img.take image_size)) superblock file_name content
          blocks_needed now).map (fun image_data => dump image_data image_size)

/-! ## Images as the claims read them -/

/-- The superblock `main` of the adder reads from the start of an image. -/
def sb_of (img : List Nat) : superblock_t := decodeSuperblock (load img) 0

/-- The size `image_size` of the buffer the adder loads and writes back. -/
def image_size (img : List Nat) : Nat := (sb_of img).total_blocks * BS % 2 ^ 64

/-- Both `fread` calls of the adder succeed: the file holds a superblock and
the `total_blocks` blocks the superblock announces. -/
def Loadable (img : List Nat) : Prop :=
  SB_SIZE ≤ img.length ∧ image_size img ≤ img.length

/-- The buffer `image_data` of the adder after the image is loaded. -/
def buffer (img : List Nat) : Mem := load (img.take (image_size img))

/-- Bit `i` of the bitmap at byte offset `bitmap` of a memory: bit `i % 8`,
least significant first, of byte `i / 8`. -/
def bit_at (m : Mem) (bitmap i : Nat) : Bool := (m (bitmap + i / 8)).testBit (i % 8)

/-- Bit `i` of the inode bitmap of a loaded image. -/
def inode_bit (img : List Nat) (i : Nat) : Bool :=
  bit_at (buffer img) ((sb_of img).inode_bitmap_start * BS % 2 ^ 64) i

/-- Bit `i` of the data bitmap of a loaded image. -/
def data_bit (img : List Nat) (i : Nat) : Bool :=
  bit_at (buffer img) ((sb_of img).data_bitmap_start * BS % 2 ^ 64) i

/-- The number of blocks a file of `file_size` bytes needs, `ceil(S / 4096)`. -/
def blocks_for (file_size : Nat) : Nat := (file_size + 4095) / 4096

/-- The parameters the builder accepts. -/
def ValidParams (size_kib inode_count : Nat) : Prop :=
  180 ≤ size_kib ∧ size_kib ≤ 4096 ∧ size_kib % 4 = 0 ∧ 128 ≤ inode_count ∧ inode_count ≤ 512

instance (size_kib inode_count : Nat) : Decidable (ValidParams size_kib inode_count) := by
  unfold ValidParams; infer_instance

/-- The number of inode-table blocks, `ceil(inode_count * 128 / 4096)`. -/
def table_blocks (inode_count : Nat) : Nat := (inode_count * 128 + 4095) / 4096

/-- The image the builder writes for parameters it accepts. -/
def formatted (size_kib inode_count now : Nat) (stack : Mem) : List Nat :=
  build_image (size_kib / 4) inode_count (table_blocks inode_count)
    (size_kib / 4 - (3 + table_blocks inode_count)) now stack

/-- The record a `superblock_t` becomes when it is stored: every field is
truncated to its width. -/
def truncSuperblock (s : superblock_t) : superblock_t where
  magic := s.magic % 2 ^ 32
  version := s.version % 2 ^ 32
  block_size := s.block_size % 2 ^ 32
  total_blocks := s.total_blocks % 2 ^ 64
  inode_count := s.inode_count % 2 ^ 64
  inode_bitmap_start := s.inode_bitmap_start % 2 ^ 64
  inode_bitmap_blocks := s.inode_bitmap_blocks % 2 ^ 64
  data_bitmap_start := s.data_bitmap_start % 2 ^ 64
  data_bitmap_blocks := s.data_bitmap_blocks % 2 ^ 64
  inode_table_start := s.inode_table_start % 2 ^ 64
  inode_table_blocks := s.inode_table_blocks % 2 ^ 64
  data_region_start := s.data_region_start % 2 ^ 64
  data_region_blocks := s.data_region_blocks % 2 ^ 64
  root_inode := s.root_inode % 2 ^ 64
  mtime_epoch := s.mtime_epoch % 2 ^ 64
  flags := s.flags % 2 ^ 32
  checksum := s.checksum % 2 ^ 32

/-- The superblock the builder fills in for parameters it accepts. -/
def fmt_sb (size_kib inode_count now : Nat) : superblock_t :=
  mk_superblock (size_kib / 4) inode_count (table_blocks inode_count)
    (size_kib / 4 - (3 + table_blocks inode_count)) now

/-- The 116 bytes of the finalized superblock the builder writes. -/
def fmt_sb_bytes (size_kib inode_count now : Nat) (stack : Mem) : List Nat :=
  finalize_local superblock_crc_finalize stack (encodeSuperblock (fmt_sb size_kib inode_count now))

/-- The 128 bytes of the finalized root inode the builder writes. -/
def root_inode_bytes (sb : superblock_t) : List Nat :=
  finalize_local inode_crc_finalize (fun _ => 0) (encodeInode (mk_root_inode sb))

/-- The 64 bytes of a finalized entry of the root directory of the builder. -/
def dir_entry_bytes (name : List Nat) : List Nat :=
  finalize_local dirent_checksum_finalize (fun _ => 0) (encodeDirent (mk_dir_entry name))

/-- Entry number `slot` of the first block of the data region of an image. -/
def root_dirent (img : List Nat) (slot : Nat) : dirent64_t :=
  decodeDirent (load img) ((sb_of img).data_region_start * BS + DIRENT_SIZE * slot)

/-- Inode number `ino` (1-based) of the inode table of an image. -/
def inode_rec (img : List Nat) (ino : Nat) : inode_t :=
  decodeInode (load img) ((sb_of img).inode_table_start * BS + INODE_SIZE * (ino - 1))

/-- The checksum of the superblock of an image as a reader recomputes it:
`crc32` over bytes 0..4091 of block 0 with the four checksum bytes (112..115)
taken as zero. -/
def recomputed_sb_checksum (img : List Nat) : Nat :=
  crc32 (readBytes (writeLE (load img) 112 4 0) 0 (BS - 4))

/-- The indices of the clear bits among the `fuel` bits from bit `i` on of a
bitmap, in ascending order. -/
def clear_bits (m : Mem) (bitmap i fuel : Nat) : List Nat :=
  (List.range' i fuel).filter (fun j => !bit_at m bitmap j)

/-- The layout of an image as the builder lays it out: a sequence of
`total_blocks` blocks of bytes, the superblock, one block of inode bitmap, one
of data bitmap, the inode table (large enough for `inode_count` inodes) and
the data region, in this order, each bitmap having a bit for every resource. -/
structure Layout (img : List Nat) : Prop where
  bytes : ∀ x, load img x < 256
  size : img.length = (sb_of img).total_blocks * 4096
  inode_bitmap_start : (sb_of img).inode_bitmap_start = 1
  inode_bitmap_blocks : (sb_of img).inode_bitmap_blocks = 1
  data_bitmap_start : (sb_of img).data_bitmap_start = 2
  data_bitmap_blocks : (sb_of img).data_bitmap_blocks = 1
  inode_table_start : (sb_of img).inode_table_start = 3
  data_region_start : (sb_of img).data_region_start = 3 + (sb_of img).inode_table_blocks
  total : (sb_of img).total_blocks =
    (sb_of img).data_region_start + (sb_of img).data_region_blocks
  table : (sb_of img).inode_count * 128 ≤ (sb_of img).inode_table_blocks * 4096
  inodes : (sb_of img).inode_count ≤ 32768
  data_blocks : 1 ≤ (sb_of img).data_region_blocks ∧ (sb_of img).data_region_blocks ≤ 32768
  small : (sb_of img).total_blocks < 2 ^ 32

/-- A well-formed image: the magic number, the layout of the builder, and the
root inode (inode 1) and the root directory block (data block 0) marked
allocated in the bitmaps. -/
structure WellFormed (img : List Nat) : Prop where
  magic : (sb_of img).magic = MAGIC
  layout : Layout img
  root_inode : inode_bit img 0 = true
  root_block : data_bit img 0 = true

/-- A file name as the adder gets it from the command line: a C string, given
by its bytes before the terminator, none of which is NUL. -/
def IsName (name : List Nat) : Prop := ∀ b ∈ name, 0 < b ∧ b < 256

/-- The path of a regular file: a name that is neither "." nor "..", which
name directories (the adder stops at `S_ISREG` before it looks at the image
when the path is not that of a regular file). -/
def IsFilePath (name : List Nat) : Prop :=
  IsName name ∧ name ≠ [46] ∧ name ≠ [46, 46]

/-- The content of a file: a sequence of bytes. -/
def IsBytes (content : List Nat) : Prop := ∀ b ∈ content, b < 256

/-- The first empty entry (inode number 0) among the `fuel` entries from
entry `i` on of the directory block at offset `dirents`. -/
def first_empty_slot (m : Mem) (dirents : Nat) : Nat → Nat → Option Nat
  | _, 0 => none
  | i, fuel + 1 =>
    if readLE m (dirents + DIRENT_SIZE * i) 4 = 0 then some i
    else first_empty_slot m dirents (i + 1) fuel

/-- The name of a directory entry: the bytes of its name field before the
first NUL. -/
def entry_name (d : dirent64_t) : List Nat := d.name.takeWhile (fun b => b ≠ 0)

/-- The memory the adder scans the root directory in, for an image with the
layout of the builder: the loaded image after the new inode, with number
`i0 + 1`, is built on the data blocks `fbs` and marked in the inode bitmap. -/
def pre_mem (img content : List Nat) (now i0 : Nat) (fbs : List Nat) : Mem :=
  set_bit
    (build_inode (load img) (3 + (sb_of img).inode_table_blocks)
      ((3 + (sb_of img).inode_table_blocks) * 4096) 8192 (12288 + i0 * 128) fbs content
      (blocks_for content.length) now)
    4096 i0

/-- The memory the adder writes to the output, for an image with the layout of
the builder: `pre_mem` after the new entry is written in slot `slot`, the root
inode is updated and the superblock is copied back and finalized. -/
def fin_mem (img file_name content : List Nat) (now i0 : Nat) (fbs : List Nat) (slot : Nat) :
    Mem :=
  superblock_crc_finalize
    (writeAt
      (update_root
        (write_dirent (pre_mem img content now i0 fbs)
          ((3 + (sb_of img).inode_table_blocks) * 4096 + 64 * slot) (i0 + 1) file_name)
        12288 now)
      0 (encodeSuperblock (sb_of img)))
    0

/-- The data blocks the adder allocates on a loaded image for a file of
`file_size` bytes: what its scan of the data bitmap collects. -/
def allocated_blocks (img : List Nat) (file_size : Nat) : List Nat :=
  scan_free_blocks (buffer img) ((sb_of img).data_bitmap_start * BS % 2 ^ 64) 0
    (sb_of img).data_region_blocks (blocks_for file_size)

/-- The inode number the adder assigns on a loaded image (`-1`, that is
`0xFFFFFFFF`, when there is none). -/
def new_inode_no (img : List Nat) : Nat :=
  find_free_inode (buffer img) ((sb_of img).inode_bitmap_start * BS % 2 ^ 64)
    (sb_of img).inode_count

/-- Every non-empty entry of the root directory block of an image holds a
terminated name: a NUL among the 58 bytes of its name field. -/
def NamesTerminated (img : List Nat) : Prop :=
  ∀ slot, slot < 64 → (root_dirent img slot).inode_no ≠ 0 → 0 ∈ (root_dirent img slot).name

/-- The number of unset bits among the first `data_region_blocks` bits of the
data bitmap of an image. -/
def free_data_blocks (img : List Nat) : Nat :=
  ((List.range (sb_of img).data_region_blocks).filter (fun j => !data_bit img j)).length

/-- The six conditions under which the adder is specified to fail: bad magic;
a file of more than 12 blocks; no unset bit among the first `inode_count`
bits of the inode bitmap; fewer unset bits among the first
`data_region_blocks` bits of the data bitmap than blocks needed; no entry with
inode number 0 in the root directory block; a non-empty entry of that block
with the name of the file. -/
def FailureCondition (img file_name content : List Nat) : Prop :=
  (sb_of img).magic ≠ MAGIC ∨
  12 < blocks_for content.length ∨
  (∀ i, i < (sb_of img).inode_count → inode_bit img i = true) ∨
  free_data_blocks img < blocks_for content.length ∨
  (∀ slot, slot < 64 → (root_dirent img slot).inode_no ≠ 0) ∨
  (∃ slot, slot < 64 ∧ (root_dirent img slot).inode_no ≠ 0 ∧
    entry_name (root_dirent img slot) = file_name)

/-- The concatenation of the `k` blocks of an image at the absolute block
indices `direct[0]`, ..., `direct[k-1]` of inode number `ino`. -/
def file_blocks (img : List Nat) (ino k : Nat) : List Nat :=
  ((List.range k).map (fun p =>
    readBytes (load img) ((inode_rec img ino).direct.getD p 0 * BS) BS)).flatten

/-- An image of five blocks with the layout of the builder and eight inodes,
all of them in use: the superblock, an inode bitmap with its first eight bits
set, a data bitmap with bit 0 set, one block of inode table and one data
block. -/
def full_inode_image : List Nat :=
  block_with (encodeSuperblock (mk_superblock 5 8 1 1 0)) ++
    (block_with [255] ++ (block_with [1] ++ List.replicate 8192 0))

/-! ## Definitions the later claims are stated with -/

/-- The allocation of `k` data blocks the slow way: `k` rounds of
`find_free_data_block` over the first `data_blocks` bits, each followed by
`set_bit` on the index returned.  The result is the list of the indices, in the
order they are found, and the memory at the end. -/
def alloc_by_search (bitmap data_blocks : Nat) : Nat → Mem → List Nat × Mem
  | 0, m => ([], m)
  | k + 1, m =>
    let i := find_free_data_block m bitmap data_blocks
    let r := alloc_by_search bitmap data_blocks k (set_bit m bitmap i)
    (i :: r.1, r.2)

/-- The memory after `set_bit` on every index of a list, in order: what the
copy loop of the adder does to the data bitmap with `free_blocks`. -/
def set_bits (bitmap : Nat) (idxs : List Nat) (m : Mem) : Mem :=
  idxs.foldl (fun m i => set_bit m bitmap i) m

/-- One bit step of the reflected CRC-32: the register is shifted right by one
bit, and the polynomial 0xEDB88320 is XORed in when the bit shifted out is 1. -/
def crc_bit (c : Nat) : Nat := if c % 2 = 1 then (c / 2) ^^^ 0xEDB88320 else c / 2

/-- One byte of the reflected CRC-32, bit by bit: the byte is XORed into the
low end of the register, then come eight bit steps. -/
def crc_byte (c b : Nat) : Nat := Nat.iterate crc_bit 8 (c ^^^ b)

/-- The standard reflected CRC-32 of a byte sequence, computed bit by bit:
initial value 0xFFFFFFFF, final XOR 0xFFFFFFFF. -/
def crc32_bitwise (data : List Nat) : Nat := data.foldl crc_byte 0xFFFFFFFF ^^^ 0xFFFFFFFF

/-- The entry `CRC32_TAB[i]` as the copy of `crc32_init` in `mkfs_builder.c`
(lines 94-100) computes it: eight rounds of the inner loop on `i`. -/
def builder_CRC32_TAB (i : Nat) : Nat :=
  Nat.iterate (fun c => if c &&& 1 ≠ 0 then 0xEDB88320 ^^^ (c >>> 1) else c >>> 1) 8 i

/-- The copy of `crc32` in `mkfs_builder.c` (lines 101-105), on the bytes it
reads. -/
def builder_crc32 (data : List Nat) : Nat :=
  data.foldl (fun c b => builder_CRC32_TAB ((c ^^^ b) &&& 0xFF) ^^^ (c >>> 8)) 0xFFFFFFFF ^^^
    0xFFFFFFFF

/-- The reachable images: those the builder writes, and those the adder writes
when it inserts into a reachable image a file whose name is a C string and
whose content is a sequence of fewer than 2 ^ 63 bytes. -/
inductive Reachable : List Nat → Prop
  | fresh (size_kib inode_count now : Nat) (stack : Mem) (readable : Nat) (img : List Nat) :
      format size_kib inode_count now stack readable = .ok img → Reachable img
  | insert (img name content out : List Nat) (now : Nat) :
      Reachable img → IsName name → IsBytes content → content.length < 2 ^ 63 →
      add img name content now = .ok out → Reachable out

/-- Name uniqueness in the root directory block of an image: no two non-empty
entries have the same name. -/
def NamesUnique (img : List Nat) : Prop :=
  ∀ s t, s < 64 → t < 64 → (root_dirent img s).inode_no ≠ 0 →
    (root_dirent img t).inode_no ≠ 0 →
    entry_name (root_dirent img s) = entry_name (root_dirent img t) → s = t

/-- Inode number `n` of an image is allocated: it is one of the `inode_count`
inodes and its bit, bit `n - 1`, is set in the inode bitmap. -/
def Allocated (img : List Nat) (n : Nat) : Prop :=
  1 ≤ n ∧ n ≤ (sb_of img).inode_count ∧ inode_bit img (n - 1) = true

/-- Bitmap consistency of an image: the bit of an inode is set exactly when a
root directory entry holds its number; the bit of a data block is set exactly
when a direct pointer of an allocated inode points to the block; and no block
is pointed to twice, by two allocated inodes or by one. -/
structure BitmapsConsistent (img : List Nat) : Prop where
  inodes : ∀ i, i < (sb_of img).inode_count →
    (inode_bit img i = true ↔
      ∃ slot, slot < 64 ∧ (root_dirent img slot).inode_no = i + 1)
  blocks : ∀ j, j < (sb_of img).data_region_blocks →
    (data_bit img j = true ↔
      ∃ n p, Allocated img n ∧ p < 12 ∧
        (inode_rec img n).direct.getD p 0 = (sb_of img).data_region_start + j)
  unshared : ∀ n n' p p', Allocated img n → Allocated img n' → p < 12 → p' < 12 →
    (inode_rec img n).direct.getD p 0 ≠ 0 →
    (inode_rec img n).direct.getD p 0 = (inode_rec img n').direct.getD p' 0 →
    n = n' ∧ p = p'

/-! ## Definitions for the accounting of the root directory -/

/-- The images reached from a freshly formatted image by exactly `k`
successful insertions. -/
inductive ReachableIn : Nat → List Nat → Prop
  | fresh (size_kib inode_count now : Nat) (stack : Mem) (readable : Nat) (img : List Nat) :
      format size_kib inode_count now stack readable = .ok img → ReachableIn 0 img
  | insert (k : Nat) (img name content out : List Nat) (now : Nat) :
      ReachableIn k img → IsName name → IsBytes content → content.length < 2 ^ 63 →
      add img name content now = .ok out → ReachableIn (k + 1) out

/-- The number of non-empty entries (inode number other than 0) among the 64
entries of the root directory's first data block. -/
def nonempty_entries (img : List Nat) : Nat :=
  ((List.range 64).filter (fun s => decide ((root_dirent img s).inode_no ≠ 0))).length

/-- The number of set bits among the first `n` bits of the inode bitmap. -/
def inode_bits_set (img : List Nat) (n : Nat) : Nat :=
  ((List.range n).filter (fun i => inode_bit img i)).length

/-! ## Memory lemmas -/

theorem writeAt_out (m : Mem) (a : Nat) (bs : List Nat) (x : Nat)
    (h : x < a ∨ a + bs.length ≤ x) : writeAt m a bs x = m x := by
  unfold writeAt
  rw [if_neg]
  omega

theorem writeAt_in (m : Mem) (a : Nat) (bs : List Nat) (x : Nat)
    (h1 : a ≤ x) (h2 : x < a + bs.length) : writeAt m a bs x = bs.getD (x - a) 0 % 256 := by
  unfold writeAt
  rw [if_pos ⟨h1, h2⟩]

theorem readBytes_length (m : Mem) (a n : Nat) : (readBytes m a n).length = n := by
  induction n generalizing a with
  | zero => rfl
  | succ n ih => simp [readBytes, ih]

theorem readBytes_congr (m m' : Mem) (a n : Nat)
    (h : ∀ x, a ≤ x → x < a + n → m x = m' x) : readBytes m a n = readBytes m' a n := by
  induction n generalizing a with
  | zero => rfl
  | succ n ih =>
    simp only [readBytes]
    rw [h a (Nat.le_refl a) (by omega), ih (a + 1) (fun x h1 h2 => h x (by omega) (by omega))]

theorem readBytes_getD (m : Mem) (a n i : Nat) (h : i < n) :
    (readBytes m a n).getD i 0 = m (a + i) := by
  induction n generalizing a i with
  | zero => omega
  | succ n ih =>
    cases i with
    | zero => simp [readBytes]
    | succ i =>
      simp only [readBytes, List.getD_cons_succ]
      rw [ih (a + 1) i (by omega)]
      congr 1
      omega

theorem readLE_congr (m m' : Mem) (a w : Nat)
    (h : ∀ x, a ≤ x → x < a + w → m x = m' x) : readLE m a w = readLE m' a w := by
  unfold readLE
  rw [readBytes_congr m m' a w h]

theorem leBytes_length (w v : Nat) : (leBytes w v).length = w := by
  induction w generalizing v with
  | zero => rfl
  | succ w ih => simp [leBytes, ih]

theorem leBytes_lt (w v i : Nat) : (leBytes w v).getD i 0 < 256 := by
  induction w generalizing v i with
  | zero => simp [leBytes]
  | succ w ih =>
    cases i with
    | zero => simp only [leBytes, List.getD_cons_zero]; omega
    | succ i => simp only [leBytes, List.getD_cons_succ]; exact ih _ _

theorem leVal_leBytes (w v : Nat) : leVal (leBytes w v) = v % 256 ^ w := by
  induction w generalizing v with
  | zero => simp [leBytes, leVal, Nat.mod_one]
  | succ w ih =>
    simp only [leBytes, leVal, ih]
    rw [pow_succ, Nat.mul_comm (256 ^ w) 256, Nat.mod_mul]

theorem readBytes_writeAt_same (m : Mem) (a : Nat) (bs : List Nat)
    (hb : ∀ i, bs.getD i 0 < 256) : readBytes (writeAt m a bs) a bs.length = bs := by
  apply List.ext_getElem
  · simp [readBytes_length]
  · intro i h1 h2
    have e1 := readBytes_getD (writeAt m a bs) a bs.length i h2
    rw [List.getD_eq_getElem _ _ h1] at e1
    rw [e1, writeAt_in _ _ _ _ (by omega) (by omega)]
    have : a + i - a = i := by omega
    rw [this, Nat.mod_eq_of_lt (hb i), List.getD_eq_getElem _ _ h2]

theorem readLE_writeLE_same (m : Mem) (a w v : Nat) :
    readLE (writeLE m a w v) a w = v % 256 ^ w := by
  unfold readLE writeLE
  have h := readBytes_writeAt_same m a (leBytes w v) (leBytes_lt w v)
  rw [leBytes_length] at h
  rw [h, leVal_leBytes]

theorem readLE_writeLE_other (m : Mem) (a w v b u : Nat) (h : b + u ≤ a ∨ a + w ≤ b) :
    readLE (writeLE m a w v) b u = readLE m b u := by
  apply readLE_congr
  intro x h1 h2
  unfold writeLE
  apply writeAt_out
  rw [leBytes_length]
  omega

theorem load_dump (m : Mem) (n x : Nat) : load (dump m n) x = if x < n then m x else 0 := by
  unfold load dump
  rw [List.getD_eq_getElem?_getD, List.getElem?_map]
  by_cases h : x < n
  · simp [h, List.getElem?_range h]
  · rw [List.getElem?_eq_none (by simp; omega)]
    simp [h]

theorem dump_length (m : Mem) (n : Nat) : (dump m n).length = n := by
  simp [dump]

theorem bit_and_eq_zero (m : Mem) (bitmap i : Nat) :
    bit_and m bitmap i = 0 ↔ bit_at m bitmap i = false := by
  unfold bit_and bit_at
  rw [Nat.one_shiftLeft, Nat.and_two_pow]
  cases h : (m (bitmap + i / 8)).testBit (i % 8)
  · simp
  · simp [Bool.toNat]

/-! ## Records in memory -/


theorem load_append_left (l l' : List Nat) (x : Nat) (h : x < l.length) :
    load (l ++ l') x = load l x := by
  unfold load
  exact List.getD_append _ _ _ _ h

theorem load_append_right (l l' : List Nat) (x : Nat) (h : l.length ≤ x) :
    load (l ++ l') x = load l' (x - l.length) := by
  unfold load
  exact List.getD_append_right _ _ _ _ h

theorem readBytes_load_mid (pre mid post : List Nat) :
    readBytes (load (pre ++ mid ++ post)) pre.length mid.length = mid := by
  apply List.ext_getElem
  · simp [readBytes_length]
  · intro i h1 h2
    have e1 := readBytes_getD (load (pre ++ mid ++ post)) pre.length mid.length i h2
    rw [List.getD_eq_getElem _ _ h1] at e1
    rw [e1, List.append_assoc, load_append_right _ _ _ (by omega),
      load_append_left _ _ _ (by omega)]
    unfold load
    have : pre.length + i - pre.length = i := by omega
    rw [this, List.getD_eq_getElem _ _ h2]

theorem readBytes_shift (m m' : Mem) (a b n : Nat)
    (h : ∀ i, i < n → m (a + i) = m' (b + i)) : readBytes m a n = readBytes m' b n := by
  induction n generalizing a b with
  | zero => rfl
  | succ n ih =>
    simp only [readBytes]
    have h0 := h 0 (by omega)
    simp only [Nat.add_zero] at h0
    rw [h0, ih (a + 1) (b + 1) (fun i hi => by
      have := h (i + 1) (by omega)
      rw [show a + 1 + i = a + (i + 1) by omega, show b + 1 + i = b + (i + 1) by omega]
      exact this)]

theorem encodeFields_length (fs : List (Nat × Nat)) :
    (encodeFields fs).length = fieldsWidth fs := by
  induction fs with
  | nil => rfl
  | cons f fs ih =>
    obtain ⟨w, v⟩ := f
    simp [encodeFields, fieldsWidth, leBytes_length, ih]

theorem encodeFields_lt (fs : List (Nat × Nat)) (i : Nat) : (encodeFields fs).getD i 0 < 256 := by
  induction fs generalizing i with
  | nil => simp [encodeFields]
  | cons f fs ih =>
    obtain ⟨w, v⟩ := f
    simp only [encodeFields]
    by_cases h : i < (leBytes w v).length
    · rw [List.getD_append _ _ _ _ h]; exact leBytes_lt _ _ _
    · rw [List.getD_append_right _ _ _ _ (by omega)]; exact ih _

/-- field number `k` of a packed record is read back truncated to its width -/
theorem readLE_encodeFields (fs : List (Nat × Nat)) (k : Nat) (h : k < fs.length) :
    readLE (load (encodeFields fs)) (fieldsWidth (fs.take k)) (fs.getD k (0, 0)).1 =
      (fs.getD k (0, 0)).2 % 256 ^ (fs.getD k (0, 0)).1 := by
  induction fs generalizing k with
  | nil => simp at h
  | cons f fs ih =>
    obtain ⟨w, v⟩ := f
    cases k with
    | zero =>
      simp only [List.take_zero, fieldsWidth, List.getD_cons_zero, encodeFields]
      have h := readBytes_load_mid [] (leBytes w v) (encodeFields fs)
      rw [leBytes_length] at h
      simp only [List.nil_append, List.length_nil] at h
      unfold readLE
      rw [h, leVal_leBytes]
    | succ k =>
      simp only [List.take_succ_cons, fieldsWidth, List.getD_cons_succ, encodeFields]
      rw [← ih k (by simpa using h)]
      unfold readLE
      congr 1
      apply readBytes_shift
      intro i _
      rw [load_append_right _ _ _ (by rw [leBytes_length]; omega), leBytes_length]
      congr 1
      omega

theorem readLE_field (fs : List (Nat × Nat)) (k off w v : Nat)
    (hk : fs.get? k = some (w, v)) (hoff : fieldsWidth (fs.take k) = off) :
    readLE (load (encodeFields fs)) off w = v % 256 ^ w := by
  have hlen : k < fs.length := by
    rcases Nat.lt_or_ge k fs.length with h | h
    · exact h
    · rw [List.get?_eq_none.mpr h] at hk; cases hk
  have h := readLE_encodeFields fs k hlen
  have e : fs.getD k (0, 0) = (w, v) := by
    rw [List.getD_eq_getElem?_getD, ← List.get?_eq_getElem?, hk]; rfl
  rw [e, hoff] at h
  exact h

theorem pow_256_4 : 256 ^ 4 = 2 ^ 32 := by norm_num
theorem pow_256_8 : 256 ^ 8 = 2 ^ 64 := by norm_num

theorem decode_encode_superblock (s : superblock_t) :
    decodeSuperblock (load (encodeSuperblock s)) 0 = truncSuperblock s := by
  have f0 : readLE (load (encodeSuperblock s)) 0 4 = s.magic % 2 ^ 32 := by
    rw [← pow_256_4]
    exact readLE_field _ 0 _ _ _ (by simp) (by simp [fieldsWidth])
  have f1 : readLE (load (encodeSuperblock s)) 4 4 = s.version % 2 ^ 32 := by
    rw [← pow_256_4]
    exact readLE_field _ 1 _ _ _ (by simp) (by simp [fieldsWidth])
  have f2 : readLE (load (encodeSuperblock s)) 8 4 = s.block_size % 2 ^ 32 := by
    rw [← pow_256_4]
    exact readLE_field _ 2 _ _ _ (by simp) (by simp [fieldsWidth])
  have f3 : readLE (load (encodeSuperblock s)) 12 8 = s.total_blocks % 2 ^ 64 := by
    rw [← pow_256_8]
    exact readLE_field _ 3 _ _ _ (by simp) (by simp [fieldsWidth])
  have f4 : readLE (load (encodeSuperblock s)) 20 8 = s.inode_count % 2 ^ 64 := by
    rw [← pow_256_8]
    exact readLE_field _ 4 _ _ _ (by simp) (by simp [fieldsWidth])
  have f5 : readLE (load (encodeSuperblock s)) 28 8 = s.inode_bitmap_start % 2 ^ 64 := by
    rw [← pow_256_8]
    exact readLE_field _ 5 _ _ _ (by simp) (by simp [fieldsWidth])
  have f6 : readLE (load (encodeSuperblock s)) 36 8 = s.inode_bitmap_blocks % 2 ^ 64 := by
    rw [← pow_256_8]
    exact readLE_field _ 6 _ _ _ (by simp) (by simp [fieldsWidth])
  have f7 : readLE (load (encodeSuperblock s)) 44 8 = s.data_bitmap_start % 2 ^ 64 := by
    rw [← pow_256_8]
    exact readLE_field _ 7 _ _ _ (by simp) (by simp [fieldsWidth])
  have f8 : readLE (load (encodeSuperblock s)) 52 8 = s.data_bitmap_blocks % 2 ^ 64 := by
    rw [← pow_256_8]
    exact readLE_field _ 8 _ _ _ (by simp) (by simp [fieldsWidth])
  have f9 : readLE (load (encodeSuperblock s)) 60 8 = s.inode_table_start % 2 ^ 64 := by
    rw [← pow_256_8]
    exact readLE_field _ 9 _ _ _ (by simp) (by simp [fieldsWidth])
  have f10 : readLE (load (encodeSuperblock s)) 68 8 = s.inode_table_blocks % 2 ^ 64 := by
    rw [← pow_256_8]
    exact readLE_field _ 10 _ _ _ (by simp) (by simp [fieldsWidth])
  have f11 : readLE (load (encodeSuperblock s)) 76 8 = s.data_region_start % 2 ^ 64 := by
    rw [← pow_256_8]
    exact readLE_field _ 11 _ _ _ (by simp) (by simp [fieldsWidth])
  have f12 : readLE (load (encodeSuperblock s)) 84 8 = s.data_region_blocks % 2 ^ 64 := by
    rw [← pow_256_8]
    exact readLE_field _ 12 _ _ _ (by simp) (by simp [fieldsWidth])
  have f13 : readLE (load (encodeSuperblock s)) 92 8 = s.root_inode % 2 ^ 64 := by
    rw [← pow_256_8]
    exact readLE_field _ 13 _ _ _ (by simp) (by simp [fieldsWidth])
  have f14 : readLE (load (encodeSuperblock s)) 100 8 = s.mtime_epoch % 2 ^ 64 := by
    rw [← pow_256_8]
    exact readLE_field _ 14 _ _ _ (by simp) (by simp [fieldsWidth])
  have f15 : readLE (load (encodeSuperblock s)) 108 4 = s.flags % 2 ^ 32 := by
    rw [← pow_256_4]
    exact readLE_field _ 15 _ _ _ (by simp) (by simp [fieldsWidth])
  have f16 : readLE (load (encodeSuperblock s)) 112 4 = s.checksum % 2 ^ 32 := by
    rw [← pow_256_4]
    exact readLE_field _ 16 _ _ _ (by simp) (by simp [fieldsWidth])
  simp only [decodeSuperblock, truncSuperblock, Nat.zero_add, f0, f1, f2, f3, f4, f5, f6, f7, f8, f9, f10, f11, f12, f13, f14, f15, f16]

/-! ## The scans of the bitmaps -/

theorem find_free_inode_from_full (m : Mem) (bitmap i fuel : Nat)
    (h : ∀ j, i ≤ j → j < i + fuel → bit_at m bitmap j = true) :
    find_free_inode_from m bitmap i fuel = 0xFFFFFFFF := by
  induction fuel generalizing i with
  | zero => rfl
  | succ fuel ih =>
    unfold find_free_inode_from
    have hi : ¬ bit_and m bitmap i = 0 := by
      rw [bit_and_eq_zero, h i (Nat.le_refl i) (by omega)]
      simp
    rw [if_neg hi]
    exact ih (i + 1) (fun j h1 h2 => h j (by omega) (by omega))



/-! ## The checks of the two programs -/


theorem format_of_valid (size_kib inode_count now : Nat) (stack : Mem) (readable : Nat)
    (h : ValidParams size_kib inode_count) (hr : BS - 4 ≤ readable) :
    format size_kib inode_count now stack readable =
      .ok (formatted size_kib inode_count now stack) := by
  obtain ⟨h1, h2, h3, h4, h5⟩ := h
  have e1 : (size_kib * 1024) % 2 ^ 64 / BS = size_kib / 4 := by simp only [BS]; omega
  have e2 : (inode_count * INODE_SIZE + BS - 1) % 2 ^ 64 / BS = table_blocks inode_count := by
    simp only [BS, INODE_SIZE, table_blocks]; omega
  have e3 : (1 + 1 + 1 + table_blocks inode_count) % 2 ^ 64 = 3 + table_blocks inode_count := by
    simp only [table_blocks]; omega
  have c1 : ¬ (size_kib = 0 ∨ inode_count = 0) := by omega
  have c2 : ¬ (size_kib < 180 ∨ size_kib > 4096 ∨ size_kib % 4 ≠ 0) := by omega
  have c3 : ¬ (inode_count < 128 ∨ inode_count > 512) := by omega
  have c4 : ¬ ((1 + 1 + 1 + (inode_count * INODE_SIZE + BS - 1) % 2 ^ 64 / BS) % 2 ^ 64 ≥
      (size_kib * 1024) % 2 ^ 64 / BS) := by
    rw [e1, e2, e3]; simp only [table_blocks]; omega
  have c5 : ¬ readable < BS - 4 := by omega
  unfold format
  refine (if_neg c1).trans ((if_neg c2).trans ((if_neg c3).trans ((if_neg c4).trans
    ((if_neg c5).trans ?_))))
  simp only [e1, e2, e3, formatted]

/-- for parameters it accepts, the builder is killed in the checksum of the
superblock when fewer than `BS - 4` bytes can be read from the local variable -/
theorem format_killed (size_kib inode_count now : Nat) (stack : Mem) (readable : Nat)
    (h : ValidParams size_kib inode_count) (hr : readable < BS - 4) :
    format size_kib inode_count now stack readable = .error .segmentationFault := by
  obtain ⟨h1, h2, h3, h4, h5⟩ := h
  have c1 : ¬ (size_kib = 0 ∨ inode_count = 0) := by omega
  have c2 : ¬ (size_kib < 180 ∨ size_kib > 4096 ∨ size_kib % 4 ≠ 0) := by omega
  have c3 : ¬ (inode_count < 128 ∨ inode_count > 512) := by omega
  have c4 : ¬ ((1 + 1 + 1 + (inode_count * INODE_SIZE + BS - 1) % 2 ^ 64 / BS) % 2 ^ 64 ≥
      (size_kib * 1024) % 2 ^ 64 / BS) := by
    simp only [BS, INODE_SIZE]; omega
  unfold format
  exact (if_neg c1).trans ((if_neg c2).trans ((if_neg c3).trans ((if_neg c4).trans
    (if_pos hr))))

/-- for parameters it does not accept, the builder stops at one of its checks,
before it creates the output file -/
theorem format_of_invalid_early (size_kib inode_count now : Nat) (stack : Mem)
    (readable : Nat) (h : ¬ ValidParams size_kib inode_count) :
    format size_kib inode_count now stack readable = .error .missingArgument ∨
    format size_kib inode_count now stack readable = .error .badSize ∨
    format size_kib inode_count now stack readable = .error .badInodeCount := by
  unfold format
  by_cases c1 : size_kib = 0 ∨ inode_count = 0
  · exact Or.inl (if_pos c1)
  by_cases c2 : size_kib < 180 ∨ size_kib > 4096 ∨ size_kib % 4 ≠ 0
  · exact Or.inr (Or.inl ((if_neg c1).trans (if_pos c2)))
  by_cases c3 : inode_count < 128 ∨ inode_count > 512
  · exact Or.inr (Or.inr ((if_neg c1).trans ((if_neg c2).trans (if_pos c3))))
  exfalso
  apply h
  unfold ValidParams
  omega

theorem format_of_invalid (size_kib inode_count now : Nat) (stack : Mem) (readable : Nat)
    (h : ¬ ValidParams size_kib inode_count) :
    ∃ e, format size_kib inode_count now stack readable = .error e ∧
      e ≠ .segmentationFault := by
  rcases format_of_invalid_early size_kib inode_count now stack readable h with e | e | e
  · exact ⟨_, e, by intro c; cases c⟩
  · exact ⟨_, e, by intro c; cases c⟩
  · exact ⟨_, e, by intro c; cases c⟩

/-- an image the builder writes is the image of parameters it accepts, and the
builder could read the `BS - 4` bytes of its checksum -/
theorem format_ok (size_kib inode_count now : Nat) (stack : Mem) (readable : Nat)
    (img : List Nat) (h : format size_kib inode_count now stack readable = .ok img) :
    ValidParams size_kib inode_count ∧ BS - 4 ≤ readable ∧
      img = formatted size_kib inode_count now stack := by
  by_cases hv : ValidParams size_kib inode_count
  · by_cases hr : BS - 4 ≤ readable
    · rw [format_of_valid size_kib inode_count now stack readable hv hr] at h
      exact ⟨hv, hr, (Except.ok.inj h).symm⟩
    · rw [format_killed size_kib inode_count now stack readable hv (by omega)] at h
      cases h
  · obtain ⟨e, he, -⟩ := format_of_invalid size_kib inode_count now stack readable hv
    rw [he] at h
    cases h

theorem metadata_fits (size_kib inode_count : Nat) :
    ValidParams size_kib inode_count ↔
      (180 ≤ size_kib ∧ size_kib ≤ 4096 ∧ size_kib % 4 = 0 ∧
        128 ≤ inode_count ∧ inode_count ≤ 512 ∧
        3 + (inode_count * 128 + 4095) / 4096 < size_kib / 4) := by
  unfold ValidParams
  omega

/-- the outcomes of the builder: it writes an image exactly for the parameters
in range (180 ≤ size_kib ≤ 4096, a multiple of 4, 128 ≤ inode_count ≤ 512)
whose metadata footprint 3 + ceil(inode_count * 128 / 4096) is smaller than
total_blocks = size_kib / 4, when the `BS - 4` bytes its checksum reads from
the local variable are mapped; it is killed, the output file created and empty,
for those parameters when they are not; and for every other pair it stops with
an error before the output file is created. -/
theorem format_outcome (size_kib inode_count now : Nat) (stack : Mem) (readable : Nat) :
    ((∃ img, format size_kib inode_count now stack readable = .ok img) ↔
      ((180 ≤ size_kib ∧ size_kib ≤ 4096 ∧ size_kib % 4 = 0 ∧
        128 ≤ inode_count ∧ inode_count ≤ 512 ∧
        3 + (inode_count * 128 + 4095) / 4096 < size_kib / 4) ∧ BS - 4 ≤ readable)) ∧
    (format size_kib inode_count now stack readable = .error .segmentationFault ↔
      ((180 ≤ size_kib ∧ size_kib ≤ 4096 ∧ size_kib % 4 = 0 ∧
        128 ≤ inode_count ∧ inode_count ≤ 512 ∧
        3 + (inode_count * 128 + 4095) / 4096 < size_kib / 4) ∧ readable < BS - 4)) ∧
    ((∃ e, format size_kib inode_count now stack readable = .error e ∧
        e ≠ .segmentationFault) ↔
      ¬ (180 ≤ size_kib ∧ size_kib ≤ 4096 ∧ size_kib % 4 = 0 ∧
        128 ≤ inode_count ∧ inode_count ≤ 512 ∧
        3 + (inode_count * 128 + 4095) / 4096 < size_kib / 4)) := by
  rw [← metadata_fits]
  by_cases h : ValidParams size_kib inode_count
  · by_cases hr : BS - 4 ≤ readable
    · have e := format_of_valid size_kib inode_count now stack readable h hr
      refine ⟨⟨fun _ => ⟨h, hr⟩, fun _ => ⟨_, e⟩⟩, ⟨fun hx => ?_, fun hx => ?_⟩,
        ⟨fun ⟨x, hx, _⟩ => ?_, fun h' => absurd h h'⟩⟩
      · rw [e] at hx
        cases hx
      · omega
      · rw [e] at hx
        cases hx
    · have e := format_killed size_kib inode_count now stack readable h (by omega)
      refine ⟨⟨fun ⟨x, hx⟩ => ?_, fun hx => absurd hx.2 hr⟩, ⟨fun _ => ⟨h, by omega⟩, fun _ => e⟩,
        ⟨fun ⟨x, hx, hne⟩ => ?_, fun h' => absurd h h'⟩⟩
      · rw [e] at hx
        cases hx
      · rw [e] at hx
        exact absurd (Except.error.inj hx).symm hne
  · obtain ⟨x, e, hne⟩ := format_of_invalid size_kib inode_count now stack readable h
    refine ⟨⟨fun ⟨y, hy⟩ => ?_, fun h' => absurd h'.1 h⟩, ⟨fun hx => ?_, fun h' => absurd h'.1 h⟩,
      ⟨fun _ => h, fun _ => ⟨x, e, hne⟩⟩⟩
    · rw [e] at hy
      cases hy
    · rw [e] at hx
      exact absurd (Except.error.inj hx) hne

/-- C6 (the defect): `--size-kib 180 --inodes 128` satisfies every condition
of the claim (in range, a multiple of 4, metadata footprint 7 smaller than
total_blocks 45), yet in a process in which 2048 bytes can be read from the
local variable `superblock` to the end of the stack the builder writes no
image: it is killed in `superblock_crc_finalize`, which reads 4092 bytes from
the 116-byte local, after the output file is created. -/
theorem format_killed_on_valid_parameters :
    (180 ≤ 180 ∧ 180 ≤ 4096 ∧ 180 % 4 = 0 ∧ 128 ≤ 128 ∧ 128 ≤ 512 ∧
      3 + (128 * 128 + 4095) / 4096 < 180 / 4) ∧
    format 180 128 0 (fun _ => 0) 2048 = .error .segmentationFault ∧
    ¬ ∃ img, format 180 128 0 (fun _ => 0) 2048 = .ok img := by
  have e := format_killed 180 128 0 (fun _ => 0) 2048 (by decide) (by decide)
  refine ⟨by decide, e, fun ⟨img, h⟩ => ?_⟩
  rw [e] at h
  cases h

theorem add_eq_of_loadable (img file_name content : List Nat) (now : Nat)
    (hsize : content.length ≤ 12 * 4096) (hload : Loadable img)
    (hmagic : (sb_of img).magic = MAGIC) :
    add img file_name content now =
      (add_to_buffer (buffer img) (sb_of img) file_name content
        (blocks_for content.length) now).map (fun m => dump m (image_size img)) := by
  have hb : (content.length + BS - 1) % 2 ^ 64 / BS = blocks_for content.length := by
    simp only [BS, blocks_for]; omega
  have h1 : ¬ (content.length + BS - 1) % 2 ^ 64 / BS > DIRECT_MAX := by
    simp only [BS, DIRECT_MAX]; omega
  have h2 : ¬ img.length < SB_SIZE := by have := hload.1; omega
  have h3 : ¬ (decodeSuperblock (load img) 0).magic ≠ MAGIC := by
    simpa [sb_of] using hmagic
  have h4 : ¬ img.length < (decodeSuperblock (load img) 0).total_blocks * BS % 2 ^ 64 := by
    have := hload.2; simp only [image_size, sb_of] at this; omega
  unfold add
  refine (if_neg h1).trans ((if_neg h2).trans ((if_neg h3).trans ((if_neg h4).trans ?_)))
  simp only [hb, buffer, sb_of, image_size]

/-- the size check of the adder comes first -/
theorem add_too_large (img file_name content : List Nat) (now : Nat)
    (hlen : 12 * 4096 < content.length) (hoff : content.length < 2 ^ 63) :
    add img file_name content now = .error .fileTooLarge := by
  unfold add
  exact if_pos (by simp only [BS, DIRECT_MAX]; omega)

/-- C8: a file longer than 12 * 4096 = 49152 bytes (its length, an `off_t`,
being below 2 ^ 63) makes the adder stop with the file-too-large error,
whatever the image is: the check precedes every access to the image, and no
output is written. -/
theorem add_file_too_large (img file_name content : List Nat) (now : Nat)
    (hlen : 12 * 4096 < content.length) (hoff : content.length < 2 ^ 63) :
    add img file_name content now = .error .fileTooLarge :=
  add_too_large img file_name content now hlen hoff

/-- C8, at a file of 49153 bytes added to an empty image file. -/
theorem add_file_too_large_witness :
    (12 * 4096 < (List.replicate 49153 0).length ∧ (List.replicate 49153 0).length < 2 ^ 63) ∧
      add [] [97] (List.replicate 49153 0) 0 = .error .fileTooLarge :=
  ⟨⟨by rw [List.length_replicate]; omega, by rw [List.length_replicate]; omega⟩,
    add_file_too_large [] [97] (List.replicate 49153 0) 0
      (by rw [List.length_replicate]; omega) (by rw [List.length_replicate]; omega)⟩

/-- C9: on an image with the right magic that can be loaded and whose inode
bitmap has every one of its first `inode_count` bits set, adding a file of at
most 12 blocks stops with the no-free-inode error; no output image is
written. -/
theorem add_no_free_inode (img file_name content : List Nat) (now : Nat)
    (hload : Loadable img) (hmagic : (sb_of img).magic = MAGIC)
    (hsize : content.length ≤ 12 * 4096)
    (hfull : ∀ i, i < (sb_of img).inode_count → inode_bit img i = true) :
    add img file_name content now = .error .noFreeInode := by
  rw [add_eq_of_loadable img file_name content now hsize hload hmagic]
  have hf : find_free_inode (buffer img) ((sb_of img).inode_bitmap_start * BS % 2 ^ 64)
      (sb_of img).inode_count = 0xFFFFFFFF := by
    apply find_free_inode_from_full
    intro j _ hj
    exact hfull j (by omega)
  have : add_to_buffer (buffer img) (sb_of img) file_name content
      (blocks_for content.length) now = .error .noFreeInode := by
    unfold add_to_buffer
    exact if_pos hf
  rw [this]
  rfl

/-! ## The bytes of a formatted image -/

theorem load_congr (l : List Nat) (a b : Nat) (h : a = b) : load l a = load l b := by
  rw [h]

theorem load_nil (x : Nat) : load [] x = 0 := by
  unfold load
  simp

theorem load_of_le (l : List Nat) (x : Nat) (h : l.length ≤ x) : load l x = 0 := by
  unfold load
  exact List.getD_eq_default _ _ h

theorem load_replicate_zero (n x : Nat) : load (List.replicate n 0) x = 0 := by
  unfold load
  rw [List.getD_eq_getElem?_getD, List.getElem?_replicate]
  split <;> rfl

theorem load_block_with (rec rest : List Nat) (x : Nat) (h : rec.length ≤ 4096) :
    load (block_with rec ++ rest) x =
      if x < rec.length then load rec x else if x < 4096 then 0 else load rest (x - 4096) := by
  unfold block_with
  simp only [BS]
  generalize hz : List.replicate (4096 - rec.length) 0 = z
  have hzl : z.length = 4096 - rec.length := by rw [← hz, List.length_replicate]
  have hz0 : ∀ y, load z y = 0 := by intro y; rw [← hz]; exact load_replicate_zero _ _
  by_cases h1 : x < rec.length
  · rw [if_pos h1, List.append_assoc, load_append_left _ _ _ h1]
  · rw [if_neg h1, List.append_assoc, load_append_right _ _ _ (by omega)]
    by_cases h2 : x < 4096
    · rw [if_pos h2, load_append_left _ _ _ (by omega), hz0]
    · rw [if_neg h2, load_append_right _ _ _ (by omega), hzl]
      (apply load_congr; omega)

theorem block_with_length (rec : List Nat) (h : rec.length ≤ 4096) :
    (block_with rec).length = 4096 := by
  unfold block_with
  simp only [BS, List.length_append, List.length_replicate]
  omega

theorem blocks_loop_length (first : List Nat) (b k : Nat) (h : first.length ≤ 4096) :
    (blocks_loop first b k).length = k * 4096 := by
  induction k generalizing b with
  | zero => simp [blocks_loop]
  | succ k ih =>
    simp only [blocks_loop, List.length_append, ih]
    split
    · rw [block_with_length _ h]; omega
    · rw [block_with_length _ (by simp)]; omega

theorem load_blocks_loop (first rest : List Nat) (b k x : Nat) (h : first.length ≤ 4096) :
    load (blocks_loop first b k ++ rest) x =
      if x < k * 4096 then (if b = 0 ∧ x < first.length then load first x else 0)
      else load rest (x - k * 4096) := by
  induction k generalizing b x with
  | zero => simp [blocks_loop]
  | succ k ih =>
    simp only [blocks_loop, List.append_assoc]
    by_cases hb : b = 0
    · rw [if_pos hb, load_block_with _ _ _ h, ih]
      subst hb
      split_ifs <;>
        first
        | (exfalso; omega)
        | (exfalso; exact And.left ‹False ∧ _›)
        | (apply load_congr; omega)
        | rfl
    · rw [if_neg hb, load_block_with _ _ _ (by simp), ih]
      simp only [List.length_nil, Nat.not_lt_zero, if_false]
      split_ifs <;>
        first
        | (exfalso; omega)
        | (exfalso; exact And.left ‹False ∧ _›)
        | (apply load_congr; omega)
        | rfl

theorem finalize_local_length (fin : Mem → Nat → Mem) (around : Mem) (rec : List Nat) :
    (finalize_local fin around rec).length = rec.length := by
  unfold finalize_local
  exact readBytes_length _ _ _

theorem encodeSuperblock_length (s : superblock_t) : (encodeSuperblock s).length = 116 := by
  unfold encodeSuperblock
  rw [encodeFields_length]
  simp [fieldsWidth]

theorem encodeInode_length (n : inode_t) : (encodeInode n).length = 128 := by
  unfold encodeInode
  rw [encodeFields_length]
  simp [fieldsWidth]

theorem nameField_length (name : List Nat) : (nameField name).length = 58 := by
  simp [nameField]

theorem encodeDirent_length (d : dirent64_t) : (encodeDirent d).length = 64 := by
  unfold encodeDirent
  simp [List.length_append, encodeFields_length, nameField_length, fieldsWidth]

theorem fmt_sb_bytes_length (size_kib inode_count now : Nat) (stack : Mem) :
    (fmt_sb_bytes size_kib inode_count now stack).length = 116 := by
  unfold fmt_sb_bytes
  rw [finalize_local_length, encodeSuperblock_length]

theorem root_inode_bytes_length (sb : superblock_t) : (root_inode_bytes sb).length = 128 := by
  unfold root_inode_bytes
  rw [finalize_local_length, encodeInode_length]

theorem dir_entry_bytes_length (name : List Nat) : (dir_entry_bytes name).length = 64 := by
  unfold dir_entry_bytes
  rw [finalize_local_length, encodeDirent_length]

theorem formatted_eq (size_kib inode_count now : Nat) (stack : Mem) :
    formatted size_kib inode_count now stack =
      block_with (fmt_sb_bytes size_kib inode_count now stack) ++ (block_with [1] ++
        (block_with [1] ++
          (blocks_loop (root_inode_bytes (fmt_sb size_kib inode_count now)) 0
              (table_blocks inode_count) ++
            (blocks_loop (dir_entry_bytes [46] ++ dir_entry_bytes [46, 46]) 0
              (size_kib / 4 - (3 + table_blocks inode_count)) ++ [])))) := by
  simp only [formatted, build_image, fmt_sb_bytes, root_inode_bytes, dir_entry_bytes, fmt_sb,
    List.append_assoc, List.append_nil]

set_option maxHeartbeats 1000000 in
/-- the byte at every offset of a formatted image -/
theorem load_formatted (size_kib inode_count now : Nat) (stack : Mem) (x : Nat)
    (hv : ValidParams size_kib inode_count) :
    load (formatted size_kib inode_count now stack) x =
      if x < 116 then load (fmt_sb_bytes size_kib inode_count now stack) x
      else if x = 4096 ∨ x = 8192 then 1
      else if 12288 ≤ x ∧ x < 12288 + 128 then
        load (root_inode_bytes (fmt_sb size_kib inode_count now)) (x - 12288)
      else if (3 + table_blocks inode_count) * 4096 ≤ x ∧
          x < (3 + table_blocks inode_count) * 4096 + 128 then
        load (dir_entry_bytes [46] ++ dir_entry_bytes [46, 46])
          (x - (3 + table_blocks inode_count) * 4096)
      else 0 := by
  obtain ⟨h1, h2, h3, h4, h5⟩ := hv
  have hT : 4 ≤ table_blocks inode_count ∧ table_blocks inode_count ≤ 16 := by
    unfold table_blocks; omega
  have hD : 1 ≤ size_kib / 4 - (3 + table_blocks inode_count) := by omega
  rw [formatted_eq, load_block_with _ _ _ (by rw [fmt_sb_bytes_length]; omega),
    load_block_with _ _ _ (by simp), load_block_with _ _ _ (by simp),
    load_blocks_loop _ _ _ _ _ (by rw [root_inode_bytes_length]; omega),
    load_blocks_loop _ _ _ _ _ (by
      rw [List.length_append, dir_entry_bytes_length, dir_entry_bytes_length]; omega),
    fmt_sb_bytes_length, root_inode_bytes_length, List.length_append, dir_entry_bytes_length,
    dir_entry_bytes_length, load_nil]
  simp only [List.length_singleton, eq_self_iff_true, true_and]
  have l1 : ∀ y, y < 1 → load [1] y = 1 := by
    intro y hy
    have : y = 0 := by omega
    subst this
    rfl
  split_ifs <;>
    first
    | omega
    | (apply load_congr; omega)
    | (apply l1; omega)

theorem formatted_length (size_kib inode_count now : Nat) (stack : Mem)
    (hv : ValidParams size_kib inode_count) :
    (formatted size_kib inode_count now stack).length = size_kib / 4 * 4096 := by
  obtain ⟨h1, h2, h3, h4, h5⟩ := hv
  have hT : 4 ≤ table_blocks inode_count ∧ table_blocks inode_count ≤ 16 := by
    unfold table_blocks; omega
  rw [formatted_eq]
  simp only [List.length_append, List.length_nil]
  rw [block_with_length _ (by rw [fmt_sb_bytes_length]; omega), block_with_length _ (by simp),
    blocks_loop_length _ _ _ (by rw [root_inode_bytes_length]; omega),
    blocks_loop_length _ _ _ (by
      rw [List.length_append, dir_entry_bytes_length, dir_entry_bytes_length]; omega)]
  omega

/-! ## The superblock of a formatted image -/

theorem load_readBytes (m : Mem) (a n x : Nat) (h : x < n) :
    load (readBytes m a n) x = m (a + x) := by
  unfold load
  exact readBytes_getD m a n x h

theorem writeAt_eq_load (m : Mem) (a : Nat) (bs : List Nat) (x : Nat)
    (hb : ∀ i, bs.getD i 0 < 256) (h1 : a ≤ x) (h2 : x < a + bs.length) :
    writeAt m a bs x = load bs (x - a) := by
  rw [writeAt_in _ _ _ _ h1 h2, Nat.mod_eq_of_lt (hb _)]
  rfl

theorem writeLE_out (m : Mem) (a w v x : Nat) (h : x < a ∨ a + w ≤ x) :
    writeLE m a w v x = m x := by
  unfold writeLE
  apply writeAt_out
  rw [leBytes_length]
  exact h

theorem superblock_crc_finalize_out (m : Mem) (sb x : Nat) (h : x < sb + 112 ∨ sb + 116 ≤ x) :
    superblock_crc_finalize m sb x = m x := by
  unfold superblock_crc_finalize
  rw [writeLE_out _ _ _ _ _ (by omega), writeLE_out _ _ _ _ _ (by omega)]

theorem load_fmt_sb_bytes (size_kib inode_count now : Nat) (stack : Mem) (x : Nat)
    (h : x < 112) :
    load (fmt_sb_bytes size_kib inode_count now stack) x =
      load (encodeSuperblock (fmt_sb size_kib inode_count now)) x := by
  unfold fmt_sb_bytes finalize_local
  rw [load_readBytes _ _ _ _ (by rw [encodeSuperblock_length]; omega),
    superblock_crc_finalize_out _ _ _ (by omega),
    writeAt_eq_load _ _ (encodeSuperblock _) _ (fun i => encodeFields_lt _ i) (by omega)
      (by rw [encodeSuperblock_length]; omega)]
  exact load_congr _ _ _ (by omega)

theorem readLE_formatted_sb (size_kib inode_count now : Nat) (stack : Mem) (off w : Nat)
    (hv : ValidParams size_kib inode_count) (h : off + w ≤ 112) :
    readLE (load (formatted size_kib inode_count now stack)) off w =
      readLE (load (encodeSuperblock (fmt_sb size_kib inode_count now))) off w := by
  apply readLE_congr
  intro x h1 h2
  rw [load_formatted _ _ _ _ _ hv, if_pos (by omega), load_fmt_sb_bytes _ _ _ _ _ (by omega)]

theorem table_blocks_bounds (inode_count : Nat) (h4 : 128 ≤ inode_count)
    (h5 : inode_count ≤ 512) :
    4 ≤ table_blocks inode_count ∧ table_blocks inode_count ≤ 16 ∧
      inode_count * 128 ≤ table_blocks inode_count * 4096 := by
  unfold table_blocks
  omega

theorem sb_of_formatted (size_kib inode_count now : Nat) (stack : Mem)
    (hv : ValidParams size_kib inode_count) :
    sb_of (formatted size_kib inode_count now stack) =
      { fmt_sb size_kib inode_count now with
        checksum := readLE (load (formatted size_kib inode_count now stack)) 112 4 } := by
  have key := readLE_formatted_sb size_kib inode_count now stack
  have hdec := decode_encode_superblock (fmt_sb size_kib inode_count now)
  simp only [decodeSuperblock, truncSuperblock, Nat.zero_add, superblock_t.mk.injEq] at hdec
  obtain ⟨d0, d1, d2, d3, d4, d5, d6, d7, d8, d9, d10, d11, d12, d13, d14, d15, -⟩ := hdec
  obtain ⟨h1, h2, h3, h4, h5⟩ := hv
  have hT := table_blocks_bounds inode_count h4 h5
  have hv : ValidParams size_kib inode_count := ⟨h1, h2, h3, h4, h5⟩
  simp only [sb_of, decodeSuperblock, Nat.zero_add]
  rw [key 0 4 hv (by omega), key 4 4 hv (by omega), key 8 4 hv (by omega),
    key 12 8 hv (by omega), key 20 8 hv (by omega), key 28 8 hv (by omega),
    key 36 8 hv (by omega), key 44 8 hv (by omega), key 52 8 hv (by omega),
    key 60 8 hv (by omega), key 68 8 hv (by omega), key 76 8 hv (by omega),
    key 84 8 hv (by omega), key 92 8 hv (by omega), key 100 8 hv (by omega),
    key 108 4 hv (by omega), d0, d1, d2, d3, d4, d5, d6, d7, d8, d9, d10, d11, d12, d13, d14,
    d15]
  simp only [fmt_sb, mk_superblock, superblock_t.mk.injEq, MAGIC, BS, and_true]
  refine ⟨by norm_num, by norm_num, by norm_num, ?_, ?_, by norm_num, by norm_num, by norm_num,
    by norm_num, by norm_num, ?_, ?_, ?_, by norm_num, ?_, by norm_num⟩ <;> omega

/-! ## The layout and the root directory of a formatted image -/

/-- C4: for valid parameters, every image the builder writes (it writes one
whenever the 4092 bytes its superblock checksum reads from the local variable
can be read; otherwise it is killed before the first block is written) has
exactly total_blocks * 4096 bytes, and its superblock describes five regions
that partition it: block 0, the inode bitmap [1, 2), the data bitmap [2, 3),
the inode table [3, 3 + T) with T = ceil(inode_count * 128 / 4096) and the
data region [3 + T, total_blocks), with total_blocks = size_kib / 4; every
region starts where the previous one ends, the lengths sum to total_blocks and
the data region is not empty. -/
theorem format_layout (size_kib inode_count now : Nat) (stack : Mem) (readable : Nat)
    (hv : ValidParams size_kib inode_count) :
    (BS - 4 ≤ readable → ∃ img, format size_kib inode_count now stack readable = .ok img) ∧
    ∀ img, format size_kib inode_count now stack readable = .ok img →
      img.length = (sb_of img).total_blocks * 4096 ∧
      (sb_of img).total_blocks = size_kib / 4 ∧
      (sb_of img).inode_bitmap_start = 1 ∧
      (sb_of img).inode_bitmap_blocks = 1 ∧
      (sb_of img).data_bitmap_start =
        (sb_of img).inode_bitmap_start + (sb_of img).inode_bitmap_blocks ∧
      (sb_of img).data_bitmap_blocks = 1 ∧
      (sb_of img).inode_table_start =
        (sb_of img).data_bitmap_start + (sb_of img).data_bitmap_blocks ∧
      (sb_of img).inode_table_blocks = (inode_count * 128 + 4095) / 4096 ∧
      (sb_of img).data_region_start =
        (sb_of img).inode_table_start + (sb_of img).inode_table_blocks ∧
      (sb_of img).data_region_start + (sb_of img).data_region_blocks =
        (sb_of img).total_blocks ∧
      1 + (sb_of img).inode_bitmap_blocks + (sb_of img).data_bitmap_blocks +
        (sb_of img).inode_table_blocks + (sb_of img).data_region_blocks =
        (sb_of img).total_blocks ∧
      1 ≤ (sb_of img).data_region_blocks := by
  refine ⟨fun hr => ⟨_, format_of_valid size_kib inode_count now stack readable hv hr⟩,
    fun img hok => ?_⟩
  obtain ⟨-, -, e⟩ := format_ok size_kib inode_count now stack readable img hok
  subst e
  rw [sb_of_formatted _ _ _ _ hv, formatted_length _ _ _ _ hv]
  obtain ⟨h1, h2, h3, h4, h5⟩ := hv
  have hT := table_blocks_bounds inode_count h4 h5
  simp only [fmt_sb, mk_superblock]
  unfold table_blocks at hT ⊢
  refine ⟨?_, ?_, ?_, ?_, ?_, ?_, ?_, ?_, ?_, ?_, ?_, ?_⟩ <;> first | trivial | omega

/-- C4, at `--size-kib 180 --inodes 128`, the 4092 bytes being readable. -/
theorem format_layout_witness :
    ValidParams 180 128 ∧
    ∃ img, format 180 128 0 (fun _ => 0) 4092 = .ok img ∧
      img.length = (sb_of img).total_blocks * 4096 ∧
      (sb_of img).total_blocks = 180 / 4 ∧
      (sb_of img).inode_bitmap_start = 1 ∧
      (sb_of img).inode_bitmap_blocks = 1 ∧
      (sb_of img).data_bitmap_start =
        (sb_of img).inode_bitmap_start + (sb_of img).inode_bitmap_blocks ∧
      (sb_of img).data_bitmap_blocks = 1 ∧
      (sb_of img).inode_table_start =
        (sb_of img).data_bitmap_start + (sb_of img).data_bitmap_blocks ∧
      (sb_of img).inode_table_blocks = (128 * 128 + 4095) / 4096 ∧
      (sb_of img).data_region_start =
        (sb_of img).inode_table_start + (sb_of img).inode_table_blocks ∧
      (sb_of img).data_region_start + (sb_of img).data_region_blocks =
        (sb_of img).total_blocks ∧
      1 + (sb_of img).inode_bitmap_blocks + (sb_of img).data_bitmap_blocks +
        (sb_of img).inode_table_blocks + (sb_of img).data_region_blocks =
        (sb_of img).total_blocks ∧
      1 ≤ (sb_of img).data_region_blocks :=
  ⟨by decide, _, format_of_valid 180 128 0 (fun _ => 0) 4092 (by decide) (by decide),
    (format_layout 180 128 0 (fun _ => 0) 4092 (by decide)).2 _
      (format_of_valid 180 128 0 (fun _ => 0) 4092 (by decide) (by decide))⟩

theorem decodeDirent_shift (m m' : Mem) (a b : Nat)
    (h : ∀ i, i < 64 → m (a + i) = m' (b + i)) : decodeDirent m a = decodeDirent m' b := by
  unfold decodeDirent readLE
  have e1 : readBytes m a 4 = readBytes m' b 4 :=
    readBytes_shift _ _ _ _ _ (fun i hi => h i (by omega))
  have e2 : readBytes m (a + 4) 1 = readBytes m' (b + 4) 1 :=
    readBytes_shift _ _ _ _ _ (fun i hi => by
      rw [Nat.add_assoc, Nat.add_assoc]; exact h (4 + i) (by omega))
  have e3 : readBytes m (a + 5) 58 = readBytes m' (b + 5) 58 :=
    readBytes_shift _ _ _ _ _ (fun i hi => by
      rw [Nat.add_assoc, Nat.add_assoc]; exact h (5 + i) (by omega))
  have e4 : readBytes m (a + 63) 1 = readBytes m' (b + 63) 1 :=
    readBytes_shift _ _ _ _ _ (fun i hi => by
      rw [Nat.add_assoc, Nat.add_assoc]; exact h (63 + i) (by omega))
  rw [e1, e2, e3, e4]

set_option maxRecDepth 100000 in
theorem dot_bytes_eq :
    dir_entry_bytes [46] = [1, 0, 0, 0, 2, 46] ++ List.replicate 57 0 ++ [45] := by
  decide

set_option maxRecDepth 100000 in
theorem dotdot_bytes_eq :
    dir_entry_bytes [46, 46] = [1, 0, 0, 0, 2, 46, 46] ++ List.replicate 56 0 ++ [3] := by
  rfl


theorem load_formatted_root (size_kib inode_count now : Nat) (stack : Mem) (i : Nat)
    (hv : ValidParams size_kib inode_count) (hi : i < 128) :
    load (formatted size_kib inode_count now stack) ((3 + table_blocks inode_count) * 4096 + i) =
      load (dir_entry_bytes [46] ++ dir_entry_bytes [46, 46]) i := by
  have hT := table_blocks_bounds inode_count hv.2.2.2.1 hv.2.2.2.2
  rw [load_formatted _ _ _ _ _ hv, if_neg (by omega), if_neg (by omega), if_neg (by omega),
    if_pos (by omega)]
  exact load_congr _ _ _ (by omega)

theorem load_formatted_root_zero (size_kib inode_count now : Nat) (stack : Mem) (x : Nat)
    (hv : ValidParams size_kib inode_count)
    (h1 : (3 + table_blocks inode_count) * 4096 + 128 ≤ x) :
    load (formatted size_kib inode_count now stack) x = 0 := by
  have hT := table_blocks_bounds inode_count hv.2.2.2.1 hv.2.2.2.2
  rw [load_formatted _ _ _ _ _ hv, if_neg (by omega), if_neg (by omega), if_neg (by omega),
    if_neg (by omega)]

theorem formatted_drs (size_kib inode_count now : Nat) (stack : Mem)
    (hv : ValidParams size_kib inode_count) :
    (sb_of (formatted size_kib inode_count now stack)).data_region_start =
      3 + table_blocks inode_count := by
  have hT := table_blocks_bounds inode_count hv.2.2.2.1 hv.2.2.2.2
  rw [sb_of_formatted _ _ _ _ hv]
  simp only [fmt_sb, mk_superblock]
  omega

set_option maxRecDepth 100000 in
/-- the root directory block of the image the builder writes -/
theorem formatted_root_directory (size_kib inode_count now : Nat) (stack : Mem)
    (hv : ValidParams size_kib inode_count) :
    root_dirent (formatted size_kib inode_count now stack) 0 =
      ⟨1, TYPE_DIR, 46 :: List.replicate 57 0, 45⟩ ∧
    root_dirent (formatted size_kib inode_count now stack) 1 =
      ⟨1, TYPE_DIR, 46 :: 46 :: List.replicate 56 0, 3⟩ ∧
    (root_dirent (formatted size_kib inode_count now stack) 0).checksum =
      xor_fold (readBytes (load (formatted size_kib inode_count now stack))
        ((sb_of (formatted size_kib inode_count now stack)).data_region_start * BS) 63) ∧
    (root_dirent (formatted size_kib inode_count now stack) 1).checksum =
      xor_fold (readBytes (load (formatted size_kib inode_count now stack))
        ((sb_of (formatted size_kib inode_count now stack)).data_region_start * BS + 64) 63) ∧
    (∀ x, (sb_of (formatted size_kib inode_count now stack)).data_region_start * BS + 128 ≤ x →
      x < (sb_of (formatted size_kib inode_count now stack)).data_region_start * BS + BS →
      load (formatted size_kib inode_count now stack) x = 0) ∧
    (∀ slot, 2 ≤ slot → slot < 64 →
      (root_dirent (formatted size_kib inode_count now stack) slot).inode_no = 0) := by
  have hdrs := formatted_drs size_kib inode_count now stack hv
  have e0 : ∀ i, i < 64 → load (formatted size_kib inode_count now stack)
      ((3 + table_blocks inode_count) * 4096 + i) = load (dir_entry_bytes [46]) (0 + i) := by
    intro i hi
    rw [load_formatted_root _ _ _ _ _ hv (by omega),
      load_append_left _ _ _ (by rw [dir_entry_bytes_length]; omega), Nat.zero_add]
  have e1 : ∀ i, i < 64 → load (formatted size_kib inode_count now stack)
      ((3 + table_blocks inode_count) * 4096 + 64 + i) =
        load (dir_entry_bytes [46, 46]) (0 + i) := by
    intro i hi
    rw [Nat.add_assoc, load_formatted_root _ _ _ _ _ hv (by omega),
      load_append_right _ _ _ (by rw [dir_entry_bytes_length]; omega), dir_entry_bytes_length]
    exact load_congr _ _ _ (by omega)
  simp only [root_dirent, hdrs, BS, DIRENT_SIZE, Nat.mul_zero, Nat.add_zero, Nat.mul_one]
  refine ⟨?_, ?_, ?_, ?_, ?_, ?_⟩
  · rw [decodeDirent_shift _ _ _ _ e0, dot_bytes_eq]
    rfl
  · rw [decodeDirent_shift _ _ _ _ e1, dotdot_bytes_eq]
    rfl
  · rw [decodeDirent_shift _ _ _ _ e0,
      readBytes_shift _ _ _ 0 63 (fun i hi => e0 i (by omega)), dot_bytes_eq]
    rfl
  · rw [decodeDirent_shift _ _ _ _ e1,
      readBytes_shift _ _ _ 0 63 (fun i hi => e1 i (by omega)), dotdot_bytes_eq]
    rfl
  · intro x h1 _
    exact load_formatted_root_zero _ _ _ _ _ hv h1
  · intro slot h1 h2
    have z : ∀ i, i < 4 → load (formatted size_kib inode_count now stack)
        ((3 + table_blocks inode_count) * 4096 + 64 * slot + i) = load [] (0 + i) := by
      intro i _
      rw [load_formatted_root_zero _ _ _ _ _ hv (by omega), load_nil]
    unfold decodeDirent readLE
    simp only []
    rw [readBytes_shift _ _ _ 0 4 z]
    rfl

/-- C7: for valid parameters, in every image the builder writes (it writes
one whenever the 4092 bytes its superblock checksum reads from the local
variable can be read; otherwise it is killed before the first block is
written) the first block of the data region holds the entry "." in slot 0 and
the entry ".." in slot 1, both with inode number 1 and type directory, each
with a checksum byte equal to the XOR of its first 63 bytes; every other byte
of the block is zero, so the other 62 slots are empty. -/
theorem format_root_directory (size_kib inode_count now : Nat) (stack : Mem)
    (readable : Nat) (hv : ValidParams size_kib inode_count) :
    (BS - 4 ≤ readable → ∃ img, format size_kib inode_count now stack readable = .ok img) ∧
    ∀ img, format size_kib inode_count now stack readable = .ok img →
      root_dirent img 0 = ⟨1, TYPE_DIR, 46 :: List.replicate 57 0, 45⟩ ∧
      root_dirent img 1 = ⟨1, TYPE_DIR, 46 :: 46 :: List.replicate 56 0, 3⟩ ∧
      (root_dirent img 0).checksum =
        xor_fold (readBytes (load img) ((sb_of img).data_region_start * BS) 63) ∧
      (root_dirent img 1).checksum =
        xor_fold (readBytes (load img) ((sb_of img).data_region_start * BS + 64) 63) ∧
      (∀ x, (sb_of img).data_region_start * BS + 128 ≤ x →
        x < (sb_of img).data_region_start * BS + BS → load img x = 0) ∧
      (∀ slot, 2 ≤ slot → slot < 64 → (root_dirent img slot).inode_no = 0) := by
  refine ⟨fun hr => ⟨_, format_of_valid size_kib inode_count now stack readable hv hr⟩,
    fun img hok => ?_⟩
  obtain ⟨-, -, e⟩ := format_ok size_kib inode_count now stack readable img hok
  subst e
  exact formatted_root_directory size_kib inode_count now stack hv

/-- C7, at `--size-kib 180 --inodes 128`, the 4092 bytes being readable. -/
theorem format_root_directory_witness :
    ValidParams 180 128 ∧
    ∃ img, format 180 128 0 (fun _ => 0) 4092 = .ok img ∧
      root_dirent img 0 = ⟨1, TYPE_DIR, 46 :: List.replicate 57 0, 45⟩ ∧
      root_dirent img 1 = ⟨1, TYPE_DIR, 46 :: 46 :: List.replicate 56 0, 3⟩ ∧
      (root_dirent img 0).checksum =
        xor_fold (readBytes (load img) ((sb_of img).data_region_start * BS) 63) ∧
      (root_dirent img 1).checksum =
        xor_fold (readBytes (load img) ((sb_of img).data_region_start * BS + 64) 63) ∧
      (∀ x, (sb_of img).data_region_start * BS + 128 ≤ x →
        x < (sb_of img).data_region_start * BS + BS → load img x = 0) ∧
      (∀ slot, 2 ≤ slot → slot < 64 → (root_dirent img slot).inode_no = 0) :=
  ⟨by decide, _, format_of_valid 180 128 0 (fun _ => 0) 4092 (by decide) (by decide),
    (format_root_directory 180 128 0 (fun _ => 0) 4092 (by decide)).2 _
      (format_of_valid 180 128 0 (fun _ => 0) 4092 (by decide) (by decide))⟩

/-! ## The checksum of the superblock the builder writes -/

set_option maxRecDepth 100000 in
theorem CRC32_TAB_lt : ∀ i, i < 256 → CRC32_TAB i < 2 ^ 32 := by
  decide

set_option maxRecDepth 100000 in
theorem CRC32_TAB_flip : ∀ i, i < 256 → CRC32_TAB (i ^^^ 1) ≠ CRC32_TAB i := by
  decide

theorem crc_update_lt (c b : Nat) (h : c < 2 ^ 32) : crc_update c b < 2 ^ 32 := by
  unfold crc_update
  apply Nat.xor_lt_two_pow
  · apply CRC32_TAB_lt
    exact Nat.and_lt_two_pow _ (by norm_num : 0xFF < 2 ^ 8)
  · rw [Nat.shiftRight_eq_div_pow]
    exact Nat.lt_of_le_of_lt (Nat.div_le_self _ _) h

theorem crc_fold_lt (l : List Nat) (c : Nat) (h : c < 2 ^ 32) :
    l.foldl crc_update c < 2 ^ 32 := by
  induction l generalizing c with
  | nil => exact h
  | cons b l ih => exact ih _ (crc_update_lt c b h)

theorem crc32_lt (l : List Nat) : crc32 l < 2 ^ 32 := by
  unfold crc32
  exact Nat.xor_lt_two_pow (crc_fold_lt l _ (by norm_num)) (by norm_num)

theorem readBytes_succ_last (m : Mem) (a n : Nat) :
    readBytes m a (n + 1) = readBytes m a n ++ [m (a + n)] := by
  induction n generalizing a with
  | zero => simp [readBytes]
  | succ n ih =>
    rw [readBytes, ih (a + 1), readBytes]
    simp only [List.cons_append]
    rw [show a + 1 + n = a + (n + 1) by omega]

/-- a flip of the last byte changes the CRC -/
theorem crc32_last_byte (l : List Nat) : crc32 (l ++ [1]) ≠ crc32 (l ++ [0]) := by
  unfold crc32
  rw [List.foldl_append, List.foldl_append]
  simp only [List.foldl_cons, List.foldl_nil]
  intro h
  rw [Nat.xor_left_inj] at h
  unfold crc_update at h
  rw [Nat.xor_left_inj, Nat.xor_zero, Nat.and_xor_distrib_right] at h
  exact CRC32_TAB_flip _ (Nat.and_lt_two_pow _ (by norm_num : 0xFF < 2 ^ 8)) h

/-- the checksum the builder stores: `crc32` over the 4092 bytes that start at
the local variable `superblock`, the record with a zero checksum followed by
what `main` has after it on its stack -/
theorem formatted_stored_checksum (size_kib inode_count now : Nat) (stack : Mem)
    (hv : ValidParams size_kib inode_count) :
    (sb_of (formatted size_kib inode_count now stack)).checksum =
      crc32 (readBytes (writeLE (writeAt stack 0
        (encodeSuperblock (fmt_sb size_kib inode_count now))) 112 4 0) 0 4092) := by
  rw [sb_of_formatted _ _ _ _ hv]
  simp only []
  have e : readLE (load (formatted size_kib inode_count now stack)) 112 4 =
      readLE (superblock_crc_finalize (writeAt stack 0
        (encodeSuperblock (fmt_sb size_kib inode_count now))) 0) 112 4 := by
    apply readLE_congr
    intro x h1 h2
    rw [load_formatted _ _ _ _ _ hv, if_pos (by omega)]
    unfold fmt_sb_bytes finalize_local
    rw [load_readBytes _ _ _ _ (by rw [encodeSuperblock_length]; omega), Nat.zero_add]
  rw [e]
  unfold superblock_crc_finalize
  simp only [Nat.zero_add, BS]
  rw [readLE_writeLE_same, pow_256_4, Nat.mod_eq_of_lt (crc32_lt _)]

/-- C5 fails on the builder: with `--size-kib 180 --inodes 128`, when the
4092 bytes from the start of the local variable `superblock` can be read and
the byte at offset 4091 is 1 (the other bytes after the record being 0), the
checksum stored in the image differs from
the CRC-32 recomputed over bytes 0..4091 of block 0 with the checksum bytes
zeroed. -/
theorem format_checksum_mismatch :
    ∃ img, format 180 128 0 (fun i => if i = 4091 then 1 else 0) 4092 = .ok img ∧
      (sb_of img).checksum ≠ recomputed_sb_checksum img := by
  have hv : ValidParams 180 128 := by decide
  have hT := table_blocks_bounds 128 (by omega) (by omega)
  refine ⟨_, format_of_valid 180 128 0 _ 4092 hv (by decide), ?_⟩
  rw [formatted_stored_checksum _ _ _ _ hv]
  unfold recomputed_sb_checksum
  have split : ∀ m : Mem, readBytes m 0 4092 = readBytes m 0 4091 ++ [m 4091] := by
    intro m
    have := readBytes_succ_last m 0 4091
    simpa using this
  rw [show BS - 4 = 4092 from rfl, split, split]
  have e1 : writeLE (writeAt (fun i => if i = 4091 then 1 else 0) 0
      (encodeSuperblock (fmt_sb 180 128 0))) 112 4 0 4091 = 1 := by
    rw [writeLE_out _ _ _ _ _ (by omega),
      writeAt_out _ _ _ _ (by rw [encodeSuperblock_length]; omega)]
    rfl
  have e2 : writeLE (load (formatted 180 128 0 (fun i => if i = 4091 then 1 else 0)))
      112 4 0 4091 = 0 := by
    rw [writeLE_out _ _ _ _ _ (by omega), load_formatted _ _ _ _ _ hv, if_neg (by omega),
      if_neg (by omega), if_neg (by omega), if_neg (by omega)]
  have e3 : readBytes (writeLE (writeAt (fun i => if i = 4091 then 1 else 0) 0
      (encodeSuperblock (fmt_sb 180 128 0))) 112 4 0) 0 4091 =
      readBytes (writeLE (load (formatted 180 128 0 (fun i => if i = 4091 then 1 else 0)))
        112 4 0) 0 4091 := by
    apply readBytes_congr
    intro x _ hx
    by_cases c1 : x < 112
    · rw [writeLE_out _ _ _ _ _ (by omega), writeLE_out _ _ _ _ _ (by omega),
        writeAt_eq_load _ _ (encodeSuperblock _) _ (fun i => encodeFields_lt _ i) (by omega)
          (by rw [encodeSuperblock_length]; omega),
        load_formatted _ _ _ _ _ hv, if_pos (by omega), load_fmt_sb_bytes _ _ _ _ _ c1]
      rfl
    by_cases c2 : x < 116
    · unfold writeLE
      rw [writeAt_in _ _ _ _ (by omega) (by rw [leBytes_length]; omega),
        writeAt_in _ _ _ _ (by omega) (by rw [leBytes_length]; omega)]
    · rw [writeLE_out _ _ _ _ _ (by omega), writeLE_out _ _ _ _ _ (by omega),
        writeAt_out _ _ _ _ (by rw [encodeSuperblock_length]; omega),
        load_formatted _ _ _ _ _ hv, if_neg (by omega), if_neg (by omega), if_neg (by omega),
        if_neg (by omega), if_neg (by omega)]
  rw [e1, e2, e3]
  exact crc32_last_byte _

/-! ## Bitmaps -/

theorem bit_at_congr (m m' : Mem) (bitmap i : Nat) (h : m (bitmap + i / 8) = m' (bitmap + i / 8)) :
    bit_at m bitmap i = bit_at m' bitmap i := by
  unfold bit_at
  rw [h]

theorem bit_and_congr (m m' : Mem) (bitmap i : Nat)
    (h : m (bitmap + i / 8) = m' (bitmap + i / 8)) :
    bit_and m bitmap i = bit_and m' bitmap i := by
  unfold bit_and
  rw [h]

theorem set_bit_out (m : Mem) (bitmap idx x : Nat) (h : x ≠ bitmap + idx / 8) :
    set_bit m bitmap idx x = m x := by
  unfold set_bit
  apply writeAt_out
  simp only [List.length_singleton]
  omega

theorem set_bit_in (m : Mem) (bitmap idx : Nat) :
    set_bit m bitmap idx (bitmap + idx / 8) =
      (m (bitmap + idx / 8) ||| 2 ^ (idx % 8)) % 256 := by
  unfold set_bit
  rw [writeAt_in _ _ _ _ (by omega) (by simp), Nat.sub_self, Nat.one_shiftLeft]
  rfl

/-- the bits of a bitmap after `set_bit` -/
theorem bit_at_set_bit (m : Mem) (bitmap idx j : Nat) :
    bit_at (set_bit m bitmap idx) bitmap j = (bit_at m bitmap j || decide (j = idx)) := by
  unfold bit_at
  by_cases h : j / 8 = idx / 8
  · rw [h, set_bit_in, show (256 : Nat) = 2 ^ 8 from rfl, Nat.testBit_mod_two_pow,
      Nat.testBit_or, Nat.testBit_two_pow]
    have h8 : j % 8 < 8 := Nat.mod_lt _ (by omega)
    simp only [h8, decide_True, Bool.true_and]
    congr 1
    by_cases h2 : idx % 8 = j % 8
    · have : j = idx := by omega
      simp [h2, this]
    · have : j ≠ idx := by intro e; subst e; exact h2 rfl
      simp [h2, this]
  · rw [set_bit_out _ _ _ _ (by omega)]
    have : j ≠ idx := by intro e; subst e; exact h rfl
    simp [this]

/-! ## The scans of the adder -/

/-- what `find_free_inode` returns: `-1` when every bit is set, else the
number of the first clear bit plus one -/
theorem find_free_inode_from_spec (m : Mem) (bitmap i fuel : Nat) :
    (find_free_inode_from m bitmap i fuel = 0xFFFFFFFF ∧
      ∀ j, i ≤ j → j < i + fuel → bit_at m bitmap j = true) ∨
    (∃ j, i ≤ j ∧ j < i + fuel ∧ bit_at m bitmap j = false ∧
      (∀ j', i ≤ j' → j' < j → bit_at m bitmap j' = true) ∧
      find_free_inode_from m bitmap i fuel = (j + 1) % 2 ^ 32) := by
  induction fuel generalizing i with
  | zero =>
    left
    exact ⟨rfl, fun j h1 h2 => by omega⟩
  | succ fuel ih =>
    unfold find_free_inode_from
    by_cases hb : bit_and m bitmap i = 0
    · right
      rw [if_pos hb]
      exact ⟨i, Nat.le_refl _, by omega, (bit_and_eq_zero _ _ _).mp hb,
        fun j' h1 h2 => by omega, rfl⟩
    · rw [if_neg hb]
      have hset : bit_at m bitmap i = true := by
        rw [bit_and_eq_zero] at hb
        simpa using hb
      rcases ih (i + 1) with ⟨e, hall⟩ | ⟨j, h1, h2, h3, h4, e⟩
      · left
        refine ⟨e, fun j h1 h2 => ?_⟩
        by_cases hj : j = i
        · rw [hj]; exact hset
        · exact hall j (by omega) (by omega)
      · right
        refine ⟨j, by omega, by omega, h3, fun j' h1' h2' => ?_, e⟩
        by_cases hj : j' = i
        · rw [hj]; exact hset
        · exact h4 j' (by omega) h2'

theorem clear_bits_succ (m : Mem) (bitmap i fuel : Nat) :
    clear_bits m bitmap i (fuel + 1) =
      if bit_at m bitmap i = false then i :: clear_bits m bitmap (i + 1) fuel
      else clear_bits m bitmap (i + 1) fuel := by
  unfold clear_bits
  rw [List.range'_succ, List.filter_cons]
  cases bit_at m bitmap i <;> simp

/-- the scan for data blocks collects the first `need` clear bits, in order -/
theorem scan_free_blocks_eq (m : Mem) (bitmap i fuel need : Nat) (h : i + fuel ≤ 2 ^ 32) :
    scan_free_blocks m bitmap i fuel need = (clear_bits m bitmap i fuel).take need := by
  induction fuel generalizing i need with
  | zero => simp [scan_free_blocks, clear_bits]
  | succ fuel ih =>
    cases need with
    | zero => simp [scan_free_blocks]
    | succ need =>
      unfold scan_free_blocks
      rw [clear_bits_succ]
      by_cases hb : bit_and m bitmap i = 0
      · rw [if_pos hb, if_pos ((bit_and_eq_zero _ _ _).mp hb), List.take_succ_cons,
          ih (i + 1) need (by omega), Nat.mod_eq_of_lt (by omega)]
      · rw [if_neg hb, if_neg (by rw [bit_and_eq_zero] at hb; exact hb),
          ih (i + 1) (need + 1) (by omega)]

theorem mem_clear_bits (m : Mem) (bitmap i fuel j : Nat) :
    j ∈ clear_bits m bitmap i fuel ↔ (i ≤ j ∧ j < i + fuel) ∧ bit_at m bitmap j = false := by
  unfold clear_bits
  rw [List.mem_filter, List.mem_range'_1]
  simp

theorem clear_bits_nodup (m : Mem) (bitmap i fuel : Nat) :
    (clear_bits m bitmap i fuel).Nodup := by
  unfold clear_bits
  exact (List.nodup_range' i fuel).filter _

/-! ## What the steps of the adder leave unchanged -/

theorem memset_zero (m : Mem) (a n x : Nat) :
    writeAt m a (List.replicate n 0) x = if a ≤ x ∧ x < a + n then 0 else m x := by
  unfold writeAt
  rw [List.length_replicate]
  split
  · have := load_replicate_zero n (x - a)
    unfold load at this
    rw [this]
  · rfl

theorem inode_crc_finalize_out (m : Mem) (ino x : Nat) (h : x < ino + 120 ∨ ino + 128 ≤ x) :
    inode_crc_finalize m ino x = m x := by
  unfold inode_crc_finalize
  exact writeLE_out _ _ _ _ _ (by omega)

theorem dirent_checksum_finalize_out (m : Mem) (de x : Nat) (h : x ≠ de + 63) :
    dirent_checksum_finalize m de x = m x := by
  unfold dirent_checksum_finalize
  apply writeAt_out
  simp only [List.length_singleton]
  omega

theorem clear_direct_out (ino i k : Nat) (m : Mem) (x : Nat)
    (h : x < ino + 44 + 4 * i ∨ ino + 44 + 4 * (i + k) ≤ x) :
    clear_direct ino i k m x = m x := by
  induction k generalizing i m with
  | zero => rfl
  | succ k ih =>
    unfold clear_direct
    rw [ih (i + 1) _ (by omega), writeLE_out _ _ _ _ _ (by omega)]

theorem int_to_u64_small (p : Nat) (h : p < 32768) : int_to_u64 p = p := by
  unfold int_to_u64
  rw [if_pos (by omega)]

theorem block_ptr_small (data_region fb : Nat) (h : fb < 32768) :
    data_region + fb * BS % 2 ^ 32 = data_region + fb * 4096 := by
  simp only [BS]
  omega

/-- one iteration of the copy loop, away from what it writes -/
theorem copy_blocks_out (drs dr db ino fs bn : Nat) (fbs : List Nat) (i : Nat) (rest : List Nat)
    (m : Mem) (x : Nat)
    (hs : ∀ fb ∈ fbs, fb < 32768)
    (h1 : x < ino + 44 + 4 * i ∨ ino + 44 + 4 * (i + fbs.length) ≤ x)
    (h2 : ∀ fb ∈ fbs, x < dr + fb * 4096 ∨ dr + fb * 4096 + 4096 ≤ x)
    (h3 : ∀ fb ∈ fbs, x ≠ db + fb / 8) :
    copy_blocks drs dr db ino fs bn i fbs rest m x = m x := by
  induction fbs generalizing i rest m with
  | nil => rfl
  | cons fb fbs ih =>
    unfold copy_blocks
    simp only [List.length_cons] at h1
    have hfb := hs fb (List.mem_cons_self _ _)
    rw [ih (i + 1) _ _ (fun f hf => hs f (List.mem_cons_of_mem _ hf)) (by omega)
        (fun f hf => h2 f (List.mem_cons_of_mem _ hf))
        (fun f hf => h3 f (List.mem_cons_of_mem _ hf)),
      set_bit_out _ _ _ _ (h3 fb (List.mem_cons_self _ _)), block_ptr_small _ _ hfb]
    have hb := h2 fb (List.mem_cons_self _ _)
    have hl : (List.take (bytes_to_read fs bn i) rest).length ≤ 4096 := by
      rw [List.length_take]
      unfold bytes_to_read
      simp only [BS]
      split <;> [split; skip] <;> omega
    rw [writeAt_out _ _ _ _ (by omega), memset_zero, if_neg (by simp only [BS]; omega),
      writeLE_out _ _ _ _ _ (by omega)]


/-! ## What the copy loop writes -/

/-- the bits of the data bitmap after the copy loop -/
theorem copy_blocks_bits (drs dr db ino fs bn : Nat) (fbs : List Nat) (i : Nat) (rest : List Nat)
    (m : Mem) (j : Nat)
    (hs : ∀ fb ∈ fbs, fb < 32768) (hj : j < 32768)
    (hino : db + 4096 ≤ ino) (hdr : db + 4096 ≤ dr) :
    bit_at (copy_blocks drs dr db ino fs bn i fbs rest m) db j =
      (bit_at m db j || decide (j ∈ fbs)) := by
  induction fbs generalizing i rest m with
  | nil => simp [copy_blocks]
  | cons fb fbs ih =>
    unfold copy_blocks
    have hfb := hs fb (List.mem_cons_self _ _)
    rw [ih (i + 1) _ _ (fun f hf => hs f (List.mem_cons_of_mem _ hf)), bit_at_set_bit,
      block_ptr_small _ _ hfb]
    have e : bit_at (writeAt (writeAt (writeLE m (ino + 44 + 4 * i) 4
        ((drs + int_to_u64 fb) % 2 ^ 64)) (dr + fb * 4096) (List.replicate BS 0))
        (dr + fb * 4096) (List.take (bytes_to_read fs bn i) rest)) db j = bit_at m db j := by
      apply bit_at_congr
      rw [writeAt_out _ _ _ _ (by omega), writeAt_out _ _ _ _ (by omega),
        writeLE_out _ _ _ _ _ (by omega)]
    rw [e]
    by_cases h1 : j = fb
    · simp [h1]
    · simp [h1]

theorem writeAt_over_zero (m : Mem) (a : Nat) (l : List Nat) (x : Nat) (h1 : a ≤ x)
    (h2 : x < a + l.length ∨ m x = 0) : writeAt m a l x = l.getD (x - a) 0 % 256 := by
  by_cases h : x < a + l.length
  · exact writeAt_in _ _ _ _ h1 h
  · rw [writeAt_out _ _ _ _ (by omega), List.getD_eq_default _ _ (by omega)]
    rcases h2 with h2 | h2
    · omega
    · rw [h2]

theorem blocks_for_spec (s : Nat) :
    4096 * (blocks_for s - 1) < s + (if s = 0 then 1 else 0) ∧ s ≤ 4096 * blocks_for s := by
  unfold blocks_for
  split <;> omega

/-- the bytes the copy loop asks `fread` for in iteration `i` are those of the
file from offset `4096 * i` on, up to the end of the block or of the file -/
theorem chunk_getD (content : List Nat) (i o : Nat) (hi : i < blocks_for content.length)
    (ho : o < 4096) :
    ((content.drop (4096 * i)).take
      (bytes_to_read content.length (blocks_for content.length) i)).getD o 0 =
      content.getD (4096 * i + o) 0 := by
  have hspec := blocks_for_spec content.length
  rw [List.getD_eq_getElem?_getD, List.getD_eq_getElem?_getD, List.getElem?_take,
    List.getElem?_drop]
  split
  · rfl
  · rename_i hn
    unfold bytes_to_read at hn
    simp only [BS] at hn
    have hge : content.length ≤ 4096 * i + o := by
      have h0 : content.length ≠ 0 := by
        intro h0
        rw [h0] at hi
        simp [blocks_for] at hi
      rw [if_neg h0] at hspec
      unfold blocks_for at hi hspec hn
      split at hn
      · split at hn <;> omega
      · omega
    rw [List.getElem?_eq_none hge]

/-- the content of the blocks the copy loop fills -/
theorem copy_blocks_block (drs dr db ino : Nat) (content : List Nat) (fbs : List Nat)
    (i : Nat) (m : Mem) (p o : Nat)
    (hs : ∀ fb ∈ fbs, fb < 32768) (hnd : fbs.Nodup)
    (hk : i + fbs.length = blocks_for content.length) (h12 : blocks_for content.length ≤ 12)
    (hino : ino + 128 ≤ dr) (hdb : db + 4096 ≤ dr) (hp : p < fbs.length) (ho : o < 4096) :
    copy_blocks drs dr db ino content.length (blocks_for content.length) i fbs
      (content.drop (4096 * i)) m (dr + fbs.getD p 0 * 4096 + o) =
      content.getD (4096 * (i + p) + o) 0 % 256 := by
  induction fbs generalizing i m p with
  | nil => simp at hp
  | cons fb fbs ih =>
    unfold copy_blocks
    have hfb := hs fb (List.mem_cons_self _ _)
    have hs' : ∀ f ∈ fbs, f < 32768 := fun f hf => hs f (List.mem_cons_of_mem _ hf)
    simp only [List.length_cons] at hk hp
    rw [List.nodup_cons] at hnd
    cases p with
    | zero =>
      simp only [List.getD_cons_zero, Nat.add_zero]
      rw [copy_blocks_out _ _ _ _ _ _ _ _ _ _ _ hs' (by omega)
          (fun f hf => by
            have : f ≠ fb := fun e => hnd.1 (e ▸ hf)
            omega)
          (fun f hf => by have := hs' f hf; omega),
        set_bit_out _ _ _ _ (by omega), block_ptr_small _ _ hfb,
        writeAt_over_zero _ _ _ _ (by omega)
          (Or.inr (by rw [memset_zero, if_pos (by simp only [BS]; omega)])),
        show dr + fb * 4096 + o - (dr + fb * 4096) = o by omega,
        chunk_getD content i o (by omega) ho]
    | succ p =>
      simp only [List.getD_cons_succ]
      have hlast : i ≠ blocks_for content.length - 1 := by omega
      have hn : bytes_to_read content.length (blocks_for content.length) i = 4096 := by
        unfold bytes_to_read
        rw [if_neg hlast]
        rfl
      rw [hn, List.drop_drop, show 4096 * i + 4096 = 4096 * (i + 1) by omega,
        ih (i + 1) _ p hs' hnd.2 (by omega) (by omega),
        show i + 1 + p = i + (p + 1) by omega]

/-- the direct pointers the copy loop stores -/
theorem copy_blocks_direct (drs dr db ino fs bn : Nat) (fbs : List Nat) (i : Nat)
    (rest : List Nat) (m : Mem) (p : Nat)
    (hs : ∀ fb ∈ fbs, fb < 32768) (hino : ino + 128 ≤ dr) (hdb : db + 4096 ≤ ino)
    (h12 : i + fbs.length ≤ 12) (hp : p < fbs.length) :
    readLE (copy_blocks drs dr db ino fs bn i fbs rest m) (ino + 44 + 4 * (i + p)) 4 =
      (drs + fbs.getD p 0) % 2 ^ 64 % 2 ^ 32 := by
  induction fbs generalizing i rest m p with
  | nil => simp at hp
  | cons fb fbs ih =>
    unfold copy_blocks
    have hfb := hs fb (List.mem_cons_self _ _)
    have hs' : ∀ f ∈ fbs, f < 32768 := fun f hf => hs f (List.mem_cons_of_mem _ hf)
    simp only [List.length_cons] at h12 hp
    cases p with
    | zero =>
      simp only [List.getD_cons_zero, Nat.add_zero]
      have e : readLE (copy_blocks drs dr db ino fs bn (i + 1) fbs
          (List.drop (bytes_to_read fs bn i) rest)
          (set_bit (writeAt (writeAt (writeLE m (ino + 44 + 4 * i) 4
            ((drs + int_to_u64 fb) % 2 ^ 64)) (dr + fb * BS % 2 ^ 32) (List.replicate BS 0))
            (dr + fb * BS % 2 ^ 32) (List.take (bytes_to_read fs bn i) rest)) db fb))
          (ino + 44 + 4 * i) 4 =
          readLE (writeLE m (ino + 44 + 4 * i) 4 ((drs + int_to_u64 fb) % 2 ^ 64))
            (ino + 44 + 4 * i) 4 := by
        apply readLE_congr
        intro x h1 h2
        rw [copy_blocks_out _ _ _ _ _ _ _ _ _ _ _ hs' (by omega)
            (fun f hf => by omega) (fun f hf => by have := hs' f hf; omega),
          set_bit_out _ _ _ _ (by omega), block_ptr_small _ _ hfb,
          writeAt_out _ _ _ _ (by omega), writeAt_out _ _ _ _ (by omega)]
      rw [e, readLE_writeLE_same, int_to_u64_small _ hfb, pow_256_4]
    | succ p =>
      simp only [List.getD_cons_succ]
      rw [show i + (p + 1) = i + 1 + p by omega]
      exact ih (i + 1) _ _ p hs' (by omega) (by omega)

/-! ## The new inode -/

/-- the build of the new inode, away from what it writes -/
theorem build_inode_out (m : Mem) (drs dr db ino : Nat) (fbs content : List Nat)
    (bn now x : Nat)
    (hs : ∀ fb ∈ fbs, fb < 32768) (hl : fbs.length = bn) (h12 : bn ≤ 12)
    (h1 : x < ino ∨ ino + 128 ≤ x)
    (h2 : ∀ fb ∈ fbs, x < dr + fb * 4096 ∨ dr + fb * 4096 + 4096 ≤ x)
    (h3 : ∀ fb ∈ fbs, x ≠ db + fb / 8) :
    build_inode m drs dr db ino fbs content bn now x = m x := by
  unfold build_inode
  rw [List.take_of_length_le (by omega)]
  rw [inode_crc_finalize_out _ _ _ (by omega)]
  simp (disch := omega) only [writeLE_out]
  rw [clear_direct_out _ _ _ _ _ (by simp only [DIRECT_MAX]; omega),
    copy_blocks_out _ _ _ _ _ _ _ _ _ _ _ hs (by omega) h2 h3]
  simp (disch := omega) only [writeLE_out]
  rw [memset_zero, if_neg (by simp only [INODE_SIZE]; omega)]

/-- the bits of the data bitmap after the build of the new inode -/
theorem build_inode_bits (m : Mem) (drs dr db ino : Nat) (fbs content : List Nat)
    (bn now j : Nat)
    (hs : ∀ fb ∈ fbs, fb < 32768) (hl : fbs.length = bn) (h12 : bn ≤ 12) (hj : j < 32768)
    (hino : db + 4096 ≤ ino) (hdr : db + 4096 ≤ dr) :
    bit_at (build_inode m drs dr db ino fbs content bn now) db j =
      (bit_at m db j || decide (j ∈ fbs)) := by
  unfold build_inode
  rw [List.take_of_length_le (by omega)]
  have e1 : ∀ m' : Mem, bit_at (inode_crc_finalize (writeLE (writeLE (writeLE (writeLE (writeLE
      (writeLE (clear_direct ino bn (DIRECT_MAX - bn) m') (ino + 104) 4 0) (ino + 108) 4 0)
      (ino + 112) 8 0) (ino + 92) 4 0) (ino + 96) 4 0) (ino + 100) 4 0) ino) db j =
      bit_at m' db j := by
    intro m'
    apply bit_at_congr
    rw [inode_crc_finalize_out _ _ _ (by omega)]
    simp (disch := omega) only [writeLE_out]
    rw [clear_direct_out _ _ _ _ _ (by omega)]
  rw [e1, copy_blocks_bits _ _ _ _ _ _ _ _ _ _ _ hs hj hino hdr]
  congr 1
  apply bit_at_congr
  simp (disch := omega) only [writeLE_out]
  rw [memset_zero, if_neg (by omega)]

/-- the content of the data blocks after the build of the new inode -/
theorem build_inode_block (m : Mem) (drs dr db ino : Nat) (fbs content : List Nat)
    (now p o : Nat)
    (hs : ∀ fb ∈ fbs, fb < 32768) (hnd : fbs.Nodup)
    (hl : fbs.length = blocks_for content.length) (h12 : blocks_for content.length ≤ 12)
    (hino : ino + 128 ≤ dr) (hdb : db + 4096 ≤ dr) (hp : p < fbs.length) (ho : o < 4096) :
    build_inode m drs dr db ino fbs content (blocks_for content.length) now
      (dr + fbs.getD p 0 * 4096 + o) = content.getD (4096 * p + o) 0 % 256 := by
  unfold build_inode
  rw [List.take_of_length_le (by omega)]
  have hfb : fbs.getD p 0 < 32768 := by
    rw [List.getD_eq_getElem _ _ hp]
    exact hs _ (List.getElem_mem _)
  rw [inode_crc_finalize_out _ _ _ (by omega)]
  simp (disch := omega) only [writeLE_out]
  rw [clear_direct_out _ _ _ _ _ (by simp only [DIRECT_MAX]; omega)]
  have := copy_blocks_block drs dr db ino content fbs 0
    (writeLE (writeLE (writeLE (writeLE (writeLE (writeLE (writeLE (writeLE
      (writeAt m ino (List.replicate INODE_SIZE 0)) ino 2 MODE_FILE) (ino + 2) 2 1)
      (ino + 4) 4 0) (ino + 8) 4 0) (ino + 12) 8 content.length) (ino + 20) 8 now)
      (ino + 28) 8 now) (ino + 36) 8 now) p o hs hnd (by omega) h12 hino hdb hp ho
  simp only [Nat.mul_zero, List.drop_zero, Nat.zero_add] at this
  exact this

/-- the direct pointers of the new inode -/
theorem build_inode_direct (m : Mem) (drs dr db ino : Nat) (fbs content : List Nat)
    (bn now p : Nat)
    (hs : ∀ fb ∈ fbs, fb < 32768) (hl : fbs.length = bn) (h12 : bn ≤ 12)
    (hino : ino + 128 ≤ dr) (hdb : db + 4096 ≤ ino) (hp : p < bn) :
    readLE (build_inode m drs dr db ino fbs content bn now) (ino + 44 + 4 * p) 4 =
      (drs + fbs.getD p 0) % 2 ^ 64 % 2 ^ 32 := by
  unfold build_inode
  rw [List.take_of_length_le (by omega)]
  have e1 : ∀ m' : Mem, readLE (inode_crc_finalize (writeLE (writeLE (writeLE (writeLE (writeLE
      (writeLE (clear_direct ino bn (DIRECT_MAX - bn) m') (ino + 104) 4 0) (ino + 108) 4 0)
      (ino + 112) 8 0) (ino + 92) 4 0) (ino + 96) 4 0) (ino + 100) 4 0) ino)
      (ino + 44 + 4 * p) 4 = readLE m' (ino + 44 + 4 * p) 4 := by
    intro m'
    apply readLE_congr
    intro x h1 h2
    rw [inode_crc_finalize_out _ _ _ (by omega)]
    simp (disch := omega) only [writeLE_out]
    rw [clear_direct_out _ _ _ _ _ (by omega)]
  rw [e1]
  have := copy_blocks_direct drs dr db ino content.length bn fbs 0 content
    (writeLE (writeLE (writeLE (writeLE (writeLE (writeLE (writeLE (writeLE
      (writeAt m ino (List.replicate INODE_SIZE 0)) ino 2 MODE_FILE) (ino + 2) 2 1)
      (ino + 4) 4 0) (ino + 8) 4 0) (ino + 12) 8 content.length) (ino + 20) 8 now)
      (ino + 28) 8 now) (ino + 36) 8 now) p hs hino hdb (by omega) (by omega)
  simp only [Nat.zero_add] at this
  exact this

/-- the size of the new inode -/
theorem build_inode_size (m : Mem) (drs dr db ino : Nat) (fbs content : List Nat)
    (bn now : Nat)
    (hs : ∀ fb ∈ fbs, fb < 32768) (hl : fbs.length = bn) (h12 : bn ≤ 12)
    (hino : ino + 128 ≤ dr) (hdb : db + 4096 ≤ ino) :
    readLE (build_inode m drs dr db ino fbs content bn now) (ino + 12) 8 =
      content.length % 2 ^ 64 := by
  unfold build_inode
  rw [List.take_of_length_le (by omega)]
  have e1 : readLE (inode_crc_finalize (writeLE (writeLE (writeLE (writeLE (writeLE (writeLE
      (clear_direct ino bn (DIRECT_MAX - bn)
        (copy_blocks drs dr db ino content.length bn 0 fbs content
          (writeLE (writeLE (writeLE (writeLE (writeLE (writeLE (writeLE (writeLE
            (writeAt m ino (List.replicate INODE_SIZE 0)) ino 2 MODE_FILE) (ino + 2) 2 1)
            (ino + 4) 4 0) (ino + 8) 4 0) (ino + 12) 8 content.length) (ino + 20) 8 now)
            (ino + 28) 8 now) (ino + 36) 8 now)))
      (ino + 104) 4 0) (ino + 108) 4 0) (ino + 112) 8 0) (ino + 92) 4 0) (ino + 96) 4 0)
      (ino + 100) 4 0) ino) (ino + 12) 8 =
      readLE (writeLE (writeLE (writeLE (writeLE (writeLE
        (writeAt m ino (List.replicate INODE_SIZE 0)) ino 2 MODE_FILE) (ino + 2) 2 1)
        (ino + 4) 4 0) (ino + 8) 4 0) (ino + 12) 8 content.length) (ino + 12) 8 := by
    apply readLE_congr
    intro x h1 h2
    rw [inode_crc_finalize_out _ _ _ (by omega)]
    simp (disch := omega) only [writeLE_out]
    rw [clear_direct_out _ _ _ _ _ (by omega),
      copy_blocks_out _ _ _ _ _ _ _ _ _ _ _ hs (by omega) (fun f hf => by omega)
        (fun f hf => by have := hs f hf; omega)]
    simp (disch := omega) only [writeLE_out]
  rw [e1, readLE_writeLE_same, pow_256_8]

/-! ## The scan of the root directory -/

/-- `strcmp` finds the name when its bytes and a terminator are there -/
theorem strcmp_eq_of_bytes (m : Mem) (a : Nat) (name : List Nat)
    (h1 : ∀ i, i < name.length → m (a + i) = name.getD i 0) (h2 : m (a + name.length) = 0) :
    strcmp_eq m a name = true := by
  induction name generalizing a with
  | nil => simpa [strcmp_eq] using h2
  | cons c cs ih =>
    unfold strcmp_eq
    have h0 := h1 0 (by simp)
    simp only [Nat.add_zero, List.getD_cons_zero] at h0
    rw [h0, ih (a + 1) (fun i hi => by
        have := h1 (i + 1) (by simp; omega)
        rw [List.getD_cons_succ] at this
        rw [← this]
        exact congrArg m (by omega))
      (by rw [← h2]; exact congrArg m (by simp; omega))]
    simp

/-- `strcmp` on a name field that holds a NUL compares the bytes before the
first NUL with the name -/
theorem strcmp_eq_iff (m : Mem) (a n : Nat) (name : List Nat) (hn : IsName name)
    (hz : ∃ z, z < n ∧ m (a + z) = 0) :
    strcmp_eq m a name = true ↔ (readBytes m a n).takeWhile (fun b => b ≠ 0) = name := by
  induction name generalizing a n with
  | nil =>
    obtain ⟨z, hz1, hz2⟩ := hz
    cases n with
    | zero => omega
    | succ n =>
      simp only [strcmp_eq, readBytes, List.takeWhile_cons]
      by_cases h : m a = 0
      · simp [h]
      · simp [h]
  | cons c cs ih =>
    obtain ⟨z, hz1, hz2⟩ := hz
    have hc := hn c (List.mem_cons_self _ _)
    have hn' : IsName cs := fun b hb => hn b (List.mem_cons_of_mem _ hb)
    cases n with
    | zero => omega
    | succ n =>
      simp only [strcmp_eq, readBytes, List.takeWhile_cons]
      by_cases h : m a = 0
      · have : ¬ (0 = c) := by omega
        simp [h, this]
      · have hz0 : z ≠ 0 := by
          intro e
          rw [e, Nat.add_zero] at hz2
          exact h hz2
        have := ih (a + 1) n hn' ⟨z - 1, by omega, by
          rw [← hz2]; exact congrArg m (by omega)⟩
        simp only [h, ne_eq, not_false_eq_true, decide_True, ite_true, List.cons.injEq,
          Bool.and_eq_true, beq_iff_eq]
        rw [this]

/-- the scan stops with the duplicate-name error as soon as one non-empty entry
has the name -/
theorem scan_dirents_dup (m : Mem) (dr : Nat) (name : List Nat) (i fuel : Nat)
    (slot : Option Nat)
    (h : ∃ j, i ≤ j ∧ j < i + fuel ∧ readLE m (dr + DIRENT_SIZE * j) 4 ≠ 0 ∧
      strcmp_eq m (dr + DIRENT_SIZE * j + 5) name = true) :
    scan_dirents m dr name i fuel slot = .error .duplicateName := by
  induction fuel generalizing i slot with
  | zero =>
    obtain ⟨j, h1, h2, -⟩ := h
    omega
  | succ fuel ih =>
    obtain ⟨j, h1, h2, h3, h4⟩ := h
    unfold scan_dirents
    by_cases hj : j = i
    · subst hj
      rw [if_pos h3, if_pos h4]
    · have hrec : ∀ s, scan_dirents m dr name (i + 1) fuel s = .error .duplicateName :=
        fun s => ih (i + 1) s ⟨j, by omega, by omega, h3, h4⟩
      split
      · split
        · rfl
        · exact hrec _
      · split <;> exact hrec _

/-- without a duplicate the scan returns the first empty slot -/
theorem scan_dirents_nodup (m : Mem) (dr : Nat) (name : List Nat) (i fuel : Nat)
    (h : ∀ j, i ≤ j → j < i + fuel → readLE m (dr + DIRENT_SIZE * j) 4 ≠ 0 →
      strcmp_eq m (dr + DIRENT_SIZE * j + 5) name = false) :
    (∀ s, scan_dirents m dr name i fuel (some s) = .ok (some s)) ∧
    scan_dirents m dr name i fuel none = .ok (first_empty_slot m dr i fuel) := by
  induction fuel generalizing i with
  | zero => exact ⟨fun s => rfl, rfl⟩
  | succ fuel ih =>
    have hrec := ih (i + 1) (fun j h1 h2 => h j (by omega) (by omega))
    constructor
    · intro s
      unfold scan_dirents
      by_cases hu : readLE m (dr + DIRENT_SIZE * i) 4 ≠ 0
      · rw [if_pos hu, h i (Nat.le_refl _) (by omega) hu]
        simp only [Bool.false_eq_true, if_false]
        exact hrec.1 s
      · rw [if_neg hu, if_neg (by simp)]
        exact hrec.1 s
    · unfold scan_dirents first_empty_slot
      by_cases hu : readLE m (dr + DIRENT_SIZE * i) 4 ≠ 0
      · rw [if_pos hu, h i (Nat.le_refl _) (by omega) hu, if_neg hu]
        simp only [Bool.false_eq_true, if_false]
        exact hrec.2
      · rw [if_neg hu, if_pos rfl, if_pos (by simpa using hu)]
        exact hrec.1 i

theorem first_empty_slot_spec (m : Mem) (dr i fuel : Nat) :
    (first_empty_slot m dr i fuel = none ∧
      ∀ j, i ≤ j → j < i + fuel → readLE m (dr + DIRENT_SIZE * j) 4 ≠ 0) ∨
    (∃ s, first_empty_slot m dr i fuel = some s ∧ i ≤ s ∧ s < i + fuel ∧
      readLE m (dr + DIRENT_SIZE * s) 4 = 0 ∧
      ∀ j, i ≤ j → j < s → readLE m (dr + DIRENT_SIZE * j) 4 ≠ 0) := by
  induction fuel generalizing i with
  | zero => exact Or.inl ⟨rfl, fun j h1 h2 => by omega⟩
  | succ fuel ih =>
    unfold first_empty_slot
    by_cases hu : readLE m (dr + DIRENT_SIZE * i) 4 = 0
    · rw [if_pos hu]
      exact Or.inr ⟨i, rfl, Nat.le_refl _, by omega, hu, fun j h1 h2 => by omega⟩
    · rw [if_neg hu]
      rcases ih (i + 1) with ⟨e, hall⟩ | ⟨s, e, h1, h2, h3, h4⟩
      · refine Or.inl ⟨e, fun j h1 h2 => ?_⟩
        by_cases hj : j = i
        · rw [hj]; exact hu
        · exact hall j (by omega) (by omega)
      · refine Or.inr ⟨s, e, by omega, by omega, h3, fun j h1' h2' => ?_⟩
        by_cases hj : j = i
        · rw [hj]; exact hu
        · exact h4 j (by omega) h2'

theorem first_empty_slot_congr (m m' : Mem) (dr i fuel : Nat)
    (h : ∀ x, dr + DIRENT_SIZE * i ≤ x → x < dr + DIRENT_SIZE * (i + fuel) → m x = m' x) :
    first_empty_slot m dr i fuel = first_empty_slot m' dr i fuel := by
  induction fuel generalizing i with
  | zero => rfl
  | succ fuel ih =>
    unfold first_empty_slot
    simp only [DIRENT_SIZE] at h ⊢
    have e1 : readLE m (dr + 64 * i) 4 = readLE m' (dr + 64 * i) 4 :=
      readLE_congr m m' _ 4 (fun x h1 h2 => h x (by omega) (by omega))
    have e2 := ih (i + 1) (fun x h1 h2 => h x (by simp only [DIRENT_SIZE] at h1; omega)
      (by simp only [DIRENT_SIZE] at h2; omega))
    simp only [e1, e2]

/-! ## The new directory entry and the root inode -/

theorem write_dirent_out (m : Mem) (de n : Nat) (name : List Nat) (x : Nat)
    (h : x < de ∨ de + 64 ≤ x) : write_dirent m de n name x = m x := by
  unfold write_dirent
  have hl : (strncpy name 57).length ≤ 57 := by
    unfold strncpy
    simp only [List.length_append, List.length_take, List.length_replicate]
    omega
  rw [dirent_checksum_finalize_out _ _ _ (by omega),
    writeAt_out _ _ _ _ (by simp only [List.length_singleton]; omega),
    writeAt_out _ _ _ _ (by omega)]
  simp (disch := omega) only [writeLE_out]
  rw [memset_zero, if_neg (by simp only [DIRENT_SIZE]; omega)]

theorem write_dirent_inode_no (m : Mem) (de n : Nat) (name : List Nat) :
    readLE (write_dirent m de n name) de 4 = n % 2 ^ 32 := by
  have e : readLE (write_dirent m de n name) de 4 =
      readLE (writeLE (writeAt m de (List.replicate DIRENT_SIZE 0)) de 4 n) de 4 := by
    apply readLE_congr
    intro x h1 h2
    unfold write_dirent
    have hl : (strncpy name 57).length ≤ 57 := by
      unfold strncpy
      simp only [List.length_append, List.length_take, List.length_replicate]
      omega
    rw [dirent_checksum_finalize_out _ _ _ (by omega),
      writeAt_out _ _ _ _ (by simp only [List.length_singleton]; omega),
      writeAt_out _ _ _ _ (by omega), writeLE_out _ _ _ _ _ (by omega)]
  rw [e, readLE_writeLE_same, pow_256_4]

theorem write_dirent_type (m : Mem) (de n : Nat) (name : List Nat) :
    readLE (write_dirent m de n name) (de + 4) 1 = TYPE_FILE := by
  have e : readLE (write_dirent m de n name) (de + 4) 1 =
      readLE (writeLE (writeLE (writeAt m de (List.replicate DIRENT_SIZE 0)) de 4 n)
        (de + 4) 1 TYPE_FILE) (de + 4) 1 := by
    apply readLE_congr
    intro x h1 h2
    unfold write_dirent
    rw [dirent_checksum_finalize_out _ _ _ (by omega),
      writeAt_out _ _ _ _ (by simp only [List.length_singleton]; omega),
      writeAt_out _ _ _ _ (by omega)]
  rw [e, readLE_writeLE_same]
  rfl

theorem strncpy_length (name : List Nat) (n : Nat) : (strncpy name n).length = n := by
  unfold strncpy
  simp only [List.length_append, List.length_take, List.length_replicate]
  omega

theorem strncpy_getD (name : List Nat) (n i : Nat) :
    (strncpy name n).getD i 0 = (name.take n).getD i 0 := by
  unfold strncpy
  by_cases hi : i < (name.take n).length
  · rw [List.getD_append _ _ _ _ hi]
  · have r := load_replicate_zero (n - name.length) (i - (List.take n name).length)
    unfold load at r
    rw [List.getD_append_right _ _ _ _ (by omega), r, List.getD_eq_default _ _ (by omega)]

/-- the bytes of the name field of the new entry -/
theorem write_dirent_name_byte (m : Mem) (de n : Nat) (name : List Nat) (i : Nat)
    (hi : i < 58) :
    write_dirent m de n name (de + 5 + i) = (name.take 57).getD i 0 % 256 := by
  unfold write_dirent
  rw [dirent_checksum_finalize_out _ _ _ (by omega)]
  by_cases h57 : i = 57
  · subst h57
    have e : (List.take 57 name).getD 57 0 = 0 :=
      List.getD_eq_default _ _ (by rw [List.length_take]; omega)
    rw [e, writeAt_in _ _ _ _ (by omega) (by simp only [List.length_singleton]; omega),
      Nat.sub_self]
    rfl
  · rw [writeAt_out _ _ _ _ (by simp only [List.length_singleton]; omega),
      writeAt_in _ _ _ _ (by omega) (by rw [strncpy_length]; omega),
      show de + 5 + i - (de + 5) = i by omega, strncpy_getD]

theorem write_dirent_name (m : Mem) (de n : Nat) (name : List Nat) :
    readBytes (write_dirent m de n name) (de + 5) 58 = nameField (name.take 57) := by
  apply List.ext_getElem
  · rw [readBytes_length, nameField_length]
  · intro i h1 h2
    rw [readBytes_length] at h1
    have e1 := readBytes_getD (write_dirent m de n name) (de + 5) 58 i h1
    rw [List.getD_eq_getElem _ _ (by rw [readBytes_length]; exact h1)] at e1
    rw [e1, write_dirent_name_byte _ _ _ _ _ h1]
    unfold nameField
    simp

/-- `strcmp` finds the name of the new entry when the name has at most 57
bytes -/
theorem write_dirent_strcmp (m : Mem) (de n : Nat) (name : List Nat) (hn : IsName name)
    (hl : name.length ≤ 57) :
    strcmp_eq (write_dirent m de n name) (de + 5) name = true := by
  apply strcmp_eq_of_bytes
  · intro i hi
    rw [write_dirent_name_byte _ _ _ _ _ (by omega), List.take_of_length_le hl]
    have hb : name.getD i 0 < 256 := by
      rw [List.getD_eq_getElem _ _ hi]
      exact (hn _ (List.getElem_mem _)).2
    exact Nat.mod_eq_of_lt hb
  · rw [write_dirent_name_byte _ _ _ _ _ (by omega), List.take_of_length_le hl,
      List.getD_eq_default _ _ (Nat.le_refl _)]

theorem update_root_out (m : Mem) (r now x : Nat) (h : x < r ∨ r + 128 ≤ x) :
    update_root m r now x = m x := by
  unfold update_root
  rw [inode_crc_finalize_out _ _ _ (by omega)]
  simp (disch := omega) only [writeLE_out]

theorem update_root_links (m : Mem) (r now : Nat) :
    readLE (update_root m r now) (r + 2) 2 = (readLE m (r + 2) 2 + 1) % 2 ^ 16 := by
  have e : readLE (update_root m r now) (r + 2) 2 =
      readLE (writeLE m (r + 2) 2 ((readLE m (r + 2) 2 + 1) % 2 ^ 16)) (r + 2) 2 := by
    apply readLE_congr
    intro x h1 h2
    unfold update_root
    rw [inode_crc_finalize_out _ _ _ (by omega)]
    simp (disch := omega) only [writeLE_out]
  rw [e, readLE_writeLE_same]
  norm_num

theorem update_root_size (m : Mem) (r now : Nat) :
    readLE (update_root m r now) (r + 12) 8 = (readLE m (r + 12) 8 + DIRENT_SIZE) % 2 ^ 64 := by
  have e : readLE (update_root m r now) (r + 12) 8 =
      readLE (writeLE (writeLE m (r + 2) 2 ((readLE m (r + 2) 2 + 1) % 2 ^ 16)) (r + 12) 8
        ((readLE (writeLE m (r + 2) 2 ((readLE m (r + 2) 2 + 1) % 2 ^ 16)) (r + 12) 8 +
          DIRENT_SIZE) % 2 ^ 64)) (r + 12) 8 := by
    apply readLE_congr
    intro x h1 h2
    unfold update_root
    rw [inode_crc_finalize_out _ _ _ (by omega)]
    simp (disch := omega) only [writeLE_out]
  rw [e, readLE_writeLE_same, readLE_writeLE_other _ _ _ _ _ _ (by omega)]
  norm_num

/-! ## Memories of bytes -/

theorem writeAt_lt (m : Mem) (a : Nat) (bs : List Nat) (h : ∀ x, m x < 256) :
    ∀ x, writeAt m a bs x < 256 := by
  intro x
  unfold writeAt
  split
  · exact Nat.mod_lt _ (by omega)
  · exact h x

theorem writeLE_lt (m : Mem) (a w v : Nat) (h : ∀ x, m x < 256) :
    ∀ x, writeLE m a w v x < 256 :=
  writeAt_lt _ _ _ h

theorem set_bit_lt (m : Mem) (bitmap idx : Nat) (h : ∀ x, m x < 256) :
    ∀ x, set_bit m bitmap idx x < 256 :=
  writeAt_lt _ _ _ h

theorem copy_blocks_lt (drs dr db ino fs bn : Nat) (fbs : List Nat) (i : Nat) (rest : List Nat)
    (m : Mem) (h : ∀ x, m x < 256) :
    ∀ x, copy_blocks drs dr db ino fs bn i fbs rest m x < 256 := by
  induction fbs generalizing i rest m with
  | nil => exact h
  | cons fb fbs ih =>
    unfold copy_blocks
    exact ih _ _ _ (set_bit_lt _ _ _ (writeAt_lt _ _ _ (writeAt_lt _ _ _ (writeLE_lt _ _ _ _ h))))

theorem clear_direct_lt (ino i k : Nat) (m : Mem) (h : ∀ x, m x < 256) :
    ∀ x, clear_direct ino i k m x < 256 := by
  induction k generalizing i m with
  | zero => exact h
  | succ k ih =>
    unfold clear_direct
    exact ih _ _ (writeLE_lt _ _ _ _ h)

theorem inode_crc_finalize_lt (m : Mem) (ino : Nat) (h : ∀ x, m x < 256) :
    ∀ x, inode_crc_finalize m ino x < 256 := by
  unfold inode_crc_finalize
  exact writeLE_lt _ _ _ _ h

theorem build_inode_lt (m : Mem) (drs dr db ino : Nat) (fbs content : List Nat) (bn now : Nat)
    (h : ∀ x, m x < 256) : ∀ x, build_inode m drs dr db ino fbs content bn now x < 256 := by
  unfold build_inode
  apply inode_crc_finalize_lt
  iterate 6 apply writeLE_lt
  apply clear_direct_lt
  apply copy_blocks_lt
  iterate 8 apply writeLE_lt
  exact writeAt_lt _ _ _ h

theorem pre_scan_lt (m : Mem) (sb : superblock_t) (content : List Nat) (bn now n : Nat)
    (fbs : List Nat) (h : ∀ x, m x < 256) : ∀ x, pre_scan m sb content bn now n fbs x < 256 := by
  unfold pre_scan
  exact set_bit_lt _ _ _ (build_inode_lt _ _ _ _ _ _ _ _ _ h)

theorem superblock_crc_finalize_lt (m : Mem) (sb : Nat) (h : ∀ x, m x < 256) :
    ∀ x, superblock_crc_finalize m sb x < 256 := by
  unfold superblock_crc_finalize
  exact writeLE_lt _ _ _ _ (writeLE_lt _ _ _ _ h)

theorem write_dirent_lt (m : Mem) (de n : Nat) (name : List Nat) (h : ∀ x, m x < 256) :
    ∀ x, write_dirent m de n name x < 256 := by
  unfold write_dirent dirent_checksum_finalize
  exact writeAt_lt _ _ _ (writeAt_lt _ _ _ (writeAt_lt _ _ _ (writeLE_lt _ _ _ _
    (writeLE_lt _ _ _ _ (writeAt_lt _ _ _ h)))))

theorem update_root_lt (m : Mem) (r now : Nat) (h : ∀ x, m x < 256) :
    ∀ x, update_root m r now x < 256 := by
  unfold update_root
  exact inode_crc_finalize_lt _ _ (writeLE_lt _ _ _ _ (writeLE_lt _ _ _ _
    (writeLE_lt _ _ _ _ h)))

theorem finish_add_lt (m : Mem) (sb : superblock_t) (name : List Nat) (now n slot : Nat)
    (h : ∀ x, m x < 256) : ∀ x, finish_add m sb name now n slot x < 256 := by
  unfold finish_add
  exact superblock_crc_finalize_lt _ _ (writeAt_lt _ _ _ (update_root_lt _ _ _
    (write_dirent_lt _ _ _ _ h)))

theorem readBytes_lt (m : Mem) (a n : Nat) (h : ∀ x, m x < 256) :
    ∀ b ∈ readBytes m a n, b < 256 := by
  induction n generalizing a with
  | zero => simp [readBytes]
  | succ n ih =>
    intro b hb
    simp only [readBytes, List.mem_cons] at hb
    rcases hb with hb | hb
    · rw [hb]; exact h a
    · exact ih _ b hb

theorem leVal_lt (l : List Nat) (h : ∀ b ∈ l, b < 256) : leVal l < 256 ^ l.length := by
  induction l with
  | nil => simp [leVal]
  | cons b l ih =>
    have h1 := h b (List.mem_cons_self _ _)
    have h2 := ih (fun c hc => h c (List.mem_cons_of_mem _ hc))
    simp only [leVal, List.length_cons, pow_succ]
    omega

theorem readLE_lt (m : Mem) (a w : Nat) (h : ∀ x, m x < 256) : readLE m a w < 256 ^ w := by
  unfold readLE
  have := leVal_lt (readBytes m a w) (readBytes_lt m a w h)
  rwa [readBytes_length] at this

/-! ## The adder on an image with the layout of the builder -/

theorem layout_bounds (img : List Nat) (h : Layout img) :
    (sb_of img).inode_table_blocks < 2 ^ 32 ∧
    img.length = (3 + (sb_of img).inode_table_blocks + (sb_of img).data_region_blocks) * 4096 ∧
    (sb_of img).total_blocks =
      3 + (sb_of img).inode_table_blocks + (sb_of img).data_region_blocks := by
  have h1 := h.size
  have h2 := h.total
  have h3 := h.data_region_start
  have h4 := h.small
  have h5 := h.data_blocks
  omega

theorem layout_image_size (img : List Nat) (h : Layout img) : image_size img = img.length := by
  have h1 := h.size
  have h4 := h.small
  unfold image_size
  simp only [BS]
  omega

theorem layout_buffer (img : List Nat) (h : Layout img) : buffer img = load img := by
  unfold buffer
  rw [layout_image_size img h, List.take_length]

theorem layout_loadable (img : List Nat) (h : Layout img) : Loadable img := by
  have hb := layout_bounds img h
  have h5 := h.data_blocks
  refine ⟨?_, ?_⟩
  · simp only [SB_SIZE]; omega
  · rw [layout_image_size img h]

theorem layout_addrs (img : List Nat) (h : Layout img) :
    (sb_of img).inode_bitmap_start * BS % 2 ^ 64 = 4096 ∧
    (sb_of img).data_bitmap_start * BS % 2 ^ 64 = 8192 ∧
    (sb_of img).inode_table_start * BS % 2 ^ 64 = 12288 ∧
    (sb_of img).data_region_start * BS % 2 ^ 64 =
      (3 + (sb_of img).inode_table_blocks) * 4096 := by
  have hb := layout_bounds img h
  rw [h.inode_bitmap_start, h.data_bitmap_start, h.inode_table_start, h.data_region_start]
  simp only [BS]
  refine ⟨rfl, rfl, rfl, ?_⟩
  omega

theorem inode_bit_layout (img : List Nat) (h : Layout img) (i : Nat) :
    inode_bit img i = bit_at (load img) 4096 i := by
  unfold inode_bit
  rw [layout_buffer img h, (layout_addrs img h).1]

theorem data_bit_layout (img : List Nat) (h : Layout img) (i : Nat) :
    data_bit img i = bit_at (load img) 8192 i := by
  unfold data_bit
  rw [layout_buffer img h, (layout_addrs img h).2.1]

theorem allocated_blocks_layout (img : List Nat) (h : Layout img) (fs : Nat) :
    allocated_blocks img fs =
      (clear_bits (load img) 8192 0 (sb_of img).data_region_blocks).take (blocks_for fs) := by
  unfold allocated_blocks
  have h5 := h.data_blocks
  rw [layout_buffer img h, (layout_addrs img h).2.1, scan_free_blocks_eq _ _ _ _ _ (by omega)]

theorem new_inode_no_layout (img : List Nat) (h : Layout img) :
    new_inode_no img = find_free_inode_from (load img) 4096 0 (sb_of img).inode_count := by
  unfold new_inode_no find_free_inode
  rw [layout_buffer img h, (layout_addrs img h).1]

/-- the adder on an image with the layout of the builder, once its entry checks
pass -/
theorem add_layout (img name content : List Nat) (now : Nat) (h : Layout img)
    (hmagic : (sb_of img).magic = MAGIC) (hsize : content.length ≤ 12 * 4096) :
    add img name content now =
      (add_to_buffer (load img) (sb_of img) name content (blocks_for content.length) now).map
        (fun m => dump m img.length) := by
  rw [add_eq_of_loadable img name content now hsize (layout_loadable img h) hmagic,
    layout_buffer img h, layout_image_size img h]

theorem pre_scan_layout (img content : List Nat) (now i0 : Nat) (fbs : List Nat)
    (h : Layout img) (hi : i0 < 32768) :
    pre_scan (load img) (sb_of img) content (blocks_for content.length) now (i0 + 1) fbs =
      pre_mem img content now i0 fbs := by
  obtain ⟨a1, a2, a3, a4⟩ := layout_addrs img h
  have e1 : (i0 + 1 + 0xFFFFFFFF) % 2 ^ 32 = i0 := by omega
  have hT := (layout_bounds img h).1
  have e2 : (12288 + int_to_u64 i0 * INODE_SIZE) % 2 ^ 64 = 12288 + i0 * 128 := by
    rw [int_to_u64_small _ hi]
    simp only [INODE_SIZE]
    omega
  have a5 := a4
  rw [h.data_region_start] at a5
  unfold pre_scan pre_mem
  simp only [a1, a2, a3, a4, a5, e1, e2, h.data_region_start]

theorem finish_add_layout (img name content : List Nat) (now i0 : Nat) (fbs : List Nat)
    (slot : Nat) (h : Layout img) :
    finish_add (pre_mem img content now i0 fbs) (sb_of img) name now (i0 + 1) slot =
      fin_mem img name content now i0 fbs slot := by
  obtain ⟨a1, a2, a3, a4⟩ := layout_addrs img h
  unfold finish_add fin_mem
  simp only [a3, a4, DIRENT_SIZE]

/-- the three ways the adder ends on an image with the layout of the builder,
once its entry checks pass -/
theorem add_layout_cases (img name content : List Nat) (now : Nat) (h : Layout img)
    (hmagic : (sb_of img).magic = MAGIC) (hsize : content.length ≤ 12 * 4096) :
    (add img name content now = .error .noFreeInode ∧
      ∀ i, i < (sb_of img).inode_count → inode_bit img i = true) ∨
    (∃ i0, i0 < (sb_of img).inode_count ∧ inode_bit img i0 = false ∧
      (∀ j, j < i0 → inode_bit img j = true) ∧ new_inode_no img = i0 + 1 ∧
      ((add img name content now = .error .notEnoughBlocks ∧
          (allocated_blocks img content.length).length < blocks_for content.length) ∨
        ((allocated_blocks img content.length).length = blocks_for content.length ∧
          add img name content now =
            (after_scan (pre_mem img content now i0 (allocated_blocks img content.length))
              (sb_of img) name now (i0 + 1)
              (scan_dirents (pre_mem img content now i0 (allocated_blocks img content.length))
                ((3 + (sb_of img).inode_table_blocks) * 4096) name 0 64 none)).map
              (fun m => dump m img.length)))) := by
  obtain ⟨a1, a2, a3, a4⟩ := layout_addrs img h
  have hN := h.inodes
  have hD := h.data_blocks
  rw [add_layout img name content now h hmagic hsize]
  have hfb : scan_free_blocks (load img) 8192 0 (sb_of img).data_region_blocks
      (blocks_for content.length) = allocated_blocks img content.length := by
    unfold allocated_blocks
    rw [layout_buffer img h, a2]
  have hlen : (allocated_blocks img content.length).length ≤ blocks_for content.length := by
    rw [allocated_blocks_layout img h, List.length_take]
    omega
  rcases find_free_inode_from_spec (load img) 4096 0 (sb_of img).inode_count with
    ⟨e, hall⟩ | ⟨i0, -, h2, h3, h4, e⟩
  · left
    refine ⟨?_, fun i hi => ?_⟩
    · have : add_to_buffer (load img) (sb_of img) name content (blocks_for content.length)
          now = .error .noFreeInode := by
        unfold add_to_buffer
        exact if_pos (by rw [a1]; exact e)
      rw [this]
      rfl
    · rw [inode_bit_layout img h]
      exact hall i (by omega) (by omega)
  · right
    have e' : find_free_inode (load img) 4096 (sb_of img).inode_count = i0 + 1 := by
      unfold find_free_inode
      rw [e]
      omega
    refine ⟨i0, by omega, by rw [inode_bit_layout img h]; exact h3,
      fun j hj => by rw [inode_bit_layout img h]; exact h4 j (by omega) hj,
      by rw [new_inode_no_layout img h, e]; omega, ?_⟩
    have hne : ¬ find_free_inode (load img) ((sb_of img).inode_bitmap_start * BS % 2 ^ 64)
        (sb_of img).inode_count = 0xFFFFFFFF := by
      rw [a1, e']
      omega
    by_cases hlt : (allocated_blocks img content.length).length < blocks_for content.length
    · left
      refine ⟨?_, hlt⟩
      have : add_to_buffer (load img) (sb_of img) name content (blocks_for content.length)
          now = .error .notEnoughBlocks := by
        unfold add_to_buffer
        refine (if_neg hne).trans (if_pos ?_)
        rw [a2, hfb]
        exact hlt
      rw [this]
      rfl
    · right
      refine ⟨by omega, ?_⟩
      have : add_to_buffer (load img) (sb_of img) name content (blocks_for content.length)
          now = place_file (load img) (sb_of img) name content (blocks_for content.length) now
            (i0 + 1) (allocated_blocks img content.length) := by
        unfold add_to_buffer
        refine (if_neg hne).trans ((if_neg ?_).trans ?_)
        · rw [a2, hfb]
          exact hlt
        · simp only [a1, a2, hfb, e']
      rw [this]
      unfold place_file
      simp only [pre_scan_layout img content now i0 _ h (by omega), a4]
      rfl

/-! ## The blocks the adder allocates -/

theorem allocated_blocks_mem (img : List Nat) (h : Layout img) (fs fb : Nat)
    (hfb : fb ∈ allocated_blocks img fs) :
    fb < (sb_of img).data_region_blocks ∧ data_bit img fb = false := by
  rw [allocated_blocks_layout img h] at hfb
  have := (mem_clear_bits _ _ _ _ _).mp (List.mem_of_mem_take hfb)
  rw [data_bit_layout img h]
  exact ⟨by omega, this.2⟩

theorem allocated_blocks_nodup (img : List Nat) (h : Layout img) (fs : Nat) :
    (allocated_blocks img fs).Nodup := by
  rw [allocated_blocks_layout img h]
  exact (clear_bits_nodup _ _ _ _).sublist (List.take_sublist _ _)

theorem allocated_blocks_small (img : List Nat) (h : Layout img) (fs : Nat) :
    ∀ fb ∈ allocated_blocks img fs, fb < 32768 := by
  intro fb hfb
  have := (allocated_blocks_mem img h fs fb hfb).1
  have := h.data_blocks
  omega

theorem allocated_blocks_pos (img : List Nat) (h : Layout img) (hroot : data_bit img 0 = true)
    (fs : Nat) : ∀ fb ∈ allocated_blocks img fs, 1 ≤ fb := by
  intro fb hfb
  have := (allocated_blocks_mem img h fs fb hfb).2
  rcases Nat.eq_zero_or_pos fb with e | e
  · rw [e, hroot] at this
    cases this
  · exact e

/-! ## The memory before the scan of the root directory -/

theorem table_fits (img : List Nat) (h : Layout img) (i0 : Nat)
    (hi : i0 < (sb_of img).inode_count) :
    i0 * 128 + 128 ≤ (sb_of img).inode_table_blocks * 4096 ∧ i0 < 32768 := by
  have := h.table
  have := h.inodes
  omega

/-- the memory before the scan, away from the new inode, the allocated blocks
and the two bits set -/
theorem pre_mem_out (img content : List Nat) (now i0 : Nat) (fbs : List Nat) (x : Nat)
    (hi0 : i0 < 32768)
    (hs : ∀ fb ∈ fbs, fb < 32768) (hl : fbs.length = blocks_for content.length)
    (h12 : blocks_for content.length ≤ 12)
    (h1 : x < 12288 + i0 * 128 ∨ 12288 + i0 * 128 + 128 ≤ x)
    (h2 : ∀ fb ∈ fbs, x < (3 + (sb_of img).inode_table_blocks) * 4096 + fb * 4096 ∨
      (3 + (sb_of img).inode_table_blocks) * 4096 + fb * 4096 + 4096 ≤ x)
    (h3 : x < 4096 ∨ 12288 ≤ x) :
    pre_mem img content now i0 fbs x = load img x := by
  unfold pre_mem
  rw [set_bit_out _ _ _ _ (by omega),
    build_inode_out _ _ _ _ _ _ _ _ _ _ hs hl h12 h1 h2 (fun fb hfb => by
      have := hs fb hfb
      omega)]

/-- the scan of the root directory sees the block of the input image when
data block 0 is not allocated to the file -/
theorem pre_mem_root_block (img content : List Nat) (now i0 : Nat) (fbs : List Nat) (x : Nat)
    (h : Layout img) (hi : i0 < (sb_of img).inode_count)
    (hs : ∀ fb ∈ fbs, 1 ≤ fb ∧ fb < 32768) (hl : fbs.length = blocks_for content.length)
    (h12 : blocks_for content.length ≤ 12)
    (hx1 : (3 + (sb_of img).inode_table_blocks) * 4096 ≤ x)
    (hx2 : x < (3 + (sb_of img).inode_table_blocks) * 4096 + 4096) :
    pre_mem img content now i0 fbs x = load img x := by
  have ht := table_fits img h i0 hi
  exact pre_mem_out img content now i0 fbs x ht.2 (fun fb hfb => (hs fb hfb).2) hl h12 (by omega)
    (fun fb hfb => by have := (hs fb hfb).1; omega) (by omega)

theorem pre_mem_inode_bits (img content : List Nat) (now i0 : Nat) (fbs : List Nat) (j : Nat)
    (hs : ∀ fb ∈ fbs, fb < 32768) (hl : fbs.length = blocks_for content.length)
    (h12 : blocks_for content.length ≤ 12) (hj : j < 32768) :
    bit_at (pre_mem img content now i0 fbs) 4096 j =
      (bit_at (load img) 4096 j || decide (j = i0)) := by
  unfold pre_mem
  rw [bit_at_set_bit]
  congr 1
  apply bit_at_congr
  exact build_inode_out _ _ _ _ _ _ _ _ _ _ hs hl h12 (by omega) (fun fb hfb => by omega)
    (fun fb hfb => by omega)

theorem pre_mem_data_bits (img content : List Nat) (now i0 : Nat) (fbs : List Nat) (j : Nat)
    (hi0 : i0 < 32768)
    (hs : ∀ fb ∈ fbs, fb < 32768) (hl : fbs.length = blocks_for content.length)
    (h12 : blocks_for content.length ≤ 12) (hj : j < 32768) :
    bit_at (pre_mem img content now i0 fbs) 8192 j =
      (bit_at (load img) 8192 j || decide (j ∈ fbs)) := by
  unfold pre_mem
  rw [bit_at_congr _ _ _ _ (set_bit_out _ _ _ _ (by omega)),
    build_inode_bits _ _ _ _ _ _ _ _ _ _ hs hl h12 hj (by omega) (by omega)]

/-- the content of the file in the allocated blocks, before the scan -/
theorem pre_mem_block (img content : List Nat) (now i0 : Nat) (fbs : List Nat) (p o : Nat)
    (h : Layout img) (hi : i0 < (sb_of img).inode_count)
    (hs : ∀ fb ∈ fbs, fb < 32768) (hnd : fbs.Nodup)
    (hl : fbs.length = blocks_for content.length) (h12 : blocks_for content.length ≤ 12)
    (hp : p < fbs.length) (ho : o < 4096) :
    pre_mem img content now i0 fbs
      ((3 + (sb_of img).inode_table_blocks) * 4096 + fbs.getD p 0 * 4096 + o) =
      content.getD (4096 * p + o) 0 % 256 := by
  have ht := table_fits img h i0 hi
  unfold pre_mem
  rw [set_bit_out _ _ _ _ (by omega),
    build_inode_block _ _ _ _ _ _ _ _ _ _ hs hnd hl h12 (by omega) (by omega) hp ho]

theorem pre_mem_direct (img content : List Nat) (now i0 : Nat) (fbs : List Nat) (p : Nat)
    (h : Layout img) (hi : i0 < (sb_of img).inode_count)
    (hs : ∀ fb ∈ fbs, fb < (sb_of img).data_region_blocks)
    (hl : fbs.length = blocks_for content.length) (h12 : blocks_for content.length ≤ 12)
    (hp : p < fbs.length) :
    readLE (pre_mem img content now i0 fbs) (12288 + i0 * 128 + 44 + 4 * p) 4 =
      3 + (sb_of img).inode_table_blocks + fbs.getD p 0 := by
  have ht := table_fits img h i0 hi
  have hb := layout_bounds img h
  have hD := h.data_blocks
  have hsm := h.small
  have hs' : ∀ fb ∈ fbs, fb < 32768 := fun fb hfb => by have := hs fb hfb; omega
  have hfb : fbs.getD p 0 < (sb_of img).data_region_blocks := by
    rw [List.getD_eq_getElem _ _ hp]
    exact hs _ (List.getElem_mem _)
  have e : readLE (pre_mem img content now i0 fbs) (12288 + i0 * 128 + 44 + 4 * p) 4 =
      readLE (build_inode (load img) (3 + (sb_of img).inode_table_blocks)
        ((3 + (sb_of img).inode_table_blocks) * 4096) 8192 (12288 + i0 * 128) fbs content
        (blocks_for content.length) now) (12288 + i0 * 128 + 44 + 4 * p) 4 := by
    apply readLE_congr
    intro x h1 h2
    unfold pre_mem
    exact set_bit_out _ _ _ _ (by omega)
  rw [e, build_inode_direct _ _ _ _ _ _ _ _ _ _ hs' hl h12 (by omega) (by omega) (by omega)]
  omega

theorem pre_mem_size (img content : List Nat) (now i0 : Nat) (fbs : List Nat)
    (h : Layout img) (hi : i0 < (sb_of img).inode_count)
    (hs : ∀ fb ∈ fbs, fb < 32768)
    (hl : fbs.length = blocks_for content.length) (h12 : blocks_for content.length ≤ 12) :
    readLE (pre_mem img content now i0 fbs) (12288 + i0 * 128 + 12) 8 =
      content.length % 2 ^ 64 := by
  have ht := table_fits img h i0 hi
  have e : readLE (pre_mem img content now i0 fbs) (12288 + i0 * 128 + 12) 8 =
      readLE (build_inode (load img) (3 + (sb_of img).inode_table_blocks)
        ((3 + (sb_of img).inode_table_blocks) * 4096) 8192 (12288 + i0 * 128) fbs content
        (blocks_for content.length) now) (12288 + i0 * 128 + 12) 8 := by
    apply readLE_congr
    intro x h1 h2
    unfold pre_mem
    exact set_bit_out _ _ _ _ (by omega)
  rw [e, build_inode_size _ _ _ _ _ _ _ _ _ hs hl h12 (by omega) (by omega)]

theorem pre_mem_lt (img content : List Nat) (now i0 : Nat) (fbs : List Nat) (h : Layout img) :
    ∀ x, pre_mem img content now i0 fbs x < 256 := by
  unfold pre_mem
  exact set_bit_lt _ _ _ (build_inode_lt _ _ _ _ _ _ _ _ _ h.bytes)

/-! ## The memory the adder writes out -/

/-- the memory written out, away from the superblock, the root inode and the
new directory entry -/
theorem fin_mem_out (img name content : List Nat) (now i0 : Nat) (fbs : List Nat)
    (slot x : Nat) (h1 : 116 ≤ x) (h2 : x < 12288 ∨ 12288 + 128 ≤ x)
    (h3 : x < (3 + (sb_of img).inode_table_blocks) * 4096 + 64 * slot ∨
      (3 + (sb_of img).inode_table_blocks) * 4096 + 64 * slot + 64 ≤ x) :
    fin_mem img name content now i0 fbs slot x = pre_mem img content now i0 fbs x := by
  unfold fin_mem
  rw [superblock_crc_finalize_out _ _ _ (by omega),
    writeAt_out _ _ _ _ (by rw [encodeSuperblock_length]; omega),
    update_root_out _ _ _ _ h2, write_dirent_out _ _ _ _ _ h3]

/-- the memory written out, on the new directory entry -/
theorem fin_mem_dirent (img name content : List Nat) (now i0 : Nat) (fbs : List Nat)
    (slot x : Nat) (hT : 1 ≤ (sb_of img).inode_table_blocks)
    (h1 : (3 + (sb_of img).inode_table_blocks) * 4096 + 64 * slot ≤ x)
    (h2 : x < (3 + (sb_of img).inode_table_blocks) * 4096 + 64 * slot + 64) :
    fin_mem img name content now i0 fbs slot x =
      write_dirent (pre_mem img content now i0 fbs)
        ((3 + (sb_of img).inode_table_blocks) * 4096 + 64 * slot) (i0 + 1) name x := by
  unfold fin_mem
  rw [superblock_crc_finalize_out _ _ _ (by omega),
    writeAt_out _ _ _ _ (by rw [encodeSuperblock_length]; omega),
    update_root_out _ _ _ _ (by omega)]

/-- the memory written out, on the root inode -/
theorem fin_mem_root (img name content : List Nat) (now i0 : Nat) (fbs : List Nat)
    (slot x : Nat) (h1 : 12288 ≤ x) (h2 : x < 12288 + 128) :
    fin_mem img name content now i0 fbs slot x =
      update_root (write_dirent (pre_mem img content now i0 fbs)
        ((3 + (sb_of img).inode_table_blocks) * 4096 + 64 * slot) (i0 + 1) name) 12288 now x := by
  unfold fin_mem
  rw [superblock_crc_finalize_out _ _ _ (by omega),
    writeAt_out _ _ _ _ (by rw [encodeSuperblock_length]; omega)]

/-- the memory written out, on the superblock without its checksum -/
theorem fin_mem_sb (img name content : List Nat) (now i0 : Nat) (fbs : List Nat)
    (slot x : Nat) (h1 : x < 112) :
    fin_mem img name content now i0 fbs slot x = load (encodeSuperblock (sb_of img)) x := by
  unfold fin_mem
  rw [superblock_crc_finalize_out _ _ _ (by omega),
    writeAt_eq_load _ _ (encodeSuperblock _) _ (fun i => encodeFields_lt _ i) (by omega)
      (by rw [encodeSuperblock_length]; omega)]
  rfl

theorem fin_mem_lt (img name content : List Nat) (now i0 : Nat) (fbs : List Nat) (slot : Nat)
    (h : Layout img) : ∀ x, fin_mem img name content now i0 fbs slot x < 256 := by
  unfold fin_mem
  exact superblock_crc_finalize_lt _ _ (writeAt_lt _ _ _ (update_root_lt _ _ _
    (write_dirent_lt _ _ _ _ (pre_mem_lt img content now i0 fbs h))))

/-! ## The image the adder writes -/

theorem decodeSuperblock_of_prefix (m : Mem) (s : superblock_t)
    (h : ∀ x, x < 112 → m x = load (encodeSuperblock s) x) :
    decodeSuperblock m 0 = { truncSuperblock s with checksum := readLE m 112 4 } := by
  have key : ∀ off w, off + w ≤ 112 →
      readLE m off w = readLE (load (encodeSuperblock s)) off w :=
    fun off w hw => readLE_congr _ _ _ _ (fun x h1 h2 => h x (by omega))
  have hdec := decode_encode_superblock s
  simp only [decodeSuperblock, truncSuperblock, Nat.zero_add, superblock_t.mk.injEq] at hdec
  obtain ⟨d0, d1, d2, d3, d4, d5, d6, d7, d8, d9, d10, d11, d12, d13, d14, d15, -⟩ := hdec
  simp only [decodeSuperblock, Nat.zero_add, truncSuperblock]
  rw [key 0 4 (by omega), key 4 4 (by omega), key 8 4 (by omega),
    key 12 8 (by omega), key 20 8 (by omega), key 28 8 (by omega),
    key 36 8 (by omega), key 44 8 (by omega), key 52 8 (by omega),
    key 60 8 (by omega), key 68 8 (by omega), key 76 8 (by omega),
    key 84 8 (by omega), key 92 8 (by omega), key 100 8 (by omega),
    key 108 4 (by omega), d0, d1, d2, d3, d4, d5, d6, d7, d8, d9, d10, d11, d12, d13, d14,
    d15]

theorem trunc_decode (m : Mem) (h : ∀ x, m x < 256) :
    truncSuperblock (decodeSuperblock m 0) = decodeSuperblock m 0 := by
  have l4 : ∀ a, readLE m a 4 % 2 ^ 32 = readLE m a 4 := fun a =>
    Nat.mod_eq_of_lt (by have := readLE_lt m a 4 h; rwa [pow_256_4] at this)
  have l8 : ∀ a, readLE m a 8 % 2 ^ 64 = readLE m a 8 := fun a =>
    Nat.mod_eq_of_lt (by have := readLE_lt m a 8 h; rwa [pow_256_8] at this)
  simp only [truncSuperblock, decodeSuperblock, l4, l8]

theorem load_out (m : Mem) (n x : Nat) (h : x < n) : load (dump m n) x = m x := by
  rw [load_dump, if_pos h]

/-- the superblock of the output image is that of the input image, up to the
checksum -/
theorem sb_of_out (img name content : List Nat) (now i0 : Nat) (fbs : List Nat) (slot : Nat)
    (h : Layout img) :
    sb_of (dump (fin_mem img name content now i0 fbs slot) img.length) =
      { sb_of img with
        checksum := readLE (load (dump (fin_mem img name content now i0 fbs slot) img.length))
          112 4 } := by
  have hl := (layout_loadable img h).1
  simp only [SB_SIZE] at hl
  have e := decodeSuperblock_of_prefix
    (load (dump (fin_mem img name content now i0 fbs slot) img.length)) (sb_of img)
    (fun x hx => by rw [load_out _ _ _ (by omega), fin_mem_sb _ _ _ _ _ _ _ _ hx])
  have t := trunc_decode (load img) h.bytes
  unfold sb_of at e t ⊢
  rw [e, t]

theorem out_layout (img name content : List Nat) (now i0 : Nat) (fbs : List Nat) (slot : Nat)
    (h : Layout img) :
    Layout (dump (fin_mem img name content now i0 fbs slot) img.length) := by
  have e := sb_of_out img name content now i0 fbs slot h
  constructor
  · intro x
    rw [load_dump]
    split
    · exact fin_mem_lt img name content now i0 fbs slot h x
    · omega
  · rw [dump_length, e]; exact h.size
  · rw [e]; exact h.inode_bitmap_start
  · rw [e]; exact h.inode_bitmap_blocks
  · rw [e]; exact h.data_bitmap_start
  · rw [e]; exact h.data_bitmap_blocks
  · rw [e]; exact h.inode_table_start
  · rw [e]; exact h.data_region_start
  · rw [e]; exact h.total
  · rw [e]; exact h.table
  · rw [e]; exact h.inodes
  · rw [e]; exact h.data_blocks
  · rw [e]; exact h.small

theorem out_magic (img name content : List Nat) (now i0 : Nat) (fbs : List Nat) (slot : Nat)
    (h : Layout img) :
    (sb_of (dump (fin_mem img name content now i0 fbs slot) img.length)).magic =
      (sb_of img).magic := by
  rw [sb_of_out img name content now i0 fbs slot h]

/-- what the scan of the root directory found when it returns a slot -/
theorem scan_dirents_some (m : Mem) (dr : Nat) (name : List Nat) (s : Nat)
    (h : scan_dirents m dr name 0 64 none = .ok (some s)) :
    s < 64 ∧ readLE m (dr + DIRENT_SIZE * s) 4 = 0 ∧
    (∀ j, j < s → readLE m (dr + DIRENT_SIZE * j) 4 ≠ 0) ∧
    (∀ j, j < 64 → readLE m (dr + DIRENT_SIZE * j) 4 ≠ 0 →
      strcmp_eq m (dr + DIRENT_SIZE * j + 5) name = false) := by
  have hnd : ∀ j, 0 ≤ j → j < 0 + 64 → readLE m (dr + DIRENT_SIZE * j) 4 ≠ 0 →
      strcmp_eq m (dr + DIRENT_SIZE * j + 5) name = false := by
    intro j h1 h2 h3
    cases h4 : strcmp_eq m (dr + DIRENT_SIZE * j + 5) name
    · rfl
    · rw [scan_dirents_dup m dr name 0 64 none ⟨j, h1, h2, h3, h4⟩] at h
      cases h
  have e := (scan_dirents_nodup m dr name 0 64 hnd).2
  rw [h] at e
  rcases first_empty_slot_spec m dr 0 64 with ⟨e', -⟩ | ⟨s', e', h1, h2, h3, h4⟩
  · rw [e'] at e
    cases e
  · rw [e'] at e
    cases e
    exact ⟨by omega, h3, fun j hj => h4 j (by omega) hj,
      fun j hj => hnd j (by omega) (by omega)⟩

/-- a successful run of the adder on an image with the layout of the builder:
the inode, the blocks and the slot it took, and the image it wrote -/
theorem add_ok_layout (img name content out : List Nat) (now : Nat) (h : Layout img)
    (hsize : content.length ≤ 12 * 4096) (hok : add img name content now = .ok out) :
    (sb_of img).magic = MAGIC ∧
    ∃ i0 slot, i0 < (sb_of img).inode_count ∧ inode_bit img i0 = false ∧
      (∀ j, j < i0 → inode_bit img j = true) ∧ new_inode_no img = i0 + 1 ∧
      (allocated_blocks img content.length).length = blocks_for content.length ∧
      scan_dirents (pre_mem img content now i0 (allocated_blocks img content.length))
        ((3 + (sb_of img).inode_table_blocks) * 4096) name 0 64 none = .ok (some slot) ∧
      out = dump (fin_mem img name content now i0 (allocated_blocks img content.length) slot)
        img.length := by
  have hmagic : (sb_of img).magic = MAGIC := by
    by_contra hm
    have h1 : ¬ (content.length + BS - 1) % 2 ^ 64 / BS > DIRECT_MAX := by
      simp only [BS, DIRECT_MAX]; omega
    have h2 : ¬ img.length < SB_SIZE := by have := (layout_loadable img h).1; omega
    have : add img name content now = .error .badMagic := by
      unfold add
      exact (if_neg h1).trans ((if_neg h2).trans (if_pos hm))
    rw [this] at hok
    cases hok
  refine ⟨hmagic, ?_⟩
  rcases add_layout_cases img name content now h hmagic hsize with
    ⟨e, -⟩ | ⟨i0, h1, h2, h3, h4, ⟨e, -⟩ | ⟨hl, e⟩⟩
  · rw [e] at hok; cases hok
  · rw [e] at hok; cases hok
  · refine ⟨i0, ?_⟩
    rw [e] at hok
    cases hs : scan_dirents (pre_mem img content now i0 (allocated_blocks img content.length))
        ((3 + (sb_of img).inode_table_blocks) * 4096) name 0 64 none with
    | error err =>
      rw [hs] at hok
      cases hok
    | ok r =>
      rw [hs] at hok
      cases r with
      | none => cases hok
      | some slot =>
        refine ⟨slot, h1, h2, h3, h4, hl, rfl, ?_⟩
        simp only [after_scan, Except.map] at hok
        rw [finish_add_layout img name content now i0 _ slot h] at hok
        cases hok
        rfl

/-! ## The scan of the root directory on an image with the layout of the builder -/

theorem root_dirent_layout (img : List Nat) (h : Layout img) (slot : Nat) :
    root_dirent img slot =
      decodeDirent (load img) ((3 + (sb_of img).inode_table_blocks) * 4096 + 64 * slot) := by
  unfold root_dirent
  rw [h.data_region_start]
  rfl

/-- before the scan the entries of the root directory are those of the input
image, when data block 0 is not given to the file -/
theorem pre_mem_dirent (img content : List Nat) (now i0 : Nat) (fbs : List Nat) (slot : Nat)
    (h : Layout img) (hi : i0 < (sb_of img).inode_count)
    (hs : ∀ fb ∈ fbs, 1 ≤ fb ∧ fb < 32768) (hl : fbs.length = blocks_for content.length)
    (h12 : blocks_for content.length ≤ 12) (hslot : slot < 64) :
    decodeDirent (pre_mem img content now i0 fbs)
      ((3 + (sb_of img).inode_table_blocks) * 4096 + 64 * slot) = root_dirent img slot := by
  rw [root_dirent_layout img h]
  apply decodeDirent_shift
  intro i hi'
  exact pre_mem_root_block img content now i0 fbs _ h hi hs hl h12 (by omega) (by omega)

theorem mem_readBytes (m : Mem) (a n : Nat) (b : Nat) (h : b ∈ readBytes m a n) :
    ∃ z, z < n ∧ m (a + z) = b := by
  induction n generalizing a with
  | zero => simp [readBytes] at h
  | succ n ih =>
    simp only [readBytes, List.mem_cons] at h
    rcases h with h | h
    · exact ⟨0, by omega, by rw [h]; rfl⟩
    · obtain ⟨z, hz1, hz2⟩ := ih (a + 1) h
      exact ⟨z + 1, by omega, by rw [← hz2]; exact congrArg m (by omega)⟩

/-- `strcmp` on an entry with a terminated name compares the name of the
entry -/
theorem strcmp_eq_entry (m : Mem) (de : Nat) (name : List Nat) (hn : IsName name)
    (hz : 0 ∈ (decodeDirent m de).name) :
    strcmp_eq m (de + 5) name = true ↔ entry_name (decodeDirent m de) = name := by
  have hz' := mem_readBytes m (de + 5) 58 0 hz
  exact strcmp_eq_iff m (de + 5) 58 name hn hz'

/-- the scan stops with the duplicate-name error when an entry of the input
image has the name -/
theorem scan_pre_mem_dup (img name content : List Nat) (now i0 : Nat) (fbs : List Nat)
    (h : Layout img) (hi : i0 < (sb_of img).inode_count)
    (hs : ∀ fb ∈ fbs, 1 ≤ fb ∧ fb < 32768) (hl : fbs.length = blocks_for content.length)
    (h12 : blocks_for content.length ≤ 12) (hn : IsName name) (ht : NamesTerminated img)
    (hd : ∃ slot, slot < 64 ∧ (root_dirent img slot).inode_no ≠ 0 ∧
      entry_name (root_dirent img slot) = name) :
    scan_dirents (pre_mem img content now i0 fbs)
      ((3 + (sb_of img).inode_table_blocks) * 4096) name 0 64 none =
      .error .duplicateName := by
  obtain ⟨slot, h1, h2, h3⟩ := hd
  have e := pre_mem_dirent img content now i0 fbs slot h hi hs hl h12 h1
  apply scan_dirents_dup
  refine ⟨slot, by omega, by omega, ?_, ?_⟩
  · have : (decodeDirent (pre_mem img content now i0 fbs)
        ((3 + (sb_of img).inode_table_blocks) * 4096 + 64 * slot)).inode_no ≠ 0 := by
      rw [e]; exact h2
    exact this
  · rw [show (3 + (sb_of img).inode_table_blocks) * 4096 + DIRENT_SIZE * slot + 5 =
      ((3 + (sb_of img).inode_table_blocks) * 4096 + 64 * slot) + 5 from rfl,
      strcmp_eq_entry _ _ _ hn (by rw [e]; exact ht slot h1 h2), e]
    exact h3

/-- without an entry of that name in the input image the scan returns the first
empty slot of the input image -/
theorem scan_pre_mem_nodup (img name content : List Nat) (now i0 : Nat) (fbs : List Nat)
    (h : Layout img) (hi : i0 < (sb_of img).inode_count)
    (hs : ∀ fb ∈ fbs, 1 ≤ fb ∧ fb < 32768) (hl : fbs.length = blocks_for content.length)
    (h12 : blocks_for content.length ≤ 12) (hn : IsName name) (ht : NamesTerminated img)
    (hd : ∀ slot, slot < 64 → (root_dirent img slot).inode_no ≠ 0 →
      entry_name (root_dirent img slot) ≠ name) :
    scan_dirents (pre_mem img content now i0 fbs)
      ((3 + (sb_of img).inode_table_blocks) * 4096) name 0 64 none =
      .ok (first_empty_slot (load img) ((3 + (sb_of img).inode_table_blocks) * 4096) 0 64) := by
  have hnd := scan_dirents_nodup (pre_mem img content now i0 fbs)
    ((3 + (sb_of img).inode_table_blocks) * 4096) name 0 64 (by
      intro j _ hj hu
      have e := pre_mem_dirent img content now i0 fbs j h hi hs hl h12 (by omega)
      have hu' : (root_dirent img j).inode_no ≠ 0 := by
        rw [← e]; exact hu
      cases hc : strcmp_eq (pre_mem img content now i0 fbs)
          ((3 + (sb_of img).inode_table_blocks) * 4096 + DIRENT_SIZE * j + 5) name
      · rfl
      · rw [show (3 + (sb_of img).inode_table_blocks) * 4096 + DIRENT_SIZE * j + 5 =
          ((3 + (sb_of img).inode_table_blocks) * 4096 + 64 * j) + 5 from rfl,
          strcmp_eq_entry _ _ _ hn (by rw [e]; exact ht j (by omega) hu'), e] at hc
        exact absurd hc (hd j (by omega) hu'))
  rw [hnd.2]
  congr 1
  apply first_empty_slot_congr
  intro x h1 h2
  simp only [DIRENT_SIZE] at h1 h2
  exact pre_mem_root_block img content now i0 fbs x h hi hs hl h12 (by omega) (by omega)

/-- the first empty slot of the root directory of an image -/
theorem first_empty_slot_layout (img : List Nat) (h : Layout img) :
    (first_empty_slot (load img) ((3 + (sb_of img).inode_table_blocks) * 4096) 0 64 = none ∧
      ∀ slot, slot < 64 → (root_dirent img slot).inode_no ≠ 0) ∨
    (∃ s, first_empty_slot (load img) ((3 + (sb_of img).inode_table_blocks) * 4096) 0 64 =
        some s ∧ s < 64 ∧ (root_dirent img s).inode_no = 0 ∧
      ∀ slot, slot < s → (root_dirent img slot).inode_no ≠ 0) := by
  have e : ∀ slot, (root_dirent img slot).inode_no =
      readLE (load img) ((3 + (sb_of img).inode_table_blocks) * 4096 + DIRENT_SIZE * slot) 4 := by
    intro slot
    rw [root_dirent_layout img h]
    rfl
  rcases first_empty_slot_spec (load img) ((3 + (sb_of img).inode_table_blocks) * 4096) 0 64
    with ⟨e1, hall⟩ | ⟨s, e1, h1, h2, h3, h4⟩
  · exact Or.inl ⟨e1, fun slot hs => by rw [e]; exact hall slot (by omega) (by omega)⟩
  · exact Or.inr ⟨s, e1, by omega, by rw [e]; exact h3,
      fun slot hs => by rw [e]; exact h4 slot (by omega) hs⟩

/-! ## When the adder fails -/

theorem free_data_blocks_layout (img : List Nat) (h : Layout img) :
    free_data_blocks img =
      (clear_bits (load img) 8192 0 (sb_of img).data_region_blocks).length := by
  unfold free_data_blocks clear_bits
  rw [List.range_eq_range']
  have e : List.filter (fun j => !data_bit img j) (List.range' 0 (sb_of img).data_region_blocks) =
      List.filter (fun j => !bit_at (load img) 8192 j)
        (List.range' 0 (sb_of img).data_region_blocks) :=
    List.filter_congr (fun j _ => by rw [data_bit_layout img h])
  rw [e]

theorem error_or_ok_iff {α ε : Type} (r : Except ε α) (p : Prop)
    (h : (p ∧ ∃ e, r = .error e) ∨ (¬ p ∧ ∃ a, r = .ok a)) :
    ((∃ e, r = .error e) ↔ p) ∧ ((∃ a, r = .ok a) ↔ ¬ p) := by
  rcases h with ⟨hp, e, he⟩ | ⟨hp, a, ha⟩
  · refine ⟨⟨fun _ => hp, fun _ => ⟨e, he⟩⟩, ⟨fun ⟨a, ha⟩ => ?_, fun hn => absurd hp hn⟩⟩
    rw [he] at ha
    cases ha
  · refine ⟨⟨fun ⟨e, he⟩ => ?_, fun hp' => absurd hp' hp⟩, ⟨fun _ => hp, fun _ => ⟨a, ha⟩⟩⟩
    rw [ha] at he
    cases he

theorem add_layout_outcome (img name content : List Nat) (now : Nat)
    (hL : Layout img) (hroot : data_bit img 0 = true) (ht : NamesTerminated img)
    (hn : IsName name) (hoff : content.length < 2 ^ 63) :
    (FailureCondition img name content ∧ ∃ e, add img name content now = .error e) ∨
    (¬ FailureCondition img name content ∧ ∃ out, add img name content now = .ok out) := by
  by_cases hlarge : 12 * 4096 < content.length
  · left
    refine ⟨Or.inr (Or.inl ?_), _, add_too_large img name content now hlarge hoff⟩
    unfold blocks_for
    omega
  have hsize : content.length ≤ 12 * 4096 := by omega
  have h12 : blocks_for content.length ≤ 12 := by unfold blocks_for; omega
  by_cases hmagic : (sb_of img).magic = MAGIC
  swap
  · left
    refine ⟨Or.inl hmagic, .badMagic, ?_⟩
    have h1 : ¬ (content.length + BS - 1) % 2 ^ 64 / BS > DIRECT_MAX := by
      simp only [BS, DIRECT_MAX]; omega
    have h2 : ¬ img.length < SB_SIZE := by have := (layout_loadable img hL).1; omega
    unfold add
    exact (if_neg h1).trans ((if_neg h2).trans (if_pos hmagic))
  rcases add_layout_cases img name content now hL hmagic hsize with
    ⟨e, hall⟩ | ⟨i0, h1, h2, h3, h4, ⟨e, hlt⟩ | ⟨hl, e⟩⟩
  · left
    exact ⟨Or.inr (Or.inr (Or.inl hall)), _, e⟩
  · left
    refine ⟨Or.inr (Or.inr (Or.inr (Or.inl ?_))), _, e⟩
    rw [free_data_blocks_layout img hL]
    rw [allocated_blocks_layout img hL, List.length_take] at hlt
    omega
  · have hs : ∀ fb ∈ allocated_blocks img content.length, 1 ≤ fb ∧ fb < 32768 :=
      fun fb hfb => ⟨allocated_blocks_pos img hL hroot _ fb hfb,
        allocated_blocks_small img hL _ fb hfb⟩
    have hfree : ¬ free_data_blocks img < blocks_for content.length := by
      rw [free_data_blocks_layout img hL]
      rw [allocated_blocks_layout img hL, List.length_take] at hl
      omega
    by_cases hd : ∃ slot, slot < 64 ∧ (root_dirent img slot).inode_no ≠ 0 ∧
        entry_name (root_dirent img slot) = name
    · left
      refine ⟨Or.inr (Or.inr (Or.inr (Or.inr (Or.inr hd)))), .duplicateName, ?_⟩
      rw [e, scan_pre_mem_dup img name content now i0 _ hL h1 hs hl h12 hn ht hd]
      rfl
    · have hd' : ∀ slot, slot < 64 → (root_dirent img slot).inode_no ≠ 0 →
          entry_name (root_dirent img slot) ≠ name :=
        fun slot hs1 hs2 hs3 => hd ⟨slot, hs1, hs2, hs3⟩
      rw [scan_pre_mem_nodup img name content now i0 _ hL h1 hs hl h12 hn ht hd'] at e
      rcases first_empty_slot_layout img hL with ⟨e1, hall⟩ | ⟨s, e1, hs1, hs2, -⟩
      · left
        refine ⟨Or.inr (Or.inr (Or.inr (Or.inr (Or.inl hall)))), .noFreeDirent, ?_⟩
        rw [e, e1]
        rfl
      · right
        refine ⟨?_, _, by rw [e, e1]; rfl⟩
        rintro (hc | hc | hc | hc | hc | hc)
        · exact hc hmagic
        · omega
        · rw [hc i0 h1] at h2
          cases h2
        · exact hfree hc
        · exact hc s hs1 hs2
        · exact hd hc

/-! ## A formatted image is well formed -/

theorem load_lt_of_mem (l : List Nat) (h : ∀ b ∈ l, b < 256) : ∀ x, load l x < 256 := by
  intro x
  unfold load
  by_cases hx : x < l.length
  · rw [List.getD_eq_getElem _ _ hx]
    exact h _ (List.getElem_mem _)
  · rw [List.getD_eq_default _ _ (by omega)]
    omega

theorem fmt_sb_bytes_lt (size_kib inode_count now : Nat) (stack : Mem) :
    ∀ x, load (fmt_sb_bytes size_kib inode_count now stack) x < 256 := by
  intro x
  by_cases hx : x < 116
  · unfold fmt_sb_bytes finalize_local
    rw [load_readBytes _ _ _ _ (by rw [encodeSuperblock_length]; exact hx), Nat.zero_add]
    by_cases h1 : x < 112
    · rw [superblock_crc_finalize_out _ _ _ (by omega),
        writeAt_in _ _ _ _ (by omega) (by rw [encodeSuperblock_length]; omega)]
      exact Nat.mod_lt _ (by omega)
    · unfold superblock_crc_finalize writeLE
      rw [writeAt_in _ _ _ _ (by omega) (by rw [leBytes_length]; omega)]
      exact Nat.mod_lt _ (by omega)
  · rw [load_of_le _ _ (by rw [fmt_sb_bytes_length]; omega)]
    omega

theorem root_inode_bytes_lt (sb : superblock_t) : ∀ x, load (root_inode_bytes sb) x < 256 := by
  apply load_lt_of_mem
  unfold root_inode_bytes finalize_local
  exact readBytes_lt _ _ _ (inode_crc_finalize_lt _ _ (writeAt_lt _ _ _ (fun _ => by omega)))

theorem dir_entry_bytes_lt (name : List Nat) : ∀ x, load (dir_entry_bytes name) x < 256 := by
  apply load_lt_of_mem
  unfold dir_entry_bytes finalize_local dirent_checksum_finalize
  exact readBytes_lt _ _ _ (writeAt_lt _ _ _ (writeAt_lt _ _ _ (fun _ => by omega)))

theorem formatted_lt (size_kib inode_count now : Nat) (stack : Mem)
    (hv : ValidParams size_kib inode_count) :
    ∀ x, load (formatted size_kib inode_count now stack) x < 256 := by
  intro x
  rw [load_formatted _ _ _ _ _ hv]
  split
  · exact fmt_sb_bytes_lt _ _ _ _ _
  split
  · omega
  split
  · exact root_inode_bytes_lt _ _
  split
  · apply load_lt_of_mem
    intro b hb
    rw [List.mem_append] at hb
    rcases hb with hb | hb
    · obtain ⟨i, hi, e⟩ := List.getElem_of_mem hb
      have := dir_entry_bytes_lt [46] i
      unfold load at this
      rw [List.getD_eq_getElem _ _ hi, e] at this
      exact this
    · obtain ⟨i, hi, e⟩ := List.getElem_of_mem hb
      have := dir_entry_bytes_lt [46, 46] i
      unfold load at this
      rw [List.getD_eq_getElem _ _ hi, e] at this
      exact this
  · omega

theorem formatted_layout (size_kib inode_count now : Nat) (stack : Mem)
    (hv : ValidParams size_kib inode_count) :
    Layout (formatted size_kib inode_count now stack) := by
  have e := sb_of_formatted size_kib inode_count now stack hv
  have hl := formatted_length size_kib inode_count now stack hv
  have hb := formatted_lt size_kib inode_count now stack hv
  obtain ⟨h1, h2, h3, h4, h5⟩ := hv
  have hT := table_blocks_bounds inode_count h4 h5
  constructor
  · exact hb
  all_goals rw [e]
  all_goals simp only [fmt_sb, mk_superblock]
  all_goals omega

theorem formatted_magic (size_kib inode_count now : Nat) (stack : Mem)
    (hv : ValidParams size_kib inode_count) :
    (sb_of (formatted size_kib inode_count now stack)).magic = MAGIC := by
  rw [sb_of_formatted _ _ _ _ hv]
  rfl

theorem formatted_fields (size_kib inode_count now : Nat) (stack : Mem)
    (hv : ValidParams size_kib inode_count) :
    (sb_of (formatted size_kib inode_count now stack)).inode_count = inode_count ∧
    (sb_of (formatted size_kib inode_count now stack)).inode_table_blocks =
      table_blocks inode_count ∧
    (sb_of (formatted size_kib inode_count now stack)).data_region_blocks =
      size_kib / 4 - (3 + table_blocks inode_count) := by
  rw [sb_of_formatted _ _ _ _ hv]
  exact ⟨rfl, rfl, rfl⟩

/-- the two bitmaps of a formatted image have bit 0 set and no other bit -/
theorem formatted_bits (size_kib inode_count now : Nat) (stack : Mem)
    (hv : ValidParams size_kib inode_count) (j : Nat) (hj : j < 32768) :
    inode_bit (formatted size_kib inode_count now stack) j = decide (j = 0) ∧
    data_bit (formatted size_kib inode_count now stack) j = decide (j = 0) := by
  have hL := formatted_layout size_kib inode_count now stack hv
  have hT := table_blocks_bounds inode_count hv.2.2.2.1 hv.2.2.2.2
  rw [inode_bit_layout _ hL, data_bit_layout _ hL]
  unfold bit_at
  have b1 : load (formatted size_kib inode_count now stack) (4096 + j / 8) =
      if j / 8 = 0 then 1 else 0 := by
    rw [load_formatted _ _ _ _ _ hv]
    split_ifs <;> omega
  have b2 : load (formatted size_kib inode_count now stack) (8192 + j / 8) =
      if j / 8 = 0 then 1 else 0 := by
    rw [load_formatted _ _ _ _ _ hv]
    split_ifs <;> omega
  rw [b1, b2]
  have t1 : ∀ i, Nat.testBit 1 i = decide (i = 0) := by
    intro i
    by_cases hi : i = 0
    · subst hi; rfl
    · have := @Nat.testBit_one_eq_true_iff_self_eq_zero i
      cases h : Nat.testBit 1 i
      · simp [hi]
      · exact absurd (this.mp h) hi
  by_cases h8 : j < 8
  · have e : j / 8 = 0 := by omega
    have e' : j % 8 = j := by omega
    rw [if_pos e, e', t1]
    exact ⟨rfl, rfl⟩
  · have hne : j ≠ 0 := by omega
    rw [if_neg (by omega)]
    simp [hne]

theorem formatted_names_terminated (size_kib inode_count now : Nat) (stack : Mem)
    (hv : ValidParams size_kib inode_count) :
    NamesTerminated (formatted size_kib inode_count now stack) := by
  obtain ⟨d0, d1, -, -, -, dz⟩ := formatted_root_directory size_kib inode_count now stack hv
  intro slot hs hu
  by_cases h0 : slot = 0
  · subst h0
    rw [d0]
    simp
  by_cases h1 : slot = 1
  · subst h1
    rw [d1]
    simp
  exact absurd (dz slot (by omega) hs) hu

theorem formatted_wellformed (size_kib inode_count now : Nat) (stack : Mem)
    (hv : ValidParams size_kib inode_count) :
    WellFormed (formatted size_kib inode_count now stack) :=
  ⟨formatted_magic _ _ _ _ hv, formatted_layout _ _ _ _ hv,
    (formatted_bits _ _ _ _ hv 0 (by omega)).1, (formatted_bits _ _ _ _ hv 0 (by omega)).2⟩

/-! ## What the output image holds -/

theorem out_table_blocks (img name content : List Nat) (now i0 : Nat) (fbs : List Nat)
    (slot : Nat) (h : Layout img) :
    (sb_of (dump (fin_mem img name content now i0 fbs slot) img.length)).inode_table_blocks =
      (sb_of img).inode_table_blocks := by
  rw [sb_of_out img name content now i0 fbs slot h]

theorem load_out_fin (img name content : List Nat) (now i0 : Nat) (fbs : List Nat)
    (slot x : Nat) (hx : x < img.length) :
    load (dump (fin_mem img name content now i0 fbs slot) img.length) x =
      fin_mem img name content now i0 fbs slot x :=
  load_out _ _ _ hx

theorem layout_region_bounds (img : List Nat) (h : Layout img) :
    (3 + (sb_of img).inode_table_blocks) * 4096 + 4096 ≤ img.length ∧
      (3 + (sb_of img).inode_table_blocks + (sb_of img).data_region_blocks) * 4096 =
        img.length := by
  have hb := layout_bounds img h
  have hD := h.data_blocks
  omega

/-- the inode bitmap of the output image -/
theorem out_inode_bits (img name content : List Nat) (now i0 : Nat) (fbs : List Nat)
    (slot j : Nat) (h : Layout img)
    (hs : ∀ fb ∈ fbs, fb < 32768) (hl : fbs.length = blocks_for content.length)
    (h12 : blocks_for content.length ≤ 12) (hj : j < 32768) :
    inode_bit (dump (fin_mem img name content now i0 fbs slot) img.length) j =
      (inode_bit img j || decide (j = i0)) := by
  have hr := layout_region_bounds img h
  rw [inode_bit_layout _ (out_layout img name content now i0 fbs slot h),
    inode_bit_layout _ h, ← pre_mem_inode_bits img content now i0 fbs j hs hl h12 hj]
  apply bit_at_congr
  rw [load_out_fin _ _ _ _ _ _ _ _ (by omega),
    fin_mem_out _ _ _ _ _ _ _ _ (by omega) (by omega) (by omega)]

/-- the data bitmap of the output image -/
theorem out_data_bits (img name content : List Nat) (now i0 : Nat) (fbs : List Nat)
    (slot j : Nat) (h : Layout img) (hi0 : i0 < 32768)
    (hs : ∀ fb ∈ fbs, fb < 32768) (hl : fbs.length = blocks_for content.length)
    (h12 : blocks_for content.length ≤ 12) (hj : j < 32768) :
    data_bit (dump (fin_mem img name content now i0 fbs slot) img.length) j =
      (data_bit img j || decide (j ∈ fbs)) := by
  have hr := layout_region_bounds img h
  rw [data_bit_layout _ (out_layout img name content now i0 fbs slot h),
    data_bit_layout _ h, ← pre_mem_data_bits img content now i0 fbs j hi0 hs hl h12 hj]
  apply bit_at_congr
  rw [load_out_fin _ _ _ _ _ _ _ _ (by omega),
    fin_mem_out _ _ _ _ _ _ _ _ (by omega) (by omega) (by omega)]

/-- the new entry of the root directory of the output image -/
theorem out_dirent (img name content : List Nat) (now i0 : Nat) (fbs : List Nat)
    (slot : Nat) (h : Layout img) (hi : i0 < (sb_of img).inode_count) (hslot : slot < 64) :
    (root_dirent (dump (fin_mem img name content now i0 fbs slot) img.length) slot).inode_no =
      i0 + 1 ∧
    (root_dirent (dump (fin_mem img name content now i0 fbs slot) img.length) slot).type =
      TYPE_FILE ∧
    (root_dirent (dump (fin_mem img name content now i0 fbs slot) img.length) slot).name =
      nameField (name.take 57) := by
  have hr := layout_region_bounds img h
  have ht := table_fits img h i0 hi
  have e : root_dirent (dump (fin_mem img name content now i0 fbs slot) img.length) slot =
      decodeDirent (write_dirent (pre_mem img content now i0 fbs)
        ((3 + (sb_of img).inode_table_blocks) * 4096 + 64 * slot) (i0 + 1) name)
        ((3 + (sb_of img).inode_table_blocks) * 4096 + 64 * slot) := by
    rw [root_dirent_layout _ (out_layout img name content now i0 fbs slot h),
      out_table_blocks img name content now i0 fbs slot h]
    apply decodeDirent_shift
    intro i hi'
    rw [load_out_fin _ _ _ _ _ _ _ _ (by omega),
      fin_mem_dirent _ _ _ _ _ _ _ _ (by omega) (by omega) (by omega)]
  rw [e]
  refine ⟨?_, write_dirent_type _ _ _ _, write_dirent_name _ _ _ _⟩
  have := write_dirent_inode_no (pre_mem img content now i0 fbs)
    ((3 + (sb_of img).inode_table_blocks) * 4096 + 64 * slot) (i0 + 1) name
  unfold decodeDirent
  simp only []
  rw [this]
  omega

theorem inode_rec_layout (img : List Nat) (h : Layout img) (ino : Nat) :
    inode_rec img ino = decodeInode (load img) (12288 + 128 * (ino - 1)) := by
  unfold inode_rec
  rw [h.inode_table_start]
  rfl

/-- the root inode of the output image -/
theorem out_root_inode (img name content : List Nat) (now i0 : Nat) (fbs : List Nat)
    (slot : Nat) (h : Layout img) (hi : i0 < (sb_of img).inode_count) (hi1 : 1 ≤ i0)
    (hs : ∀ fb ∈ fbs, fb < 32768) (hl : fbs.length = blocks_for content.length)
    (h12 : blocks_for content.length ≤ 12) (hslot : slot < 64) :
    (inode_rec (dump (fin_mem img name content now i0 fbs slot) img.length) 1).links =
      ((inode_rec img 1).links + 1) % 2 ^ 16 ∧
    (inode_rec (dump (fin_mem img name content now i0 fbs slot) img.length) 1).size_bytes =
      ((inode_rec img 1).size_bytes + 64) % 2 ^ 64 := by
  have hr := layout_region_bounds img h
  have ht := table_fits img h i0 hi
  rw [inode_rec_layout _ (out_layout img name content now i0 fbs slot h), inode_rec_layout _ h]
  simp only [decodeInode, Nat.sub_self, Nat.mul_zero, Nat.add_zero]
  have hp : ∀ x, 12288 ≤ x → x < 12288 + 128 →
      load (dump (fin_mem img name content now i0 fbs slot) img.length) x =
        update_root (write_dirent (pre_mem img content now i0 fbs)
          ((3 + (sb_of img).inode_table_blocks) * 4096 + 64 * slot) (i0 + 1) name)
          12288 now x := by
    intro x h1 h2
    rw [load_out_fin _ _ _ _ _ _ _ _ (by omega), fin_mem_root _ _ _ _ _ _ _ _ h1 h2]
  have hq : ∀ x, 12288 ≤ x → x < 12288 + 128 →
      write_dirent (pre_mem img content now i0 fbs)
        ((3 + (sb_of img).inode_table_blocks) * 4096 + 64 * slot) (i0 + 1) name x =
        load img x := by
    intro x h1 h2
    rw [write_dirent_out _ _ _ _ _ (by omega),
      pre_mem_out img content now i0 fbs x ht.2 hs hl h12 (by omega) (fun fb hfb => by omega)
        (by omega)]
  constructor
  · rw [readLE_congr _ _ _ _ (fun x h1 h2 => hp x (by omega) (by omega)), update_root_links,
      readLE_congr _ _ _ _ (fun x h1 h2 => hq x (by omega) (by omega))]
  · rw [readLE_congr _ _ _ _ (fun x h1 h2 => hp x (by omega) (by omega)), update_root_size,
      readLE_congr _ _ _ _ (fun x h1 h2 => hq x (by omega) (by omega))]
    rfl

/-- the new inode of the output image and the blocks of the file -/
theorem out_new_inode (img name content : List Nat) (now i0 : Nat) (fbs : List Nat)
    (slot : Nat) (h : Layout img) (hi : i0 < (sb_of img).inode_count) (hi1 : 1 ≤ i0)
    (hs : ∀ fb ∈ fbs, 1 ≤ fb ∧ fb < (sb_of img).data_region_blocks) (hnd : fbs.Nodup)
    (hl : fbs.length = blocks_for content.length) (h12 : blocks_for content.length ≤ 12)
    (hslot : slot < 64) (hsize : content.length ≤ 12 * 4096) :
    (inode_rec (dump (fin_mem img name content now i0 fbs slot) img.length)
      (i0 + 1)).size_bytes = content.length ∧
    ∀ p, p < blocks_for content.length →
      (inode_rec (dump (fin_mem img name content now i0 fbs slot) img.length)
        (i0 + 1)).direct.getD p 0 = 3 + (sb_of img).inode_table_blocks + fbs.getD p 0 ∧
      ∀ o, o < 4096 →
        load (dump (fin_mem img name content now i0 fbs slot) img.length)
          ((3 + (sb_of img).inode_table_blocks + fbs.getD p 0) * 4096 + o) =
          content.getD (4096 * p + o) 0 % 256 := by
  have hr := layout_region_bounds img h
  have ht := table_fits img h i0 hi
  have hD := h.data_blocks
  have hs' : ∀ fb ∈ fbs, fb < 32768 := fun fb hfb => by have := hs fb hfb; omega
  have hs'' : ∀ fb ∈ fbs, fb < (sb_of img).data_region_blocks := fun fb hfb => (hs fb hfb).2
  rw [inode_rec_layout _ (out_layout img name content now i0 fbs slot h)]
  have hp : ∀ x, 12288 + 128 * i0 ≤ x → x < 12288 + 128 * i0 + 128 →
      load (dump (fin_mem img name content now i0 fbs slot) img.length) x =
        pre_mem img content now i0 fbs x := by
    intro x h1 h2
    rw [load_out_fin _ _ _ _ _ _ _ _ (by omega),
      fin_mem_out _ _ _ _ _ _ _ _ (by omega) (by omega) (by omega)]
  simp only [decodeInode, Nat.add_sub_cancel]
  constructor
  · rw [readLE_congr _ _ _ _ (fun x h1 h2 => hp x (by omega) (by omega)),
      show 12288 + 128 * i0 + 12 = 12288 + i0 * 128 + 12 by omega,
      pre_mem_size img content now i0 fbs h hi hs' hl h12]
    omega
  · intro p hp'
    have hfb : 1 ≤ fbs.getD p 0 ∧ fbs.getD p 0 < (sb_of img).data_region_blocks := by
      rw [List.getD_eq_getElem _ _ (by omega)]
      exact hs _ (List.getElem_mem _)
    constructor
    · rw [List.getD_eq_getElem?_getD, List.getElem?_map, List.getElem?_range (by omega)]
      simp only [Option.map_some', Option.getD_some]
      rw [readLE_congr _ _ _ _ (fun x h1 h2 => hp x (by omega) (by omega)),
        show 12288 + 128 * i0 + 44 + 4 * p = 12288 + i0 * 128 + 44 + 4 * p by omega,
        pre_mem_direct img content now i0 fbs p h hi hs'' hl h12 (by omega)]
    · intro o ho
      rw [load_out_fin _ _ _ _ _ _ _ _ (by omega),
        fin_mem_out _ _ _ _ _ _ _ _ (by omega) (by omega) (by omega),
        show (3 + (sb_of img).inode_table_blocks + fbs.getD p 0) * 4096 + o =
          (3 + (sb_of img).inode_table_blocks) * 4096 + fbs.getD p 0 * 4096 + o by omega,
        pre_mem_block img content now i0 fbs p o h hi hs' hnd hl h12 (by omega) ho]

/-! ## The adder on a formatted image -/

theorem take_range' (i n k : Nat) : (List.range' i n).take k = List.range' i (min k n) := by
  induction k generalizing i n with
  | zero => simp
  | succ k ih =>
    cases n with
    | zero => simp
    | succ n =>
      rw [List.range'_succ, List.take_succ_cons, ih, show min (k + 1) (n + 1) = min k n + 1 by omega,
        List.range'_succ]

theorem clear_bits_of_clear (m : Mem) (bitmap i fuel : Nat)
    (h : ∀ j, i ≤ j → j < i + fuel → bit_at m bitmap j = false) :
    clear_bits m bitmap i fuel = List.range' i fuel := by
  unfold clear_bits
  rw [List.filter_eq_self]
  intro j hj
  rw [List.mem_range'_1] at hj
  rw [h j hj.1 hj.2]
  rfl

theorem formatted_data_blocks (size_kib inode_count now : Nat) (stack : Mem)
    (hv : ValidParams size_kib inode_count) :
    26 ≤ (sb_of (formatted size_kib inode_count now stack)).data_region_blocks ∧
    (sb_of (formatted size_kib inode_count now stack)).data_region_blocks ≤ 1017 := by
  rw [(formatted_fields _ _ _ _ hv).2.2]
  obtain ⟨h1, h2, h3, h4, h5⟩ := hv
  have hT := table_blocks_bounds inode_count h4 h5
  omega

/-- on a formatted image the adder allocates the data blocks 1, ..., k -/
theorem formatted_allocated (size_kib inode_count now : Nat) (stack : Mem) (fs : Nat)
    (hv : ValidParams size_kib inode_count) (hfs : fs ≤ 12 * 4096) :
    allocated_blocks (formatted size_kib inode_count now stack) fs =
      List.range' 1 (blocks_for fs) := by
  have hL := formatted_layout size_kib inode_count now stack hv
  have hD := formatted_data_blocks size_kib inode_count now stack hv
  have hk : blocks_for fs ≤ 12 := by unfold blocks_for; omega
  rw [allocated_blocks_layout _ hL]
  obtain ⟨d, hd⟩ : ∃ d, (sb_of (formatted size_kib inode_count now stack)).data_region_blocks =
      d + 1 := ⟨_, (Nat.succ_pred_eq_of_pos (by omega)).symm⟩
  rw [hd, clear_bits_succ, if_neg (by
      rw [← data_bit_layout _ hL, (formatted_bits _ _ _ _ hv 0 (by omega)).2]
      simp),
    clear_bits_of_clear _ _ _ _ (fun j h1 h2 => by
      rw [← data_bit_layout _ hL, (formatted_bits _ _ _ _ hv j (by omega)).2]
      simp
      omega),
    take_range', show min (blocks_for fs) d = blocks_for fs by omega]

theorem entry_name_dot : entry_name ⟨1, TYPE_DIR, 46 :: List.replicate 57 0, 45⟩ = [46] := by
  decide

theorem entry_name_dotdot :
    entry_name ⟨1, TYPE_DIR, 46 :: 46 :: List.replicate 56 0, 3⟩ = [46, 46] := by
  decide

/-- the run of the adder on a formatted image: it takes inode 2, the data
blocks 1, ..., k and slot 2 of the root directory -/
theorem add_formatted (size_kib inode_count now : Nat) (stack : Mem)
    (name content : List Nat) (now' : Nat)
    (hv : ValidParams size_kib inode_count) (hp : IsFilePath name)
    (hsize : content.length ≤ 12 * 4096) :
    add (formatted size_kib inode_count now stack) name content now' =
      .ok (dump (fin_mem (formatted size_kib inode_count now stack) name content now' 1
        (List.range' 1 (blocks_for content.length)) 2)
        (formatted size_kib inode_count now stack).length) ∧
    new_inode_no (formatted size_kib inode_count now stack) = 2 := by
  have hL := formatted_layout size_kib inode_count now stack hv
  have hmagic := formatted_magic size_kib inode_count now stack hv
  have hbits := formatted_bits size_kib inode_count now stack hv
  have hN := (formatted_fields size_kib inode_count now stack hv).1
  have hal := formatted_allocated size_kib inode_count now stack content.length hv hsize
  have h12 : blocks_for content.length ≤ 12 := by unfold blocks_for; omega
  obtain ⟨d0, d1, -, -, -, dz⟩ := formatted_root_directory size_kib inode_count now stack hv
  have hn1 : 1 < (sb_of (formatted size_kib inode_count now stack)).inode_count := by
    rw [hN]; have := hv.2.2.2.1; omega
  rcases add_layout_cases _ name content now' hL hmagic hsize with
    ⟨-, hall⟩ | ⟨i0, h1, h2, h3, h4, ⟨-, hlt⟩ | ⟨hl, e⟩⟩
  · have := hall 1 hn1
    rw [(hbits 1 (by omega)).1] at this
    simp at this
  · rw [hal, List.length_range'] at hlt
    omega
  · have hi0 : i0 = 1 := by
      have hlt : i0 < 32768 := by have := hL.inodes; omega
      have b0 := (hbits i0 hlt).1
      rw [h2] at b0
      have hne : i0 ≠ 0 := by
        intro e0
        rw [e0] at b0
        simp at b0
      by_contra hc
      have := h3 1 (by omega)
      rw [(hbits 1 (by omega)).1] at this
      simp at this
    subst hi0
    refine ⟨?_, h4⟩
    rw [hal] at e hl
    have hs : ∀ fb ∈ List.range' 1 (blocks_for content.length), 1 ≤ fb ∧ fb < 32768 := by
      intro fb hfb
      rw [List.mem_range'_1] at hfb
      omega
    have hd : ∀ slot, slot < 64 →
        (root_dirent (formatted size_kib inode_count now stack) slot).inode_no ≠ 0 →
        entry_name (root_dirent (formatted size_kib inode_count now stack) slot) ≠ name := by
      intro slot hs1 hs2
      by_cases c0 : slot = 0
      · subst c0
        rw [d0, entry_name_dot]
        exact fun e => hp.2.1 e.symm
      by_cases c1 : slot = 1
      · subst c1
        rw [d1, entry_name_dotdot]
        exact fun e => hp.2.2 e.symm
      exact absurd (dz slot (by omega) hs1) hs2
    rw [scan_pre_mem_nodup _ name content now' 1 _ hL h1 hs hl h12 hp.1
      (formatted_names_terminated _ _ _ _ hv) hd] at e
    rcases first_empty_slot_layout _ hL with ⟨-, hall⟩ | ⟨s, e1, hs1, hs2, hs3⟩
    · exact absurd (dz 2 (by omega) (by omega)) (hall 2 (by omega))
    · have hs2' : s = 2 := by
        have n0 : s ≠ 0 := by
          intro c
          rw [c, d0] at hs2
          cases hs2
        have n1 : s ≠ 1 := by
          intro c
          rw [c, d1] at hs2
          cases hs2
        by_contra hc
        exact absurd (dz 2 (by omega) (by omega)) (hs3 2 (by omega))
      subst hs2'
      rw [e, e1]
      simp only [after_scan, Except.map]
      rw [finish_add_layout _ name content now' 1 _ 2 hL]

/-! ## Adding a file to a fresh image -/


/-- the number of indices of an interval among the first `n` indices -/
theorem count_interval (n a b : Nat) (hb : b < n) (hab : a ≤ b + 1) :
    ((List.range n).filter (fun i => decide (a ≤ i ∧ i ≤ b))).length = b + 1 - a := by
  have e : List.range n =
      List.range' 0 a ++ (List.range' a (b + 1 - a) ++ List.range' (b + 1) (n - (b + 1))) := by
    rw [List.range_eq_range']
    have e1 := List.range'_append_1 a (b + 1 - a) (n - (b + 1))
    rw [show a + (b + 1 - a) = b + 1 by omega] at e1
    rw [e1]
    have e2 := List.range'_append_1 0 a (n - (b + 1) + (b + 1 - a))
    rw [Nat.zero_add] at e2
    rw [e2]
    congr 1
    omega
  rw [e, List.filter_append, List.filter_append]
  have f1 : List.filter (fun i => decide (a ≤ i ∧ i ≤ b)) (List.range' 0 a) = [] := by
    rw [List.filter_eq_nil_iff]
    intro x hx
    rw [List.mem_range'_1] at hx
    simp
    omega
  have f2 : List.filter (fun i => decide (a ≤ i ∧ i ≤ b)) (List.range' a (b + 1 - a)) =
      List.range' a (b + 1 - a) := by
    rw [List.filter_eq_self]
    intro x hx
    rw [List.mem_range'_1] at hx
    simp
    omega
  have f3 : List.filter (fun i => decide (a ≤ i ∧ i ≤ b))
      (List.range' (b + 1) (n - (b + 1))) = [] := by
    rw [List.filter_eq_nil_iff]
    intro x hx
    rw [List.mem_range'_1] at hx
    simp
    omega
  rw [f1, f2, f3]
  simp

theorem load_root_inode_bytes (sb : superblock_t) (x : Nat) (h : x < 120) :
    load (root_inode_bytes sb) x = load (encodeInode (mk_root_inode sb)) x := by
  unfold root_inode_bytes finalize_local
  rw [load_readBytes _ _ _ _ (by rw [encodeInode_length]; omega),
    inode_crc_finalize_out _ _ _ (by omega),
    writeAt_eq_load _ _ (encodeInode _) _ (fun i => encodeFields_lt _ i) (by omega)
      (by rw [encodeInode_length]; omega)]
  exact load_congr _ _ _ (by omega)

/-- the root inode of a formatted image has 2 links and a size of 128 bytes -/
theorem formatted_root_inode (size_kib inode_count now : Nat) (stack : Mem)
    (hv : ValidParams size_kib inode_count) :
    (inode_rec (formatted size_kib inode_count now stack) 1).links = 2 ∧
    (inode_rec (formatted size_kib inode_count now stack) 1).size_bytes = 128 := by
  have hL := formatted_layout size_kib inode_count now stack hv
  have hT := table_blocks_bounds inode_count hv.2.2.2.1 hv.2.2.2.2
  rw [inode_rec_layout _ hL]
  simp only [decodeInode, Nat.sub_self, Nat.mul_zero, Nat.add_zero]
  have hp : ∀ off w, off + w ≤ 120 →
      readLE (load (formatted size_kib inode_count now stack)) (12288 + off) w =
        readLE (load (encodeInode (mk_root_inode (fmt_sb size_kib inode_count now)))) off w := by
    intro off w hw
    unfold readLE
    congr 1
    apply readBytes_shift
    intro i hi
    rw [load_formatted _ _ _ _ _ hv, if_neg (by omega), if_neg (by omega), if_pos (by omega),
      load_root_inode_bytes _ _ (by omega)]
    exact load_congr _ _ _ (by omega)
  constructor
  · rw [hp 2 2 (by omega)]
    unfold encodeInode
    rw [readLE_field _ 1 2 2 (mk_root_inode (fmt_sb size_kib inode_count now)).links (by simp)
      (by simp [fieldsWidth])]
    simp [mk_root_inode]
  · rw [hp 12 8 (by omega)]
    unfold encodeInode
    rw [readLE_field _ 4 12 8 (mk_root_inode (fmt_sb size_kib inode_count now)).size_bytes
      (by simp) (by simp [fieldsWidth])]
    simp [mk_root_inode, DIRENT_SIZE]

/-- C1: for valid parameters and a regular file of length S with
0 < S ≤ 12 * 4096, the adder succeeds on every image the builder writes (it
writes one whenever the 4092 bytes its superblock checksum reads from the
local variable can be read), and in
its output exactly one more inode-bitmap bit is set (bit 1, that of the new
inode 2), exactly ceil(S / 4096) more data-bitmap bits are set (bits 1, ...,
ceil(S / 4096)) and no bit is cleared, slot 2 of the root directory, empty
before, holds the number of the new inode, the type file and the first 57
bytes of the name, NUL-padded, and the root inode has its size grown by 64
and its links by 1. -/
theorem add_to_fresh_image (size_kib inode_count now : Nat) (stack : Mem) (readable : Nat)
    (name content : List Nat) (now' : Nat)
    (hv : ValidParams size_kib inode_count) (hp : IsFilePath name)
    (hpos : 0 < content.length) (hsize : content.length ≤ 12 * 4096) :
    (BS - 4 ≤ readable → ∃ img, format size_kib inode_count now stack readable = .ok img) ∧
    ∀ img, format size_kib inode_count now stack readable = .ok img →
    ∃ out,
      add img name content now' = .ok out ∧
      new_inode_no img = 2 ∧
      inode_bit img 1 = false ∧
      (∀ i, i < 32768 → inode_bit out i = (inode_bit img i || decide (i = 1))) ∧
      ((List.range 32768).filter (fun i => inode_bit out i && !inode_bit img i)).length = 1 ∧
      (∀ i, 1 ≤ i → i ≤ blocks_for content.length → data_bit img i = false) ∧
      (∀ i, i < 32768 → data_bit out i =
        (data_bit img i || decide (1 ≤ i ∧ i ≤ blocks_for content.length))) ∧
      ((List.range 32768).filter (fun i => data_bit out i && !data_bit img i)).length =
        blocks_for content.length ∧
      (root_dirent img 2).inode_no = 0 ∧
      (root_dirent out 2).inode_no = 2 ∧
      (root_dirent out 2).type = TYPE_FILE ∧
      (root_dirent out 2).name = nameField (name.take 57) ∧
      (inode_rec out 1).size_bytes = (inode_rec img 1).size_bytes + 64 ∧
      (inode_rec out 1).links = (inode_rec img 1).links + 1 := by
  have hL := formatted_layout size_kib inode_count now stack hv
  have hbits := formatted_bits size_kib inode_count now stack hv
  have hN := (formatted_fields size_kib inode_count now stack hv).1
  have h12 : blocks_for content.length ≤ 12 := by unfold blocks_for; omega
  have hk : 1 ≤ blocks_for content.length := by unfold blocks_for; omega
  obtain ⟨hadd, hnew⟩ := add_formatted size_kib inode_count now stack name content now' hv hp
    hsize
  obtain ⟨-, -, -, -, -, dz⟩ := formatted_root_directory size_kib inode_count now stack hv
  obtain ⟨rl, rs⟩ := formatted_root_inode size_kib inode_count now stack hv
  have hn1 : 1 < (sb_of (formatted size_kib inode_count now stack)).inode_count := by
    rw [hN]; have := hv.2.2.2.1; omega
  have hs : ∀ fb ∈ List.range' 1 (blocks_for content.length), fb < 32768 := by
    intro fb hfb
    rw [List.mem_range'_1] at hfb
    omega
  have hl : (List.range' 1 (blocks_for content.length)).length = blocks_for content.length :=
    List.length_range' _ _ _
  have hib := fun i hi => out_inode_bits (formatted size_kib inode_count now stack) name content
    now' 1 (List.range' 1 (blocks_for content.length)) 2 i hL hs hl h12 hi
  have hdb : ∀ i, i < 32768 →
      data_bit (dump (fin_mem (formatted size_kib inode_count now stack) name content now' 1
        (List.range' 1 (blocks_for content.length)) 2)
        (formatted size_kib inode_count now stack).length) i =
      (data_bit (formatted size_kib inode_count now stack) i ||
        decide (1 ≤ i ∧ i ≤ blocks_for content.length)) := by
    intro i hi
    rw [out_data_bits (formatted size_kib inode_count now stack) name content
      now' 1 (List.range' 1 (blocks_for content.length)) 2 i hL (by omega) hs hl h12 hi]
    have e : decide (i ∈ List.range' 1 (blocks_for content.length)) =
        decide (1 ≤ i ∧ i ≤ blocks_for content.length) := by
      rw [decide_eq_decide, List.mem_range'_1]
      omega
    rw [e]
  obtain ⟨e1, e2, e3⟩ := out_dirent (formatted size_kib inode_count now stack) name content
    now' 1 (List.range' 1 (blocks_for content.length)) 2 hL hn1 (by omega)
  obtain ⟨e4, e5⟩ := out_root_inode (formatted size_kib inode_count now stack) name content
    now' 1 (List.range' 1 (blocks_for content.length)) 2 hL hn1 (by omega) hs hl h12 (by omega)
  refine ⟨fun hr => ⟨_, format_of_valid size_kib inode_count now stack readable hv hr⟩,
    fun img hok => ?_⟩
  obtain ⟨-, -, e⟩ := format_ok size_kib inode_count now stack readable img hok
  subst e
  refine ⟨_, hadd, hnew, ?_, hib, ?_, ?_,
    hdb, ?_, dz 2 (by omega) (by omega), e1, e2, e3, ?_, ?_⟩
  · rw [(hbits 1 (by omega)).1]
    rfl
  · have c := count_interval 32768 1 1 (by omega) (by omega)
    rw [Nat.add_sub_cancel] at c
    refine (congrArg List.length (List.filter_congr ?_)).trans c
    intro i hi
    beta_reduce
    rw [List.mem_range] at hi
    rw [hib i hi, (hbits i hi).1]
    by_cases c0 : i = 0
    · subst c0; rfl
    · by_cases c1 : i = 1
      · subst c1; rfl
      · have : ¬ (1 ≤ i ∧ i ≤ 1) := by omega
        simp [c0, c1, this]
  · intro i h1 h2
    rw [(hbits i (by omega)).2]
    simp
    omega
  · have c := count_interval 32768 1 (blocks_for content.length) (by omega) (by omega)
    rw [Nat.add_sub_cancel] at c
    refine (congrArg List.length (List.filter_congr ?_)).trans c
    intro i hi
    beta_reduce
    rw [List.mem_range] at hi
    rw [hdb i hi, (hbits i hi).2]
    by_cases c0 : i = 0
    · subst c0; simp
    · simp [c0]
  · rw [e5, rs]
    norm_num
  · rw [e4, rl]
    norm_num

/-- C1, at a file of one byte named "a" added to the image of
`--size-kib 180 --inodes 128`. -/
theorem add_to_fresh_image_witness :
    ∃ img out, format 180 128 0 (fun _ => 0) 4092 = .ok img ∧
      add img [97] [1] 0 = .ok out ∧
      new_inode_no img = 2 ∧
      inode_bit img 1 = false ∧
      (∀ i, i < 32768 → inode_bit out i = (inode_bit img i || decide (i = 1))) ∧
      ((List.range 32768).filter (fun i => inode_bit out i && !inode_bit img i)).length = 1 ∧
      (∀ i, 1 ≤ i → i ≤ blocks_for [1].length → data_bit img i = false) ∧
      (∀ i, i < 32768 → data_bit out i =
        (data_bit img i || decide (1 ≤ i ∧ i ≤ blocks_for [1].length))) ∧
      ((List.range 32768).filter (fun i => data_bit out i && !data_bit img i)).length =
        blocks_for [1].length ∧
      (root_dirent img 2).inode_no = 0 ∧
      (root_dirent out 2).inode_no = 2 ∧
      (root_dirent out 2).type = TYPE_FILE ∧
      (root_dirent out 2).name = nameField ([97].take 57) ∧
      (inode_rec out 1).size_bytes = (inode_rec img 1).size_bytes + 64 ∧
      (inode_rec out 1).links = (inode_rec img 1).links + 1 := by
  have hf := format_of_valid 180 128 0 (fun _ => 0) 4092 (by decide) (by decide)
  obtain ⟨out, h⟩ := (add_to_fresh_image 180 128 0 (fun _ => 0) 4092 [97] [1] 0 (by decide)
    (by simp [IsFilePath, IsName]) (by simp) (by simp)).2 _ hf
  exact ⟨_, out, hf, h⟩

/-! ## The content of an inserted file -/

theorem file_blocks_succ (img : List Nat) (ino k : Nat) :
    file_blocks img ino (k + 1) = file_blocks img ino k ++
      readBytes (load img) ((inode_rec img ino).direct.getD k 0 * BS) BS := by
  unfold file_blocks
  rw [List.range_succ, List.map_append, List.flatten_append]
  simp only [List.map_cons, List.map_nil, List.flatten_cons, List.flatten_nil, List.append_nil]

theorem file_blocks_length (img : List Nat) (ino k : Nat) :
    (file_blocks img ino k).length = k * 4096 := by
  induction k with
  | zero => rfl
  | succ k ih =>
    rw [file_blocks_succ, List.length_append, ih, readBytes_length]
    simp only [BS]
    omega

theorem file_blocks_getD (img : List Nat) (ino k p o : Nat) (hp : p < k) (ho : o < 4096) :
    (file_blocks img ino k).getD (4096 * p + o) 0 =
      load img ((inode_rec img ino).direct.getD p 0 * 4096 + o) := by
  induction k with
  | zero => omega
  | succ k ih =>
    rw [file_blocks_succ]
    by_cases c : p < k
    · rw [List.getD_append _ _ _ _ (by rw [file_blocks_length]; omega)]
      exact ih c
    · have e : p = k := by omega
      subst e
      rw [List.getD_append_right _ _ _ _ (by rw [file_blocks_length]; omega), file_blocks_length,
        show 4096 * p + o - p * 4096 = o by omega]
      simp only [BS]
      exact readBytes_getD _ _ _ _ ho

/-- C2: when the insertion of a file content of length S ≤ 12 * 4096 into a
well-formed image succeeds, then in the output image the new inode has
size_bytes = S, the concatenation of the ceil(S / 4096) blocks at its direct
pointers, cut to size_bytes bytes, is the content, and what follows in that
concatenation, the rest of the last block, is all zero. -/
theorem add_file_content (img name content out : List Nat) (now : Nat)
    (hw : WellFormed img) (hc : IsBytes content) (hsize : content.length ≤ 12 * 4096)
    (hok : add img name content now = .ok out) :
    (inode_rec out (new_inode_no img)).size_bytes = content.length ∧
    (file_blocks out (new_inode_no img) (blocks_for content.length)).take
      (inode_rec out (new_inode_no img)).size_bytes = content ∧
    (file_blocks out (new_inode_no img) (blocks_for content.length)).drop
      (inode_rec out (new_inode_no img)).size_bytes =
      List.replicate (blocks_for content.length * 4096 - content.length) 0 := by
  have hL := hw.layout
  obtain ⟨-, i0, slot, hi0, hbit, -, hnew, hlen, hscan, rfl⟩ :=
    add_ok_layout img name content _ now hL hsize hok
  have hi1 : 1 ≤ i0 := by
    rcases Nat.eq_zero_or_pos i0 with e | e
    · rw [e, hw.root_inode] at hbit
      cases hbit
    · exact e
  have h12 : blocks_for content.length ≤ 12 := by unfold blocks_for; omega
  have hk : content.length ≤ blocks_for content.length * 4096 := by unfold blocks_for; omega
  obtain ⟨hsz, hblk⟩ := out_new_inode img name content now i0
    (allocated_blocks img content.length) slot hL hi0 hi1
    (fun fb hfb => ⟨allocated_blocks_pos img hL hw.root_block _ fb hfb,
      (allocated_blocks_mem img hL _ fb hfb).1⟩)
    (allocated_blocks_nodup img hL _) hlen h12 (scan_dirents_some _ _ _ _ hscan).1 hsize
  rw [hnew, hsz]
  have hget : ∀ n, n < blocks_for content.length * 4096 →
      (file_blocks (dump (fin_mem img name content now i0 (allocated_blocks img content.length)
        slot) img.length) (i0 + 1) (blocks_for content.length)).getD n 0 =
        content.getD n 0 % 256 := by
    intro n hn
    have e : n = 4096 * (n / 4096) + n % 4096 := by omega
    have hp : n / 4096 < blocks_for content.length := by omega
    have ho : n % 4096 < 4096 := by omega
    obtain ⟨hd, hb⟩ := hblk (n / 4096) hp
    rw [e, file_blocks_getD _ _ _ _ _ hp ho, hd, hb _ ho, ← e]
  refine ⟨rfl, ?_, ?_⟩
  · apply List.ext_getElem
    · rw [List.length_take, file_blocks_length]
      omega
    · intro n h1 h2
      rw [List.getElem_take, ← List.getD_eq_getElem _ 0, hget n (by omega),
        List.getD_eq_getElem _ 0 h2]
      exact Nat.mod_eq_of_lt (hc _ (List.getElem_mem _))
  · apply List.ext_getElem
    · rw [List.length_drop, file_blocks_length, List.length_replicate]
    · intro n h1 h2
      rw [List.length_replicate] at h2
      rw [List.getElem_drop, ← List.getD_eq_getElem _ 0, hget _ (by omega),
        List.getElem_replicate, List.getD_eq_default _ _ (by omega)]

/-- C2, at a file of one byte named "a" added to the image of
`--size-kib 180 --inodes 128`. -/
theorem add_file_content_witness :
    ∃ out, add (formatted 180 128 0 (fun _ => 0)) [97] [1] 0 = .ok out ∧
      (inode_rec out (new_inode_no (formatted 180 128 0 (fun _ => 0)))).size_bytes =
        [1].length ∧
      (file_blocks out (new_inode_no (formatted 180 128 0 (fun _ => 0)))
        (blocks_for [1].length)).take
        (inode_rec out (new_inode_no (formatted 180 128 0 (fun _ => 0)))).size_bytes = [1] ∧
      (file_blocks out (new_inode_no (formatted 180 128 0 (fun _ => 0)))
        (blocks_for [1].length)).drop
        (inode_rec out (new_inode_no (formatted 180 128 0 (fun _ => 0)))).size_bytes =
        List.replicate (blocks_for [1].length * 4096 - [1].length) 0 :=
  ⟨_, (add_formatted 180 128 0 (fun _ => 0) [97] [1] 0 (by decide)
      (by simp [IsFilePath, IsName]) (by simp)).1,
    add_file_content (formatted 180 128 0 (fun _ => 0)) [97] [1] _ 0
      (formatted_wellformed 180 128 0 (fun _ => 0) (by decide)) (by simp [IsBytes]) (by simp)
      (add_formatted 180 128 0 (fun _ => 0) [97] [1] 0 (by decide)
        (by simp [IsFilePath, IsName]) (by simp)).1⟩

/-! ## Inserting the same name twice -/

theorem readLE_ones (a : Nat) : readLE (fun _ => 1) a 4 = 16843009 := by
  simp [readLE, readBytes, leVal]

/-- on an image whose data bitmap has bit 0 clear, a file of one block of
bytes 1 is copied over the root directory block (data block 0), and the scan
of the root directory that follows finds neither the name nor an empty slot -/
theorem add_over_root (X content : List Nat) (now : Nat) (hL : Layout X)
    (hmagic : (sb_of X).magic = MAGIC)
    (hino : ∃ i, i < (sb_of X).inode_count ∧ inode_bit X i = false)
    (hroot : data_bit X 0 = false)
    (hlen : content.length = 4096) (hc : ∀ o, o < 4096 → content.getD o 0 = 1) :
    add X [97] content now = .error .noFreeDirent := by
  have hb : blocks_for content.length = 1 := by rw [hlen]; rfl
  have hal : allocated_blocks X content.length = [0] := by
    rw [allocated_blocks_layout _ hL, hb]
    obtain ⟨d, hd⟩ : ∃ d, (sb_of X).data_region_blocks = d + 1 :=
      ⟨_, (Nat.succ_pred_eq_of_pos (by have := hL.data_blocks; omega)).symm⟩
    rw [hd, clear_bits_succ, if_pos (by rw [← data_bit_layout _ hL]; exact hroot)]
    rfl
  rcases add_layout_cases X [97] content now hL hmagic (by omega) with
    ⟨-, hall⟩ | ⟨i0, h1, -, -, -, ⟨-, hlt⟩ | ⟨hl, e⟩⟩
  · obtain ⟨i, hi1, hi2⟩ := hino
    rw [hall i hi1] at hi2
    cases hi2
  · rw [hal, hb] at hlt
    exact absurd hlt (by decide)
  · rw [hal] at e hl
    rw [e]
    have hbyte : ∀ o, o < 4096 →
        pre_mem X content now i0 [0] ((3 + (sb_of X).inode_table_blocks) * 4096 + o) = 1 := by
      intro o ho
      have := pre_mem_block X content now i0 [0] 0 o hL h1 (by
        intro fb hfb
        rw [List.mem_singleton] at hfb
        omega) (List.nodup_singleton 0) hl (by omega) (by decide) ho
      simp only [List.getD_cons_zero, Nat.zero_mul, Nat.add_zero, Nat.mul_zero,
        Nat.zero_add] at this
      rw [this, hc o ho]
    have hin : ∀ j, j < 64 →
        readLE (pre_mem X content now i0 [0])
          ((3 + (sb_of X).inode_table_blocks) * 4096 + DIRENT_SIZE * j) 4 = 16843009 := by
      intro j hj
      simp only [DIRENT_SIZE]
      rw [readLE_congr _ (fun _ => 1) _ 4 (fun x h1 h2 => by
        have := hbyte (x - (3 + (sb_of X).inode_table_blocks) * 4096) (by omega)
        rw [← this]
        exact congrArg _ (by omega))]
      exact readLE_ones _
    have hstr : ∀ j, j < 64 →
        strcmp_eq (pre_mem X content now i0 [0])
          ((3 + (sb_of X).inode_table_blocks) * 4096 + DIRENT_SIZE * j + 5) [97] = false := by
      intro j hj
      simp only [DIRENT_SIZE]
      unfold strcmp_eq
      rw [show (3 + (sb_of X).inode_table_blocks) * 4096 + 64 * j + 5 =
        (3 + (sb_of X).inode_table_blocks) * 4096 + (64 * j + 5) by omega,
        hbyte _ (by omega)]
      rfl
    rw [(scan_dirents_nodup _ _ [97] 0 64 (fun j _ hj _ => hstr j (by omega))).2]
    rcases first_empty_slot_spec (pre_mem X content now i0 [0])
      ((3 + (sb_of X).inode_table_blocks) * 4096) 0 64 with ⟨e1, -⟩ | ⟨s, -, -, hs, hz, -⟩
    · rw [e1]
      rfl
    · rw [hin s (by omega)] at hz
      cases hz

theorem load_set (l : List Nat) (i v x : Nat) (hi : i < l.length) :
    load (l.set i v) x = if x = i then v else load l x := by
  unfold load
  rw [List.getD_eq_getElem?_getD, List.getD_eq_getElem?_getD, List.getElem?_set]
  by_cases c : x = i
  · subst c
    simp [hi]
  · have c' : ¬ i = x := fun h => c h.symm
    simp [c, c']

/-- images that agree on their first 116 bytes have the same superblock -/
theorem sb_of_congr (a b : List Nat) (h : ∀ x, x < 116 → load a x = load b x) :
    sb_of a = sb_of b := by
  have key : ∀ off w, off + w ≤ 116 → readLE (load a) off w = readLE (load b) off w :=
    fun off w hw => readLE_congr _ _ _ _ (fun x h1 h2 => h x (by omega))
  unfold sb_of
  simp only [decodeSuperblock, Nat.zero_add]
  rw [key 0 4 (by omega), key 4 4 (by omega), key 8 4 (by omega),
    key 12 8 (by omega), key 20 8 (by omega), key 28 8 (by omega),
    key 36 8 (by omega), key 44 8 (by omega), key 52 8 (by omega),
    key 60 8 (by omega), key 68 8 (by omega), key 76 8 (by omega),
    key 84 8 (by omega), key 92 8 (by omega), key 100 8 (by omega),
    key 108 4 (by omega), key 112 4 (by omega)]

/-- an image with one byte past the superblock changed into another byte
keeps the layout -/
theorem layout_set (img : List Nat) (i v : Nat) (h : Layout img) (hi1 : 116 ≤ i)
    (hi2 : i < img.length) (hv : v < 256) :
    Layout (img.set i v) ∧ sb_of (img.set i v) = sb_of img := by
  have e : sb_of (img.set i v) = sb_of img :=
    sb_of_congr _ _ (fun x hx => by rw [load_set _ _ _ _ hi2, if_neg (by omega)])
  refine ⟨?_, e⟩
  constructor
  · intro x
    rw [load_set _ _ _ _ hi2]
    split
    · exact hv
    · exact h.bytes x
  · rw [e, List.length_set]; exact h.size
  · rw [e]; exact h.inode_bitmap_start
  · rw [e]; exact h.inode_bitmap_blocks
  · rw [e]; exact h.data_bitmap_start
  · rw [e]; exact h.data_bitmap_blocks
  · rw [e]; exact h.inode_table_start
  · rw [e]; exact h.data_region_start
  · rw [e]; exact h.total
  · rw [e]; exact h.table
  · rw [e]; exact h.inodes
  · rw [e]; exact h.data_blocks
  · rw [e]; exact h.small

/-- The failure of C10 as stated, on a loaded image whose data bitmap does not
mark the root directory block: on a formatted image with bit 0 of the data
bitmap cleared (byte 8192 set to 0), for the name "a" and a file of 4096
bytes 1, none of the six conditions holds, and yet the adder fails, with the
no-free-slot error: it has copied the file over the root directory block
before it scans that block. -/
theorem add_fails_without_condition :
    Layout ((formatted 180 128 0 (fun _ => 0)).set 8192 0) ∧
    ¬ FailureCondition ((formatted 180 128 0 (fun _ => 0)).set 8192 0) [97]
      (List.replicate 4096 1) ∧
    add ((formatted 180 128 0 (fun _ => 0)).set 8192 0) [97] (List.replicate 4096 1) 0 =
      .error .noFreeDirent := by
  have hv : ValidParams 180 128 := by decide
  have hF := formatted_layout 180 128 0 (fun _ => 0) hv
  have hlenF := formatted_length 180 128 0 (fun _ => 0) hv
  have hbits := formatted_bits 180 128 0 (fun _ => 0) hv
  have hf := formatted_fields 180 128 0 (fun _ => 0) hv
  have hT := table_blocks_bounds 128 (by omega) (by omega)
  have hi2 : 8192 < (formatted 180 128 0 (fun _ => 0)).length := by rw [hlenF]; omega
  obtain ⟨hL, e⟩ := layout_set _ 8192 0 hF (by omega) hi2 (by omega)
  obtain ⟨d0, d1, -, -, -, dz⟩ := formatted_root_directory 180 128 0 (fun _ => 0) hv
  have hmagic : (sb_of ((formatted 180 128 0 (fun _ => 0)).set 8192 0)).magic = MAGIC := by
    rw [e]; exact formatted_magic 180 128 0 (fun _ => 0) hv
  have hib : inode_bit ((formatted 180 128 0 (fun _ => 0)).set 8192 0) 1 = false := by
    rw [inode_bit_layout _ hL, bit_at_congr _ (load (formatted 180 128 0 (fun _ => 0))) _ _
      (by rw [load_set _ _ _ _ hi2, if_neg (by omega)]), ← inode_bit_layout _ hF,
      (hbits 1 (by omega)).1]
    rfl
  have hdb : data_bit ((formatted 180 128 0 (fun _ => 0)).set 8192 0) 0 = false := by
    rw [data_bit_layout _ hL]
    unfold bit_at
    rw [load_set _ _ _ _ hi2, if_pos (by omega)]
    rfl
  have hn : 1 < (sb_of ((formatted 180 128 0 (fun _ => 0)).set 8192 0)).inode_count := by
    rw [e, hf.1]; omega
  have hrd : ∀ slot, slot < 64 →
      root_dirent ((formatted 180 128 0 (fun _ => 0)).set 8192 0) slot =
        root_dirent (formatted 180 128 0 (fun _ => 0)) slot := by
    intro slot hs
    rw [root_dirent_layout _ hL, root_dirent_layout _ hF, e]
    apply decodeDirent_shift
    intro i hi
    rw [load_set _ _ _ _ hi2, if_neg (by omega)]
  have hcl : (List.replicate 4096 1).length = 4096 := List.length_replicate _ _
  have hk : blocks_for (List.replicate 4096 1).length = 1 := by rw [hcl]; rfl
  refine ⟨hL, ?_, ?_⟩
  · rintro (hc | hc | hc | hc | hc | ⟨slot, hs1, hs2, hs3⟩)
    · exact hc hmagic
    · rw [hk] at hc
      omega
    · rw [hc 1 hn] at hib
      cases hib
    · rw [hk] at hc
      have : 0 < free_data_blocks ((formatted 180 128 0 (fun _ => 0)).set 8192 0) := by
        unfold free_data_blocks
        refine List.length_pos_of_mem (a := 0)
          (List.mem_filter.mpr ⟨List.mem_range.mpr ?_, ?_⟩)
        · have := hL.data_blocks
          omega
        · rw [hdb]
          rfl
      omega
    · exact hc 2 (by omega) (by rw [hrd 2 (by omega)]; exact dz 2 (by omega) (by omega))
    · rw [hrd slot hs1] at hs2 hs3
      by_cases c0 : slot = 0
      · subst c0
        rw [d0, entry_name_dot] at hs3
        cases hs3
      by_cases c1 : slot = 1
      · subst c1
        rw [d1, entry_name_dotdot] at hs3
        cases hs3
      exact hs2 (dz slot (by omega) hs1)
  · exact add_over_root _ _ 0 hL hmagic ⟨1, hn, hib⟩ hdb hcl (fun o ho => by
      rw [List.getD_eq_getElem _ _ (by rw [hcl]; exact ho), List.getElem_replicate])

/-- C10 (amended): on a loaded image with the layout the builder writes, whose
data bitmap marks the root directory block (bit 0) and whose non-empty root
directory entries hold terminated names, for a file of fewer than 2 ^ 63 bytes
under a name without NUL, the adder fails if and only if one of the six
conditions holds (bad magic; more than 12 blocks needed; no unset bit among
the first inode_count bits of the inode bitmap; fewer unset bits among the
first data_region_blocks bits of the data bitmap than blocks needed; no entry
with inode number 0 in the root directory block; a non-empty entry of that
block with the name of the file), and it writes an output image if and only
if none holds: a failure writes nothing. -/
theorem add_fails_iff (img name content : List Nat) (now : Nat)
    (hL : Layout img) (hroot : data_bit img 0 = true) (ht : NamesTerminated img)
    (hn : IsName name) (hoff : content.length < 2 ^ 63) :
    ((∃ e, add img name content now = .error e) ↔ FailureCondition img name content) ∧
    ((∃ out, add img name content now = .ok out) ↔ ¬ FailureCondition img name content) :=
  error_or_ok_iff _ _ (add_layout_outcome img name content now hL hroot ht hn hoff)

/-- C10 (amended), at a file of one byte named "a" and the image of
`--size-kib 180 --inodes 128`. -/
theorem add_fails_iff_witness :
    ((∃ e, add (formatted 180 128 0 (fun _ => 0)) [97] [1] 0 = .error e) ↔
      FailureCondition (formatted 180 128 0 (fun _ => 0)) [97] [1]) ∧
    ((∃ out, add (formatted 180 128 0 (fun _ => 0)) [97] [1] 0 = .ok out) ↔
      ¬ FailureCondition (formatted 180 128 0 (fun _ => 0)) [97] [1]) :=
  add_fails_iff (formatted 180 128 0 (fun _ => 0)) [97] [1] 0
    (formatted_layout 180 128 0 (fun _ => 0) (by decide))
    (formatted_bits 180 128 0 (fun _ => 0) (by decide) 0 (by omega)).2
    (formatted_names_terminated 180 128 0 (fun _ => 0) (by decide))
    (by simp [IsName]) (by simp)

/-! ## An image without a free inode -/

theorem full_inode_image_length : full_inode_image.length = 5 * 4096 := by
  unfold full_inode_image
  rw [List.length_append, List.length_append, List.length_append, List.length_replicate,
    block_with_length _ (by rw [encodeSuperblock_length]; omega),
    block_with_length _ (by simp), block_with_length _ (by simp)]

theorem sb_of_full_inode_image :
    sb_of full_inode_image =
      { truncSuperblock (mk_superblock 5 8 1 1 0) with
        checksum := readLE (load full_inode_image) 112 4 } := by
  unfold sb_of
  apply decodeSuperblock_of_prefix
  intro x hx
  unfold full_inode_image
  rw [load_block_with _ _ _ (by rw [encodeSuperblock_length]; omega),
    if_pos (by rw [encodeSuperblock_length]; omega)]

theorem load_full_inode_image_bitmap : load full_inode_image 4096 = 255 := by
  unfold full_inode_image
  rw [load_block_with _ _ _ (by rw [encodeSuperblock_length]; omega),
    if_neg (by rw [encodeSuperblock_length]; omega), if_neg (by omega),
    load_block_with _ _ _ (by simp), if_pos (by simp)]
  rfl

/-- C9, at an image of five blocks whose eight inodes are all in use. -/
theorem add_no_free_inode_witness :
    Loadable full_inode_image ∧ (sb_of full_inode_image).magic = MAGIC ∧
      ([1] : List Nat).length ≤ 12 * 4096 ∧
      (∀ i, i < (sb_of full_inode_image).inode_count → inode_bit full_inode_image i = true) ∧
      add full_inode_image [97] [1] 0 = .error .noFreeInode := by
  have hsb := sb_of_full_inode_image
  have hlen := full_inode_image_length
  have hmagic : (sb_of full_inode_image).magic = MAGIC := by rw [hsb]; rfl
  have hsize : image_size full_inode_image = 5 * 4096 := by
    unfold image_size
    rw [hsb]
    rfl
  have hload : Loadable full_inode_image := by
    unfold Loadable
    rw [hsize, hlen]
    simp only [SB_SIZE]
    omega
  have hfull : ∀ i, i < (sb_of full_inode_image).inode_count →
      inode_bit full_inode_image i = true := by
    intro i hi
    have hi8 : i < 8 := by
      rw [hsb] at hi
      exact hi
    unfold inode_bit buffer bit_at
    rw [hsize, ← hlen, List.take_length, hsb]
    have e : (1 : Nat) * BS % 2 ^ 64 + i / 8 = 4096 := by
      simp only [BS]
      omega
    show (load full_inode_image (1 * BS % 2 ^ 64 + i / 8)).testBit (i % 8) = true
    rw [e, load_full_inode_image_bitmap, Nat.mod_eq_of_lt hi8]
    interval_cases i <;> rfl
  exact ⟨hload, hmagic, by simp, hfull,
    add_no_free_inode full_inode_image [97] [1] 0 hload hmagic (by simp) hfull⟩

/-! ## Names longer than the name field -/

/-- the entries of the root directory of the output image other than the new
one are those of the input image, when data block 0 is not given to the file -/
theorem out_dirent_other (img name content : List Nat) (now i0 : Nat) (fbs : List Nat)
    (slot s : Nat) (h : Layout img) (hi : i0 < (sb_of img).inode_count)
    (hs : ∀ fb ∈ fbs, 1 ≤ fb ∧ fb < 32768) (hl : fbs.length = blocks_for content.length)
    (h12 : blocks_for content.length ≤ 12) (hslot : s < 64) (hne : s ≠ slot) :
    root_dirent (dump (fin_mem img name content now i0 fbs slot) img.length) s =
      root_dirent img s := by
  have hr := layout_region_bounds img h
  have ht := table_fits img h i0 hi
  rw [root_dirent_layout _ (out_layout img name content now i0 fbs slot h),
    out_table_blocks img name content now i0 fbs slot h, root_dirent_layout _ h]
  apply decodeDirent_shift
  intro i hi'
  rw [load_out_fin _ _ _ _ _ _ _ _ (by omega),
    fin_mem_out _ _ _ _ _ _ _ _ (by omega) (by omega) (by omega),
    pre_mem_root_block img content now i0 fbs _ h hi hs hl h12 (by omega) (by omega)]

set_option maxRecDepth 100000 in
theorem entry_name_long :
    (nameField ((List.replicate 58 97).take 57)).takeWhile (fun b => b ≠ 0) ≠
      List.replicate 58 97 := by
  decide

set_option maxRecDepth 100000 in
theorem nameField_long_terminated : 0 ∈ nameField ((List.replicate 58 97).take 57) := by
  decide

/-- a file inserted into a formatted image under a name of 58 bytes "a" gets
slot 2 of the root directory, with the first 57 bytes of the name, and a second
file under the same name is inserted as well -/
theorem long_name_inserted_twice :
    ∃ I1, add (formatted 180 128 0 (fun _ => 0)) (List.replicate 58 97) [1] 0 = .ok I1 ∧
      Layout I1 ∧ data_bit I1 0 = true ∧ (root_dirent I1 2).inode_no = 2 ∧
      (root_dirent I1 2).name = nameField ((List.replicate 58 97).take 57) ∧
      ∃ I2, add I1 (List.replicate 58 97) [2] 0 = .ok I2 := by
  have hv : ValidParams 180 128 := by decide
  have hL := formatted_layout 180 128 0 (fun _ => 0) hv
  have hbits := formatted_bits 180 128 0 (fun _ => 0) hv
  have hf := formatted_fields 180 128 0 (fun _ => 0) hv
  obtain ⟨d0, d1, -, -, -, dz⟩ := formatted_root_directory 180 128 0 (fun _ => 0) hv
  have hN : IsName (List.replicate 58 97) := by
    intro b hb
    rw [List.eq_of_mem_replicate hb]
    omega
  have hadd := (add_formatted 180 128 0 (fun _ => 0) (List.replicate 58 97) [1] 0 hv
    ⟨hN, by decide, by decide⟩ (by simp)).1
  have hk : blocks_for ([1] : List Nat).length = 1 := rfl
  have hs : ∀ fb ∈ List.range' 1 (blocks_for ([1] : List Nat).length),
      1 ≤ fb ∧ fb < 32768 := by
    intro fb hfb
    rw [hk, List.mem_range'_1] at hfb
    omega
  have hs' : ∀ fb ∈ List.range' 1 (blocks_for ([1] : List Nat).length), fb < 32768 :=
    fun fb hfb => (hs fb hfb).2
  have hl : (List.range' 1 (blocks_for ([1] : List Nat).length)).length =
      blocks_for ([1] : List Nat).length := List.length_range' _ _ _
  have hno : ∀ j, j = 0 ∨ 2 ≤ j →
      ¬ j ∈ List.range' 1 (blocks_for ([1] : List Nat).length) := by
    intro j hj
    rw [hk, List.mem_range'_1]
    omega
  have hn1 : 1 < (sb_of (formatted 180 128 0 (fun _ => 0))).inode_count := by
    rw [hf.1]; omega
  refine ⟨_, hadd, ?_⟩
  have L1 := out_layout (formatted 180 128 0 (fun _ => 0)) (List.replicate 58 97) [1] 0 1
    (List.range' 1 (blocks_for ([1] : List Nat).length)) 2 hL
  have hsb := sb_of_out (formatted 180 128 0 (fun _ => 0)) (List.replicate 58 97) [1] 0 1
    (List.range' 1 (blocks_for ([1] : List Nat).length)) 2 hL
  obtain ⟨n1, -, n3⟩ := out_dirent (formatted 180 128 0 (fun _ => 0)) (List.replicate 58 97)
    [1] 0 1 (List.range' 1 (blocks_for ([1] : List Nat).length)) 2 hL hn1 (by omega)
  have hother := fun s h1 h2 => out_dirent_other (formatted 180 128 0 (fun _ => 0))
    (List.replicate 58 97) [1] 0 1 (List.range' 1 (blocks_for ([1] : List Nat).length)) 2 s
    hL hn1 hs hl (by rw [hk]; omega) h1 h2
  have hib := out_inode_bits (formatted 180 128 0 (fun _ => 0)) (List.replicate 58 97) [1] 0 1
    (List.range' 1 (blocks_for ([1] : List Nat).length)) 2 2 hL hs' hl (by rw [hk]; omega)
    (by omega)
  have hdb := fun j hj => out_data_bits (formatted 180 128 0 (fun _ => 0))
    (List.replicate 58 97) [1] 0 1 (List.range' 1 (blocks_for ([1] : List Nat).length)) 2 j hL
    (by omega) hs' hl (by rw [hk]; omega) hj
  generalize dump (fin_mem (formatted 180 128 0 (fun _ => 0)) (List.replicate 58 97) [1] 0 1
    (List.range' 1 (blocks_for ([1] : List Nat).length)) 2)
    (formatted 180 128 0 (fun _ => 0)).length = I1 at L1 hsb n1 n3 hother hib hdb ⊢
  have hroot1 : data_bit I1 0 = true := by
    rw [hdb 0 (by omega), (hbits 0 (by omega)).2]
    rfl
  have hfree2 : data_bit I1 2 = false := by
    rw [hdb 2 (by omega), (hbits 2 (by omega)).2, decide_eq_false (hno 2 (by omega))]
    rfl
  have hNT : NamesTerminated I1 := by
    intro slot hslot hu
    by_cases c2 : slot = 2
    · subst c2
      rw [n3]
      exact nameField_long_terminated
    · rw [hother slot hslot c2] at hu ⊢
      exact formatted_names_terminated 180 128 0 (fun _ => 0) hv slot hslot hu
  refine ⟨L1, hroot1, n1, n3, ?_⟩
  rcases add_layout_outcome I1 (List.replicate 58 97) [2] 0 L1 hroot1 hNT hN (by simp) with
    ⟨hc, -⟩ | ⟨-, hok⟩
  · exfalso
    rcases hc with hc | hc | hc | hc | hc | ⟨slot, hs1, hs2, hs3⟩
    · apply hc
      rw [hsb]
      exact formatted_magic 180 128 0 (fun _ => 0) hv
    · exact absurd hc (by decide)
    · have := hc 2 (by
        rw [hsb]
        show 2 < (sb_of (formatted 180 128 0 (fun _ => 0))).inode_count
        omega)
      rw [hib, (hbits 2 (by omega)).1] at this
      cases this
    · have : 0 < free_data_blocks I1 := by
        unfold free_data_blocks
        refine List.length_pos_of_mem (a := 2)
          (List.mem_filter.mpr ⟨List.mem_range.mpr ?_, ?_⟩)
        · rw [hsb]
          show 2 < (sb_of (formatted 180 128 0 (fun _ => 0))).data_region_blocks
          rw [hf.2.2]
          decide
        · rw [hfree2]
          rfl
      rw [show blocks_for ([2] : List Nat).length = 1 from rfl] at hc
      omega
    · have h3 : (root_dirent I1 3).inode_no = 0 := by
        rw [hother 3 (by omega) (by omega)]
        exact dz 3 (by omega) (by omega)
      exact hc 3 (by omega) h3
    · by_cases c2 : slot = 2
      · subst c2
        unfold entry_name at hs3
        rw [n3] at hs3
        exact entry_name_long hs3
      rw [hother slot hs1 c2] at hs2 hs3
      by_cases c0 : slot = 0
      · subst c0
        rw [d0, entry_name_dot] at hs3
        exact absurd hs3 (by decide)
      by_cases c1 : slot = 1
      · subst c1
        rw [d1, entry_name_dotdot] at hs3
        exact absurd hs3 (by decide)
      exact hs2 (dz slot (by omega) hs1)
  · exact hok

/-- The duplicate-name check misses names longer than the 57 bytes an entry
stores: after a file is inserted into a formatted image under a name of 58
bytes "a", a second file under the same name is inserted as well (`strcmp`
compares the 57 bytes stored with the 58 bytes of the name). -/
theorem duplicate_long_name_accepted :
    ∃ I1, add (formatted 180 128 0 (fun _ => 0)) (List.replicate 58 97) [1] 0 = .ok I1 ∧
      ∃ I2, add I1 (List.replicate 58 97) [2] 0 = .ok I2 := by
  obtain ⟨I1, h1, -, -, -, -, h2⟩ := long_name_inserted_twice
  exact ⟨I1, h1, h2⟩

/-! ## The searches in the bitmaps -/

/-- what `find_free_data_block` returns: `-1` when every bit is set, else the
index of the first clear bit -/
theorem find_free_data_block_from_spec (m : Mem) (bitmap i fuel : Nat) :
    (find_free_data_block_from m bitmap i fuel = 0xFFFFFFFF ∧
      ∀ j, i ≤ j → j < i + fuel → bit_at m bitmap j = true) ∨
    (∃ j, i ≤ j ∧ j < i + fuel ∧ bit_at m bitmap j = false ∧
      (∀ j', i ≤ j' → j' < j → bit_at m bitmap j' = true) ∧
      find_free_data_block_from m bitmap i fuel = j % 2 ^ 32) := by
  induction fuel generalizing i with
  | zero =>
    left
    exact ⟨rfl, fun j h1 h2 => by omega⟩
  | succ fuel ih =>
    unfold find_free_data_block_from
    by_cases hb : bit_and m bitmap i = 0
    · right
      rw [if_pos hb]
      exact ⟨i, Nat.le_refl _, by omega, (bit_and_eq_zero _ _ _).mp hb,
        fun j' h1 h2 => by omega, rfl⟩
    · rw [if_neg hb]
      have hset : bit_at m bitmap i = true := by
        rw [bit_and_eq_zero] at hb
        simpa using hb
      rcases ih (i + 1) with ⟨e, hall⟩ | ⟨j, h1, h2, h3, h4, e⟩
      · left
        refine ⟨e, fun j h1 h2 => ?_⟩
        by_cases hj : j = i
        · rw [hj]; exact hset
        · exact hall j (by omega) (by omega)
      · right
        refine ⟨j, by omega, by omega, h3, fun j' h1' h2' => ?_, e⟩
        by_cases hj : j' = i
        · rw [hj]; exact hset
        · exact h4 j' (by omega) h2'

/-- `find_free_data_block` on a capacity that fits the bitmap -/
theorem find_free_data_block_cases (m : Mem) (bitmap capacity : Nat) (hcap : capacity ≤ 32768) :
    (find_free_data_block m bitmap capacity = 0xFFFFFFFF ∧
      ∀ i, i < capacity → bit_at m bitmap i = true) ∨
    (∃ i, i < capacity ∧ bit_at m bitmap i = false ∧
      (∀ j, j < i → bit_at m bitmap j = true) ∧
      find_free_data_block m bitmap capacity = i) := by
  unfold find_free_data_block
  rcases find_free_data_block_from_spec m bitmap 0 capacity with
    ⟨e, hall⟩ | ⟨j, -, h2, h3, h4, e⟩
  · exact Or.inl ⟨e, fun i hi => hall i (Nat.zero_le _) (by omega)⟩
  · refine Or.inr ⟨j, by omega, h3, fun j' hj' => h4 j' (Nat.zero_le _) hj', ?_⟩
    rw [e]
    exact Nat.mod_eq_of_lt (by omega)

/-- `find_free_inode` on a capacity that fits the bitmap -/
theorem find_free_inode_cases (m : Mem) (bitmap capacity : Nat) (hcap : capacity ≤ 32768) :
    (find_free_inode m bitmap capacity = 0xFFFFFFFF ∧
      ∀ i, i < capacity → bit_at m bitmap i = true) ∨
    (∃ i, i < capacity ∧ bit_at m bitmap i = false ∧
      (∀ j, j < i → bit_at m bitmap j = true) ∧
      find_free_inode m bitmap capacity = i + 1) := by
  unfold find_free_inode
  rcases find_free_inode_from_spec m bitmap 0 capacity with
    ⟨e, hall⟩ | ⟨j, -, h2, h3, h4, e⟩
  · exact Or.inl ⟨e, fun i hi => hall i (Nat.zero_le _) (by omega)⟩
  · refine Or.inr ⟨j, by omega, h3, fun j' hj' => h4 j' (Nat.zero_le _) hj', ?_⟩
    rw [e]
    exact Nat.mod_eq_of_lt (by omega)

/-- C17: on a capacity of at most 32768 bits, `find_free_data_block` returns
the smallest index below the capacity whose bit (bit i mod 8, least
significant first, of byte i div 8) is clear, `find_free_inode` returns that
index plus 1, and each returns -1 (0xFFFFFFFF as an `int` pattern) exactly
when every bit below the capacity is set; the value returned is -1 or an index
below the capacity (an inode number in 1..capacity).  Both are functions of
the bitmap that return a number only: they store nothing. -/
theorem find_free_spec (m : Mem) (bitmap capacity : Nat) (hcap : capacity ≤ 32768) :
    ((find_free_data_block m bitmap capacity = 0xFFFFFFFF ∧
        ∀ i, i < capacity → bit_at m bitmap i = true) ∨
      (∃ i, i < capacity ∧ bit_at m bitmap i = false ∧
        (∀ j, j < i → bit_at m bitmap j = true) ∧
        find_free_data_block m bitmap capacity = i)) ∧
    ((find_free_inode m bitmap capacity = 0xFFFFFFFF ∧
        ∀ i, i < capacity → bit_at m bitmap i = true) ∨
      (∃ i, i < capacity ∧ bit_at m bitmap i = false ∧
        (∀ j, j < i → bit_at m bitmap j = true) ∧
        find_free_inode m bitmap capacity = i + 1)) ∧
    (find_free_data_block m bitmap capacity = 0xFFFFFFFF ↔
      ∀ i, i < capacity → bit_at m bitmap i = true) ∧
    (find_free_inode m bitmap capacity = 0xFFFFFFFF ↔
      ∀ i, i < capacity → bit_at m bitmap i = true) ∧
    (find_free_data_block m bitmap capacity = 0xFFFFFFFF ∨
      find_free_data_block m bitmap capacity < capacity) ∧
    (find_free_inode m bitmap capacity = 0xFFFFFFFF ∨
      (1 ≤ find_free_inode m bitmap capacity ∧ find_free_inode m bitmap capacity ≤ capacity)) := by
  have hd := find_free_data_block_cases m bitmap capacity hcap
  have hi := find_free_inode_cases m bitmap capacity hcap
  refine ⟨hd, hi, ?_, ?_, ?_, ?_⟩
  · rcases hd with ⟨e, hall⟩ | ⟨i, h1, h2, -, e⟩
    · exact ⟨fun _ => hall, fun _ => e⟩
    · constructor
      · intro h
        rw [e] at h
        omega
      · intro hall
        rw [hall i h1] at h2
        cases h2
  · rcases hi with ⟨e, hall⟩ | ⟨i, h1, h2, -, e⟩
    · exact ⟨fun _ => hall, fun _ => e⟩
    · constructor
      · intro h
        rw [e] at h
        omega
      · intro hall
        rw [hall i h1] at h2
        cases h2
  · rcases hd with ⟨e, -⟩ | ⟨i, h1, -, -, e⟩
    · exact Or.inl e
    · right
      rw [e]
      exact h1
  · rcases hi with ⟨e, -⟩ | ⟨i, h1, -, -, e⟩
    · exact Or.inl e
    · right
      rw [e]
      omega

/-- C17, at a bitmap whose bytes are all 1 (bit 0 of every byte set) and a
capacity of 8 bits. -/
theorem find_free_spec_witness :
    8 ≤ 32768 ∧
    ((find_free_data_block (fun _ => 1) 0 8 = 0xFFFFFFFF ∧
        ∀ i, i < 8 → bit_at (fun _ => 1) 0 i = true) ∨
      (∃ i, i < 8 ∧ bit_at (fun _ => 1) 0 i = false ∧
        (∀ j, j < i → bit_at (fun _ => 1) 0 j = true) ∧
        find_free_data_block (fun _ => 1) 0 8 = i)) ∧
    ((find_free_inode (fun _ => 1) 0 8 = 0xFFFFFFFF ∧
        ∀ i, i < 8 → bit_at (fun _ => 1) 0 i = true) ∨
      (∃ i, i < 8 ∧ bit_at (fun _ => 1) 0 i = false ∧
        (∀ j, j < i → bit_at (fun _ => 1) 0 j = true) ∧
        find_free_inode (fun _ => 1) 0 8 = i + 1)) ∧
    (find_free_data_block (fun _ => 1) 0 8 = 0xFFFFFFFF ↔
      ∀ i, i < 8 → bit_at (fun _ => 1) 0 i = true) ∧
    (find_free_inode (fun _ => 1) 0 8 = 0xFFFFFFFF ↔
      ∀ i, i < 8 → bit_at (fun _ => 1) 0 i = true) ∧
    (find_free_data_block (fun _ => 1) 0 8 = 0xFFFFFFFF ∨
      find_free_data_block (fun _ => 1) 0 8 < 8) ∧
    (find_free_inode (fun _ => 1) 0 8 = 0xFFFFFFFF ∨
      (1 ≤ find_free_inode (fun _ => 1) 0 8 ∧ find_free_inode (fun _ => 1) 0 8 ≤ 8)) :=
  ⟨by omega, find_free_spec (fun _ => 1) 0 8 (by omega)⟩

/-! ## The allocation of data blocks -/

theorem clear_bits_append (m : Mem) (bitmap i a c : Nat) :
    clear_bits m bitmap i (a + c) =
      clear_bits m bitmap i a ++ clear_bits m bitmap (i + a) c := by
  unfold clear_bits
  rw [← List.filter_append, List.range'_append_1, Nat.add_comm c a]

theorem clear_bits_of_set (m : Mem) (bitmap i fuel : Nat)
    (h : ∀ j, i ≤ j → j < i + fuel → bit_at m bitmap j = true) :
    clear_bits m bitmap i fuel = [] := by
  unfold clear_bits
  rw [List.filter_eq_nil_iff]
  intro j hj
  rw [List.mem_range'_1] at hj
  rw [h j hj.1 hj.2]
  simp

theorem clear_bits_congr (m m' : Mem) (bitmap i fuel : Nat)
    (h : ∀ j, i ≤ j → j < i + fuel → bit_at m bitmap j = bit_at m' bitmap j) :
    clear_bits m bitmap i fuel = clear_bits m' bitmap i fuel := by
  unfold clear_bits
  apply List.filter_congr
  intro j hj
  rw [List.mem_range'_1] at hj
  rw [h j hj.1 hj.2]

/-- the clear bits below `D` when bit `i` is the first of them, before and
after `set_bit` on `i` -/
theorem clear_bits_first (m : Mem) (bitmap D i : Nat) (hi : i < D)
    (hc : bit_at m bitmap i = false) (hb : ∀ j, j < i → bit_at m bitmap j = true) :
    clear_bits m bitmap 0 D = i :: clear_bits m bitmap (i + 1) (D - (i + 1)) ∧
    clear_bits (set_bit m bitmap i) bitmap 0 D = clear_bits m bitmap (i + 1) (D - (i + 1)) := by
  have e : D = i + (1 + (D - (i + 1))) := by omega
  constructor
  · nth_rewrite 1 [e]
    rw [clear_bits_append, clear_bits_append, Nat.zero_add,
      clear_bits_of_set m bitmap 0 i (fun j _ h2 => hb j (by omega)), List.nil_append,
      clear_bits_succ, if_pos hc]
    rfl
  · nth_rewrite 1 [e]
    rw [clear_bits_append, clear_bits_append, Nat.zero_add,
      clear_bits_of_set _ bitmap 0 i (fun j _ h2 => by
        rw [bit_at_set_bit, hb j (by omega)]
        rfl),
      List.nil_append, clear_bits_succ, if_neg (by
        rw [bit_at_set_bit, hc]
        simp),
      show clear_bits (set_bit m bitmap i) bitmap (i + 1) 0 = [] from rfl, List.nil_append]
    apply clear_bits_congr
    intro j h1 h2
    rw [bit_at_set_bit, decide_eq_false (by omega), Bool.or_false]

theorem clear_bits_sorted (m : Mem) (bitmap i fuel : Nat) :
    (clear_bits m bitmap i fuel).Pairwise (fun a b => a < b) := by
  unfold clear_bits
  exact List.Pairwise.sublist (List.filter_sublist _) (List.pairwise_lt_range' i fuel)

/-- the slow allocation finds the first `k` clear bits and sets them -/
theorem alloc_by_search_eq (m : Mem) (bitmap D k : Nat) (hD : D ≤ 32768)
    (hfree : k ≤ (clear_bits m bitmap 0 D).length) :
    alloc_by_search bitmap D k m =
      ((clear_bits m bitmap 0 D).take k,
        set_bits bitmap ((clear_bits m bitmap 0 D).take k) m) := by
  induction k generalizing m with
  | zero => rfl
  | succ k ih =>
    rcases find_free_data_block_cases m bitmap D hD with ⟨-, hall⟩ | ⟨i, h1, h2, h3, e⟩
    · rw [clear_bits_of_set m bitmap 0 D (fun j _ hj => hall j (by omega))] at hfree
      simp at hfree
    · obtain ⟨c1, c2⟩ := clear_bits_first m bitmap D i h1 h2 h3
      have hfree' : k ≤ (clear_bits (set_bit m bitmap i) bitmap 0 D).length := by
        rw [c2]
        rw [c1, List.length_cons] at hfree
        omega
      unfold alloc_by_search
      simp only []
      rw [e, ih (set_bit m bitmap i) hfree', c2, c1, List.take_succ_cons]
      rfl

/-- C18: when at least k of the first data_region_blocks ≤ 32768 bits of the
data bitmap are clear (k the number of blocks needed, at most 12 in the adder;
the bound on k is not used), the scan of the adder returns
exactly the k lowest clear indices: k indices, strictly ascending, pairwise
distinct, each below data_region_blocks and clear, and every clear index it
leaves out is above all of them; and k rounds of `find_free_data_block`
followed by `set_bit` on the index returned give the same sequence of indices
and the same memory as `set_bit` on the indices of the scan, which is what the
copy loop of the adder does. -/
theorem scan_free_blocks_spec (m : Mem) (bitmap data_region_blocks k : Nat)
    (hD : data_region_blocks ≤ 32768)
    (hfree : k ≤ (clear_bits m bitmap 0 data_region_blocks).length) :
    scan_free_blocks m bitmap 0 data_region_blocks k =
      (clear_bits m bitmap 0 data_region_blocks).take k ∧
    (scan_free_blocks m bitmap 0 data_region_blocks k).length = k ∧
    (scan_free_blocks m bitmap 0 data_region_blocks k).Pairwise (fun a b => a < b) ∧
    (scan_free_blocks m bitmap 0 data_region_blocks k).Nodup ∧
    (∀ x ∈ scan_free_blocks m bitmap 0 data_region_blocks k,
      x < data_region_blocks ∧ bit_at m bitmap x = false) ∧
    (∀ j, j < data_region_blocks → bit_at m bitmap j = false →
      j ∉ scan_free_blocks m bitmap 0 data_region_blocks k →
      ∀ x ∈ scan_free_blocks m bitmap 0 data_region_blocks k, x < j) ∧
    alloc_by_search bitmap data_region_blocks k m =
      (scan_free_blocks m bitmap 0 data_region_blocks k,
        set_bits bitmap (scan_free_blocks m bitmap 0 data_region_blocks k) m) := by
  have e := scan_free_blocks_eq m bitmap 0 data_region_blocks k (by omega)
  have hs := clear_bits_sorted m bitmap 0 data_region_blocks
  rw [e]
  refine ⟨rfl, ?_, ?_, ?_, ?_, ?_, alloc_by_search_eq m bitmap data_region_blocks k hD hfree⟩
  · rw [List.length_take]
    omega
  · exact List.Pairwise.sublist (List.take_sublist _ _) hs
  · exact (clear_bits_nodup m bitmap 0 data_region_blocks).sublist (List.take_sublist _ _)
  · intro x hx
    have := (mem_clear_bits _ _ _ _ _).mp (List.mem_of_mem_take hx)
    exact ⟨by omega, this.2⟩
  · intro j hj hc hn x hx
    have hmem : j ∈ clear_bits m bitmap 0 data_region_blocks :=
      (mem_clear_bits _ _ _ _ _).mpr ⟨⟨Nat.zero_le _, by omega⟩, hc⟩
    rw [← List.take_append_drop k (clear_bits m bitmap 0 data_region_blocks)] at hmem hs
    rw [List.mem_append] at hmem
    rcases hmem with h | h
    · exact absurd h hn
    · exact (List.pairwise_append.mp hs).2.2 x hx j h

/-- C18, at a bitmap whose bytes are all 1 (bit 0 of every byte set), 8 data
blocks and 2 blocks needed. -/
theorem scan_free_blocks_spec_witness :
    (8 ≤ 32768 ∧ 2 ≤ (clear_bits (fun _ => 1) 0 0 8).length) ∧
    scan_free_blocks (fun _ => 1) 0 0 8 2 =
      (clear_bits (fun _ => 1) 0 0 8).take 2 ∧
    (scan_free_blocks (fun _ => 1) 0 0 8 2).length = 2 ∧
    (scan_free_blocks (fun _ => 1) 0 0 8 2).Pairwise (fun a b => a < b) ∧
    (scan_free_blocks (fun _ => 1) 0 0 8 2).Nodup ∧
    (∀ x ∈ scan_free_blocks (fun _ => 1) 0 0 8 2,
      x < 8 ∧ bit_at (fun _ => 1) 0 x = false) ∧
    (∀ j, j < 8 → bit_at (fun _ => 1) 0 j = false →
      j ∉ scan_free_blocks (fun _ => 1) 0 0 8 2 →
      ∀ x ∈ scan_free_blocks (fun _ => 1) 0 0 8 2, x < j) ∧
    alloc_by_search 0 8 2 (fun _ => 1) =
      (scan_free_blocks (fun _ => 1) 0 0 8 2,
        set_bits 0 (scan_free_blocks (fun _ => 1) 0 0 8 2) (fun _ => 1)) :=
  ⟨⟨by omega, by decide⟩, scan_free_blocks_spec (fun _ => 1) 0 8 2 (by omega) (by decide)⟩

/-! ## The checksum routines of the records -/

theorem leBytes_getD (w v i : Nat) :
    (leBytes w v).getD i 0 = if i < w then v / 256 ^ i % 256 else 0 := by
  induction w generalizing v i with
  | zero => simp [leBytes]
  | succ w ih =>
    cases i with
    | zero => simp [leBytes]
    | succ i =>
      simp only [leBytes, List.getD_cons_succ, ih]
      rw [Nat.div_div_eq_div_mul, pow_succ, Nat.mul_comm]
      simp only [Nat.add_lt_add_iff_right]

theorem writeAt_writeAt (m : Mem) (a : Nat) (bs bs' : List Nat) (h : bs.length = bs'.length) :
    writeAt (writeAt m a bs) a bs' = writeAt m a bs' := by
  funext x
  unfold writeAt
  split
  · rfl
  · rw [if_neg (by omega)]

/-- `inode_crc_finalize` stores the `crc32` of the first 120 bytes of the
record in its last 8 bytes -/
theorem inode_crc_finalize_eq (m : Mem) (ino : Nat) :
    inode_crc_finalize m ino = writeLE m (ino + 120) 8 (crc32 (readBytes m ino 120)) := by
  unfold inode_crc_finalize
  simp only [INODE_SIZE]
  have e : readBytes (writeAt (load (readBytes m ino 128)) 120 (List.replicate 8 0)) 0 120 =
      readBytes m ino 120 := by
    apply readBytes_shift
    intro i hi
    rw [writeAt_out _ _ _ _ (by omega), load_readBytes _ _ _ _ (by omega), Nat.zero_add]
  rw [e]

/-- C19: on the 128-byte record at offset `ino` of a memory,
`inode_crc_finalize` changes nothing before byte 120 (nor after the record),
stores in bytes 120..123 the little-endian bytes of the `crc32` of bytes
0..119 and zero in bytes 124..127; the record it leaves depends on bytes
0..119 only, not on the integrity field it finds; run twice it gives what it
gives run once. -/
theorem inode_crc_finalize_spec (m : Mem) (ino : Nat) :
    (∀ x, x < ino + 120 ∨ ino + 128 ≤ x → inode_crc_finalize m ino x = m x) ∧
    (∀ i, i < 4 → inode_crc_finalize m ino (ino + 120 + i) =
      crc32 (readBytes m ino 120) / 256 ^ i % 256) ∧
    readLE (inode_crc_finalize m ino) (ino + 120) 4 = crc32 (readBytes m ino 120) ∧
    (∀ i, 4 ≤ i → i < 8 → inode_crc_finalize m ino (ino + 120 + i) = 0) ∧
    (∀ m' : Mem, (∀ i, i < 120 → m' (ino + i) = m (ino + i)) →
      ∀ i, i < 128 → inode_crc_finalize m' ino (ino + i) = inode_crc_finalize m ino (ino + i)) ∧
    inode_crc_finalize (inode_crc_finalize m ino) ino = inode_crc_finalize m ino := by
  have hc := crc32_lt (readBytes m ino 120)
  have hbyte : ∀ i, i < 8 → inode_crc_finalize m ino (ino + 120 + i) =
      crc32 (readBytes m ino 120) / 256 ^ i % 256 := by
    intro i hi
    rw [inode_crc_finalize_eq]
    unfold writeLE
    rw [writeAt_in _ _ _ _ (by omega) (by rw [leBytes_length]; omega),
      show ino + 120 + i - (ino + 120) = i by omega, leBytes_getD, if_pos hi]
    exact Nat.mod_eq_of_lt (Nat.mod_lt _ (by omega))
  refine ⟨inode_crc_finalize_out m ino, fun i hi => hbyte i (by omega), ?_, ?_, ?_, ?_⟩
  · rw [inode_crc_finalize_eq]
    unfold readLE writeLE
    have e : readBytes (writeAt m (ino + 120) (leBytes 8 (crc32 (readBytes m ino 120))))
        (ino + 120) 4 = leBytes 4 (crc32 (readBytes m ino 120)) := by
      apply List.ext_getElem
      · rw [readBytes_length, leBytes_length]
      · intro i h1 h2
        rw [readBytes_length] at h1
        rw [← List.getD_eq_getElem _ 0, ← List.getD_eq_getElem _ 0, readBytes_getD _ _ _ _ h1,
          writeAt_in _ _ _ _ (by omega) (by rw [leBytes_length]; omega),
          show ino + 120 + i - (ino + 120) = i by omega, leBytes_getD, leBytes_getD,
          if_pos (by omega), if_pos h1]
        exact Nat.mod_eq_of_lt (Nat.mod_lt _ (by omega))
    rw [e, leVal_leBytes]
    exact Nat.mod_eq_of_lt (by norm_num at hc ⊢; exact hc)
  · intro i h1 h2
    rw [hbyte i h2]
    have : crc32 (readBytes m ino 120) / 256 ^ i = 0 := by
      apply Nat.div_eq_of_lt
      calc crc32 (readBytes m ino 120) < 2 ^ 32 := hc
        _ = 256 ^ 4 := by norm_num
        _ ≤ 256 ^ i := Nat.pow_le_pow_right (by omega) h1
    rw [this]
  · intro m' hm i hi
    have e : readBytes m' ino 120 = readBytes m ino 120 :=
      readBytes_shift _ _ _ _ _ hm
    rw [inode_crc_finalize_eq, inode_crc_finalize_eq, e]
    by_cases h : i < 120
    · rw [writeLE_out _ _ _ _ _ (by omega), writeLE_out _ _ _ _ _ (by omega)]
      exact hm i h
    · unfold writeLE
      rw [writeAt_in _ _ _ _ (by omega) (by rw [leBytes_length]; omega),
        writeAt_in _ _ _ _ (by omega) (by rw [leBytes_length]; omega)]
  · have e : readBytes (inode_crc_finalize m ino) ino 120 = readBytes m ino 120 :=
      readBytes_congr _ _ _ _ (fun x h1 h2 => inode_crc_finalize_out m ino x (by omega))
    rw [inode_crc_finalize_eq (inode_crc_finalize m ino), e, inode_crc_finalize_eq]
    unfold writeLE
    exact writeAt_writeAt _ _ _ _ rfl

theorem xor_fold_lt (bs : List Nat) : xor_fold bs < 256 := by
  unfold xor_fold
  induction bs using List.reverseRecOn with
  | nil => simp
  | append_singleton l b _ =>
    rw [List.foldl_append]
    simp only [List.foldl_cons, List.foldl_nil]
    exact Nat.mod_lt _ (by omega)

/-- on bytes the XOR accumulated in a `uint8_t` is the XOR -/
theorem xor_fold_eq (bs : List Nat) (h : ∀ b ∈ bs, b < 256) :
    xor_fold bs = bs.foldl (fun x b => x ^^^ b) 0 := by
  unfold xor_fold
  induction bs using List.reverseRecOn with
  | nil => rfl
  | append_singleton l b ih =>
    have hl : ∀ c ∈ l, c < 256 := fun c hc => h c (List.mem_append_left _ hc)
    have hb : b < 256 := h b (List.mem_append_right _ (List.mem_singleton.mpr rfl))
    rw [List.foldl_append, List.foldl_append, ih hl]
    simp only [List.foldl_cons, List.foldl_nil]
    have := xor_fold_lt l
    unfold xor_fold at this
    rw [ih hl] at this
    exact Nat.mod_eq_of_lt (Nat.xor_lt_two_pow (n := 8) this hb)

/-- C20: on the 64-byte entry at offset `de` of a memory,
`dirent_checksum_finalize` changes byte 63 only, to the XOR of bytes 0..62
(the plain bytewise XOR when these are bytes), so that the XOR of the 64 bytes
of the entry it leaves is 0; run twice it gives what it gives run once. -/
theorem dirent_checksum_finalize_spec (m : Mem) (de : Nat) :
    (∀ x, x ≠ de + 63 → dirent_checksum_finalize m de x = m x) ∧
    dirent_checksum_finalize m de (de + 63) = xor_fold (readBytes m de 63) ∧
    ((∀ i, i < 63 → m (de + i) < 256) →
      dirent_checksum_finalize m de (de + 63) =
        (readBytes m de 63).foldl (fun x b => x ^^^ b) 0 ∧
      (readBytes (dirent_checksum_finalize m de) de 64).foldl (fun x b => x ^^^ b) 0 = 0) ∧
    xor_fold (readBytes (dirent_checksum_finalize m de) de 64) = 0 ∧
    dirent_checksum_finalize (dirent_checksum_finalize m de) de =
      dirent_checksum_finalize m de := by
  have h63 : dirent_checksum_finalize m de (de + 63) = xor_fold (readBytes m de 63) := by
    unfold dirent_checksum_finalize
    rw [writeAt_in _ _ _ _ (by omega) (by simp), Nat.sub_self]
    exact Nat.mod_eq_of_lt (xor_fold_lt _)
  have hpre : readBytes (dirent_checksum_finalize m de) de 63 = readBytes m de 63 :=
    readBytes_congr _ _ _ _ (fun x h1 h2 => dirent_checksum_finalize_out m de x (by omega))
  have h64 : readBytes (dirent_checksum_finalize m de) de 64 =
      readBytes m de 63 ++ [xor_fold (readBytes m de 63)] := by
    rw [readBytes_succ_last, hpre, h63]
  refine ⟨dirent_checksum_finalize_out m de, h63, ?_, ?_, ?_⟩
  · intro hb
    have hbs : ∀ b ∈ readBytes m de 63, b < 256 := by
      intro b hb'
      obtain ⟨z, hz1, hz2⟩ := mem_readBytes m de 63 b hb'
      rw [← hz2]
      exact hb z hz1
    rw [h63, h64, xor_fold_eq _ hbs, List.foldl_append]
    refine ⟨rfl, ?_⟩
    simp only [List.foldl_cons, List.foldl_nil]
    exact Nat.xor_self _
  · rw [h64]
    unfold xor_fold
    rw [List.foldl_append]
    simp only [List.foldl_cons, List.foldl_nil]
    rw [Nat.xor_self]
  · have e : dirent_checksum_finalize (dirent_checksum_finalize m de) de =
        writeAt (dirent_checksum_finalize m de) (de + 63) [xor_fold (readBytes m de 63)] := by
      unfold dirent_checksum_finalize
      rw [show readBytes (writeAt m (de + 63) [xor_fold (readBytes m de 63)]) de 63 =
        readBytes m de 63 from hpre]
    rw [e]
    unfold dirent_checksum_finalize
    exact writeAt_writeAt _ _ _ _ rfl

/-! ## The table-driven CRC-32 and the bitwise CRC-32 -/

theorem crc_step_eq_crc_bit (c : Nat) : crc_step c = crc_bit c := by
  unfold crc_step crc_bit
  rw [Nat.and_one_is_mod, Nat.shiftRight_eq_div_pow, pow_one]
  by_cases h : c % 2 = 1
  · rw [if_pos h, if_pos (by omega), Nat.xor_comm]
  · rw [if_neg h, if_neg (by omega)]

theorem xor_div_two_pow (a b k : Nat) : (a ^^^ b) / 2 ^ k = a / 2 ^ k ^^^ b / 2 ^ k := by
  apply Nat.eq_of_testBit_eq
  intro i
  rw [← Nat.shiftRight_eq_div_pow, ← Nat.shiftRight_eq_div_pow, ← Nat.shiftRight_eq_div_pow,
    Nat.testBit_xor, Nat.testBit_shiftRight, Nat.testBit_shiftRight, Nat.testBit_shiftRight,
    Nat.testBit_xor]

/-- the bit step is linear for XOR -/
theorem crc_bit_xor (a b : Nat) : crc_bit (a ^^^ b) = crc_bit a ^^^ crc_bit b := by
  have hd : (a ^^^ b) / 2 = a / 2 ^^^ b / 2 := by
    have := xor_div_two_pow a b 1
    rwa [pow_one] at this
  have hm := @Nat.xor_mod_two_eq_one a b
  unfold crc_bit
  rw [hd]
  by_cases ha : a % 2 = 1 <;> by_cases hb : b % 2 = 1
  · rw [if_neg (by rw [hm]; simp [ha, hb]), if_pos ha, if_pos hb, Nat.xor_assoc,
      Nat.xor_comm (b / 2) _, ← Nat.xor_assoc _ _ (b / 2), Nat.xor_self, Nat.zero_xor]
  · rw [if_pos (by rw [hm]; simp [ha, hb]), if_pos ha, if_neg hb, Nat.xor_assoc,
      Nat.xor_comm (b / 2) _, ← Nat.xor_assoc]
  · rw [if_pos (by rw [hm]; simp [ha, hb]), if_neg ha, if_pos hb, Nat.xor_assoc]
  · rw [if_neg (by rw [hm]; simp [ha, hb]), if_neg ha, if_neg hb]

theorem crc_bit_iterate_xor (n a b : Nat) :
    Nat.iterate crc_bit n (a ^^^ b) = Nat.iterate crc_bit n a ^^^ Nat.iterate crc_bit n b := by
  induction n generalizing a b with
  | zero => rfl
  | succ n ih =>
    rw [Function.iterate_succ_apply, Function.iterate_succ_apply, Function.iterate_succ_apply,
      crc_bit_xor, ih]

theorem crc_bit_iterate_shift (n y : Nat) : Nat.iterate crc_bit n (2 ^ n * y) = y := by
  induction n generalizing y with
  | zero => simp
  | succ n ih =>
    have e : crc_bit (2 ^ (n + 1) * y) = 2 ^ n * y := by
      unfold crc_bit
      have h2 : 2 ^ (n + 1) * y = 2 * (2 ^ n * y) := by rw [pow_succ]; ring
      rw [h2, if_neg (by omega)]
      omega
    rw [Function.iterate_succ_apply, e, ih]

theorem split_low_byte (x : Nat) : x = x % 2 ^ 8 ^^^ 2 ^ 8 * (x / 2 ^ 8) := by
  apply Nat.eq_of_testBit_eq
  intro i
  rw [Nat.testBit_xor, Nat.testBit_mod_two_pow, Nat.testBit_mul_pow_two,
    ← Nat.shiftRight_eq_div_pow, Nat.testBit_shiftRight]
  by_cases h : i < 8
  · have h' : ¬ 8 ≤ i := by omega
    simp [h, h']
  · have h' : 8 ≤ i := by omega
    simp [h, h', show 8 + (i - 8) = i by omega]

theorem CRC32_TAB_eq (i : Nat) : CRC32_TAB i = Nat.iterate crc_bit 8 i := by
  unfold CRC32_TAB
  simp only [crc_step_eq_crc_bit]
  rfl

/-- one byte of the table-driven `crc32` is eight bit steps -/
theorem crc_update_eq_crc_byte (c b : Nat) (hb : b < 256) : crc_update c b = crc_byte c b := by
  unfold crc_update crc_byte
  have e1 : (c ^^^ b) &&& 0xFF = (c ^^^ b) % 2 ^ 8 := Nat.and_pow_two_sub_one_eq_mod _ 8
  have e2 : c >>> 8 = (c ^^^ b) / 2 ^ 8 := by
    rw [Nat.shiftRight_eq_div_pow, xor_div_two_pow, Nat.div_eq_of_lt (by omega : b < 2 ^ 8),
      Nat.xor_zero]
  rw [e1, e2, CRC32_TAB_eq]
  conv_rhs => rw [split_low_byte (c ^^^ b)]
  rw [crc_bit_iterate_xor, crc_bit_iterate_shift]

theorem crc_fold_eq (data : List Nat) (c : Nat) (h : IsBytes data) :
    data.foldl crc_update c = data.foldl crc_byte c := by
  induction data generalizing c with
  | nil => rfl
  | cons b l ih =>
    simp only [List.foldl_cons]
    rw [crc_update_eq_crc_byte c b (h b (List.mem_cons_self _ _)),
      ih _ (fun x hx => h x (List.mem_cons_of_mem _ hx))]

theorem builder_CRC32_TAB_eq (i : Nat) : builder_CRC32_TAB i = CRC32_TAB i := rfl

set_option maxRecDepth 100000 in
theorem crc32_check_value : crc32 [49, 50, 51, 52, 53, 54, 55, 56, 57] = 0xCBF43926 := by
  decide

/-- C16: on every sequence of bytes the table-driven `crc32` is the standard
reflected CRC-32 computed bit by bit (polynomial 0xEDB88320, initial value
0xFFFFFFFF, final XOR 0xFFFFFFFF); `crc32` of the empty sequence is 0 and of
the bytes of "123456789" is 0xCBF43926; the copy of `crc32` in the builder
computes the same function as the copy in the adder. -/
theorem crc32_is_crc32 :
    (∀ data, IsBytes data → crc32 data = crc32_bitwise data) ∧
    crc32 [] = 0 ∧
    crc32 [49, 50, 51, 52, 53, 54, 55, 56, 57] = 0xCBF43926 ∧
    (∀ data, builder_crc32 data = crc32 data) := by
  refine ⟨?_, by decide, crc32_check_value, ?_⟩
  · intro data h
    unfold crc32 crc32_bitwise
    rw [crc_fold_eq data _ h]
  · intro data
    rfl

/-! ## The inode table and the bitmaps of a formatted image -/

/-- the 64-bit integrity field `inode_crc_finalize` leaves -/
theorem inode_crc_finalize_crc (m : Mem) (ino : Nat) :
    readLE (inode_crc_finalize m ino) (ino + 120) 8 = crc32 (readBytes m ino 120) := by
  rw [inode_crc_finalize_eq, readLE_writeLE_same]
  have := crc32_lt (readBytes m ino 120)
  exact Nat.mod_eq_of_lt (by norm_num at this ⊢; omega)

theorem readLE_shift (m m' : Mem) (a b w : Nat) (h : ∀ i, i < w → m (a + i) = m' (b + i)) :
    readLE m a w = readLE m' b w := by
  unfold readLE
  rw [readBytes_shift m m' a b w h]

theorem readLE_encodeInode_direct (n : inode_t) (p : Nat) (hp : p < 12) :
    readLE (load (encodeInode n)) (44 + 4 * p) 4 = n.direct.getD p 0 % 256 ^ 4 := by
  unfold encodeInode
  interval_cases p
  · exact readLE_field _ 8 _ _ _ (by simp) (by simp [fieldsWidth])
  · exact readLE_field _ 9 _ _ _ (by simp) (by simp [fieldsWidth])
  · exact readLE_field _ 10 _ _ _ (by simp) (by simp [fieldsWidth])
  · exact readLE_field _ 11 _ _ _ (by simp) (by simp [fieldsWidth])
  · exact readLE_field _ 12 _ _ _ (by simp) (by simp [fieldsWidth])
  · exact readLE_field _ 13 _ _ _ (by simp) (by simp [fieldsWidth])
  · exact readLE_field _ 14 _ _ _ (by simp) (by simp [fieldsWidth])
  · exact readLE_field _ 15 _ _ _ (by simp) (by simp [fieldsWidth])
  · exact readLE_field _ 16 _ _ _ (by simp) (by simp [fieldsWidth])
  · exact readLE_field _ 17 _ _ _ (by simp) (by simp [fieldsWidth])
  · exact readLE_field _ 18 _ _ _ (by simp) (by simp [fieldsWidth])
  · exact readLE_field _ 19 _ _ _ (by simp) (by simp [fieldsWidth])

/-- the bytes of the root inode in a formatted image -/
theorem load_formatted_inode (size_kib inode_count now : Nat) (stack : Mem) (x : Nat)
    (hv : ValidParams size_kib inode_count) (hx : x < 128) :
    load (formatted size_kib inode_count now stack) (12288 + x) =
      inode_crc_finalize (writeAt (fun _ => 0) 0
        (encodeInode (mk_root_inode (fmt_sb size_kib inode_count now)))) 0 x := by
  rw [load_formatted _ _ _ _ _ hv, if_neg (by omega), if_neg (by omega), if_pos (by omega)]
  unfold root_inode_bytes finalize_local
  rw [load_readBytes _ _ _ _ (by rw [encodeInode_length]; omega)]
  exact congrArg _ (by omega)

theorem readLE_formatted_inode (size_kib inode_count now : Nat) (stack : Mem) (off w : Nat)
    (hv : ValidParams size_kib inode_count) (hw : off + w ≤ 120) :
    readLE (load (formatted size_kib inode_count now stack)) (12288 + off) w =
      readLE (load (encodeInode (mk_root_inode (fmt_sb size_kib inode_count now)))) off w := by
  unfold readLE
  have e : readBytes (load (formatted size_kib inode_count now stack)) (12288 + off) w =
      readBytes (load (encodeInode (mk_root_inode (fmt_sb size_kib inode_count now)))) off w := by
    apply readBytes_shift
    intro i hi
    rw [load_formatted _ _ _ _ _ hv, if_neg (by omega), if_neg (by omega), if_pos (by omega),
      load_root_inode_bytes _ _ (by omega)]
    exact load_congr _ _ _ (by omega)
  rw [e]

/-- the root inode, the rest of the inode table and the bitmaps of a formatted
image -/
theorem formatted_inode_table (size_kib inode_count now : Nat) (stack : Mem)
    (hv : ValidParams size_kib inode_count) :
    (inode_rec (formatted size_kib inode_count now stack) 1).mode = MODE_DIR ∧
    (inode_rec (formatted size_kib inode_count now stack) 1).links = 2 ∧
    (inode_rec (formatted size_kib inode_count now stack) 1).size_bytes = 128 ∧
    (inode_rec (formatted size_kib inode_count now stack) 1).direct.getD 0 0 =
      (sb_of (formatted size_kib inode_count now stack)).data_region_start ∧
    (∀ p, 1 ≤ p → p < 12 →
      (inode_rec (formatted size_kib inode_count now stack) 1).direct.getD p 0 = 0) ∧
    (inode_rec (formatted size_kib inode_count now stack) 1).inode_crc =
      crc32 (readBytes (load (formatted size_kib inode_count now stack))
        ((sb_of (formatted size_kib inode_count now stack)).inode_table_start * BS) 120) ∧
    (∀ x, (sb_of (formatted size_kib inode_count now stack)).inode_table_start * BS + 128 ≤ x →
      x < ((sb_of (formatted size_kib inode_count now stack)).inode_table_start +
        (sb_of (formatted size_kib inode_count now stack)).inode_table_blocks) * BS →
      load (formatted size_kib inode_count now stack) x = 0) ∧
    (∀ j, j < 32768 → inode_bit (formatted size_kib inode_count now stack) j = decide (j = 0)) ∧
    (∀ j, j < 32768 → data_bit (formatted size_kib inode_count now stack) j = decide (j = 0)) := by
  have hL := formatted_layout size_kib inode_count now stack hv
  have hT := table_blocks_bounds inode_count hv.2.2.2.1 hv.2.2.2.2
  have hbits := formatted_bits size_kib inode_count now stack hv
  obtain ⟨rl, rs⟩ := formatted_root_inode size_kib inode_count now stack hv
  have hp := fun off w h => readLE_formatted_inode size_kib inode_count now stack off w hv h
  have hdir : ∀ p, p < 12 →
      (inode_rec (formatted size_kib inode_count now stack) 1).direct.getD p 0 =
        (mk_root_inode (fmt_sb size_kib inode_count now)).direct.getD p 0 % 256 ^ 4 := by
    intro p hp12
    rw [inode_rec_layout _ hL]
    simp only [decodeInode, Nat.sub_self, Nat.mul_zero, Nat.add_zero]
    rw [List.getD_eq_getElem?_getD, List.getElem?_map, List.getElem?_range hp12]
    simp only [Option.map_some', Option.getD_some]
    rw [Nat.add_assoc, hp (44 + 4 * p) 4 (by omega), readLE_encodeInode_direct _ _ hp12]
  refine ⟨?_, rl, rs, ?_, ?_, ?_, ?_, fun j hj => (hbits j hj).1, fun j hj => (hbits j hj).2⟩
  · rw [inode_rec_layout _ hL]
    simp only [decodeInode, Nat.sub_self, Nat.mul_zero, Nat.add_zero]
    have := hp 0 2 (by omega)
    rw [Nat.add_zero] at this
    rw [this]
    unfold encodeInode
    rw [readLE_field _ 0 0 2 (mk_root_inode (fmt_sb size_kib inode_count now)).mode (by simp)
      (by simp [fieldsWidth])]
    rfl
  · rw [hdir 0 (by omega), formatted_drs _ _ _ _ hv]
    simp only [mk_root_inode, fmt_sb, mk_superblock, List.getD_cons_zero]
    norm_num
    omega
  · intro p h1 h2
    rw [hdir p h2]
    obtain ⟨q, rfl⟩ : ∃ q, p = q + 1 := ⟨p - 1, by omega⟩
    simp only [mk_root_inode, List.getD_cons_succ]
    rw [List.getD_eq_getElem?_getD, List.getElem?_replicate]
    split <;> rfl
  · rw [inode_rec_layout _ hL, hL.inode_table_start]
    simp only [decodeInode, Nat.sub_self, Nat.mul_zero, Nat.add_zero, BS]
    rw [readLE_shift _ (inode_crc_finalize (writeAt (fun _ => 0) 0
        (encodeInode (mk_root_inode (fmt_sb size_kib inode_count now)))) 0) _ (0 + 120) 8
        (fun i hi => by
          rw [Nat.add_assoc, load_formatted_inode _ _ _ _ (120 + i) hv (by omega), Nat.zero_add]),
      inode_crc_finalize_crc]
    have e2 : readBytes (writeAt (fun _ => 0) 0
        (encodeInode (mk_root_inode (fmt_sb size_kib inode_count now)))) 0 120 =
        readBytes (load (formatted size_kib inode_count now stack)) (3 * 4096) 120 := by
      apply readBytes_shift
      intro i hi
      rw [show 3 * 4096 + i = 12288 + i by omega, load_formatted_inode _ _ _ _ _ hv (by omega),
        inode_crc_finalize_out _ _ _ (by omega), Nat.zero_add]
    rw [e2]
  · intro x h1 h2
    rw [hL.inode_table_start, (formatted_fields _ _ _ _ hv).2.1] at h2
    rw [hL.inode_table_start] at h1
    simp only [BS] at h1 h2
    rw [load_formatted _ _ _ _ _ hv, if_neg (by omega), if_neg (by omega), if_neg (by omega),
      if_neg (by omega)]

/-- C15: for valid parameters, in every image the builder writes (it writes
one whenever the 4092 bytes its superblock checksum reads from the local
variable can be read; otherwise it is killed before the first block is
written) the first 128 bytes of the inode table hold the root inode, with
mode 0040000 (directory), links 2, size_bytes 128, direct[0] =
data_region_start, direct[1..11] = 0 and an integrity field equal to the
`crc32` of its first 120 bytes; every other byte of the inode table is zero;
the inode bitmap and the data bitmap have bit 0 set and none of their other
32767 bits. -/
theorem format_inode_table (size_kib inode_count now : Nat) (stack : Mem) (readable : Nat)
    (hv : ValidParams size_kib inode_count) :
    (BS - 4 ≤ readable → ∃ img, format size_kib inode_count now stack readable = .ok img) ∧
    ∀ img, format size_kib inode_count now stack readable = .ok img →
      (inode_rec img 1).mode = MODE_DIR ∧
      (inode_rec img 1).links = 2 ∧
      (inode_rec img 1).size_bytes = 128 ∧
      (inode_rec img 1).direct.getD 0 0 = (sb_of img).data_region_start ∧
      (∀ p, 1 ≤ p → p < 12 → (inode_rec img 1).direct.getD p 0 = 0) ∧
      (inode_rec img 1).inode_crc =
        crc32 (readBytes (load img) ((sb_of img).inode_table_start * BS) 120) ∧
      (∀ x, (sb_of img).inode_table_start * BS + 128 ≤ x →
        x < ((sb_of img).inode_table_start + (sb_of img).inode_table_blocks) * BS →
        load img x = 0) ∧
      (∀ j, j < 32768 → inode_bit img j = decide (j = 0)) ∧
      (∀ j, j < 32768 → data_bit img j = decide (j = 0)) := by
  refine ⟨fun hr => ⟨_, format_of_valid size_kib inode_count now stack readable hv hr⟩,
    fun img hok => ?_⟩
  obtain ⟨-, -, e⟩ := format_ok size_kib inode_count now stack readable img hok
  subst e
  exact formatted_inode_table size_kib inode_count now stack hv

/-- C15, at `--size-kib 180 --inodes 128`, the 4092 bytes being readable. -/
theorem format_inode_table_witness :
    ValidParams 180 128 ∧
    ∃ img, format 180 128 0 (fun _ => 0) 4092 = .ok img ∧
      (inode_rec img 1).mode = MODE_DIR ∧
      (inode_rec img 1).links = 2 ∧
      (inode_rec img 1).size_bytes = 128 ∧
      (inode_rec img 1).direct.getD 0 0 = (sb_of img).data_region_start ∧
      (∀ p, 1 ≤ p → p < 12 → (inode_rec img 1).direct.getD p 0 = 0) ∧
      (inode_rec img 1).inode_crc =
        crc32 (readBytes (load img) ((sb_of img).inode_table_start * BS) 120) ∧
      (∀ x, (sb_of img).inode_table_start * BS + 128 ≤ x →
        x < ((sb_of img).inode_table_start + (sb_of img).inode_table_blocks) * BS →
        load img x = 0) ∧
      (∀ j, j < 32768 → inode_bit img j = decide (j = 0)) ∧
      (∀ j, j < 32768 → data_bit img j = decide (j = 0)) :=
  ⟨by decide, _, format_of_valid 180 128 0 (fun _ => 0) 4092 (by decide) (by decide),
    (format_inode_table 180 128 0 (fun _ => 0) 4092 (by decide)).2 _
      (format_of_valid 180 128 0 (fun _ => 0) 4092 (by decide) (by decide))⟩

/-! ## The record of the new inode -/

theorem clear_direct_in (ino i k : Nat) (m : Mem) (p : Nat) (h1 : i ≤ p) (h2 : p < i + k) :
    readLE (clear_direct ino i k m) (ino + 44 + 4 * p) 4 = 0 := by
  induction k generalizing i m with
  | zero => omega
  | succ k ih =>
    unfold clear_direct
    by_cases hp : p = i
    · subst hp
      rw [readLE_congr _ _ _ _ (fun x h1 h2 => clear_direct_out ino (p + 1) k _ x (by omega)),
        readLE_writeLE_same]
      rfl
    · exact ih (i + 1) _ (by omega) (by omega)

/-- the fields of the new inode stored before the copy loop, after the build -/
theorem build_inode_head (m : Mem) (drs dr db ino : Nat) (fbs content : List Nat)
    (bn now a w : Nat)
    (hs : ∀ fb ∈ fbs, fb < 32768) (hl : fbs.length = bn) (h12 : bn ≤ 12)
    (hino : ino + 128 ≤ dr) (hdb : db + 4096 ≤ ino) (ha1 : ino ≤ a) (ha2 : a + w ≤ ino + 44) :
    readLE (build_inode m drs dr db ino fbs content bn now) a w =
      readLE (writeLE (writeLE (writeLE (writeLE (writeLE (writeLE (writeLE (writeLE
        (writeAt m ino (List.replicate INODE_SIZE 0)) ino 2 MODE_FILE) (ino + 2) 2 1)
        (ino + 4) 4 0) (ino + 8) 4 0) (ino + 12) 8 content.length) (ino + 20) 8 now)
        (ino + 28) 8 now) (ino + 36) 8 now) a w := by
  unfold build_inode
  rw [List.take_of_length_le (by omega)]
  apply readLE_congr
  intro x h1 h2
  rw [inode_crc_finalize_out _ _ _ (by omega)]
  simp (disch := omega) only [writeLE_out]
  rw [clear_direct_out _ _ _ _ _ (by omega),
    copy_blocks_out _ _ _ _ _ _ _ _ _ _ _ hs (by omega) (fun f hf => by omega)
      (fun f hf => by have := hs f hf; omega)]

/-- the fields of the new inode other than its size, its pointers to the
blocks of the file and its checksum -/
theorem build_inode_fields (m : Mem) (drs dr db ino : Nat) (fbs content : List Nat)
    (bn now : Nat)
    (hs : ∀ fb ∈ fbs, fb < 32768) (hl : fbs.length = bn) (h12 : bn ≤ 12)
    (hino : ino + 128 ≤ dr) (hdb : db + 4096 ≤ ino) :
    readLE (build_inode m drs dr db ino fbs content bn now) ino 2 = MODE_FILE ∧
    readLE (build_inode m drs dr db ino fbs content bn now) (ino + 2) 2 = 1 ∧
    readLE (build_inode m drs dr db ino fbs content bn now) (ino + 4) 4 = 0 ∧
    readLE (build_inode m drs dr db ino fbs content bn now) (ino + 8) 4 = 0 ∧
    readLE (build_inode m drs dr db ino fbs content bn now) (ino + 20) 8 = now % 2 ^ 64 ∧
    readLE (build_inode m drs dr db ino fbs content bn now) (ino + 28) 8 = now % 2 ^ 64 ∧
    readLE (build_inode m drs dr db ino fbs content bn now) (ino + 36) 8 = now % 2 ^ 64 ∧
    (∀ p, bn ≤ p → p < 12 →
      readLE (build_inode m drs dr db ino fbs content bn now) (ino + 44 + 4 * p) 4 = 0) ∧
    readLE (build_inode m drs dr db ino fbs content bn now) (ino + 92) 4 = 0 ∧
    readLE (build_inode m drs dr db ino fbs content bn now) (ino + 96) 4 = 0 ∧
    readLE (build_inode m drs dr db ino fbs content bn now) (ino + 100) 4 = 0 ∧
    readLE (build_inode m drs dr db ino fbs content bn now) (ino + 104) 4 = 0 ∧
    readLE (build_inode m drs dr db ino fbs content bn now) (ino + 108) 4 = 0 ∧
    readLE (build_inode m drs dr db ino fbs content bn now) (ino + 112) 8 = 0 := by
  have hh := fun a w h1 h2 =>
    build_inode_head m drs dr db ino fbs content bn now a w hs hl h12 hino hdb h1 h2
  have tail : ∀ (M : Mem) a w, ino + 44 ≤ a → a + w ≤ ino + 120 →
      readLE (inode_crc_finalize M ino) a w = readLE M a w := by
    intro M a w h1 h2
    exact readLE_congr _ _ _ _ (fun x hx1 hx2 => inode_crc_finalize_out _ _ _ (by omega))
  refine ⟨?_, ?_, ?_, ?_, ?_, ?_, ?_, ?_, ?_, ?_, ?_, ?_, ?_, ?_⟩
  · rw [hh ino 2 (by omega) (by omega)]
    simp (disch := omega) only [readLE_writeLE_other]
    rw [readLE_writeLE_same]
    rfl
  · rw [hh _ 2 (by omega) (by omega)]
    simp (disch := omega) only [readLE_writeLE_other]
    rw [readLE_writeLE_same]
    rfl
  · rw [hh _ 4 (by omega) (by omega)]
    simp (disch := omega) only [readLE_writeLE_other]
    rw [readLE_writeLE_same]
    rfl
  · rw [hh _ 4 (by omega) (by omega)]
    simp (disch := omega) only [readLE_writeLE_other]
    rw [readLE_writeLE_same]
    rfl
  · rw [hh _ 8 (by omega) (by omega)]
    simp (disch := omega) only [readLE_writeLE_other]
    rw [readLE_writeLE_same, pow_256_8]
  · rw [hh _ 8 (by omega) (by omega)]
    simp (disch := omega) only [readLE_writeLE_other]
    rw [readLE_writeLE_same, pow_256_8]
  · rw [hh _ 8 (by omega) (by omega)]
    rw [readLE_writeLE_same, pow_256_8]
  · intro p hp1 hp2
    unfold build_inode
    rw [List.take_of_length_le (by omega), tail _ _ _ (by omega) (by omega)]
    simp (disch := omega) only [readLE_writeLE_other]
    exact clear_direct_in _ _ _ _ _ hp1 (by simp only [DIRECT_MAX]; omega)
  all_goals
    unfold build_inode
    rw [List.take_of_length_le (by omega), tail _ _ _ (by omega) (by omega)]
    try simp (disch := omega) only [readLE_writeLE_other]
    rw [readLE_writeLE_same]
    rfl

/-- the integrity field of a record `inode_crc_finalize` ran on last -/
theorem inode_crc_valid (M : Mem) (ino : Nat) :
    readLE (inode_crc_finalize M ino) (ino + 120) 8 =
      crc32 (readBytes (inode_crc_finalize M ino) ino 120) := by
  rw [inode_crc_finalize_crc,
    readBytes_congr _ M _ _ (fun x h1 h2 => inode_crc_finalize_out _ _ _ (by omega))]

theorem build_inode_crc (m : Mem) (drs dr db ino : Nat) (fbs content : List Nat)
    (bn now : Nat) :
    readLE (build_inode m drs dr db ino fbs content bn now) (ino + 120) 8 =
      crc32 (readBytes (build_inode m drs dr db ino fbs content bn now) ino 120) := by
  unfold build_inode
  exact inode_crc_valid _ _

/-- the bytes of the new inode in the output image -/
theorem out_inode_bytes (img name content : List Nat) (now i0 : Nat) (fbs : List Nat)
    (slot x : Nat) (h : Layout img) (hi : i0 < (sb_of img).inode_count) (hi1 : 1 ≤ i0)
    (hx1 : 12288 + i0 * 128 ≤ x) (hx2 : x < 12288 + i0 * 128 + 128) :
    load (dump (fin_mem img name content now i0 fbs slot) img.length) x =
      build_inode (load img) (3 + (sb_of img).inode_table_blocks)
        ((3 + (sb_of img).inode_table_blocks) * 4096) 8192 (12288 + i0 * 128) fbs content
        (blocks_for content.length) now x := by
  have hr := layout_region_bounds img h
  have ht := table_fits img h i0 hi
  rw [load_out_fin _ _ _ _ _ _ _ _ (by omega),
    fin_mem_out _ _ _ _ _ _ _ _ (by omega) (by omega) (by omega)]
  unfold pre_mem
  rw [set_bit_out _ _ _ _ (by omega)]

theorem decodeInode_congr (m m' : Mem) (a : Nat)
    (h : ∀ x, a ≤ x → x < a + 128 → m x = m' x) : decodeInode m a = decodeInode m' a := by
  have key : ∀ b w, a ≤ b → b + w ≤ a + 128 → readLE m b w = readLE m' b w :=
    fun b w h1 h2 => readLE_congr _ _ _ _ (fun x hx1 hx2 => h x (by omega) (by omega))
  have ed : (List.range 12).map (fun i => readLE m (a + 44 + 4 * i) 4) =
      (List.range 12).map (fun i => readLE m' (a + 44 + 4 * i) 4) := by
    apply List.map_congr_left
    intro i hi
    rw [List.mem_range] at hi
    exact key _ _ (by omega) (by omega)
  unfold decodeInode
  rw [ed, key a 2 (by omega) (by omega), key (a + 2) 2 (by omega) (by omega),
    key (a + 4) 4 (by omega) (by omega), key (a + 8) 4 (by omega) (by omega),
    key (a + 12) 8 (by omega) (by omega), key (a + 20) 8 (by omega) (by omega),
    key (a + 28) 8 (by omega) (by omega), key (a + 36) 8 (by omega) (by omega),
    key (a + 92) 4 (by omega) (by omega), key (a + 96) 4 (by omega) (by omega),
    key (a + 100) 4 (by omega) (by omega), key (a + 104) 4 (by omega) (by omega),
    key (a + 108) 4 (by omega) (by omega), key (a + 112) 8 (by omega) (by omega),
    key (a + 120) 8 (by omega) (by omega)]

theorem decodeInode_direct (m : Mem) (a p : Nat) (hp : p < 12) :
    (decodeInode m a).direct.getD p 0 = readLE m (a + 44 + 4 * p) 4 := by
  unfold decodeInode
  simp only []
  rw [List.getD_eq_getElem?_getD, List.getElem?_map, List.getElem?_range hp]
  rfl

/-- the record of the new inode in the output image is the one `main` built -/
theorem out_inode_rec (img name content : List Nat) (now i0 : Nat) (fbs : List Nat)
    (slot : Nat) (h : Layout img) (hi : i0 < (sb_of img).inode_count) (hi1 : 1 ≤ i0) :
    inode_rec (dump (fin_mem img name content now i0 fbs slot) img.length) (i0 + 1) =
      decodeInode (build_inode (load img) (3 + (sb_of img).inode_table_blocks)
        ((3 + (sb_of img).inode_table_blocks) * 4096) 8192 (12288 + i0 * 128) fbs content
        (blocks_for content.length) now) (12288 + i0 * 128) := by
  rw [inode_rec_layout _ (out_layout img name content now i0 fbs slot h),
    Nat.add_sub_cancel, Nat.mul_comm 128 i0]
  exact decodeInode_congr _ _ _ (fun x h1 h2 =>
    out_inode_bytes img name content now i0 fbs slot x h hi hi1 h1 h2)

/-- C11: when the insertion of a file of S bytes (S < 2 ^ 63, the time below
2 ^ 64) into a well-formed image succeeds, the inode number n assigned is the
lowest free one, and the record at index n - 1 of the inode table of the
output image has mode 0100000, links 1, uid and gid 0, size_bytes = S, the
three timestamps equal to the time, direct[p] = data_region_start + the p-th
allocated index for p < ceil(S / 4096), direct[p] = 0 for
ceil(S / 4096) ≤ p < 12, all reserved fields zero, and every non-zero direct
pointer in [data_region_start, total_blocks). -/
theorem add_inode_record (img name content out : List Nat) (now : Nat)
    (hw : WellFormed img) (hoff : content.length < 2 ^ 63) (hnow : now < 2 ^ 64)
    (hok : add img name content now = .ok out) :
    (∃ i0, new_inode_no img = i0 + 1 ∧ i0 < (sb_of img).inode_count ∧
      inode_bit img i0 = false ∧ ∀ j, j < i0 → inode_bit img j = true) ∧
    (inode_rec out (new_inode_no img)).mode = MODE_FILE ∧
    (inode_rec out (new_inode_no img)).links = 1 ∧
    (inode_rec out (new_inode_no img)).uid = 0 ∧
    (inode_rec out (new_inode_no img)).gid = 0 ∧
    (inode_rec out (new_inode_no img)).size_bytes = content.length ∧
    (inode_rec out (new_inode_no img)).atime = now ∧
    (inode_rec out (new_inode_no img)).mtime = now ∧
    (inode_rec out (new_inode_no img)).ctime = now ∧
    (∀ p, p < blocks_for content.length →
      (inode_rec out (new_inode_no img)).direct.getD p 0 =
        (sb_of img).data_region_start + (allocated_blocks img content.length).getD p 0) ∧
    (∀ p, blocks_for content.length ≤ p → p < 12 →
      (inode_rec out (new_inode_no img)).direct.getD p 0 = 0) ∧
    (inode_rec out (new_inode_no img)).reserved_0 = 0 ∧
    (inode_rec out (new_inode_no img)).reserved_1 = 0 ∧
    (inode_rec out (new_inode_no img)).reserved_2 = 0 ∧
    (inode_rec out (new_inode_no img)).proj_id = 0 ∧
    (inode_rec out (new_inode_no img)).uid16_gid16 = 0 ∧
    (inode_rec out (new_inode_no img)).xattr_ptr = 0 ∧
    (∀ p, p < 12 → (inode_rec out (new_inode_no img)).direct.getD p 0 ≠ 0 →
      (sb_of img).data_region_start ≤ (inode_rec out (new_inode_no img)).direct.getD p 0 ∧
      (inode_rec out (new_inode_no img)).direct.getD p 0 < (sb_of img).total_blocks) := by
  have hL := hw.layout
  have hsize : content.length ≤ 12 * 4096 := by
    by_contra hc
    rw [add_too_large img name content now (by omega) hoff] at hok
    cases hok
  have h12 : blocks_for content.length ≤ 12 := by unfold blocks_for; omega
  obtain ⟨-, i0, slot, hi0, hbit, hlow, hnew, hlen, hscan, rfl⟩ :=
    add_ok_layout img name content _ now hL hsize hok
  have hi1 : 1 ≤ i0 := by
    rcases Nat.eq_zero_or_pos i0 with e | e
    · rw [e, hw.root_inode] at hbit
      cases hbit
    · exact e
  have hslot := (scan_dirents_some _ _ _ _ hscan).1
  have ht := table_fits img hL i0 hi0
  have hb := layout_bounds img hL
  have hfbs : ∀ fb ∈ allocated_blocks img content.length,
      1 ≤ fb ∧ fb < (sb_of img).data_region_blocks :=
    fun fb hfb => ⟨allocated_blocks_pos img hL hw.root_block _ fb hfb,
      (allocated_blocks_mem img hL _ fb hfb).1⟩
  obtain ⟨hsz, hblk⟩ := out_new_inode img name content now i0
    (allocated_blocks img content.length) slot hL hi0 hi1 hfbs
    (allocated_blocks_nodup img hL _) hlen h12 hslot hsize
  obtain ⟨f1, f2, f3, f4, f5, f6, f7, f8, f9, f10, f11, f12, f13, f14⟩ :=
    build_inode_fields (load img) (3 + (sb_of img).inode_table_blocks)
      ((3 + (sb_of img).inode_table_blocks) * 4096) 8192 (12288 + i0 * 128)
      (allocated_blocks img content.length) content (blocks_for content.length) now
      (allocated_blocks_small img hL _) hlen h12 (by omega) (by omega)
  have hrec := out_inode_rec img name content now i0 (allocated_blocks img content.length)
    slot hL hi0 hi1
  have hzero : ∀ p, blocks_for content.length ≤ p → p < 12 →
      (inode_rec (dump (fin_mem img name content now i0 (allocated_blocks img content.length)
        slot) img.length) (i0 + 1)).direct.getD p 0 = 0 := by
    intro p hp1 hp2
    rw [hrec, decodeInode_direct _ _ _ hp2]
    exact f8 p hp1 hp2
  have hdir : ∀ p, p < blocks_for content.length →
      (inode_rec (dump (fin_mem img name content now i0 (allocated_blocks img content.length)
        slot) img.length) (i0 + 1)).direct.getD p 0 =
        (sb_of img).data_region_start + (allocated_blocks img content.length).getD p 0 := by
    intro p hp
    rw [(hblk p hp).1, hL.data_region_start]
  rw [hnew]
  refine ⟨⟨i0, rfl, hi0, hbit, hlow⟩, ?_, ?_, ?_, ?_, hsz, ?_, ?_, ?_, hdir, hzero, ?_, ?_, ?_,
    ?_, ?_, ?_, ?_⟩
  · rw [hrec]; exact f1
  · rw [hrec]; exact f2
  · rw [hrec]; exact f3
  · rw [hrec]; exact f4
  · rw [hrec]; exact f5.trans (Nat.mod_eq_of_lt hnow)
  · rw [hrec]; exact f6.trans (Nat.mod_eq_of_lt hnow)
  · rw [hrec]; exact f7.trans (Nat.mod_eq_of_lt hnow)
  · rw [hrec]; exact f9
  · rw [hrec]; exact f10
  · rw [hrec]; exact f11
  · rw [hrec]; exact f12
  · rw [hrec]; exact f13
  · rw [hrec]; exact f14
  · intro p hp hne
    by_cases hpk : p < blocks_for content.length
    · rw [hdir p hpk]
      have hfb : (allocated_blocks img content.length).getD p 0 <
          (sb_of img).data_region_blocks := by
        rw [List.getD_eq_getElem _ _ (by omega)]
        exact (hfbs _ (List.getElem_mem _)).2
      have := hL.data_region_start
      omega
    · exact absurd (hzero p (by omega) hp) hne

/-- C11, at a file of one byte named "a" added to the image of
`--size-kib 180 --inodes 128`. -/
theorem add_inode_record_witness :
    ∃ img out, img = formatted 180 128 0 (fun _ => 0) ∧ add img [97] [1] 0 = .ok out ∧
      (∃ i0, new_inode_no img = i0 + 1 ∧ i0 < (sb_of img).inode_count ∧
        inode_bit img i0 = false ∧ ∀ j, j < i0 → inode_bit img j = true) ∧
      (inode_rec out (new_inode_no img)).mode = MODE_FILE ∧
      (inode_rec out (new_inode_no img)).links = 1 ∧
      (inode_rec out (new_inode_no img)).uid = 0 ∧
      (inode_rec out (new_inode_no img)).gid = 0 ∧
      (inode_rec out (new_inode_no img)).size_bytes = ([1] : List Nat).length ∧
      (inode_rec out (new_inode_no img)).atime = 0 ∧
      (inode_rec out (new_inode_no img)).mtime = 0 ∧
      (inode_rec out (new_inode_no img)).ctime = 0 ∧
      (∀ p, p < blocks_for ([1] : List Nat).length →
        (inode_rec out (new_inode_no img)).direct.getD p 0 =
          (sb_of img).data_region_start + (allocated_blocks img ([1] : List Nat).length).getD p 0) ∧
      (∀ p, blocks_for ([1] : List Nat).length ≤ p → p < 12 →
        (inode_rec out (new_inode_no img)).direct.getD p 0 = 0) ∧
      (inode_rec out (new_inode_no img)).reserved_0 = 0 ∧
      (inode_rec out (new_inode_no img)).reserved_1 = 0 ∧
      (inode_rec out (new_inode_no img)).reserved_2 = 0 ∧
      (inode_rec out (new_inode_no img)).proj_id = 0 ∧
      (inode_rec out (new_inode_no img)).uid16_gid16 = 0 ∧
      (inode_rec out (new_inode_no img)).xattr_ptr = 0 ∧
      (∀ p, p < 12 → (inode_rec out (new_inode_no img)).direct.getD p 0 ≠ 0 →
        (sb_of img).data_region_start ≤ (inode_rec out (new_inode_no img)).direct.getD p 0 ∧
        (inode_rec out (new_inode_no img)).direct.getD p 0 < (sb_of img).total_blocks) :=
  ⟨_, _, rfl, (add_formatted 180 128 0 (fun _ => 0) [97] [1] 0 (by decide)
      (by simp [IsFilePath, IsName]) (by simp)).1,
    add_inode_record (formatted 180 128 0 (fun _ => 0)) [97] [1] _ 0
      (formatted_wellformed 180 128 0 (fun _ => 0) (by decide)) (by simp) (by omega)
      (add_formatted 180 128 0 (fun _ => 0) [97] [1] 0 (by decide)
        (by simp [IsFilePath, IsName]) (by simp)).1⟩

/-! ## The checksums of the output image -/

theorem writeAt_congr (m m' : Mem) (a : Nat) (bs : List Nat) (x : Nat) (h : m x = m' x) :
    writeAt m a bs x = writeAt m' a bs x := by
  unfold writeAt
  rw [h]

theorem readLE_one (m : Mem) (a : Nat) : readLE m a 1 = m a := by
  simp [readLE, readBytes, leVal]

/-- the checksum `superblock_crc_finalize` stores is the `crc32` of the block
with the checksum field zeroed -/
theorem superblock_crc_valid (M : Mem) (sb : Nat) :
    readLE (superblock_crc_finalize M sb) (sb + 112) 4 =
      crc32 (readBytes (writeLE (superblock_crc_finalize M sb) (sb + 112) 4 0) sb (BS - 4)) := by
  have e : writeLE (superblock_crc_finalize M sb) (sb + 112) 4 0 = writeLE M (sb + 112) 4 0 := by
    unfold superblock_crc_finalize writeLE
    simp only []
    rw [writeAt_writeAt _ _ _ _ (by rw [leBytes_length, leBytes_length]),
      writeAt_writeAt _ _ _ _ rfl]
  rw [e]
  unfold superblock_crc_finalize
  simp only []
  rw [readLE_writeLE_same, pow_256_4]
  exact Nat.mod_eq_of_lt (crc32_lt _)

/-- the integrity field of a record of an image that `inode_crc_finalize` ran
on last -/
theorem inode_crc_of_region (out : List Nat) (ino : Nat)
    (h : ∃ M : Mem, ∀ x, ino ≤ x → x < ino + 128 → load out x = inode_crc_finalize M ino x) :
    readLE (load out) (ino + 120) 8 = crc32 (readBytes (load out) ino 120) := by
  obtain ⟨M, hM⟩ := h
  rw [readLE_congr _ _ _ _ (fun x h1 h2 => hM x (by omega) (by omega)), inode_crc_valid,
    readBytes_congr (load out) _ _ _ (fun x h1 h2 => hM x (by omega) (by omega))]

/-- the checksum byte of an entry of an image that `dirent_checksum_finalize`
ran on last -/
theorem dirent_checksum_of_region (out : List Nat) (de : Nat)
    (h : ∃ M : Mem, ∀ x, de ≤ x → x < de + 64 → load out x = dirent_checksum_finalize M de x) :
    readLE (load out) (de + 63) 1 = xor_fold (readBytes (load out) de 63) := by
  obtain ⟨M, hM⟩ := h
  obtain ⟨h1, h2, -⟩ := dirent_checksum_finalize_spec M de
  rw [readLE_one, hM _ (by omega) (by omega), h2,
    readBytes_congr (load out) M _ _ (fun x hx1 hx2 => by
      rw [hM x (by omega) (by omega), h1 x (by omega)])]

theorem update_root_is_finalize (m : Mem) (r now : Nat) :
    ∃ M : Mem, update_root m r now = inode_crc_finalize M r := by
  unfold update_root
  exact ⟨_, rfl⟩

theorem build_inode_is_finalize (m : Mem) (drs dr db ino : Nat) (fbs content : List Nat)
    (bn now : Nat) :
    ∃ M : Mem, build_inode m drs dr db ino fbs content bn now = inode_crc_finalize M ino := by
  unfold build_inode
  exact ⟨_, rfl⟩

theorem write_dirent_is_finalize (m : Mem) (de n : Nat) (name : List Nat) :
    ∃ M : Mem, write_dirent m de n name = dirent_checksum_finalize M de := by
  unfold write_dirent
  exact ⟨_, rfl⟩

/-- C12: in the image a successful insertion writes (the input image having
the layout of the builder, the file fewer than 2 ^ 63 bytes), the superblock
checksum is the `crc32` of bytes 0..4091 of block 0 with the checksum field
zeroed; the integrity fields of the new inode and of the root inode are each
the `crc32` of the first 120 bytes of the record (below 2 ^ 32, so that their
high 4 bytes are zero); the new directory entry, which holds the number of
the new inode, has a checksum byte equal to the XOR of its first 63 bytes;
and the superblock is that of the input image but for the checksum. -/
theorem add_checksums (img name content out : List Nat) (now : Nat)
    (hL : Layout img) (hoff : content.length < 2 ^ 63)
    (hok : add img name content now = .ok out) :
    (sb_of out).checksum = recomputed_sb_checksum out ∧
    (inode_rec out (new_inode_no img)).inode_crc =
      crc32 (readBytes (load out)
        ((sb_of out).inode_table_start * BS + INODE_SIZE * (new_inode_no img - 1)) 120) ∧
    (inode_rec out (new_inode_no img)).inode_crc < 2 ^ 32 ∧
    (inode_rec out 1).inode_crc =
      crc32 (readBytes (load out) ((sb_of out).inode_table_start * BS) 120) ∧
    (inode_rec out 1).inode_crc < 2 ^ 32 ∧
    (∃ slot, slot < 64 ∧ (root_dirent out slot).inode_no = new_inode_no img ∧
      (root_dirent out slot).checksum =
        xor_fold (readBytes (load out)
          ((sb_of out).data_region_start * BS + DIRENT_SIZE * slot) 63)) ∧
    sb_of out = { sb_of img with checksum := (sb_of out).checksum } := by
  have hsize : content.length ≤ 12 * 4096 := by
    by_contra hc
    rw [add_too_large img name content now (by omega) hoff] at hok
    cases hok
  obtain ⟨-, i0, slot, hi0, -, -, hnew, -, hscan, rfl⟩ :=
    add_ok_layout img name content _ now hL hsize hok
  have hslot := (scan_dirents_some _ _ _ _ hscan).1
  have ht := table_fits img hL i0 hi0
  have hr := layout_region_bounds img hL
  have L1 := out_layout img name content now i0 (allocated_blocks img content.length) slot hL
  have hsb := sb_of_out img name content now i0 (allocated_blocks img content.length) slot hL
  have hT := out_table_blocks img name content now i0 (allocated_blocks img content.length)
    slot hL
  have hroot : readLE (load (dump (fin_mem img name content now i0
      (allocated_blocks img content.length) slot) img.length)) (12288 + 120) 8 =
      crc32 (readBytes (load (dump (fin_mem img name content now i0
        (allocated_blocks img content.length) slot) img.length)) 12288 120) := by
    apply inode_crc_of_region
    obtain ⟨M, hM⟩ := update_root_is_finalize (write_dirent (pre_mem img content now i0
      (allocated_blocks img content.length))
      ((3 + (sb_of img).inode_table_blocks) * 4096 + 64 * slot) (i0 + 1) name) 12288 now
    refine ⟨M, fun x h1 h2 => ?_⟩
    rw [load_out_fin _ _ _ _ _ _ _ _ (by omega), fin_mem_root _ _ _ _ _ _ _ _ h1 h2, hM]
  have hnewi : readLE (load (dump (fin_mem img name content now i0
      (allocated_blocks img content.length) slot) img.length)) (12288 + i0 * 128 + 120) 8 =
      crc32 (readBytes (load (dump (fin_mem img name content now i0
        (allocated_blocks img content.length) slot) img.length)) (12288 + i0 * 128) 120) := by
    rcases Nat.eq_zero_or_pos i0 with e | e
    · subst e
      rw [show 12288 + 0 * 128 = 12288 from rfl]
      exact hroot
    · apply inode_crc_of_region
      obtain ⟨M, hM⟩ := build_inode_is_finalize (load img) (3 + (sb_of img).inode_table_blocks)
        ((3 + (sb_of img).inode_table_blocks) * 4096) 8192 (12288 + i0 * 128)
        (allocated_blocks img content.length) content (blocks_for content.length) now
      refine ⟨M, fun x h1 h2 => ?_⟩
      rw [out_inode_bytes img name content now i0 _ slot x hL hi0 e h1 h2, hM]
  have e1 : (inode_rec (dump (fin_mem img name content now i0
      (allocated_blocks img content.length) slot) img.length) (i0 + 1)).inode_crc =
      crc32 (readBytes (load (dump (fin_mem img name content now i0
        (allocated_blocks img content.length) slot) img.length))
        ((sb_of (dump (fin_mem img name content now i0
          (allocated_blocks img content.length) slot) img.length)).inode_table_start * BS +
          INODE_SIZE * (i0 + 1 - 1)) 120) := by
    rw [inode_rec_layout _ L1, L1.inode_table_start, Nat.add_sub_cancel]
    simp only [BS, INODE_SIZE]
    rw [Nat.mul_comm 128 i0]
    exact hnewi
  have e2 : (inode_rec (dump (fin_mem img name content now i0
      (allocated_blocks img content.length) slot) img.length) 1).inode_crc =
      crc32 (readBytes (load (dump (fin_mem img name content now i0
        (allocated_blocks img content.length) slot) img.length))
        ((sb_of (dump (fin_mem img name content now i0
          (allocated_blocks img content.length) slot) img.length)).inode_table_start * BS)
        120) := by
    rw [inode_rec_layout _ L1, L1.inode_table_start]
    exact hroot
  rw [hnew]
  refine ⟨?_, e1, ?_, e2, ?_, ⟨slot, hslot, ?_, ?_⟩, ?_⟩
  · unfold recomputed_sb_checksum
    have c1 : (sb_of (dump (fin_mem img name content now i0
        (allocated_blocks img content.length) slot) img.length)).checksum =
        readLE (fin_mem img name content now i0 (allocated_blocks img content.length) slot)
          (0 + 112) 4 := by
      unfold sb_of decodeSuperblock
      exact readLE_congr _ _ _ _ (fun x h1 h2 => load_out_fin _ _ _ _ _ _ _ _ (by omega))
    have c2 : readBytes (writeLE (load (dump (fin_mem img name content now i0
        (allocated_blocks img content.length) slot) img.length)) 112 4 0) 0 (BS - 4) =
        readBytes (writeLE (fin_mem img name content now i0
          (allocated_blocks img content.length) slot) (0 + 112) 4 0) 0 (BS - 4) := by
      apply readBytes_congr
      intro x h1 h2
      simp only [BS] at h2
      unfold writeLE
      exact writeAt_congr _ _ _ _ _ (load_out_fin _ _ _ _ _ _ _ _ (by omega))
    rw [c1, c2]
    unfold fin_mem
    exact superblock_crc_valid _ 0
  · rw [e1]
    exact crc32_lt _
  · rw [e2]
    exact crc32_lt _
  · exact (out_dirent img name content now i0 _ slot hL hi0 hslot).1
  · rw [root_dirent_layout _ L1, L1.data_region_start, hT]
    simp only [BS, DIRENT_SIZE]
    obtain ⟨M, hM⟩ := write_dirent_is_finalize (pre_mem img content now i0
      (allocated_blocks img content.length))
      ((3 + (sb_of img).inode_table_blocks) * 4096 + 64 * slot) (i0 + 1) name
    have := dirent_checksum_of_region (dump (fin_mem img name content now i0
        (allocated_blocks img content.length) slot) img.length)
      ((3 + (sb_of img).inode_table_blocks) * 4096 + 64 * slot)
      ⟨M, fun x h1 h2 => by
        rw [load_out_fin _ _ _ _ _ _ _ _ (by omega),
          fin_mem_dirent _ _ _ _ _ _ _ _ (by omega) h1 h2, hM]⟩
    exact this
  · rw [hsb]

/-- C12, at a file of one byte named "a" added to the image of
`--size-kib 180 --inodes 128`. -/
theorem add_checksums_witness :
    ∃ img out, img = formatted 180 128 0 (fun _ => 0) ∧ add img [97] [1] 0 = .ok out ∧
      (sb_of out).checksum = recomputed_sb_checksum out ∧
      (inode_rec out (new_inode_no img)).inode_crc =
        crc32 (readBytes (load out)
          ((sb_of out).inode_table_start * BS + INODE_SIZE * (new_inode_no img - 1)) 120) ∧
      (inode_rec out (new_inode_no img)).inode_crc < 2 ^ 32 ∧
      (inode_rec out 1).inode_crc =
        crc32 (readBytes (load out) ((sb_of out).inode_table_start * BS) 120) ∧
      (inode_rec out 1).inode_crc < 2 ^ 32 ∧
      (∃ slot, slot < 64 ∧ (root_dirent out slot).inode_no = new_inode_no img ∧
        (root_dirent out slot).checksum =
          xor_fold (readBytes (load out)
            ((sb_of out).data_region_start * BS + DIRENT_SIZE * slot) 63)) ∧
      sb_of out = { sb_of img with checksum := (sb_of out).checksum } :=
  ⟨_, _, rfl, (add_formatted 180 128 0 (fun _ => 0) [97] [1] 0 (by decide)
      (by simp [IsFilePath, IsName]) (by simp)).1,
    add_checksums (formatted 180 128 0 (fun _ => 0)) [97] [1] _ 0
      (formatted_layout 180 128 0 (fun _ => 0) (by decide)) (by simp)
      (add_formatted 180 128 0 (fun _ => 0) [97] [1] 0 (by decide)
        (by simp [IsFilePath, IsName]) (by simp)).1⟩

/-! ## Reachable images: the names of the root directory -/

/-- a successful insertion under a name whose first 57 bytes are the name field
of an entry that is there leaves two entries with the same name field -/
theorem insert_same_stored_name (I1 name content I2 : List Nat) (now s0 : Nat)
    (hL : Layout I1) (hroot : data_bit I1 0 = true) (hsize : content.length ≤ 12 * 4096)
    (hs0 : s0 < 64) (hne : (root_dirent I1 s0).inode_no ≠ 0)
    (hname : (root_dirent I1 s0).name = nameField (name.take 57))
    (hok : add I1 name content now = .ok I2) :
    ∃ t, t < 64 ∧ t ≠ s0 ∧ (root_dirent I2 s0).inode_no ≠ 0 ∧
      (root_dirent I2 t).inode_no ≠ 0 ∧ (root_dirent I2 s0).name = (root_dirent I2 t).name := by
  have h12 : blocks_for content.length ≤ 12 := by unfold blocks_for; omega
  obtain ⟨-, i0, slot, hi0, -, -, -, hlen, hscan, rfl⟩ :=
    add_ok_layout I1 name content _ now hL hsize hok
  obtain ⟨hslot, hzero, -, -⟩ := scan_dirents_some _ _ _ _ hscan
  have hfbs : ∀ fb ∈ allocated_blocks I1 content.length, 1 ≤ fb ∧ fb < 32768 :=
    fun fb hfb => ⟨allocated_blocks_pos I1 hL hroot _ fb hfb,
      allocated_blocks_small I1 hL _ fb hfb⟩
  have e := pre_mem_dirent I1 content now i0 _ slot hL hi0 hfbs hlen h12 hslot
  have hz : (root_dirent I1 slot).inode_no = 0 := by
    rw [← e]
    simp only [DIRENT_SIZE] at hzero
    exact hzero
  have hns : slot ≠ s0 := by
    intro c
    rw [c] at hz
    exact hne hz
  obtain ⟨o1, -, o3⟩ := out_dirent I1 name content now i0 (allocated_blocks I1 content.length)
    slot hL hi0 hslot
  have o4 := out_dirent_other I1 name content now i0 (allocated_blocks I1 content.length)
    slot s0 hL hi0 hfbs hlen h12 hs0 (fun c => hns c.symm)
  refine ⟨slot, hslot, hns, ?_, ?_, ?_⟩
  · rw [o4]
    exact hne
  · rw [o1]
    omega
  · rw [o4, o3, hname]

/-- C13 fails on the code: the image obtained from the image of
`--size-kib 180 --inodes 128` by two successful insertions of files under the
same name of 58 bytes "a" is reachable, and two non-empty entries of its root
directory, that of slot 2 and another, have the same name: the entries hold
the first 57 bytes of the name, and `strcmp` compares them with the 58 bytes
of the name. -/
theorem reachable_names_not_unique :
    ∃ img, Reachable img ∧
      (∃ t, t < 64 ∧ t ≠ 2 ∧ (root_dirent img 2).inode_no ≠ 0 ∧
        (root_dirent img t).inode_no ≠ 0 ∧
        entry_name (root_dirent img 2) = entry_name (root_dirent img t)) ∧
      ¬ NamesUnique img := by
  obtain ⟨I1, h1, L1, r1, n1, n3, I2, h2⟩ := long_name_inserted_twice
  have hN : IsName (List.replicate 58 97) := by
    intro b hb
    rw [List.eq_of_mem_replicate hb]
    omega
  have hR : Reachable I2 := by
    refine Reachable.insert I1 (List.replicate 58 97) [2] I2 0 ?_ hN ?_ (by simp) h2
    · exact Reachable.insert _ (List.replicate 58 97) [1] I1 0
        (Reachable.fresh 180 128 0 (fun _ => 0) 4092 _
          (format_of_valid 180 128 0 (fun _ => 0) 4092 (by decide) (by decide)))
        hN (by simp [IsBytes]) (by simp) h1
    · simp [IsBytes]
  obtain ⟨t, t1, t2, t3, t4, t5⟩ := insert_same_stored_name I1 (List.replicate 58 97) [2] I2 0 2
    L1 r1 (by simp) (by omega) (by rw [n1]; omega) n3 h2
  have t6 : entry_name (root_dirent I2 2) = entry_name (root_dirent I2 t) := by
    unfold entry_name
    rw [t5]
  refine ⟨I2, hR, ⟨t, t1, t2, t3, t4, t6⟩, ?_⟩
  intro hu
  exact t2 (hu 2 t (by omega) t1 t3 t4 t6).symm

/-! ## Reachable images: the bitmaps -/

/-- the update of the root inode leaves bytes 36..119 of the record -/
theorem update_root_mid (m : Mem) (r now x : Nat) (h1 : r + 36 ≤ x) (h2 : x < r + 120) :
    update_root m r now x = m x := by
  unfold update_root
  rw [inode_crc_finalize_out _ _ _ (by omega)]
  simp (disch := omega) only [writeLE_out]

/-- the direct pointers of the inodes other than the new one are those of the
input image -/
theorem out_inode_other_direct (img name content : List Nat) (now i0 : Nat) (fbs : List Nat)
    (slot n p : Nat) (h : Layout img) (hi : i0 < (sb_of img).inode_count)
    (hs : ∀ fb ∈ fbs, fb < 32768) (hl : fbs.length = blocks_for content.length)
    (h12 : blocks_for content.length ≤ 12)
    (hn1 : 1 ≤ n) (hn2 : n ≤ (sb_of img).inode_count) (hne : n ≠ i0 + 1) (hp : p < 12) :
    (inode_rec (dump (fin_mem img name content now i0 fbs slot) img.length) n).direct.getD p 0 =
      (inode_rec img n).direct.getD p 0 := by
  have hr := layout_region_bounds img h
  have ht := table_fits img h i0 hi
  have ht' := table_fits img h (n - 1) (by omega)
  rw [inode_rec_layout _ (out_layout img name content now i0 fbs slot h),
    inode_rec_layout _ h, decodeInode_direct _ _ _ hp, decodeInode_direct _ _ _ hp]
  apply readLE_congr
  intro x h1 h2
  rw [load_out_fin _ _ _ _ _ _ _ _ (by omega)]
  have hpre : pre_mem img content now i0 fbs x = load img x :=
    pre_mem_out img content now i0 fbs x ht.2 hs hl h12 (by omega) (fun fb hfb => by omega)
      (by omega)
  by_cases c : n = 1
  · subst c
    rw [fin_mem_root _ _ _ _ _ _ _ _ (by omega) (by omega),
      update_root_mid _ _ _ _ (by omega) (by omega),
      write_dirent_out _ _ _ _ _ (by omega), hpre]
  · rw [fin_mem_out _ _ _ _ _ _ _ _ (by omega) (by omega) (by omega), hpre]

/-- what a successful insertion into a well-formed image does to the bitmaps,
the root directory and the direct pointers -/
theorem add_step (img name content out : List Nat) (now : Nat)
    (hw : WellFormed img) (hoff : content.length < 2 ^ 63)
    (hok : add img name content now = .ok out) :
    ∃ (i0 slot : Nat) (fbs : List Nat), 1 ≤ i0 ∧ i0 < (sb_of img).inode_count ∧ inode_bit img i0 = false ∧
      slot < 64 ∧ (root_dirent img slot).inode_no = 0 ∧
      fbs.length = blocks_for content.length ∧ blocks_for content.length ≤ 12 ∧ fbs.Nodup ∧
      (∀ fb ∈ fbs, 1 ≤ fb ∧ fb < (sb_of img).data_region_blocks ∧ data_bit img fb = false) ∧
      WellFormed out ∧
      (sb_of out).inode_count = (sb_of img).inode_count ∧
      (sb_of out).data_region_blocks = (sb_of img).data_region_blocks ∧
      (sb_of out).data_region_start = (sb_of img).data_region_start ∧
      (∀ j, j < 32768 → inode_bit out j = (inode_bit img j || decide (j = i0))) ∧
      (∀ j, j < 32768 → data_bit out j = (data_bit img j || decide (j ∈ fbs))) ∧
      (root_dirent out slot).inode_no = i0 + 1 ∧
      (∀ s, s < 64 → s ≠ slot → root_dirent out s = root_dirent img s) ∧
      (∀ p, p < blocks_for content.length →
        (inode_rec out (i0 + 1)).direct.getD p 0 =
          (sb_of img).data_region_start + fbs.getD p 0) ∧
      (∀ p, blocks_for content.length ≤ p → p < 12 →
        (inode_rec out (i0 + 1)).direct.getD p 0 = 0) ∧
      (∀ n p, 1 ≤ n → n ≤ (sb_of img).inode_count → n ≠ i0 + 1 → p < 12 →
        (inode_rec out n).direct.getD p 0 = (inode_rec img n).direct.getD p 0) := by
  have hL := hw.layout
  have hsize : content.length ≤ 12 * 4096 := by
    by_contra hc
    rw [add_too_large img name content now (by omega) hoff] at hok
    cases hok
  have h12 : blocks_for content.length ≤ 12 := by unfold blocks_for; omega
  obtain ⟨-, i0, slot, hi0, hbit, -, hnew, hlen, hscan, hout⟩ :=
    add_ok_layout img name content _ now hL hsize hok
  have hi1 : 1 ≤ i0 := by
    rcases Nat.eq_zero_or_pos i0 with e | e
    · rw [e, hw.root_inode] at hbit
      cases hbit
    · exact e
  obtain ⟨hslot, hzero, -, -⟩ := scan_dirents_some _ _ _ _ hscan
  have ht := table_fits img hL i0 hi0
  have hfbs : ∀ fb ∈ allocated_blocks img content.length,
      1 ≤ fb ∧ fb < (sb_of img).data_region_blocks ∧ data_bit img fb = false :=
    fun fb hfb => ⟨allocated_blocks_pos img hL hw.root_block _ fb hfb,
      allocated_blocks_mem img hL _ fb hfb⟩
  have hsm := allocated_blocks_small img hL content.length
  have hfbs' : ∀ fb ∈ allocated_blocks img content.length, 1 ≤ fb ∧ fb < 32768 :=
    fun fb hfb => ⟨(hfbs fb hfb).1, hsm fb hfb⟩
  have hfbs'' : ∀ fb ∈ allocated_blocks img content.length,
      1 ≤ fb ∧ fb < (sb_of img).data_region_blocks :=
    fun fb hfb => ⟨(hfbs fb hfb).1, (hfbs fb hfb).2.1⟩
  have e := pre_mem_dirent img content now i0 _ slot hL hi0 hfbs' hlen h12 hslot
  have hz : (root_dirent img slot).inode_no = 0 := by
    rw [← e]
    simp only [DIRENT_SIZE] at hzero
    exact hzero
  have hsb := sb_of_out img name content now i0 (allocated_blocks img content.length) slot hL
  have hib := fun j hj => out_inode_bits img name content now i0
    (allocated_blocks img content.length) slot j hL hsm hlen h12 hj
  have hdb := fun j hj => out_data_bits img name content now i0
    (allocated_blocks img content.length) slot j hL ht.2 hsm hlen h12 hj
  have hrec := out_inode_rec img name content now i0 (allocated_blocks img content.length)
    slot hL hi0 hi1
  obtain ⟨-, -, -, -, -, -, -, f8, -⟩ :=
    build_inode_fields (load img) (3 + (sb_of img).inode_table_blocks)
      ((3 + (sb_of img).inode_table_blocks) * 4096) 8192 (12288 + i0 * 128)
      (allocated_blocks img content.length) content (blocks_for content.length) now
      hsm hlen h12 (by omega) (by omega)
  obtain ⟨-, hblk⟩ := out_new_inode img name content now i0
    (allocated_blocks img content.length) slot hL hi0 hi1 hfbs''
    (allocated_blocks_nodup img hL _) hlen h12 hslot hsize
  have hwf : WellFormed (dump (fin_mem img name content now i0
      (allocated_blocks img content.length) slot) img.length) := by
    refine ⟨?_, out_layout img name content now i0 _ slot hL, ?_, ?_⟩
    · rw [out_magic img name content now i0 _ slot hL]
      exact hw.magic
    · rw [hib 0 (by omega), hw.root_inode]
      rfl
    · rw [hdb 0 (by omega), hw.root_block]
      rfl
  subst hout
  refine ⟨i0, slot, allocated_blocks img content.length, hi1, hi0, hbit, hslot, hz, hlen, h12,
    allocated_blocks_nodup img hL _, hfbs, hwf, ?_, ?_, ?_, hib, hdb,
    (out_dirent img name content now i0 _ slot hL hi0 hslot).1,
    fun s h1 h2 => out_dirent_other img name content now i0 _ slot s hL hi0 hfbs' hlen h12 h1 h2,
    ?_, ?_, ?_⟩
  · rw [hsb]
  · rw [hsb]
  · rw [hsb]
  · intro p hp
    rw [(hblk p hp).1, hL.data_region_start]
  · intro p hp1 hp2
    rw [hrec, decodeInode_direct _ _ _ hp2]
    exact f8 p hp1 hp2
  · intro n p hn1 hn2 hne hp
    exact out_inode_other_direct img name content now i0 _ slot n p hL hi0 hsm hlen h12
      hn1 hn2 hne hp

/-- the bitmaps of a formatted image are consistent -/
theorem formatted_consistent (size_kib inode_count now : Nat) (stack : Mem)
    (hv : ValidParams size_kib inode_count) :
    BitmapsConsistent (formatted size_kib inode_count now stack) := by
  have hL := formatted_layout size_kib inode_count now stack hv
  have hbits := formatted_bits size_kib inode_count now stack hv
  have hN := hL.inodes
  have hD := hL.data_blocks
  have hdrs := formatted_drs size_kib inode_count now stack hv
  obtain ⟨d0, d1, -, -, -, dz⟩ := formatted_root_directory size_kib inode_count now stack hv
  obtain ⟨-, -, -, p0, pz, -⟩ := formatted_inode_table size_kib inode_count now stack hv
  have hal : ∀ n, Allocated (formatted size_kib inode_count now stack) n → n = 1 := by
    intro n ⟨h1, h2, h3⟩
    rw [(hbits (n - 1) (by omega)).1] at h3
    have := of_decide_eq_true h3
    omega
  have hal1 : Allocated (formatted size_kib inode_count now stack) 1 :=
    ⟨Nat.le_refl 1, by have := hv.2.2.2.1; rw [(formatted_fields _ _ _ _ hv).1]; omega,
      by rw [(hbits 0 (by omega)).1]; rfl⟩
  constructor
  · intro i hi
    rw [(hbits i (by omega)).1, decide_eq_true_iff]
    constructor
    · intro e
      exact ⟨0, by omega, by rw [d0, e]⟩
    · rintro ⟨slot, hs, he⟩
      by_cases c0 : slot = 0
      · rw [c0, d0] at he
        have : (1 : Nat) = i + 1 := he
        omega
      by_cases c1 : slot = 1
      · rw [c1, d1] at he
        have : (1 : Nat) = i + 1 := he
        omega
      rw [dz slot (by omega) hs] at he
      omega
  · intro j hj
    rw [(hbits j (by omega)).2, decide_eq_true_iff]
    constructor
    · intro e
      exact ⟨1, 0, hal1, by omega, by rw [p0]; omega⟩
    · rintro ⟨n, p, ha, hp, he⟩
      rw [hal n ha] at he
      by_cases c : p = 0
      · rw [c, p0] at he
        omega
      · rw [pz p (by omega) hp] at he
        omega
  · intro n n' p p' ha ha' hp hp' hne he
    rw [hal n ha] at hne he
    rw [hal n' ha'] at he
    have hp0 : p = 0 := by
      by_contra c
      exact hne (pz p (by omega) hp)
    have hp0' : p' = 0 := by
      by_contra c
      rw [pz p' (by omega) hp'] at he
      exact hne he
    rw [hal n ha, hal n' ha', hp0, hp0']
    exact ⟨rfl, rfl⟩

/-- a successful insertion into a well-formed image keeps the bitmaps
consistent -/
theorem add_consistent (img name content out : List Nat) (now : Nat)
    (hw : WellFormed img) (hB : BitmapsConsistent img) (hoff : content.length < 2 ^ 63)
    (hok : add img name content now = .ok out) :
    WellFormed out ∧ BitmapsConsistent out := by
  obtain ⟨i0, slot, fbs, hi1, hi0, hbit, hslot, hz, hlen, h12, hnd, hfbs, hwf, eN, eD, eS,
    hib, hdb, hnew, hoth, hdir, hzero, hold⟩ := add_step img name content out now hw hoff hok
  have hL := hw.layout
  have hN := hL.inodes
  have hD := hL.data_blocks
  have hS := hL.data_region_start
  have hal : ∀ n, Allocated out n ↔ (Allocated img n ∨ n = i0 + 1) := by
    intro n
    unfold Allocated
    rw [eN]
    constructor
    · rintro ⟨h1, h2, h3⟩
      rw [hib (n - 1) (by omega), Bool.or_eq_true, decide_eq_true_iff] at h3
      rcases h3 with h3 | h3
      · exact Or.inl ⟨h1, h2, h3⟩
      · exact Or.inr (by omega)
    · rintro (⟨h1, h2, h3⟩ | h)
      · refine ⟨h1, h2, ?_⟩
        rw [hib (n - 1) (by omega), h3]
        rfl
      · subst h
        refine ⟨by omega, by omega, ?_⟩
        rw [hib _ (by omega), Nat.add_sub_cancel, decide_eq_true rfl, Bool.or_true]
  have hne : ∀ n, Allocated img n → n ≠ i0 + 1 := by
    intro n ⟨_, _, h3⟩ c
    rw [c, Nat.add_sub_cancel, hbit] at h3
    cases h3
  have hget : ∀ p, p < blocks_for content.length → fbs.getD p 0 ∈ fbs := by
    intro p hp
    rw [List.getD_eq_getElem _ _ (by omega)]
    exact List.getElem_mem _
  have hnewdir : ∀ p, p < 12 → (inode_rec out (i0 + 1)).direct.getD p 0 ≠ 0 →
      p < blocks_for content.length := by
    intro p hp hnz
    by_contra c
    exact hnz (hzero p (by omega) hp)
  have hclash : ∀ n p q, Allocated img n → p < 12 → q < blocks_for content.length →
      (inode_rec img n).direct.getD p 0 ≠ (sb_of img).data_region_start + fbs.getD q 0 := by
    intro n p q ha hp hq c
    have hm := hfbs _ (hget q hq)
    have := (hB.blocks _ hm.2.1).mpr ⟨n, p, ha, hp, c⟩
    rw [hm.2.2] at this
    cases this
  refine ⟨hwf, ?_⟩
  constructor
  · intro i hi
    rw [eN] at hi
    rw [hib i (by omega), Bool.or_eq_true, decide_eq_true_iff]
    constructor
    · rintro (h | h)
      · obtain ⟨s, hs1, hs2⟩ := (hB.inodes i hi).mp h
        have hss : s ≠ slot := by
          intro c
          rw [c, hz] at hs2
          omega
        exact ⟨s, hs1, by rw [hoth s hs1 hss]; exact hs2⟩
      · exact ⟨slot, hslot, by rw [hnew, h]⟩
    · rintro ⟨s, hs1, hs2⟩
      by_cases c : s = slot
      · rw [c, hnew] at hs2
        exact Or.inr (by omega)
      · rw [hoth s hs1 c] at hs2
        exact Or.inl ((hB.inodes i hi).mpr ⟨s, hs1, hs2⟩)
  · intro j hj
    rw [eD] at hj
    rw [hdb j (by omega), Bool.or_eq_true, decide_eq_true_iff, eS]
    constructor
    · rintro (h | h)
      · obtain ⟨n, p, ha, hp, he⟩ := (hB.blocks j hj).mp h
        exact ⟨n, p, (hal n).mpr (Or.inl ha), hp, by
          rw [hold n p ha.1 ha.2.1 (hne n ha) hp]; exact he⟩
      · obtain ⟨q, hq, he⟩ := List.getElem_of_mem h
        refine ⟨i0 + 1, q, (hal _).mpr (Or.inr rfl), by omega, ?_⟩
        rw [hdir q (by omega), List.getD_eq_getElem _ _ hq, he]
    · rintro ⟨n, p, ha, hp, he⟩
      rcases (hal n).mp ha with ha' | ha'
      · rw [hold n p ha'.1 ha'.2.1 (hne n ha') hp] at he
        exact Or.inl ((hB.blocks j hj).mpr ⟨n, p, ha', hp, he⟩)
      · subst ha'
        have hpk : p < blocks_for content.length := hnewdir p hp (by rw [he]; omega)
        rw [hdir p hpk] at he
        have : fbs.getD p 0 = j := by omega
        rw [← this]
        exact Or.inr (hget p hpk)
  · intro n n' p p' ha ha' hp hp' hnz he
    rcases (hal n).mp ha with a | a <;> rcases (hal n').mp ha' with a' | a'
    · rw [hold n p a.1 a.2.1 (hne n a) hp] at hnz he
      rw [hold n' p' a'.1 a'.2.1 (hne n' a') hp'] at he
      exact hB.unshared n n' p p' a a' hp hp' hnz he
    · subst a'
      rw [hold n p a.1 a.2.1 (hne n a) hp] at hnz he
      have hpk : p' < blocks_for content.length := hnewdir p' hp' (by rw [← he]; exact hnz)
      rw [hdir p' hpk] at he
      exact absurd he (hclash n p p' a hp hpk)
    · subst a
      have hpk : p < blocks_for content.length := hnewdir p hp hnz
      rw [hdir p hpk, hold n' p' a'.1 a'.2.1 (hne n' a') hp'] at he
      exact absurd he.symm (hclash n' p' p a' hp' hpk)
    · subst a
      subst a'
      have hpk : p < blocks_for content.length := hnewdir p hp hnz
      have hpk' : p' < blocks_for content.length := hnewdir p' hp' (by rw [← he]; exact hnz)
      have hlp : p < fbs.length := by omega
      have hlp' : p' < fbs.length := by omega
      rw [hdir p hpk, hdir p' hpk', List.getD_eq_getElem fbs 0 hlp,
        List.getD_eq_getElem fbs 0 hlp'] at he
      exact ⟨rfl, (hnd.getElem_inj_iff).mp (Nat.add_left_cancel he)⟩

/-- a reachable image is well-formed and its bitmaps are consistent -/
theorem reachable_invariant (img : List Nat) (h : Reachable img) :
    WellFormed img ∧ BitmapsConsistent img := by
  induction h with
  | fresh size_kib inode_count now stack readable img hf =>
    obtain ⟨hv, -, e⟩ := format_ok size_kib inode_count now stack readable img hf
    subst e
    exact ⟨formatted_wellformed _ _ _ _ hv, formatted_consistent _ _ _ _ hv⟩
  | insert img name content out now _ _ _ hoff hok ih =>
    exact add_consistent img name content out now ih.1 ih.2 hoff hok

/-- C14: in every image obtained from a freshly formatted image by a sequence
of successful insertions, bit i of the inode bitmap (i < inode_count) is set
if and only if a non-empty entry of the root directory holds the inode number
i + 1; bit j of the data bitmap (j < data_region_blocks) is set if and only
if block data_region_start + j is a direct pointer of an allocated inode; and
no block is pointed to by two allocated inodes or twice by one: two equal
non-zero direct pointers of allocated inodes are the same pointer of the same
inode. -/
theorem reachable_bitmaps_consistent (img : List Nat) (h : Reachable img) :
    BitmapsConsistent img :=
  (reachable_invariant img h).2

/-- C14, at the image obtained from that of `--size-kib 180 --inodes 128` by
the insertion of a file of one byte named "a". -/
theorem reachable_bitmaps_consistent_witness :
    ∃ img out, img = formatted 180 128 0 (fun _ => 0) ∧ add img [97] [1] 0 = .ok out ∧
      Reachable out ∧ BitmapsConsistent out :=
  ⟨_, _, rfl, (add_formatted 180 128 0 (fun _ => 0) [97] [1] 0 (by decide)
      (by simp [IsFilePath, IsName]) (by simp)).1,
    Reachable.insert _ [97] [1] _ 0
      (Reachable.fresh 180 128 0 (fun _ => 0) 4092 _
        (format_of_valid 180 128 0 (fun _ => 0) 4092 (by decide) (by decide)))
      (by simp [IsName]) (by simp [IsBytes]) (by simp)
      (add_formatted 180 128 0 (fun _ => 0) [97] [1] 0 (by decide)
        (by simp [IsFilePath, IsName]) (by simp)).1,
    reachable_bitmaps_consistent _
      (Reachable.insert _ [97] [1] _ 0
        (Reachable.fresh 180 128 0 (fun _ => 0) 4092 _
          (format_of_valid 180 128 0 (fun _ => 0) 4092 (by decide) (by decide)))
        (by simp [IsName]) (by simp [IsBytes]) (by simp)
        (add_formatted 180 128 0 (fun _ => 0) [97] [1] 0 (by decide)
          (by simp [IsFilePath, IsName]) (by simp)).1)⟩

/-! ## Records: decoding and re-encoding -/

/-- the little-endian bytes of the value of a byte sequence are the sequence -/
theorem leBytes_leVal (bs : List Nat) (h : ∀ b ∈ bs, b < 256) :
    leBytes bs.length (leVal bs) = bs := by
  induction bs with
  | nil => rfl
  | cons b bs ih =>
    have hb : b < 256 := h b (List.mem_cons_self _ _)
    have e1 : (b + 256 * leVal bs) % 256 = b := by omega
    have e2 : (b + 256 * leVal bs) / 256 = leVal bs := by omega
    rw [List.length_cons]
    show (b + 256 * leVal bs) % 256 :: leBytes bs.length ((b + 256 * leVal bs) / 256) = b :: bs
    rw [e1, e2, ih (fun x hx => h x (List.mem_cons_of_mem _ hx))]

/-- a field that is loaded and stored again holds the bytes it held -/
theorem leBytes_readLE (m : Mem) (a w : Nat) (h : ∀ i, i < w → m (a + i) < 256) :
    leBytes w (readLE m a w) = readBytes m a w := by
  have hb : ∀ b ∈ readBytes m a w, b < 256 := by
    intro b hb
    obtain ⟨z, hz, e⟩ := mem_readBytes m a w b hb
    rw [← e]
    exact h z hz
  have key := leBytes_leVal (readBytes m a w) hb
  rw [readBytes_length] at key
  exact key

/-- the same for a field at offset `off` of a record of `n` bytes -/
theorem leBytes_field (m : Mem) (a off w n : Nat) (h : ∀ i, i < n → m (a + i) < 256)
    (hw : off + w ≤ n) : leBytes w (readLE m (a + off) w) = readBytes m (a + off) w := by
  refine leBytes_readLE m (a + off) w (fun i hi => ?_)
  rw [Nat.add_assoc]
  exact h (off + i) (by omega)

theorem readBytes_split (m : Mem) (a n k t : Nat) (h : n + k = t) :
    readBytes m a t = readBytes m a n ++ readBytes m (a + n) k := by
  subst h
  induction n generalizing a with
  | zero => rw [Nat.zero_add, Nat.add_zero]; rfl
  | succ n ih =>
    rw [show n + 1 + k = (n + k) + 1 by omega]
    show m a :: readBytes m (a + 1) (n + k) = (m a :: readBytes m (a + 1) n) ++ _
    rw [ih (a + 1), show a + 1 + n = a + (n + 1) by omega]
    rfl

theorem readBytes_split_at (m : Mem) (a off n k t off' : Nat) (h : n + k = t)
    (ho : off + n = off') :
    readBytes m (a + off) t = readBytes m (a + off) n ++ readBytes m (a + off') k := by
  rw [readBytes_split m (a + off) n k t h, Nat.add_assoc, ho]

theorem readBytes_load_self (bs : List Nat) : readBytes (load bs) 0 bs.length = bs := by
  apply List.ext_getElem (readBytes_length _ _ _)
  intro i h1 h2
  have e := readBytes_getD (load bs) 0 bs.length i h2
  rw [List.getD_eq_getElem _ _ h1, Nat.zero_add] at e
  rw [e]
  unfold load
  exact List.getD_eq_getElem _ _ h2

/-- a superblock record that is decoded and encoded again is unchanged -/
theorem encode_decode_superblock (m : Mem) (a : Nat) (h : ∀ i, i < 116 → m (a + i) < 256) :
    encodeSuperblock (decodeSuperblock m a) = readBytes m a 116 := by
  unfold encodeSuperblock decodeSuperblock
  simp only [encodeFields, List.append_nil]
  rw [leBytes_readLE m a 4 (fun i hi => h i (by omega)), leBytes_field m a 4 4 116 h (by omega),
    leBytes_field m a 8 4 116 h (by omega), leBytes_field m a 12 8 116 h (by omega),
    leBytes_field m a 20 8 116 h (by omega), leBytes_field m a 28 8 116 h (by omega),
    leBytes_field m a 36 8 116 h (by omega), leBytes_field m a 44 8 116 h (by omega),
    leBytes_field m a 52 8 116 h (by omega), leBytes_field m a 60 8 116 h (by omega),
    leBytes_field m a 68 8 116 h (by omega), leBytes_field m a 76 8 116 h (by omega),
    leBytes_field m a 84 8 116 h (by omega), leBytes_field m a 92 8 116 h (by omega),
    leBytes_field m a 100 8 116 h (by omega), leBytes_field m a 108 4 116 h (by omega),
    leBytes_field m a 112 4 116 h (by omega)]
  rw [readBytes_split m a 4 112 116 rfl, readBytes_split_at m a 4 4 108 112 8 rfl rfl,
    readBytes_split_at m a 8 4 104 108 12 rfl rfl, readBytes_split_at m a 12 8 96 104 20 rfl rfl,
    readBytes_split_at m a 20 8 88 96 28 rfl rfl, readBytes_split_at m a 28 8 80 88 36 rfl rfl,
    readBytes_split_at m a 36 8 72 80 44 rfl rfl, readBytes_split_at m a 44 8 64 72 52 rfl rfl,
    readBytes_split_at m a 52 8 56 64 60 rfl rfl, readBytes_split_at m a 60 8 48 56 68 rfl rfl,
    readBytes_split_at m a 68 8 40 48 76 rfl rfl, readBytes_split_at m a 76 8 32 40 84 rfl rfl,
    readBytes_split_at m a 84 8 24 32 92 rfl rfl, readBytes_split_at m a 92 8 16 24 100 rfl rfl,
    readBytes_split_at m a 100 8 8 16 108 rfl rfl, readBytes_split_at m a 108 4 4 8 112 rfl rfl]

/-- an inode record that is decoded and encoded again is unchanged -/
theorem encode_decode_inode (m : Mem) (a : Nat) (h : ∀ i, i < 128 → m (a + i) < 256) :
    encodeInode (decodeInode m a) = readBytes m a 128 := by
  unfold encodeInode
  rw [decodeInode_direct m a 0 (by omega), decodeInode_direct m a 1 (by omega),
    decodeInode_direct m a 2 (by omega), decodeInode_direct m a 3 (by omega),
    decodeInode_direct m a 4 (by omega), decodeInode_direct m a 5 (by omega),
    decodeInode_direct m a 6 (by omega), decodeInode_direct m a 7 (by omega),
    decodeInode_direct m a 8 (by omega), decodeInode_direct m a 9 (by omega),
    decodeInode_direct m a 10 (by omega), decodeInode_direct m a 11 (by omega)]
  unfold decodeInode
  simp only [encodeFields, List.append_nil, Nat.add_assoc, Nat.reduceMul, Nat.reduceAdd,
    Nat.add_zero]
  rw [leBytes_readLE m a 2 (fun i hi => h i (by omega)), leBytes_field m a 2 2 128 h (by omega),
    leBytes_field m a 4 4 128 h (by omega), leBytes_field m a 8 4 128 h (by omega),
    leBytes_field m a 12 8 128 h (by omega), leBytes_field m a 20 8 128 h (by omega),
    leBytes_field m a 28 8 128 h (by omega), leBytes_field m a 36 8 128 h (by omega),
    leBytes_field m a 44 4 128 h (by omega), leBytes_field m a 48 4 128 h (by omega),
    leBytes_field m a 52 4 128 h (by omega), leBytes_field m a 56 4 128 h (by omega),
    leBytes_field m a 60 4 128 h (by omega), leBytes_field m a 64 4 128 h (by omega),
    leBytes_field m a 68 4 128 h (by omega), leBytes_field m a 72 4 128 h (by omega),
    leBytes_field m a 76 4 128 h (by omega), leBytes_field m a 80 4 128 h (by omega),
    leBytes_field m a 84 4 128 h (by omega), leBytes_field m a 88 4 128 h (by omega),
    leBytes_field m a 92 4 128 h (by omega), leBytes_field m a 96 4 128 h (by omega),
    leBytes_field m a 100 4 128 h (by omega), leBytes_field m a 104 4 128 h (by omega),
    leBytes_field m a 108 4 128 h (by omega), leBytes_field m a 112 8 128 h (by omega),
    leBytes_field m a 120 8 128 h (by omega)]
  rw [readBytes_split m a 2 126 128 rfl, readBytes_split_at m a 2 2 124 126 4 rfl rfl,
    readBytes_split_at m a 4 4 120 124 8 rfl rfl, readBytes_split_at m a 8 4 116 120 12 rfl rfl,
    readBytes_split_at m a 12 8 108 116 20 rfl rfl,
    readBytes_split_at m a 20 8 100 108 28 rfl rfl,
    readBytes_split_at m a 28 8 92 100 36 rfl rfl, readBytes_split_at m a 36 8 84 92 44 rfl rfl,
    readBytes_split_at m a 44 4 80 84 48 rfl rfl, readBytes_split_at m a 48 4 76 80 52 rfl rfl,
    readBytes_split_at m a 52 4 72 76 56 rfl rfl, readBytes_split_at m a 56 4 68 72 60 rfl rfl,
    readBytes_split_at m a 60 4 64 68 64 rfl rfl, readBytes_split_at m a 64 4 60 64 68 rfl rfl,
    readBytes_split_at m a 68 4 56 60 72 rfl rfl, readBytes_split_at m a 72 4 52 56 76 rfl rfl,
    readBytes_split_at m a 76 4 48 52 80 rfl rfl, readBytes_split_at m a 80 4 44 48 84 rfl rfl,
    readBytes_split_at m a 84 4 40 44 88 rfl rfl, readBytes_split_at m a 88 4 36 40 92 rfl rfl,
    readBytes_split_at m a 92 4 32 36 96 rfl rfl, readBytes_split_at m a 96 4 28 32 100 rfl rfl,
    readBytes_split_at m a 100 4 24 28 104 rfl rfl,
    readBytes_split_at m a 104 4 20 24 108 rfl rfl,
    readBytes_split_at m a 108 4 16 20 112 rfl rfl,
    readBytes_split_at m a 112 8 8 16 120 rfl rfl]

/-- a name field of 58 bytes is stored as it is -/
theorem nameField_of_bytes (bs : List Nat) (hl : bs.length = 58) (hb : ∀ b ∈ bs, b < 256) :
    nameField bs = bs := by
  apply List.ext_getElem
  · rw [nameField_length, hl]
  · intro i h1 h2
    unfold nameField
    rw [List.getElem_map, List.getElem_range, List.getD_eq_getElem _ _ h2]
    exact Nat.mod_eq_of_lt (hb _ (List.getElem_mem _))

/-- a directory entry that is decoded and encoded again is unchanged -/
theorem encode_decode_dirent (m : Mem) (a : Nat) (h : ∀ i, i < 64 → m (a + i) < 256) :
    encodeDirent (decodeDirent m a) = readBytes m a 64 := by
  have hn : nameField (readBytes m (a + 5) 58) = readBytes m (a + 5) 58 := by
    refine nameField_of_bytes _ (readBytes_length _ _ _) (fun b hb => ?_)
    obtain ⟨z, hz, e⟩ := mem_readBytes m (a + 5) 58 b hb
    rw [← e, Nat.add_assoc]
    exact h (5 + z) (by omega)
  unfold encodeDirent decodeDirent
  simp only [encodeFields, List.append_nil]
  rw [hn, leBytes_readLE m a 4 (fun i hi => h i (by omega)),
    leBytes_field m a 4 1 64 h (by omega), leBytes_field m a 63 1 64 h (by omega),
    readBytes_split m a 4 60 64 rfl, readBytes_split_at m a 4 1 59 60 5 rfl rfl,
    readBytes_split_at m a 5 58 1 59 63 rfl rfl, List.append_assoc, List.append_assoc]

theorem decodeSuperblock_checksum (m : Mem) (a : Nat) :
    (decodeSuperblock m a).checksum = readLE m (a + 112) 4 := rfl

theorem decodeInode_inode_crc (m : Mem) (a : Nat) :
    (decodeInode m a).inode_crc = readLE m (a + 120) 8 := rfl

theorem decodeDirent_checksum (m : Mem) (a : Nat) :
    (decodeDirent m a).checksum = readLE m (a + 63) 1 := rfl

/-- C21: a superblock record of 116 bytes, an inode record of 128 bytes and a
directory entry of 64 bytes that are decoded into their declared fields
(packed, little-endian, in the order of declaration) and encoded again,
without a change, are byte-identical to the bytes decoded, in a list of bytes
and at every offset of a buffer; the encodings of the three records have
exactly 116, 128 and 64 bytes, and the checksum fields are their last fields,
at the offsets 112 (4 bytes), 120 (8 bytes) and 63 (1 byte). -/
theorem records_roundtrip :
    (∀ bs : List Nat, bs.length = 116 → IsBytes bs →
      encodeSuperblock (decodeSuperblock (load bs) 0) = bs) ∧
    (∀ bs : List Nat, bs.length = 128 → IsBytes bs →
      encodeInode (decodeInode (load bs) 0) = bs) ∧
    (∀ bs : List Nat, bs.length = 64 → IsBytes bs →
      encodeDirent (decodeDirent (load bs) 0) = bs) ∧
    (∀ (m : Mem) (a : Nat), (∀ i, i < 116 → m (a + i) < 256) →
      encodeSuperblock (decodeSuperblock m a) = readBytes m a 116) ∧
    (∀ (m : Mem) (a : Nat), (∀ i, i < 128 → m (a + i) < 256) →
      encodeInode (decodeInode m a) = readBytes m a 128) ∧
    (∀ (m : Mem) (a : Nat), (∀ i, i < 64 → m (a + i) < 256) →
      encodeDirent (decodeDirent m a) = readBytes m a 64) ∧
    (∀ s : superblock_t, (encodeSuperblock s).length = 116 ∧
      (encodeSuperblock s).drop 112 = leBytes 4 s.checksum ∧
      (decodeSuperblock (load (encodeSuperblock s)) 0).checksum = s.checksum % 2 ^ 32) ∧
    (∀ n : inode_t, (encodeInode n).length = 128 ∧
      (encodeInode n).drop 120 = leBytes 8 n.inode_crc ∧
      (decodeInode (load (encodeInode n)) 0).inode_crc = n.inode_crc % 2 ^ 64) ∧
    (∀ d : dirent64_t, (encodeDirent d).length = 64 ∧
      (encodeDirent d).drop 63 = leBytes 1 d.checksum ∧
      (decodeDirent (load (encodeDirent d)) 0).checksum = d.checksum % 2 ^ 8) := by
  have hload : ∀ (bs : List Nat) (n : Nat), bs.length = n → IsBytes bs →
      ∀ i, i < n → load bs (0 + i) < 256 := by
    intro bs n hl hb i hi
    rw [Nat.zero_add]
    unfold load
    rw [List.getD_eq_getElem _ _ (by omega)]
    exact hb _ (List.getElem_mem _)
  have hself : ∀ (bs : List Nat) (n : Nat), bs.length = n → readBytes (load bs) 0 n = bs := by
    intro bs n hl
    subst hl
    exact readBytes_load_self bs
  have drop_of : ∀ (l pre suf : List Nat) (k : Nat), l = pre ++ suf → pre.length = k →
      l.drop k = suf := by
    intro l pre suf k e hk
    rw [e, ← hk, List.drop_left]
  refine ⟨fun bs hl hb => ?_, fun bs hl hb => ?_, fun bs hl hb => ?_,
    encode_decode_superblock, encode_decode_inode, encode_decode_dirent,
    fun s => ⟨encodeSuperblock_length s, ?_, ?_⟩, fun n => ⟨encodeInode_length n, ?_, ?_⟩,
    fun d => ⟨encodeDirent_length d, ?_, ?_⟩⟩
  · rw [encode_decode_superblock _ _ (hload bs 116 hl hb), hself bs 116 hl]
  · rw [encode_decode_inode _ _ (hload bs 128 hl hb), hself bs 128 hl]
  · rw [encode_decode_dirent _ _ (hload bs 64 hl hb), hself bs 64 hl]
  · refine drop_of _ (encodeFields [(4, s.magic), (4, s.version), (4, s.block_size),
      (8, s.total_blocks), (8, s.inode_count), (8, s.inode_bitmap_start),
      (8, s.inode_bitmap_blocks), (8, s.data_bitmap_start), (8, s.data_bitmap_blocks),
      (8, s.inode_table_start), (8, s.inode_table_blocks), (8, s.data_region_start),
      (8, s.data_region_blocks), (8, s.root_inode), (8, s.mtime_epoch), (4, s.flags)]) _ 112
      ?_ ?_
    · unfold encodeSuperblock
      simp only [encodeFields, List.append_nil, List.append_assoc]
    · rw [encodeFields_length]
      simp [fieldsWidth]
  · rw [decodeSuperblock_checksum, Nat.zero_add]
    unfold encodeSuperblock
    rw [readLE_field _ 16 112 4 s.checksum (by simp) (by simp [fieldsWidth]), pow_256_4]
  · refine drop_of _ (encodeFields [(2, n.mode), (2, n.links), (4, n.uid), (4, n.gid),
      (8, n.size_bytes), (8, n.atime), (8, n.mtime), (8, n.ctime),
      (4, n.direct.getD 0 0), (4, n.direct.getD 1 0), (4, n.direct.getD 2 0),
      (4, n.direct.getD 3 0), (4, n.direct.getD 4 0), (4, n.direct.getD 5 0),
      (4, n.direct.getD 6 0), (4, n.direct.getD 7 0), (4, n.direct.getD 8 0),
      (4, n.direct.getD 9 0), (4, n.direct.getD 10 0), (4, n.direct.getD 11 0),
      (4, n.reserved_0), (4, n.reserved_1), (4, n.reserved_2), (4, n.proj_id),
      (4, n.uid16_gid16), (8, n.xattr_ptr)]) _ 120 ?_ ?_
    · unfold encodeInode
      simp only [encodeFields, List.append_nil, List.append_assoc]
    · rw [encodeFields_length]
      simp [fieldsWidth]
  · rw [decodeInode_inode_crc, Nat.zero_add]
    unfold encodeInode
    rw [readLE_field _ 26 120 8 n.inode_crc (by simp) (by simp [fieldsWidth]), pow_256_8]
  · refine drop_of _ (encodeFields [(4, d.inode_no), (1, d.type)] ++ nameField d.name) _ 63
      ?_ ?_
    · unfold encodeDirent
      simp only [encodeFields, List.append_nil, List.append_assoc]
    · rw [List.length_append, encodeFields_length, nameField_length]
      simp [fieldsWidth]
  · rw [decodeDirent_checksum, Nat.zero_add]
    have e : ∀ x, x < 1 →
        load (encodeDirent d) (63 + x) = load (encodeFields [(1, d.checksum)]) (0 + x) := by
      intro x hx
      unfold encodeDirent
      rw [load_append_right _ _ _ (by
        rw [List.length_append, encodeFields_length, nameField_length]
        simp [fieldsWidth])]
      rw [List.length_append, encodeFields_length, nameField_length]
      have : 63 + x - (fieldsWidth [(4, d.inode_no), (1, d.type)] + 58) = 0 + x := by
        simp [fieldsWidth]
      rw [this]
    rw [readLE_shift _ _ 63 0 1 e,
      readLE_field _ 0 0 1 d.checksum (by simp) (by simp [fieldsWidth])]
    norm_num

/-! ## The metadata of a formatted image fits -/

/-- all data blocks of a formatted image but the first are free -/
theorem formatted_free_blocks (size_kib inode_count now : Nat) (stack : Mem)
    (hv : ValidParams size_kib inode_count) :
    free_data_blocks (formatted size_kib inode_count now stack) + 1 =
      (sb_of (formatted size_kib inode_count now stack)).data_region_blocks := by
  obtain ⟨d1, d2⟩ := formatted_data_blocks size_kib inode_count now stack hv
  unfold free_data_blocks
  have e : ∀ D, D ≤ 1017 →
      (List.range D).filter (fun j => !data_bit (formatted size_kib inode_count now stack) j) =
      (List.range D).filter (fun j => decide (1 ≤ j ∧ j ≤ D - 1)) := by
    intro D hD
    apply List.filter_congr
    intro j hj
    rw [List.mem_range] at hj
    rw [(formatted_bits size_kib inode_count now stack hv j (by omega)).2]
    by_cases h0 : j = 0
    · subst h0
      simp
    · have h1 : 1 ≤ j ∧ j ≤ D - 1 := by omega
      simp [h0, h1]
  rw [e _ d2, count_interval _ 1 _ (by omega) (by omega)]
  omega

/-- the builder never stops with the error of the metadata check -/
theorem format_not_no_space (size_kib inode_count now : Nat) (stack : Mem) (readable : Nat) :
    format size_kib inode_count now stack readable ≠ .error .noSpaceForMetadata := by
  by_cases hv : ValidParams size_kib inode_count
  · by_cases hr : BS - 4 ≤ readable
    · rw [format_of_valid size_kib inode_count now stack readable hv hr]
      intro h
      cases h
    · rw [format_killed size_kib inode_count now stack readable hv (by omega)]
      intro h
      cases h
  · rcases format_of_invalid_early size_kib inode_count now stack readable hv with e | e | e
    · rw [e]
      intro h
      cases h
    · rw [e]
      intro h
      cases h
    · rw [e]
      intro h
      cases h

/-- C22: the builder never stops with the error "not enough space for
metadata"; for every size_kib in 180..4096 that is a multiple of 4 and every
inode_count in 128..512, the values the builder computes in 64-bit arithmetic
are total_blocks = size_kib / 4, at least 45, and
metadata_blocks = 3 + ceil(inode_count * 128 / 4096), at most 19, so
metadata_blocks < total_blocks, total_blocks - metadata_blocks does not
underflow and data_region_blocks = total_blocks - metadata_blocks is between
26 and 1017; in every image the builder then writes (it writes one whenever
the 4092 bytes its superblock checksum reads can be read) the data region has
that number of blocks, which with the metadata blocks make up total_blocks,
all of them but the root directory's block are free, so that a file of up to
12 blocks can be added to it, and each bitmap has its bits (inode_count,
data_region_blocks) within one block of 4096 bytes. -/
theorem format_metadata_fits (size_kib inode_count now : Nat) (stack : Mem)
    (readable : Nat) :
    format size_kib inode_count now stack readable ≠ .error .noSpaceForMetadata ∧
    (ValidParams size_kib inode_count →
      (size_kib * 1024) % 2 ^ 64 / BS = size_kib / 4 ∧
      45 ≤ size_kib / 4 ∧
      (inode_count * INODE_SIZE + BS - 1) % 2 ^ 64 / BS = table_blocks inode_count ∧
      inode_count * 128 ≤ table_blocks inode_count * 4096 ∧
      table_blocks inode_count * 4096 < inode_count * 128 + 4096 ∧
      (1 + 1 + 1 + (inode_count * INODE_SIZE + BS - 1) % 2 ^ 64 / BS) % 2 ^ 64 =
        3 + table_blocks inode_count ∧
      3 + table_blocks inode_count ≤ 19 ∧
      3 + table_blocks inode_count < size_kib / 4 ∧
      26 ≤ (size_kib * 1024) % 2 ^ 64 / BS -
        (1 + 1 + 1 + (inode_count * INODE_SIZE + BS - 1) % 2 ^ 64 / BS) % 2 ^ 64 ∧
      (size_kib * 1024) % 2 ^ 64 / BS -
        (1 + 1 + 1 + (inode_count * INODE_SIZE + BS - 1) % 2 ^ 64 / BS) % 2 ^ 64 ≤ 1017 ∧
      inode_count ≤ 8 * BS ∧
      (BS - 4 ≤ readable →
        ∃ img, format size_kib inode_count now stack readable = .ok img) ∧
      ∀ img, format size_kib inode_count now stack readable = .ok img →
        (sb_of img).total_blocks = size_kib / 4 ∧
        (sb_of img).data_region_start = 3 + table_blocks inode_count ∧
        (sb_of img).data_region_blocks + (3 + table_blocks inode_count) = size_kib / 4 ∧
        26 ≤ (sb_of img).data_region_blocks ∧
        (sb_of img).data_region_blocks ≤ 1017 ∧
        free_data_blocks img + 1 = (sb_of img).data_region_blocks ∧
        12 ≤ free_data_blocks img ∧
        (∀ name content now', IsFilePath name → content.length ≤ 12 * 4096 →
          ∃ out, add img name content now' = .ok out) ∧
        (sb_of img).inode_count ≤ 8 * BS ∧
        (sb_of img).data_region_blocks ≤ 8 * BS) := by
  refine ⟨format_not_no_space size_kib inode_count now stack readable, fun hv => ?_⟩
  have hT := table_blocks_bounds inode_count hv.2.2.2.1 hv.2.2.2.2
  have hf := formatted_fields size_kib inode_count now stack hv
  have hd := formatted_data_blocks size_kib inode_count now stack hv
  have hfree := formatted_free_blocks size_kib inode_count now stack hv
  have htot : (sb_of (formatted size_kib inode_count now stack)).total_blocks = size_kib / 4 := by
    rw [sb_of_formatted _ _ _ _ hv]
    rfl
  obtain ⟨h1, h2, h3, h4, h5⟩ := hv
  have hv : ValidParams size_kib inode_count := ⟨h1, h2, h3, h4, h5⟩
  have e1 : (size_kib * 1024) % 2 ^ 64 / BS = size_kib / 4 := by simp only [BS]; omega
  have e2 : (inode_count * INODE_SIZE + BS - 1) % 2 ^ 64 / BS = table_blocks inode_count := by
    simp only [BS, INODE_SIZE, table_blocks]; omega
  have e3 : (1 + 1 + 1 + table_blocks inode_count) % 2 ^ 64 = 3 + table_blocks inode_count := by
    simp only [table_blocks]; omega
  have t1 : inode_count * 128 ≤ table_blocks inode_count * 4096 := by
    simp only [table_blocks]; omega
  have t2 : table_blocks inode_count * 4096 < inode_count * 128 + 4096 := by
    simp only [table_blocks]; omega
  have t3 : 3 + table_blocks inode_count ≤ 19 := by simp only [table_blocks]; omega
  have t4 : 3 + table_blocks inode_count < size_kib / 4 := by simp only [table_blocks]; omega
  refine ⟨e1, by omega, e2, t1, t2, by rw [e2, e3], t3, t4, by rw [e1, e2, e3]; omega,
    by rw [e1, e2, e3]; omega, by simp only [BS]; omega,
    fun hr => ⟨_, format_of_valid size_kib inode_count now stack readable hv hr⟩,
    fun img hok => ?_⟩
  obtain ⟨-, -, e⟩ := format_ok size_kib inode_count now stack readable img hok
  subst e
  refine ⟨htot, formatted_drs size_kib inode_count now stack hv, ?_, hd.1, hd.2, hfree,
    by omega,
    fun name content now' hp hs =>
      ⟨_, (add_formatted size_kib inode_count now stack name content now' hv hp hs).1⟩, ?_, ?_⟩
  · rw [hf.2.2]
    omega
  · rw [hf.1]
    simp only [BS]
    omega
  · simp only [BS]
    omega

/-- C22, at `--size-kib 180 --inodes 512`, the smallest image with the
largest inode table: 45 blocks, 19 of metadata and 26 of data. -/
theorem format_metadata_fits_witness :
    (180 * 1024) % 2 ^ 64 / BS = 45 ∧
    (1 + 1 + 1 + (512 * INODE_SIZE + BS - 1) % 2 ^ 64 / BS) % 2 ^ 64 = 19 ∧
    ∃ img, format 180 512 0 (fun _ => 0) 4092 = .ok img ∧
      (sb_of img).total_blocks = 45 ∧ (sb_of img).data_region_start = 19 ∧
      (sb_of img).data_region_blocks = 26 ∧ free_data_blocks img = 25 := by
  have hv : ValidParams 180 512 := by decide
  have ht : table_blocks 512 = 16 := by decide
  have hf := format_of_valid 180 512 0 (fun _ => 0) 4092 hv (by decide)
  obtain ⟨-, h⟩ := format_metadata_fits 180 512 0 (fun _ => 0) 4092
  obtain ⟨e1, -, -, -, -, e3, -, -, -, -, -, -, himg⟩ := h hv
  obtain ⟨a1, a2, a3, -, -, a4, -⟩ := himg _ hf
  rw [ht] at e3 a2 a3
  refine ⟨e1, e3, _, hf, a1, a2, by omega, by omega⟩

/-! ## The accounting of the root directory -/

/-- a predicate that becomes true at one more index below `n` holds at one
more index -/
theorem filter_count_insert (p q : Nat → Bool) (n x : Nat) (hx : x < n) (hp : p x = false)
    (hq : q x = true) (hoth : ∀ j, j < n → j ≠ x → q j = p j) :
    ((List.range n).filter q).length = ((List.range n).filter p).length + 1 := by
  induction n with
  | zero => omega
  | succ n ih =>
    rw [List.range_succ, List.filter_append, List.filter_append, List.length_append,
      List.length_append]
    by_cases hxn : x = n
    · subst hxn
      have e : (List.range x).filter q = (List.range x).filter p :=
        List.filter_congr (fun j hj => by
          have hj' := List.mem_range.mp hj
          exact hoth j (by omega) (by omega))
      rw [e]
      simp [List.filter, hp, hq]
    · have h1 := ih (by omega) (fun j hj hne => hoth j (by omega) hne)
      have h2 : q n = p n := hoth n (by omega) (Ne.symm hxn)
      rw [h1]
      simp only [List.filter, h2]
      omega

/-- the number of indices below `n` at which a predicate holds grows with `n` -/
theorem filter_count_mono (p : Nat → Bool) (n n' : Nat) (h : n ≤ n') :
    ((List.range n).filter p).length ≤ ((List.range n').filter p).length :=
  ((List.range_sublist.mpr h).filter p).length_le

theorem filter_count_le (p : Nat → Bool) (n : Nat) : ((List.range n).filter p).length ≤ n := by
  have h := List.length_filter_le p (List.range n)
  rw [List.length_range] at h
  exact h

theorem filter_count_all (p : Nat → Bool) (n : Nat) (h : ∀ i, i < n → p i = true) :
    ((List.range n).filter p).length = n := by
  rw [List.filter_eq_self.mpr (fun i hi => h i (List.mem_range.mp hi)), List.length_range]

/-- the update of the root inode by a successful insertion -/
theorem add_root_inode (img name content out : List Nat) (now : Nat)
    (hw : WellFormed img) (hoff : content.length < 2 ^ 63)
    (hok : add img name content now = .ok out) :
    (inode_rec out 1).links = ((inode_rec img 1).links + 1) % 2 ^ 16 ∧
    (inode_rec out 1).size_bytes = ((inode_rec img 1).size_bytes + 64) % 2 ^ 64 := by
  have hL := hw.layout
  have hsize : content.length ≤ 12 * 4096 := by
    by_contra hc
    rw [add_too_large img name content now (by omega) hoff] at hok
    cases hok
  have h12 : blocks_for content.length ≤ 12 := by unfold blocks_for; omega
  obtain ⟨-, i0, slot, hi0, hbit, -, hnew, hlen, hscan, hout⟩ :=
    add_ok_layout img name content _ now hL hsize hok
  have hi1 : 1 ≤ i0 := by
    rcases Nat.eq_zero_or_pos i0 with e | e
    · rw [e, hw.root_inode] at hbit
      cases hbit
    · exact e
  obtain ⟨hslot, -, -, -⟩ := scan_dirents_some _ _ _ _ hscan
  have hsm := allocated_blocks_small img hL content.length
  subst hout
  exact out_root_inode img name content now i0 _ slot hL hi0 hi1 hsm hlen h12 hslot

/-- the root directory of a formatted image has two non-empty entries -/
theorem formatted_nonempty_entries (size_kib inode_count now : Nat) (stack : Mem)
    (hv : ValidParams size_kib inode_count) :
    nonempty_entries (formatted size_kib inode_count now stack) = 2 := by
  obtain ⟨r0, r1, -, -, -, rz⟩ := formatted_root_directory size_kib inode_count now stack hv
  have h0 : (root_dirent (formatted size_kib inode_count now stack) 0).inode_no = 1 := by
    rw [r0]
  have h1 : (root_dirent (formatted size_kib inode_count now stack) 1).inode_no = 1 := by
    rw [r1]
  unfold nonempty_entries
  have e : (List.range 64).filter (fun s =>
        decide ((root_dirent (formatted size_kib inode_count now stack) s).inode_no ≠ 0)) =
      (List.range 64).filter (fun s => decide (0 ≤ s ∧ s ≤ 1)) := by
    apply List.filter_congr
    intro s hs
    have hs' := List.mem_range.mp hs
    rcases Nat.lt_or_ge s 2 with c | c
    · have c' : s = 0 ∨ s = 1 := by omega
      rcases c' with c' | c'
      · subst c'
        rw [h0]
        rfl
      · subst c'
        rw [h1]
        rfl
    · rw [rz s c hs']
      have : ¬ (0 ≤ s ∧ s ≤ 1) := by omega
      rw [decide_eq_false this]
      rfl
  rw [e]
  exact count_interval 64 0 1 (by omega) (by omega)

/-- one bit of the inode bitmap of a formatted image is set -/
theorem formatted_inode_bits_set (size_kib inode_count now : Nat) (stack : Mem)
    (hv : ValidParams size_kib inode_count) (n : Nat) (h1 : 1 ≤ n) (hn : n ≤ 32768) :
    inode_bits_set (formatted size_kib inode_count now stack) n = 1 := by
  unfold inode_bits_set
  have e : (List.range n).filter
        (fun i => inode_bit (formatted size_kib inode_count now stack) i) =
      (List.range n).filter (fun i => decide (0 ≤ i ∧ i ≤ 0)) := by
    apply List.filter_congr
    intro j hj
    have hj' := List.mem_range.mp hj
    rw [(formatted_bits size_kib inode_count now stack hv j (by omega)).1]
    by_cases h0 : j = 0
    · subst h0
      rfl
    · have : ¬ (0 ≤ j ∧ j ≤ 0) := by omega
      rw [decide_eq_false this, decide_eq_false h0]
  rw [e]
  exact count_interval n 0 0 (by omega) (by omega)

/-- what holds of an image reached by `k` insertions -/
theorem reachableIn_invariant (k : Nat) (img : List Nat) (h : ReachableIn k img) :
    WellFormed img ∧ Reachable img ∧ 128 ≤ (sb_of img).inode_count ∧
    nonempty_entries img = k + 2 ∧
    (inode_rec img 1).links = k + 2 ∧
    (inode_rec img 1).size_bytes = 64 * (k + 2) ∧
    inode_bits_set img 32768 = k + 1 := by
  induction h with
  | fresh size_kib inode_count now stack readable img hf =>
    have hR : Reachable img := Reachable.fresh size_kib inode_count now stack readable img hf
    obtain ⟨hv, -, e⟩ := format_ok size_kib inode_count now stack readable img hf
    subst e
    have hri := formatted_root_inode size_kib inode_count now stack hv
    refine ⟨formatted_wellformed _ _ _ _ hv, hR, ?_,
      formatted_nonempty_entries _ _ _ _ hv, hri.1, hri.2,
      formatted_inode_bits_set _ _ _ _ hv 32768 (by omega) (by omega)⟩
    rw [(formatted_fields size_kib inode_count now stack hv).1]
    exact hv.2.2.2.1
  | insert k img name content out now _ hn hb hoff hok ih =>
    obtain ⟨hw, hR, hic, hne, hl, hs, hbits⟩ := ih
    obtain ⟨i0, slot, fbs, -, hi0, hbit, hslot, hz, -, -, -, -, hwo, hico, -, -, hib, -,
      hnew, hoth, -, -, -⟩ := add_step img name content out now hw hoff hok
    obtain ⟨hl', hs'⟩ := add_root_inode img name content out now hw hoff hok
    have hcnt : nonempty_entries out = nonempty_entries img + 1 := by
      unfold nonempty_entries
      refine filter_count_insert _ _ 64 slot hslot ?_ ?_ ?_
      · simp only [hz]
        rfl
      · simp only [hnew]
        rfl
      · intro j hj hjs
        simp only [hoth j hj hjs]
    have hcb : inode_bits_set out 32768 = inode_bits_set img 32768 + 1 := by
      unfold inode_bits_set
      refine filter_count_insert _ _ 32768 i0 ?_ hbit ?_ ?_
      · have := hw.layout.inodes
        omega
      · rw [hib i0 (by have := hw.layout.inodes; omega), hbit]
        simp
      · intro j hj hji
        rw [hib j hj]
        simp [hji]
    have hle : nonempty_entries out ≤ 64 := by
      unfold nonempty_entries
      exact filter_count_le _ 64
    refine ⟨hwo, Reachable.insert img name content out now hR hn hb hoff hok, ?_, ?_, ?_, ?_, ?_⟩
    · rw [hico]
      exact hic
    · omega
    · rw [hl', hl]
      omega
    · rw [hs', hs]
      omega
    · omega

/-- the only error of the scan of the root directory is the duplicate name -/
theorem scan_dirents_error (m : Mem) (dr : Nat) (name : List Nat) (i fuel : Nat)
    (slot : Option Nat) (e : AddError) (h : scan_dirents m dr name i fuel slot = .error e) :
    e = .duplicateName := by
  induction fuel generalizing i slot with
  | zero => cases h
  | succ fuel ih =>
    unfold scan_dirents at h
    by_cases hu : readLE m (dr + DIRENT_SIZE * i) 4 ≠ 0
    · rw [if_pos hu] at h
      by_cases hc : strcmp_eq m (dr + DIRENT_SIZE * i + 5) name = true
      · rw [if_pos hc] at h
        exact (Except.error.inj h).symm
      · rw [if_neg hc] at h
        exact ih _ _ h
    · rw [if_neg hu] at h
      by_cases hs : slot = none
      · rw [if_pos hs] at h
        exact ih _ _ h
      · rw [if_neg hs] at h
        exact ih _ _ h

/-- what follows the scan of the root directory stops with the error of the
scan or with the no-free-slot error -/
theorem after_scan_error (m : Mem) (superblock : superblock_t) (name : List Nat)
    (now free_inode_num : Nat) (r : Except AddError (Option Nat))
    (hr : ∀ e, r = .error e → e = .duplicateName) (n : Nat) (e : AddError)
    (h : (after_scan m superblock name now free_inode_num r).map (fun m => dump m n) =
      .error e) :
    e = .duplicateName ∨ e = .noFreeDirent := by
  match r, hr with
  | .error e', hr =>
    have he := hr e' rfl
    subst he
    exact Or.inl (Except.error.inj h).symm
  | .ok none, _ => exact Or.inr (Except.error.inj h).symm
  | .ok (some s), _ => cases h

/-- the errors the adder can stop with on a well-formed image with a free
inode among the first 128 -/
theorem add_error_kinds (img name content : List Nat) (now : Nat)
    (hw : WellFormed img) (hic : 128 ≤ (sb_of img).inode_count)
    (hbits : inode_bits_set img 32768 ≤ 63) (hoff : content.length < 2 ^ 63)
    (e : AddError) (h : add img name content now = .error e) :
    e = .fileTooLarge ∨ e = .notEnoughBlocks ∨ e = .duplicateName ∨ e = .noFreeDirent := by
  by_cases hsize : content.length ≤ 12 * 4096
  · rcases add_layout_cases img name content now hw.layout hw.magic hsize with
      ⟨-, hall⟩ | ⟨i0, -, -, -, -, ⟨he, -⟩ | ⟨-, he⟩⟩
    · exfalso
      have h1 := filter_count_all (fun i => inode_bit img i) 128
        (fun i hi => hall i (by omega))
      have h2 := filter_count_mono (fun i => inode_bit img i) 128 32768 (by omega)
      unfold inode_bits_set at hbits
      omega
    · rw [he] at h
      exact Or.inr (Or.inl (Except.error.inj h).symm)
    · rw [he] at h
      exact Or.inr (Or.inr (after_scan_error _ _ _ _ _ _
        (fun e h => scan_dirents_error _ _ _ _ _ _ e h) _ e h))
  · rw [add_too_large img name content now (by omega) hoff] at h
    exact Or.inl (Except.error.inj h).symm

/-- the reachable images are the images reached by some number of insertions -/
theorem reachable_iff_reachableIn (img : List Nat) :
    Reachable img ↔ ∃ k, ReachableIn k img := by
  constructor
  · intro h
    induction h with
    | fresh size_kib inode_count now stack readable img hf =>
      exact ⟨0, ReachableIn.fresh size_kib inode_count now stack readable img hf⟩
    | insert img name content out now _ hn hb hoff hok ih =>
      obtain ⟨k, hk⟩ := ih
      exact ⟨k + 1, ReachableIn.insert k img name content out now hk hn hb hoff hok⟩
  · intro ⟨k, hk⟩
    exact (reachableIn_invariant k img hk).2.1

/-- C23: in every image obtained from a freshly formatted image by k
successful insertions, the links of the root inode equal the number of
non-empty entries of the root directory's first data block, which is k + 2,
and its size_bytes is 64 times that number, at most 4096; k is at most 62, and
no further insertion succeeds when k = 62; k + 1 bits of the inode bitmap are
set, at most 63, while inode_count is at least 128, so a bit among the first
128 is unset and the adder never stops with the no-free-inode error on such an
image, whatever file (of a length below 2^63) it is given: when it stops
there, it is with the file-too-large, the not-enough-data-blocks, the
duplicate-name or the no-free-directory-slot error. -/
theorem root_directory_accounting (k : Nat) (img : List Nat) (h : ReachableIn k img) :
    Reachable img ∧
    (inode_rec img 1).links = nonempty_entries img ∧
    (inode_rec img 1).size_bytes = 64 * nonempty_entries img ∧
    (inode_rec img 1).size_bytes ≤ 4096 ∧
    nonempty_entries img = k + 2 ∧
    k ≤ 62 ∧
    (∀ name content now out, IsName name → IsBytes content → content.length < 2 ^ 63 →
      add img name content now = .ok out → k < 62) ∧
    inode_bits_set img (8 * BS) = k + 1 ∧
    inode_bits_set img (8 * BS) ≤ 63 ∧
    inode_bits_set img (sb_of img).inode_count ≤ 63 ∧
    128 ≤ (sb_of img).inode_count ∧
    (∃ i, i < 128 ∧ inode_bit img i = false) ∧
    (∀ name content now, content.length < 2 ^ 63 →
      add img name content now ≠ .error .noFreeInode) ∧
    (∀ name content now e, content.length < 2 ^ 63 → add img name content now = .error e →
      e = .fileTooLarge ∨ e = .notEnoughBlocks ∨ e = .duplicateName ∨ e = .noFreeDirent) := by
  obtain ⟨hw, hR, hic, hne, hl, hs, hbits⟩ := reachableIn_invariant k img h
  have hle : nonempty_entries img ≤ 64 := by
    unfold nonempty_entries
    exact filter_count_le _ 64
  have hk : k ≤ 62 := by omega
  have hmono : inode_bits_set img (sb_of img).inode_count ≤ inode_bits_set img 32768 := by
    unfold inode_bits_set
    exact filter_count_mono _ _ _ hw.layout.inodes
  have hfree : ∃ i, i < 128 ∧ inode_bit img i = false := by
    by_contra hc
    have hall : ∀ i, i < 128 → inode_bit img i = true := by
      intro i hi
      cases hb : inode_bit img i
      · exact absurd ⟨i, hi, hb⟩ hc
      · rfl
    have h1 := filter_count_all (fun i => inode_bit img i) 128 hall
    have h2 := filter_count_mono (fun i => inode_bit img i) 128 32768 (by omega)
    unfold inode_bits_set at hbits
    omega
  have e8 : 8 * BS = 32768 := rfl
  refine ⟨hR, by rw [hl, hne], by rw [hs, hne], by rw [hs]; omega, hne, hk, ?_,
    by rw [e8]; exact hbits, by rw [e8]; omega, by omega, hic, hfree, ?_, ?_⟩
  · intro name content now out hn hb hoff hok
    obtain ⟨-, -, -, hne', -, -, -⟩ := reachableIn_invariant (k + 1) out
      (ReachableIn.insert k img name content out now h hn hb hoff hok)
    have hle' : nonempty_entries out ≤ 64 := by
      unfold nonempty_entries
      exact filter_count_le _ 64
    omega
  · intro name content now hoff he
    rcases add_error_kinds img name content now hw hic (by omega) hoff _ he with c | c | c | c <;>
      cases c
  · intro name content now e hoff he
    exact add_error_kinds img name content now hw hic (by omega) hoff e he

/-- C23, at the image obtained from that of `--size-kib 180 --inodes 128` by
the insertion of a file of one byte named "a": three entries, three links, 192
bytes, two inodes. -/
theorem root_directory_accounting_witness :
    ∃ img out, img = formatted 180 128 0 (fun _ => 0) ∧ add img [97] [1] 0 = .ok out ∧
      ReachableIn 1 out ∧
      (inode_rec out 1).links = 3 ∧ (inode_rec out 1).size_bytes = 192 ∧
      nonempty_entries out = 3 ∧ inode_bits_set out (8 * BS) = 2 ∧
      (∀ name content now, content.length < 2 ^ 63 →
        add out name content now ≠ .error .noFreeInode) := by
  have hadd := (add_formatted 180 128 0 (fun _ => 0) [97] [1] 0 (by decide)
    (by simp [IsFilePath, IsName]) (by simp)).1
  have hR : ReachableIn 1 _ := ReachableIn.insert 0 _ [97] [1] _ 0
    (ReachableIn.fresh 180 128 0 (fun _ => 0) 4092 _
      (format_of_valid 180 128 0 (fun _ => 0) 4092 (by decide) (by decide)))
    (by simp [IsName]) (by simp [IsBytes]) (by simp) hadd
  obtain ⟨-, a1, a2, -, a3, -, -, a4, -, -, -, -, a5, -⟩ := root_directory_accounting 1 _ hR
  exact ⟨_, _, rfl, hadd, hR, by rw [a1, a3], by rw [a2, a3], a3, a4, a5⟩

end MiniVSFS
